import Mathlib

/-! # ParMmg: sorted linked lists, interface communicators and global numbering

Shallow embedding of `linkedlist_pmmg.c`, of the communicator and numbering
routines of `libparmmg1.c` and of `loadbalancing_pmmg.c`.  C `int` values are
modelled by `Int`; the sums and products that build offsets, global ids and packed
face entries are reduced to the 32-bit range by `wrapInt`; the counters, bounded
by the size of an array, and the face addresses `12*k+3*i` of the tetrahedra of a
mesh are exact.  Arrays are modelled by lists whose length is the allocated size.  An access outside an array is undefined behaviour in
the source: the embedded functions return `none` there.
-/

namespace PMMG

/-! ## Data model of `linkedlist_pmmg.c` -/

/-- Value of the `PMMG_UNSET` macro (declared in the header `parmmg.h` as `-1`). -/
def PMMG_UNSET : Int := -1

/-- Cell of a linked list (`PMMG_lnkdCell`): two values, the index of the cell in
the arena and the index of the next cell. -/
structure PMMG_lnkdCell where
  val1 : Int
  val2 : Int
  id : Int
  nxt : Int
deriving DecidableEq, Inhabited

/-- Linked list (`PMMG_lnkdList`): number of cells, recorded capacity, index of the
first cell and the arena.  The length of `item` is the number of cells really
allocated. -/
structure PMMG_lnkdList where
  nitem : Int
  nitem_max : Int
  frst : Int
  item : List PMMG_lnkdCell
deriving DecidableEq

/-- Read of `item[i]`; `none` when `i` is outside the arena. -/
def cellAt (item : List PMMG_lnkdCell) (i : Int) : Option PMMG_lnkdCell :=
  if i < 0 then none else item[i.toNat]?

/-- Write of `item[i]`; `none` when `i` is outside the arena. -/
def setCell (item : List PMMG_lnkdCell) (i : Int) (c : PMMG_lnkdCell) :
    Option (List PMMG_lnkdCell) :=
  if 0 ≤ i ∧ i.toNat < item.length then some (item.set i.toNat c) else none

/-- Modelled from the spec: `PMMG_MALLOC` and `PMMG_REALLOC` are macros of the memory
header, which is not part of the sources.  A request either fails (`none`) or
delivers cells of arbitrary content (`some fresh`); the resized arena keeps the old
cells that fit in `newsize` and is completed by the fresh ones. -/
def PMMG_REALLOC (fresh : Option (List PMMG_lnkdCell)) (item : List PMMG_lnkdCell)
    (newsize : Int) : Option (List PMMG_lnkdCell) :=
  match fresh with
  | none => none
  | some g =>
    some (item.take newsize.toNat ++
      (g ++ List.replicate newsize.toNat default).take (newsize.toNat - item.length))

/-- The C expression `(int)(1.2*n)` (also the effect of `n *= 1.2` on an `int`):
for `0 ≤ n < 2^31` the double product truncates to the integer part of `6n/5`. -/
def grow12 (n : Int) : Int := Int.tdiv (6 * n) 5

/-- `PMMG_lnkdListNew`: `mem` is the outcome of the allocation of `nitem_max`
cells.  Returns the status and the list. -/
def PMMG_lnkdListNew (mem : Option (List PMMG_lnkdCell)) (list : PMMG_lnkdList)
    (nitem_max : Int) : Int × PMMG_lnkdList :=
  match mem with
  | none => (0, { list with nitem := 0, nitem_max := nitem_max })
  | some cells =>
    (1, { nitem := 0, nitem_max := nitem_max, frst := PMMG_UNSET, item := cells })

/-- `PMMG_reset_lnkdList`. -/
def PMMG_reset_lnkdList (list : PMMG_lnkdList) : PMMG_lnkdList :=
  { list with nitem := 0, frst := PMMG_UNSET }

/-- Search loop of `PMMG_add_cell2lnkdList` (lines 87-94).  State: `k`, the index
`cell` of the current cell and `prevId`.  The first argument bounds the number of
iterations; started at `nitem - k` it is exhausted exactly when `k < nitem` fails.
The cell is read only when `k < nitem` (short-circuit `&&`). -/
def searchLoop (list : PMMG_lnkdList) (val1 val2 : Int) :
    Nat → Int → Int → Int → Option (Int × Int × Int)
  | 0, k, cell, prevId => some (k, cell, prevId)
  | fuel + 1, k, cell, prevId =>
    if k < list.nitem then
      match cellAt list.item cell with
      | none => none
      | some c =>
        if c.val1 < val1 ∨ (c.val1 = val1 ∧ c.val2 < val2) then
          searchLoop list val1 val2 fuel (k + 1) c.nxt c.id
        else some (k, cell, prevId)
    else some (k, cell, prevId)

/-- Lines 104-119 of `PMMG_add_cell2lnkdList`: store the new cell at index `nitem`
and link it, field by field in the order of the source. -/
def linkNewCell (list : PMMG_lnkdList) (val1 val2 k prevId : Int) :
    Option PMMG_lnkdList :=
  match cellAt list.item list.nitem with
  | none => none
  | some old =>
    let newId := list.nitem
    let item1 := list.item.set newId.toNat { old with id := newId, val1 := val1, val2 := val2 }
    if k = 0 then
      let c1 : PMMG_lnkdCell := { val1 := val1, val2 := val2, id := newId, nxt := list.frst }
      some { list with nitem := list.nitem + 1, frst := newId,
                       item := item1.set newId.toNat c1 }
    else
      match cellAt item1 prevId with
      | none => none
      | some p =>
        let id := p.nxt
        let item2 := item1.set prevId.toNat { p with nxt := newId }
        match cellAt item2 newId with
        | none => none
        | some c => some { list with nitem := list.nitem + 1,
                                     item := item2.set newId.toNat { c with nxt := id } }

/-- Lines 98-121 of `PMMG_add_cell2lnkdList`: the cell has not been found; grow
the arena when it is full, then store and link the new cell. -/
def addNewCell (fresh : Option (List PMMG_lnkdCell)) (list : PMMG_lnkdList)
    (val1 val2 k prevId : Int) : Option (Int × PMMG_lnkdList) :=
  if list.nitem ≥ list.nitem_max then
    match PMMG_REALLOC fresh list.item (grow12 list.nitem_max) with
    | none => some (0, list)
    | some item =>
      (linkNewCell { list with item := item, nitem_max := grow12 list.nitem_max }
        val1 val2 k prevId).map (fun l => (1, l))
  else
    (linkNewCell list val1 val2 k prevId).map (fun l => (1, l))

/-- `PMMG_add_cell2lnkdList`: sorted insertion with unicity.  `fresh` is the
outcome of the reallocation, should one be requested.  Returns the status (1
inserted, 2 already present, 0 failure) and the list; `none` stands for an access
outside the arena. -/
def PMMG_add_cell2lnkdList (fresh : Option (List PMMG_lnkdCell)) (list : PMMG_lnkdList)
    (val1 val2 : Int) : Option (Int × PMMG_lnkdList) :=
  if list.frst < 0 then
    match setCell list.item list.nitem { val1 := val1, val2 := val2, id := 0, nxt := -1 } with
    | none => none
    | some item => some (1, { list with frst := 0, nitem := list.nitem + 1, item := item })
  else
    match searchLoop list val1 val2 list.nitem.toNat 0 list.frst 0 with
    | none => none
    | some (k, cell, prevId) =>
      let notFound : Option Bool :=
        if k = list.nitem then some true
        else if k < list.nitem then
          (cellAt list.item cell).map (fun c => decide (c.val1 ≠ val1 ∨ c.val2 ≠ val2))
        else some false
      match notFound with
      | none => none
      | some false => some (2, list)
      | some true => addNewCell fresh list val1 val2 k prevId

/-- Loop of `PMMG_merge_lnkdList` (lines 158-166): `cell` is the index of the
current cell of `list2`, `n` the number of remaining iterations. -/
def mergeLoop (alloc : Nat → Option (List PMMG_lnkdCell)) (item2 : List PMMG_lnkdCell) :
    Nat → Int → Int → PMMG_lnkdList → Option (Int × PMMG_lnkdList)
  | 0, _, minier, list1 => some (minier, list1)
  | n + 1, cell, minier, list1 =>
    match cellAt item2 cell with
    | none => none
    | some c =>
      match PMMG_add_cell2lnkdList (alloc n) list1 c.val1 c.val2 with
      | none => none
      | some (ier, list1) =>
        if ier = 0 then some (ier, list1)
        else mergeLoop alloc item2 n c.nxt (min ier minier) list1

/-- `PMMG_merge_lnkdList`: insertion of every cell of `list2` into `list1`.  The
reallocation requested while `n` cells of `list2` remain has outcome `alloc n`.
`list2` is only read. -/
def PMMG_merge_lnkdList (alloc : Nat → Option (List PMMG_lnkdCell))
    (list1 list2 : PMMG_lnkdList) : Option (Int × PMMG_lnkdList) :=
  if list2.nitem = 0 then some (2, list1)
  else mergeLoop alloc list2.item list2.nitem.toNat list2.frst 2 list1

/-- Write of `array[i]`; `none` outside the array. -/
def setInt (array : List Int) (i : Int) (v : Int) : Option (List Int) :=
  if 0 ≤ i ∧ i.toNat < array.length then some (array.set i.toNat v) else none

/-- Read of `array[i]`; `none` outside the array. -/
def getInt (array : List Int) (i : Int) : Option Int :=
  if i < 0 then none else array[i.toNat]?

/-- Loop of `PMMG_packInArray_lnkdList` (lines 215-220). -/
def packLoop (item : List PMMG_lnkdCell) :
    Nat → Int → Int → List Int → Option (Int × List Int)
  | 0, _, idx, array => some (idx, array)
  | n + 1, cell, idx, array =>
    match cellAt item cell with
    | none => none
    | some c =>
      match setInt array idx c.val1 with
      | none => none
      | some a1 =>
        match setInt a1 (idx + 1) c.val2 with
        | none => none
        | some a2 => packLoop item n c.nxt (idx + 2) a2

/-- `PMMG_packInArray_lnkdList`: returns the final `idx` and the array. -/
def PMMG_packInArray_lnkdList (list : PMMG_lnkdList) (array : List Int) :
    Option (Int × List Int) :=
  match setInt array 0 list.nitem with
  | none => none
  | some a0 => packLoop list.item list.nitem.toNat list.frst 1 a0

/-- Loop of `PMMG_unpackArray_inLnkdList` (lines 253-259): `k` is the loop counter,
`n` the number of remaining iterations; returns `idx`, the arena and the last value
of the pointer `cell` (`none` while it has not been assigned). -/
def unpackLoop (array : List Int) :
    Nat → Int → Int → List PMMG_lnkdCell → Option Int →
      Option (Int × List PMMG_lnkdCell × Option Int)
  | 0, _, idx, item, cell => some (idx, item, cell)
  | n + 1, k, idx, item, _ =>
    match getInt array idx, getInt array (idx + 1) with
    | some v1, some v2 =>
      match setCell item k { val1 := v1, val2 := v2, id := k, nxt := k + 1 } with
      | none => none
      | some item1 => unpackLoop array n (k + 1) (idx + 2) item1 (some k)
    | _, _ => none

/-- `PMMG_unpackArray_inLnkdList`: returns the status (`idx`, or -1 when the
reallocation fails) and the list. -/
def PMMG_unpackArray_inLnkdList (fresh : Option (List PMMG_lnkdCell))
    (list : PMMG_lnkdList) (array : List Int) : Option (Int × PMMG_lnkdList) :=
  match getInt array 0 with
  | none => none
  | some n =>
    let list1 := { list with nitem := n }
    let grown : Option (Option PMMG_lnkdList) :=
      if list1.nitem ≥ list1.nitem_max then
        match PMMG_REALLOC fresh list1.item list1.nitem with
        | none => some none
        | some item => some (some { list1 with item := item,
                                               nitem_max := list1.nitem_max * list1.nitem })
      else some (some list1)
    match grown with
    | none => none
    | some none => some (-1, list1)
    | some (some list2) =>
      match unpackLoop array list2.nitem.toNat 0 1 list2.item none with
      | none => none
      | some (idx, item, cell) =>
        match cell with
        | none => none
        | some last =>
          match cellAt item last with
          | none => none
          | some c =>
            some (idx, { list2 with frst := 0, item := item.set last.toNat { c with nxt := -1 } })

/-! ## Traversal and well-formedness of a linked list -/

/-- Indices of the cells visited from `start` by following `nxt` for `n` cells. -/
def chainIdx (item : List PMMG_lnkdCell) : Nat → Int → Option (List Nat)
  | 0, _ => some []
  | n + 1, start =>
    match cellAt item start with
    | none => none
    | some c => (chainIdx item n c.nxt).map (fun l => start.toNat :: l)

/-- Pairs `(val1,val2)` met from `start` by following `nxt` for `n` cells. -/
def traverse (item : List PMMG_lnkdCell) : Nat → Int → Option (List (Int × Int))
  | 0, _ => some []
  | n + 1, start =>
    match cellAt item start with
    | none => none
    | some c => (traverse item n c.nxt).map (fun l => (c.val1, c.val2) :: l)

/-- Traversal of a list: start at `frst`, follow `nxt` for `nitem` cells. -/
def PMMG_lnkdList.toList (l : PMMG_lnkdList) : Option (List (Int × Int)) :=
  traverse l.item l.nitem.toNat l.frst

/-- Strict lexicographic order on pairs, the order tested by the search loop. -/
def pairLt (a b : Int × Int) : Prop := a.1 < b.1 ∨ (a.1 = b.1 ∧ a.2 < b.2)

instance : DecidableRel pairLt := fun a b => by unfold pairLt; infer_instance

/-- A sequence of `PMMG_add_cell2lnkdList` calls, one per pair of `ops`, in order.
The reallocation requested while `n` calls remain has outcome `alloc n`.  Returns
the statuses of the calls and the final list. -/
def addSeq (alloc : Nat → Option (List PMMG_lnkdCell)) :
    PMMG_lnkdList → List (Int × Int) → Option (List Int × PMMG_lnkdList)
  | l, [] => some ([], l)
  | l, v :: ops =>
    match PMMG_add_cell2lnkdList (alloc ops.length) l v.1 v.2 with
    | none => none
    | some (s, l1) => (addSeq alloc l1 ops).map (fun r => (s :: r.1, r.2))

/-! ## Abstract view of a linked list -/

/-- Pair stored in a cell. -/
def pairOf (c : PMMG_lnkdCell) : Int × Int := (c.val1, c.val2)

/-- Relational form of a chain: `cs` lists the visited cells with their indices. -/
def IsChainC (item : List PMMG_lnkdCell) : Int → List (Nat × PMMG_lnkdCell) → Prop
  | _, [] => True
  | s, ic :: rest => s = (ic.1 : Int) ∧ item[ic.1]? = some ic.2 ∧ IsChainC item ic.2.nxt rest

/-- Index reached after the chain `cs` started at `s`. -/
def endC : Int → List (Nat × PMMG_lnkdCell) → Int
  | s, [] => s
  | _, ic :: rest => endC ic.2.nxt rest

/-- Abstract view of a list: `cs` are the cells of the chain, in list order, with
their indices in the arena. -/
structure ListRepr (l : PMMG_lnkdList) (cs : List (Nat × PMMG_lnkdCell)) : Prop where
  len : l.nitem = (cs.length : Int)
  cap : l.nitem ≤ l.nitem_max
  arena : l.nitem_max = (l.item.length : Int)
  frst_iff : l.frst < 0 ↔ l.nitem = 0
  chain : IsChainC l.item l.frst cs
  nodup : (cs.map Prod.fst).Nodup
  lt : ∀ ic ∈ cs, ic.1 < cs.length
  ids : ∀ ic ∈ cs, ic.2.id = (ic.1 : Int)

/-- Pairs of a chain of cells. -/
def pairsOf (cs : List (Nat × PMMG_lnkdCell)) : List (Int × Int) :=
  cs.map (fun ic => pairOf ic.2)

/-- The list `l2` holds the pairs of `cs` and the pair `v`, inserted at its place. -/
def InsertedAt (cs : List (Nat × PMMG_lnkdCell)) (l2 : PMMG_lnkdList) (v : Int × Int) : Prop :=
  ∃ cs2 pre post, ListRepr l2 cs2 ∧ pairsOf cs = pre ++ post ∧ pairsOf cs2 = pre ++ v :: post ∧
    (∀ a ∈ pre, pairLt a v) ∧ (∀ a ∈ post, pairLt v a)

/-- Well-formed list: the counters are consistent with the arena (which holds
exactly `nitem_max` cells), `frst` is unset exactly when the list is empty, and
following `nxt` from `frst` for `nitem` cells visits pairwise distinct cells of
index below `nitem`, each holding its own index in `id`. -/
def WellFormed (l : PMMG_lnkdList) : Prop :=
  0 ≤ l.nitem ∧ l.nitem ≤ l.nitem_max ∧ l.nitem_max = (l.item.length : Int) ∧
  (l.frst < 0 ↔ l.nitem = 0) ∧
  (chainIdx l.item l.nitem.toNat l.frst).isSome = true ∧
  ∀ idxs ∈ chainIdx l.item l.nitem.toNat l.frst, idxs.Nodup ∧
    ∀ i ∈ idxs, (i : Int) < l.nitem ∧ (l.item[i]?).map PMMG_lnkdCell.id = some (i : Int)

instance : DecidablePred WellFormed := fun l => by unfold WellFormed; infer_instance

/-- Flat layout of a sequence of pairs: `val1_0, val2_0, val1_1, val2_1, ...`. -/
def flatPairs : List (Int × Int) → List Int
  | [] => []
  | p :: L => p.1 :: p.2 :: flatPairs L

/-- Cells written by the unpacking loop for the pairs `L`, starting at index `k`:
the cell of index `j` holds `id = j` and `nxt = j + 1`. -/
def cellsOf : Nat → List (Int × Int) → List PMMG_lnkdCell
  | _, [] => []
  | k, p :: L => ⟨p.1, p.2, (k : Int), (k : Int) + 1⟩ :: cellsOf (k + 1) L

/-! ## Global numbering of the vertices (`PMMG_Compute_verticesGloNum`)

Ranks and array indices are natural numbers, stored values are `Int`.  The counters
`nitem` of the communicators are the lengths of the index lists.  A read outside an
array (undefined in the source) yields 0 and a write outside it is dropped; the
theorems below assume indices in range. -/

/-- External node communicator (`PMMG_Ext_comm`): rank of the neighbour and the
slots of the internal communicator shared with it (`nitem` is the length). -/
structure PMMG_Ext_comm where
  color_out : Nat
  int_comm_index : List Nat
deriving DecidableEq

/-- The part of `PMMG_ParMesh` used by the vertex numbering (one group): rank data,
the point fields `flag` and `tmp` (indexed by the point, entry 0 unused), the block
`intvalues` delivered by `PMMG_MALLOC` (arbitrary content), the two index arrays of
the group and the external communicators. -/
structure NodeParMesh where
  nprocs : Nat
  myrank : Nat
  np : Nat
  flag : List Int
  tmp : List Int
  int_node_comm_nitem : Nat
  intvalues : List Int
  node2int_node_comm_index1 : List Nat
  node2int_node_comm_index2 : List Nat
  ext_node_comm : List PMMG_Ext_comm

/-- All the results of a list of fallible steps, or `none` when one of them fails. -/
def allSome {α : Type} : List (Option α) → Option (List α)
  | [] => some []
  | none :: _ => none
  | some a :: l => (allSome l).map (fun r => a :: r)

/-- Lines 863-870: `iproc2comm[color_out] = icomm` for every external communicator,
on an array initialised to `PMMG_UNSET`. -/
def build_iproc2comm (pm : NodeParMesh) : List Int :=
  pm.ext_node_comm.enum.foldl (fun a ic => a.set ic.2.color_out (ic.1 : Int))
    (List.replicate pm.nprocs PMMG_UNSET)

/-- One iteration of a loop over the ranks: `icomm = iproc2comm[iproc]; if (icomm ==
PMMG_UNSET) continue;` then `body icomm comm`, the rest of the loop body. -/
def procStep (pm : NodeParMesh) (iproc2comm : List Int)
    (body : Nat → PMMG_Ext_comm → List Int → List Int) (iproc : Nat) (iv : List Int) :
    List Int :=
  let icomm := iproc2comm.getD iproc 0
  if icomm = PMMG_UNSET then iv
  else
    match pm.ext_node_comm[icomm.toNat]? with
    | none => iv
    | some c => body icomm.toNat c iv

/-- Loop `for iproc ...` over the ranks `iprocs`, in order. -/
def forProcs (pm : NodeParMesh) (iproc2comm : List Int) (iprocs : List Nat)
    (body : Nat → PMMG_Ext_comm → List Int → List Int) (intvalues : List Int) : List Int :=
  iprocs.foldl (fun iv iproc => procStep pm iproc2comm body iproc iv) intvalues

/-- Lines 873-883: mark the slots with the owner colour, in increasing rank of the
neighbour (a higher rank overwrites a lower one). -/
def markOwners (pm : NodeParMesh) : List Int :=
  forProcs pm (build_iproc2comm pm) (List.range pm.nprocs)
    (fun _ c iv =>
      c.int_comm_index.foldl (fun iv idx => iv.set idx (max (pm.myrank : Int) c.color_out)) iv)
    pm.intvalues

/-- Lines 886-896: owner stored in the point flag. -/
def ownerFlags (pm : NodeParMesh) : List Int :=
  let flag0 := (List.range' 1 pm.np).foldl (fun f ip => f.set ip (pm.myrank : Int)) pm.flag
  (pm.node2int_node_comm_index1.zip pm.node2int_node_comm_index2).foldl
    (fun f pi => f.set pi.1 ((markOwners pm).getD pi.2 0)) flag0

/-- Lines 899-902: count of the owned nodes. -/
def countOwned (pm : NodeParMesh) : Int :=
  (List.range pm.int_node_comm_nitem).foldl
    (fun nowned idx => if (markOwners pm).getD idx 0 ≠ (pm.myrank : Int) then nowned - 1 else nowned)
    (pm.np : Int)

/-- Largest value of the C type `int` (32 bits, two's complement). -/
def INT_MAX : Int := 2147483647

/-- Value stored in a C `int` by an arithmetic operation whose mathematical result
is `x`: `x` reduced modulo `2^32` into `[-2^31, 2^31)`, the outcome of a signed
overflow on the two's-complement targets of the library (the C standard leaves it
undefined).  It is `x` itself when `x` is representable. -/
def wrapInt (x : Int) : Int := (x + 2147483648) % 4294967296 - 2147483648

/-- Lines 905-909: `offsets` holds 0 followed by the gathered counts, then the
prefix sums are accumulated in place, in the type `int`
(`offsets[i] += offsets[i-1]`). -/
def computeOffsets (nprocs : Nat) (gathered : List Int) : List Int :=
  (List.range' 1 nprocs).foldl
    (fun o i => o.set i (wrapInt (o.getD i 0 + o.getD (i - 1) 0)))
    (0 :: gathered)

/-- Lines 911-915: in a debug build (`NDEBUG` not defined) `tmp` is reset to
`PMMG_UNSET` on the points `1..np`. -/
def resetTmp (ndebug : Bool) (pm : NodeParMesh) : List Int :=
  if ndebug then pm.tmp
  else (List.range' 1 pm.np).foldl (fun t ip => t.set ip PMMG_UNSET) pm.tmp

/-- Lines 917-924: numbering of the owned points, `tmp = ++counter +
offsets[myrank]` being computed in the type `int` (`counter` never exceeds `np`).
Returns the final `counter` and `tmp`. -/
def packNumbering (ndebug : Bool) (pm : NodeParMesh) (offsets : List Int) : Int × List Int :=
  (List.range' 1 pm.np).foldl
    (fun ct ip =>
      if (ownerFlags pm).getD ip 0 ≠ (pm.myrank : Int) then ct
      else (ct.1 + 1, ct.2.set ip (wrapInt (ct.1 + 1 + offsets.getD pm.myrank 0))))
    (0, resetTmp ndebug pm)

/-- Lines 931-936: numbering stored in the internal communicator. -/
def storeNumbering (pm : NodeParMesh) (tmp : List Int) : List Int :=
  (pm.node2int_node_comm_index1.zip pm.node2int_node_comm_index2).foldl
    (fun iv pi => iv.set pi.2 (tmp.getD pi.1 0)) (markOwners pm)

/-- Lines 939-962: the messages posted by a rank, in the order of its external
communicators: destination, tag and send buffer, for the communicators of which
the rank is the source `max(myrank,color)`. -/
def postedSends (pm : NodeParMesh) (intvalues : List Int) : List (Nat × Nat × List Int) :=
  pm.ext_node_comm.filterMap (fun c =>
    if pm.myrank = max pm.myrank c.color_out then
      some (min pm.myrank c.color_out,
        pm.nprocs * max pm.myrank c.color_out + min pm.myrank c.color_out,
        c.int_comm_index.map (fun idx => intvalues.getD idx 0))
    else none)

/-- Modelled from the spec: the message-passing substrate (point-to-point exchange
addressed by rank and tag).  `MPI_Recv` of `nitem` integers from `src` with `tag`
gets the first message that `src` posted for `dst` with this tag; `none` when there
is no such message (the receive never returns) or when the message is longer than
the buffer (error).  The buffer was zeroed by `PMMG_CALLOC`. -/
def mpiRecv (sends : List (List (Nat × Nat × List Int))) (src dst tag nitem : Nat) :
    Option (List Int) :=
  match (sends.getD src []).find? (fun m => m.1 = dst ∧ m.2.1 = tag) with
  | none => none
  | some m =>
    if m.2.2.length ≤ nitem then some (m.2.2 ++ List.replicate (nitem - m.2.2.length) 0)
    else none

/-- Lines 963-966 for one external communicator: the receive buffer, filled by
`MPI_Recv` when the rank is the destination `min(myrank,color)` (zeros otherwise). -/
def recvOne (pm : NodeParMesh) (sends : List (List (Nat × Nat × List Int)))
    (c : PMMG_Ext_comm) : Option (List Int) :=
  if pm.myrank = min pm.myrank c.color_out then
    mpiRecv sends (max pm.myrank c.color_out) (min pm.myrank c.color_out)
      (pm.nprocs * max pm.myrank c.color_out + min pm.myrank c.color_out)
      c.int_comm_index.length
  else some (List.replicate c.int_comm_index.length 0)

/-- The receive buffers of a rank, one per external communicator. -/
def recvBuffers (pm : NodeParMesh) (sends : List (List (Nat × Nat × List Int))) :
    Option (List (List Int)) :=
  allSome (pm.ext_node_comm.map (recvOne pm sends))

/-- Lines 970-980: receive buffers stored in the internal communicator, for the
neighbours of higher rank in increasing order. -/
def storeRecv (pm : NodeParMesh) (itorecv : List (List Int)) (intvalues : List Int) : List Int :=
  forProcs pm (build_iproc2comm pm) (List.range' (pm.myrank + 1) (pm.nprocs - (pm.myrank + 1)))
    (fun icomm c iv =>
      (c.int_comm_index.zip (itorecv.getD icomm [])).foldl (fun iv ir => iv.set ir.1 ir.2) iv)
    intvalues

/-- Lines 983-990: numbering retrieved for the points owned by a higher rank. -/
def retrieveNumbering (pm : NodeParMesh) (intvalues tmp : List Int) : List Int :=
  (pm.node2int_node_comm_index1.zip pm.node2int_node_comm_index2).foldl
    (fun t pi =>
      if (ownerFlags pm).getD pi.1 0 > (pm.myrank : Int) then t.set pi.1 (intvalues.getD pi.2 0)
      else t) tmp

/-- Assertions of the source that are checked in a debug build, for one rank:
`tmp` is non zero on the numbered points and `counter == nowned` (lines 923-925),
the stored and sent values are non zero (lines 935, 958), and finally every point
has `0 < tmp <= offsets[nprocs]` (line 995). -/
def assertionsHold (pm : NodeParMesh) (offsets : List Int) (counter : Int)
    (tmpPacked ivStored tmpFinal : List Int) : Bool :=
  decide ((∀ ip ∈ List.range' 1 pm.np,
      (ownerFlags pm).getD ip 0 = (pm.myrank : Int) → tmpPacked.getD ip 0 ≠ 0) ∧
    counter = countOwned pm ∧
    (∀ idx ∈ pm.node2int_node_comm_index2, ivStored.getD idx 0 ≠ 0) ∧
    (∀ m ∈ postedSends pm ivStored, ∀ v ∈ m.2.2, v ≠ 0) ∧
    (∀ ip ∈ List.range' 1 pm.np,
      0 < tmpFinal.getD ip 0 ∧ tmpFinal.getD ip 0 ≤ offsets.getD pm.nprocs 0))

/-- Offsets of a rank: `MPI_Allgather` delivers the counts of all the ranks. -/
def offsetsOf (pms : List NodeParMesh) (pm : NodeParMesh) : List Int :=
  computeOffsets pm.nprocs (pms.map countOwned)

/-- Counter and `tmp` of a rank after the numbering of its owned points. -/
def packedOf (ndebug : Bool) (pms : List NodeParMesh) (pm : NodeParMesh) : Int × List Int :=
  packNumbering ndebug pm (offsetsOf pms pm)

/-- Internal communicator of a rank when the messages are posted. -/
def storedOf (ndebug : Bool) (pms : List NodeParMesh) (pm : NodeParMesh) : List Int :=
  storeNumbering pm (packedOf ndebug pms pm).2

/-- Messages posted by every rank. -/
def sendsOf (ndebug : Bool) (pms : List NodeParMesh) : List (List (Nat × Nat × List Int)) :=
  pms.map (fun pm => postedSends pm (storedOf ndebug pms pm))

/-- Final `tmp` of a rank, given its receive buffers. -/
def finalTmp (ndebug : Bool) (pms : List NodeParMesh) (pm : NodeParMesh)
    (itorecv : List (List Int)) : List Int :=
  retrieveNumbering pm (storeRecv pm itorecv (storedOf ndebug pms pm)) (packedOf ndebug pms pm).2

/-- `PMMG_Compute_verticesGloNum` on one rank, the other ranks running it too:
`none` when a receive has no matching message or overflows its buffer, or when an
assertion fails in a debug build (`ndebug = false`). -/
def rankResult (ndebug : Bool) (pms : List NodeParMesh) (pm : NodeParMesh) :
    Option (List Int × List Int) :=
  match recvBuffers pm (sendsOf ndebug pms) with
  | none => none
  | some itorecv =>
    if ndebug = true ∨
        assertionsHold pm (offsetsOf pms pm) (packedOf ndebug pms pm).1
          (packedOf ndebug pms pm).2 (storedOf ndebug pms pm)
          (finalTmp ndebug pms pm itorecv) = true
    then some (ownerFlags pm, finalTmp ndebug pms pm itorecv)
    else none

/-- `PMMG_Compute_verticesGloNum` run on all the ranks (`pms[r]` is the parmesh of
rank `r`; allocations succeed).  Returns, for every rank, the point fields `flag`
and `tmp`. -/
def PMMG_Compute_verticesGloNum (ndebug : Bool) (pms : List NodeParMesh) :
    Option (List (List Int × List Int)) :=
  allSome (pms.map (rankResult ndebug pms))

/-- Local point attached to a slot of the internal communicator. -/
def pointOfSlot (pm : NodeParMesh) (idx : Nat) : Nat :=
  match (pm.node2int_node_comm_index1.zip pm.node2int_node_comm_index2).find?
      (fun pi => pi.2 = idx) with
  | some pi => pi.1
  | none => 0

/-- Valid node communicators of one rank: the point arrays hold the points `1..np`,
`intvalues` has one entry per slot, the two index arrays have the same length,
every slot is referenced by exactly one entry, the entries designate pairwise
distinct points of `1..np`, there is one external communicator per neighbour rank
(`color_out < nprocs`, pairwise distinct) and its entries are slots. -/
def LocalOK (pm : NodeParMesh) : Prop :=
  pm.np < pm.flag.length ∧ pm.np < pm.tmp.length ∧
  pm.intvalues.length = pm.int_node_comm_nitem ∧
  pm.node2int_node_comm_index1.length = pm.node2int_node_comm_index2.length ∧
  pm.node2int_node_comm_index1.Nodup ∧
  (∀ p ∈ pm.node2int_node_comm_index1, 1 ≤ p ∧ p ≤ pm.np) ∧
  pm.node2int_node_comm_index2.Nodup ∧
  (∀ idx ∈ pm.node2int_node_comm_index2, idx < pm.int_node_comm_nitem) ∧
  (∀ idx < pm.int_node_comm_nitem, idx ∈ pm.node2int_node_comm_index2) ∧
  (pm.ext_node_comm.map PMMG_Ext_comm.color_out).Nodup ∧
  (∀ c ∈ pm.ext_node_comm, c.color_out < pm.nprocs ∧
    ∀ idx ∈ c.int_comm_index, idx < pm.int_node_comm_nitem)

instance : DecidablePred LocalOK := fun pm => by unfold LocalOK; infer_instance

/-- Number of points of `1..p` owned by the rank (flag equal to `myrank`). -/
def ownedUpTo (pm : NodeParMesh) (p : Nat) : Nat :=
  (List.range' 1 p).countP (fun q => decide ((ownerFlags pm).getD q 0 = (pm.myrank : Int)))

/-- Every rank `r` holds the parmesh `pms[r]`, valid in the sense of `LocalOK`;
every slot is listed by at least one external communicator; distinct points of a
rank are distinct mesh vertices (`gid r p` is the mesh vertex designated by the
point `p` of rank `r`). -/
def RanksOK (pms : List NodeParMesh) (gid : Nat → Nat → Nat) : Prop :=
  ∀ rp ∈ pms.enum, rp.2.myrank = rp.1 ∧ rp.2.nprocs = pms.length ∧ LocalOK rp.2 ∧
    (∀ idx < rp.2.int_node_comm_nitem, ∃ c ∈ rp.2.ext_node_comm, idx ∈ c.int_comm_index) ∧
    (∀ p ∈ List.range' 1 rp.2.np, ∀ q ∈ List.range' 1 rp.2.np,
      gid rp.1 p = gid rp.1 q → p = q)

instance (pms : List NodeParMesh) (gid : Nat → Nat → Nat) : Decidable (RanksOK pms gid) := by
  unfold RanksOK; infer_instance

/-- The two sides of an external communicator list the same mesh vertices in the
same order. -/
def SidesAgree (pms : List NodeParMesh) (gid : Nat → Nat → Nat) : Prop :=
  ∀ pm ∈ pms, ∀ c ∈ pm.ext_node_comm, ∃ pm2 ∈ pms, pm2.myrank = c.color_out ∧
    ∃ c2 ∈ pm2.ext_node_comm, c2.color_out = pm.myrank ∧
      c2.int_comm_index.length = c.int_comm_index.length ∧
      ∀ xy ∈ c.int_comm_index.zip c2.int_comm_index,
        gid pm.myrank (pointOfSlot pm xy.1) = gid pm2.myrank (pointOfSlot pm2 xy.2)

instance (pms : List NodeParMesh) (gid : Nat → Nat → Nat) : Decidable (SidesAgree pms gid) := by
  unfold SidesAgree; infer_instance

/-- Two ranks sharing a mesh vertex have an external communicator containing it. -/
def SharersListed (pms : List NodeParMesh) (gid : Nat → Nat → Nat) : Prop :=
  ∀ pm ∈ pms, ∀ pm2 ∈ pms, pm.myrank ≠ pm2.myrank →
    ∀ p ∈ List.range' 1 pm.np, ∀ q ∈ List.range' 1 pm2.np,
      gid pm.myrank p = gid pm2.myrank q →
      ∃ c ∈ pm.ext_node_comm, c.color_out = pm2.myrank ∧
        ∃ pi ∈ pm.node2int_node_comm_index1.zip pm.node2int_node_comm_index2,
          pi.1 = p ∧ pi.2 ∈ c.int_comm_index

instance (pms : List NodeParMesh) (gid : Nat → Nat → Nat) :
    Decidable (SharersListed pms gid) := by
  unfold SharersListed; infer_instance

/-- Consistent node communicators of a multi-rank configuration. -/
def Consistent (pms : List NodeParMesh) (gid : Nat → Nat → Nat) : Prop :=
  RanksOK pms gid ∧ SidesAgree pms gid ∧ SharersListed pms gid

instance (pms : List NodeParMesh) (gid : Nat → Nat → Nat) : Decidable (Consistent pms gid) := by
  unfold Consistent; infer_instance

/-- Receive buffers of a rank in a run where every receive finds its message. -/
def itorecvOf (ndebug : Bool) (pms : List NodeParMesh) (pm : NodeParMesh) : List (List Int) :=
  pm.ext_node_comm.map (fun c => (recvOne pm (sendsOf ndebug pms) c).getD [])

/-- Sum of the owned counts of the ranks below `r`. -/
def offsetOfRank (pms : List NodeParMesh) (r : Nat) : Int :=
  ((pms.map countOwned).take r).sum

/-- Global id (`tmp`) of the point `p` of rank `r` in the result of a run. -/
def tmpOf (res : List (List Int × List Int)) (r p : Nat) : Int :=
  ((res.getD r ([], [])).2).getD p 0

/-- Owner (`flag`) of the point `p` of rank `r` in the result of a run. -/
def flagOf (res : List (List Int × List Int)) (r p : Nat) : Int :=
  ((res.getD r ([], [])).1).getD p 0

/-- A configuration of three ranks used as an example.  Mesh vertices `0..4`;
rank 0 holds the vertices 0, 1, 2 (points 1, 2, 3), rank 1 the vertices 1, 2, 3 and
rank 2 the vertices 2, 4: vertex 1 is shared by the ranks 0 and 1, vertex 2 by the
three ranks.  The communicators of rank 2 are stored in decreasing rank order. -/
def demoRanks : List NodeParMesh :=
  [⟨3, 0, 3, [9, 9, 9, 9], [7, 7, 7, 7], 2, [55, 66], [2, 3], [0, 1], [⟨1, [0, 1]⟩, ⟨2, [1]⟩]⟩,
   ⟨3, 1, 3, [9, 9, 9, 9], [7, 7, 7, 7], 2, [55, 66], [2, 1], [0, 1], [⟨0, [1, 0]⟩, ⟨2, [0]⟩]⟩,
   ⟨3, 2, 2, [9, 9, 9], [7, 7, 7], 1, [55], [1], [0], [⟨1, [0]⟩, ⟨0, [0]⟩]⟩]

/-- Mesh vertex designated by the point `p` of rank `r` in `demoRanks`. -/
def demoGid (r p : Nat) : Nat :=
  (([[9, 0, 1, 2], [9, 1, 2, 3], [9, 2, 4]] : List (List Nat)).getD r []).getD p 9

/-! ## Interface faces across a remeshing pass

`PMMG_store_faceVerticesInIntComm` and `PMMG_update_face2intInterfaceTetra`.  The
fixed-size arrays `v[4]`, `ftag[4]` and `MMG5_idir[4][3]` are functions on `Fin`;
the tables and macros of the Mmg headers (`MMG5_idir`, `MG_PARBDY`, `MG_EOK`) and
the hash table of faces are not part of the sources. -/

/-- Tetrahedron (`MMG5_Tetra`): its four vertices, the index `xt` of its boundary
record (0 when it has none) and the work fields `flag` and `mark`. -/
structure MMG5_Tetra where
  v : Fin 4 → Int
  xt : Nat
  flag : Int
  mark : Int

/-- Point (`MMG5_Point`): the work fields `tmp` and `flag`, and its `tag`. -/
structure MMG5_Point where
  tmp : Int
  flag : Int
  tag : Nat

/-- Boundary triangle (`MMG5_Tria`): the address `cc = 4*ie + ifac` of the face of
tetrahedron that carries it, and the fields `flag` and `base`. -/
structure MMG5_Tria where
  cc : Int
  flag : Int
  base : Int
deriving DecidableEq

/-- Boundary record of a tetrahedron (`MMG5_xTetra`): the tags of its four faces. -/
structure MMG5_xTetra where
  ftag : Fin 4 → Nat

/-- The part of `MMG5_Mesh` used here: `ne`, the arrays `tetra` (entry 0 unused)
and `xtetra`, `info.renum`, the array `point`, and `nt` with the array `tria`
(entry 0 unused). -/
structure FaceMesh where
  ne : Nat
  tetra : List MMG5_Tetra
  xtetra : List MMG5_xTetra
  renum : Int
  point : List MMG5_Point
  nt : Nat
  tria : List MMG5_Tria

/-- What the functions below take from the Mmg headers, as parameters: the table
`MMG5_idir[4][3]` of the local indices of the vertices of each face, the tag mask
`MG_PARBDY` and the macro `MG_EOK` (is the tetrahedron in use). -/
structure MmgEnv where
  MMG5_idir : Fin 4 → Fin 3 → Fin 4
  MG_PARBDY : Nat
  MG_EOK : MMG5_Tetra → Bool

/-- The test `tag & MG_PARBDY`, the mask `MG_PARBDY` being a parameter. -/
def hasTag (mask tag : Nat) : Prop := Nat.land tag mask ≠ 0

instance (mask : Nat) : DecidablePred (hasTag mask) := fun tag => by
  unfold hasTag; infer_instance

/-- Decoding of a face address `12*iel + 3*ifac + iploc` by `/12`, `(%12)/3` and
`(%12)%3`.  A negative entry gives indices outside the arrays (`none`). -/
def decodeFace (v : Int) : Option (Nat × Fin 4 × Fin 3) :=
  if v < 0 then none
  else some (v.toNat / 12, ⟨v.toNat % 12 / 3, by omega⟩, ⟨v.toNat % 12 % 3, by omega⟩)

/-- Loop of `PMMG_store_faceVerticesInIntComm` (lines 319-339) over the entries of
`face2int_face_comm_index1`; the assertions of lines 328-329 abort a debug build
(`ndebug = false`). -/
def storeFaces (ndebug : Bool) (env : MmgEnv)
    (mesh : FaceMesh) : List Int → Option (List Int)
  | [] => some []
  | e :: rest =>
    match decodeFace e with
    | none => none
    | some (iel, ifac, iploc) =>
      match mesh.tetra[iel]? with
      | none => none
      | some pt =>
        let asserted : Option Bool :=
          if ndebug then some true
          else if env.MG_EOK pt = false then some false
          else if pt.xt = 0 then some false
          else (mesh.xtetra[pt.xt]?).map (fun pxt => decide (hasTag env.MG_PARBDY (pxt.ftag ifac)))
        match asserted with
        | some true =>
          (storeFaces ndebug env mesh rest).map (fun l =>
            pt.v (env.MMG5_idir ifac iploc) :: pt.v (env.MMG5_idir ifac (iploc + 1)) ::
              pt.v (env.MMG5_idir ifac (iploc + 2)) :: l)
        | _ => none

/-- `PMMG_store_faceVerticesInIntComm`: status and the buffer `facesData` of
`3*nitem_int_face_comm` integers (`mem_ok`: outcome of its allocation). -/
def PMMG_store_faceVerticesInIntComm (ndebug : Bool) (env : MmgEnv)
    (mesh : FaceMesh) (face2int_face_comm_index1 : List Int)
    (mem_ok : Bool) : Option (Int × List Int) :=
  if mem_ok then
    (storeFaces ndebug env mesh face2int_face_comm_index1).map (fun l => (1, l))
  else some (0, [])

/-- Modelled from the spec: the hash table of faces of Mmg, keyed by the unordered
triple of the vertices of a face and valued with the face address.  `room` is the
number of faces it can take before an insertion fails for lack of memory. -/
structure MMG5_Hash where
  room : Nat
  item : List (Multiset Int × Nat)

/-- Key of a face: the unordered triple of its vertices. -/
def faceKey (ia ib ic : Int) : Multiset Int := ↑[ia, ib, ic]

/-- Modelled from the spec: lookup in the hash table, 0 when the face is absent
(`MMG5_hashGetFace`). -/
def MMG5_hashGetFace (hash : MMG5_Hash) (ia ib ic : Int) : Nat :=
  match hash.item.find? (fun e => e.1 = faceKey ia ib ic) with
  | some e => e.2
  | none => 0

/-- Modelled from the spec: insertion in the hash table (`MMG5_hashFace`).  Returns
the stored value when the face is already there, -1 after an insertion and 0 on
failure. -/
def MMG5_hashFace (hash : MMG5_Hash) (ia ib ic : Int) (k : Nat) : Int × MMG5_Hash :=
  match hash.item.find? (fun e => e.1 = faceKey ia ib ic) with
  | some e => ((e.2 : Int), hash)
  | none =>
    if hash.item.length < hash.room then
      (-1, { hash with item := hash.item ++ [(faceKey ia ib ic, k)] })
    else (0, hash)

/-- Inner loop of step 1 (lines 390-400) over the faces `i` of the tetrahedron `k`;
status 0 when an insertion fails. -/
def hashTetraFaces (env : MmgEnv) (pt : MMG5_Tetra)
    (pxt : MMG5_xTetra) (k : Nat) : List (Fin 4) → MMG5_Hash → Int × MMG5_Hash
  | [], hash => (1, hash)
  | i :: rest, hash =>
    if ¬ hasTag env.MG_PARBDY (pxt.ftag i) then hashTetraFaces env pt pxt k rest hash
    else
      let r := MMG5_hashFace hash (pt.v (env.MMG5_idir i 0)) (pt.v (env.MMG5_idir i 1))
        (pt.v (env.MMG5_idir i 2)) (12 * k + 3 * i.val)
      if r.1 = 0 then (0, r.2)
      else hashTetraFaces env pt pxt k rest r.2

/-- Step 1 of `PMMG_update_face2intInterfaceTetra` (lines 385-401): hash the
`MG_PARBDY` faces of the tetrahedra `ks`. -/
def hashParFaces (env : MmgEnv) (mesh : FaceMesh) :
    List Nat → MMG5_Hash → Option (Int × MMG5_Hash)
  | [], hash => some (1, hash)
  | k :: ks, hash =>
    match mesh.tetra[k]? with
    | none => none
    | some pt =>
      if env.MG_EOK pt = false ∨ pt.xt = 0 then hashParFaces env mesh ks hash
      else
        match mesh.xtetra[pt.xt]? with
        | none => none
        | some pxt =>
          let r := hashTetraFaces env pt pxt k (List.finRange 4) hash
          if r.1 = 0 then some (0, r.2)
          else hashParFaces env mesh ks r.2

/-- Lines 414-420: the node permutation is applied when the code is built with
`USE_SCOTCH`, `permNodGlob` is not `NULL` and `info.renum` is set. -/
def applyPerm (use_scotch : Bool) (permNodGlob : Option (List Int)) (renum : Int)
    (ia : Int) : Option Int :=
  match permNodGlob with
  | some perm => if use_scotch = true ∧ renum ≠ 0 then getInt perm ia else some ia
  | none => some ia

/-- Lines 432-434: first `iploc` in `0..2` such that the vertex of local index
`MMG5_idir[ifac][iploc]` is `ia` (3 when there is none). -/
def findIploc (env : MmgEnv) (pt : MMG5_Tetra) (ifac : Fin 4) (ia : Int) : Nat :=
  if pt.v (env.MMG5_idir ifac 0) = ia then 0
  else if pt.v (env.MMG5_idir ifac 1) = ia then 1
  else if pt.v (env.MMG5_idir ifac 2) = ia then 2
  else 3

/-- Step 2 of `PMMG_update_face2intInterfaceTetra` (lines 407-438): new value of
the entries `k, k+1, ...` of `face2int_face_comm_index1`, `n` being the number of
remaining entries.  The assertions of lines 423, 428 and 434 abort a debug build. -/
def restoreFaces (ndebug use_scotch : Bool) (env : MmgEnv) (mesh : FaceMesh)
    (hash : MMG5_Hash) (facesData : List Int) (permNodGlob : Option (List Int)) :
    Nat → Nat → Option (List Int)
  | 0, _ => some []
  | n + 1, k =>
    match getInt facesData (3 * k), getInt facesData (3 * k + 1), getInt facesData (3 * k + 2) with
    | some a, some b, some c =>
      match applyPerm use_scotch permNodGlob mesh.renum a,
          applyPerm use_scotch permNodGlob mesh.renum b,
          applyPerm use_scotch permNodGlob mesh.renum c with
      | some ia, some ib, some ic =>
        let hashVal := MMG5_hashGetFace hash ia ib ic
        if ndebug = false ∧ hashVal = 0 then none
        else
          match mesh.tetra[hashVal / 12]? with
          | none => none
          | some pt =>
            let ifac : Fin 4 := ⟨hashVal % 12 / 3, by omega⟩
            let iploc := findIploc env pt ifac ia
            if ndebug = false ∧ (env.MG_EOK pt = false ∨ ¬ iploc < 3) then none
            else
              (restoreFaces ndebug use_scotch env mesh hash facesData permNodGlob n (k + 1)).map
                (fun l => ((hashVal + iploc : Nat) : Int) :: l)
      | _, _, _ => none
    | _, _, _ => none

/-- `PMMG_update_face2intInterfaceTetra`: status and the new content of
`face2int_face_comm_index1` (`nitem_int_face_comm` is the length of the array).
`room` is the outcome of `MMG5_hashNew`: `none` on failure, else the number of
faces that the table can take.  `facesData` is freed on every path. -/
def PMMG_update_face2intInterfaceTetra (ndebug use_scotch : Bool)
    (env : MmgEnv) (mesh : FaceMesh)
    (face2int_face_comm_index1 : List Int) (facesData : List Int)
    (permNodGlob : Option (List Int)) (room : Option Nat) : Option (Int × List Int) :=
  match room with
  | none => some (0, face2int_face_comm_index1)
  | some n =>
    match hashParFaces env mesh (List.range' 1 mesh.ne) ⟨n, []⟩ with
    | none => none
    | some (ier, hash) =>
      if ier = 0 then some (0, face2int_face_comm_index1)
      else
        (restoreFaces ndebug use_scotch env mesh hash facesData permNodGlob
          face2int_face_comm_index1.length 0).map (fun l => (ier, l))

/-! ### Statement of the capture/restore round trip -/

/-- Faces of the tetrahedron `k` that step 1 hashes: those tagged `MG_PARBDY`, when
the tetrahedron is in use and has a boundary record. -/
def tetraParFaces (env : MmgEnv) (mesh : FaceMesh) (k : Nat) : List (Fin 4) :=
  match mesh.tetra[k]? with
  | none => []
  | some pt =>
    if env.MG_EOK pt = false ∨ pt.xt = 0 then []
    else
      match mesh.xtetra[pt.xt]? with
      | none => []
      | some pxt => (List.finRange 4).filter (fun i => hasTag env.MG_PARBDY (pxt.ftag i))

/-- The `MG_PARBDY` faces `(k, i)` of the tetrahedra `ks`. -/
def parFaces (env : MmgEnv) (mesh : FaceMesh) (ks : List Nat) : List (Nat × Fin 4) :=
  ks.flatMap (fun k => (tetraParFaces env mesh k).map (fun i => (k, i)))

/-- The three vertices of the face `i` of the tetrahedron `k`. -/
def faceVertices (env : MmgEnv) (mesh : FaceMesh) (k : Nat) (i : Fin 4) : List Int :=
  match mesh.tetra[k]? with
  | none => []
  | some pt => [pt.v (env.MMG5_idir i 0), pt.v (env.MMG5_idir i 1), pt.v (env.MMG5_idir i 2)]

/-- The vertices of the `MG_PARBDY` faces of the mesh. -/
def parVertices (env : MmgEnv) (mesh : FaceMesh) : List Int :=
  (parFaces env mesh (List.range' 1 mesh.ne)).flatMap (fun f => faceVertices env mesh f.1 f.2)

/-- The arrays of the mesh are large enough: `tetra` has the entries `0..ne` and the
boundary record of a tetrahedron in use lies in `xtetra`. -/
def MeshOK (env : MmgEnv) (mesh : FaceMesh) : Prop :=
  mesh.ne < mesh.tetra.length ∧
    ∀ pt ∈ mesh.tetra, env.MG_EOK pt = true → pt.xt < mesh.xtetra.length

instance (env : MmgEnv) : DecidablePred (MeshOK env) := fun mesh => by
  unfold MeshOK; infer_instance

/-- The entry `e` of the face communicator designates a face tagged `MG_PARBDY` of
a tetrahedron of the mesh in use, and the vertices of this face are pairwise
distinct. -/
def Designates (env : MmgEnv) (mesh : FaceMesh) (e : Int) : Prop :=
  match decodeFace e with
  | none => False
  | some (iel, ifac, _) =>
    1 ≤ iel ∧ iel ≤ mesh.ne ∧ ifac ∈ tetraParFaces env mesh iel ∧
      (faceVertices env mesh iel ifac).Nodup

instance (env : MmgEnv) (mesh : FaceMesh) : DecidablePred (Designates env mesh) := fun e => by
  unfold Designates
  split <;> infer_instance

/-- No two `MG_PARBDY` faces of the mesh have the same set of vertices. -/
def DistinctFaces (env : MmgEnv) (mesh : FaceMesh) : Prop :=
  ∀ f ∈ parFaces env mesh (List.range' 1 mesh.ne),
    ∀ f' ∈ parFaces env mesh (List.range' 1 mesh.ne),
      (faceVertices env mesh f.1 f.2).toFinset = (faceVertices env mesh f'.1 f'.2).toFinset →
        f = f'

instance (env : MmgEnv) : DecidablePred (DistinctFaces env) := fun mesh => by
  unfold DistinctFaces; infer_instance

/-- Renumbering of the vertices of a tetrahedron by `g`. -/
def renumberTetra (g : Int → Int) (pt : MMG5_Tetra) : MMG5_Tetra :=
  { pt with v := fun i => g (pt.v i) }

/-- Modelled from the spec: a pure renumbering of the vertex ids by `g`, the only
change that the remeshing pass makes to the mesh here: same tetrahedra, same
boundary records, each vertex id `a` replaced by `g a`. -/
def renumber (g : Int → Int) (mesh : FaceMesh) : FaceMesh :=
  { mesh with tetra := mesh.tetra.map (renumberTetra g) }

/-- The renumbering `g` keeps the tetrahedra in use in use, and the others unused. -/
def KeepsValidity (env : MmgEnv) (g : Int → Int) (mesh : FaceMesh) : Prop :=
  ∀ pt ∈ mesh.tetra, env.MG_EOK (renumberTetra g pt) = env.MG_EOK pt

instance (env : MmgEnv) (g : Int → Int) : DecidablePred (KeepsValidity env g) := fun mesh => by
  unfold KeepsValidity; infer_instance

/-- The renumbering `g` is one to one on the vertices of the `MG_PARBDY` faces. -/
def InjOnParVertices (env : MmgEnv) (g : Int → Int) (mesh : FaceMesh) : Prop :=
  ∀ a ∈ parVertices env mesh, ∀ b ∈ parVertices env mesh, g a = g b → a = b

instance (env : MmgEnv) (g : Int → Int) : DecidablePred (InjOnParVertices env g) := fun mesh => by
  unfold InjOnParVertices; infer_instance

/-- The permutation that `PMMG_update_face2intInterfaceTetra` applies to the
captured vertices is the renumbering `g`: either `permNodGlob` is passed with
renumbering enabled and holds `g`, or nothing is applied and `g` leaves the
vertices as they are. -/
def AppliesPerm (use_scotch : Bool) (permNodGlob : Option (List Int)) (g : Int → Int)
    (env : MmgEnv) (mesh : FaceMesh) : Prop :=
  ∀ a ∈ parVertices env mesh, applyPerm use_scotch permNodGlob mesh.renum a = some (g a)

instance (use_scotch : Bool) (permNodGlob : Option (List Int)) (g : Int → Int) (env : MmgEnv) :
    DecidablePred (AppliesPerm use_scotch permNodGlob g env) := fun mesh => by
  unfold AppliesPerm; infer_instance

/-- The Mmg headers for the examples: the table `MMG5_idir`, the tag `MG_PARBDY`
taken as `1 << 13` and `MG_EOK` as the test that the first vertex is set. -/
def demoEnv : MmgEnv :=
  ⟨![![1, 2, 3], ![0, 3, 2], ![0, 1, 3], ![0, 2, 1]], 8192, fun pt => decide (0 < pt.v 0)⟩

/-- Two tetrahedra sharing the face `2 3 4`; the face 0 of the first and the faces
1 and 2 of the second are tagged `MG_PARBDY`. -/
def demoFaceMesh : FaceMesh :=
  ⟨2, [⟨![0, 0, 0, 0], 0, 0, 0⟩, ⟨![1, 2, 3, 4], 1, 0, 0⟩, ⟨![2, 3, 4, 5], 2, 0, 0⟩],
    [⟨![0, 0, 0, 0]⟩, ⟨![8192, 0, 0, 0]⟩, ⟨![0, 8192, 8192, 0]⟩], 1, [], 0, []⟩

/-- A node permutation of the vertices `1..5` (entry 0 unused). -/
def demoPerm : List Int := [0, 3, 1, 2, 5, 4]

/-- The renumbering held by `demoPerm`. -/
def demoRenum (a : Int) : Int := (getInt demoPerm a).getD a

/-- Entry of the hash table for the face `i` of the tetrahedron `pt` of index `k`:
its key and the address `12*k + 3*i`. -/
def hashEntry (env : MmgEnv) (pt : MMG5_Tetra) (k : Nat) (i : Fin 4) : Multiset Int × Nat :=
  (faceKey (pt.v (env.MMG5_idir i 0)) (pt.v (env.MMG5_idir i 1)) (pt.v (env.MMG5_idir i 2)),
    12 * k + 3 * i.val)

/-- Entries that step 1 puts in the hash table for the tetrahedra `ks`. -/
def hashEntries (env : MmgEnv) (mesh : FaceMesh) (ks : List Nat) : List (Multiset Int × Nat) :=
  (parFaces env mesh ks).map (fun f =>
    ((↑(faceVertices env mesh f.1 f.2) : Multiset Int), 12 * f.1 + 3 * f.2.val))

/-- Vertices that `PMMG_store_faceVerticesInIntComm` stores for the entry `e`. -/
def captured (env : MmgEnv) (mesh : FaceMesh) (e : Int) : List Int :=
  match decodeFace e with
  | none => []
  | some (iel, ifac, iploc) =>
    match mesh.tetra[iel]? with
    | none => []
    | some pt =>
      [pt.v (env.MMG5_idir ifac iploc), pt.v (env.MMG5_idir ifac (iploc + 1)),
        pt.v (env.MMG5_idir ifac (iploc + 2))]

/-! ## Communicator updates after packing (`libparmmg1.c`, lines 38-144) -/

/-- Group (`PMMG_Grp`): its mesh and the arrays that tie the points and the faces
of the mesh to the slots of the internal communicators. -/
structure PMMG_Grp where
  mesh : FaceMesh
  nitem_int_node_comm : Int
  node2int_node_comm_index1 : List Int
  node2int_node_comm_index2 : List Int
  nitem_int_face_comm : Int
  face2int_face_comm_index1 : List Int
  face2int_face_comm_index2 : List Int

/-- Read of `mesh->point[iadr]`; `none` outside the array. -/
def pointAt (point : List MMG5_Point) (iadr : Int) : Option MMG5_Point :=
  if iadr < 0 then none else point[iadr.toNat]?

/-- Read of `mesh->tetra[iel]`; `none` outside the array. -/
def tetraAt (tetra : List MMG5_Tetra) (iel : Int) : Option MMG5_Tetra :=
  if iel < 0 then none else tetra[iel.toNat]?

/-- The loop `for (k=0; k<nitem; ++k) index1[k] = ...` of the update functions,
`n` being the number of remaining slots and `step` the body of the loop applied
to the value read in `index1[k]` (`none` when it reads outside an array or when
an assertion fails). -/
def updateSlots (step : Int → Option Int) : Nat → Nat → List Int → Option (List Int)
  | 0, _, index1 => some index1
  | n + 1, k, index1 =>
    match index1[k]? with
    | none => none
    | some v =>
      match step v with
      | none => none
      | some w => updateSlots step n (k + 1) (index1.set k w)

/-- Body of the loop of `PMMG_update_node2intPackedVertices` (lines 56-61); the
macro `MG_VOK` of the Mmg headers is a parameter. -/
def packedVertex (ndebug : Bool) (MG_VOK : MMG5_Point → Bool) (point : List MMG5_Point)
    (iadr : Int) : Option Int :=
  match pointAt point iadr with
  | none => none
  | some ppt => if ndebug = false ∧ MG_VOK ppt = false then none else some ppt.tmp

/-- `PMMG_update_node2intPackedVertices` (lines 48-64): status and new group. -/
def PMMG_update_node2intPackedVertices (ndebug : Bool) (MG_VOK : MMG5_Point → Bool)
    (grp : PMMG_Grp) : Option (Int × PMMG_Grp) :=
  (updateSlots (packedVertex ndebug MG_VOK grp.mesh.point) grp.nitem_int_node_comm.toNat 0
    grp.node2int_node_comm_index1).map
    (fun l => (1, { grp with node2int_node_comm_index1 := l }))

/-- Body of the loop of `PMMG_update_face2intPackedTetra` (lines 133-140), with
the truncated division and remainder of C; the new entry `12*flag+3*ifac+iploc`
is computed in the type `int`. -/
def packedFace (ndebug : Bool) (env : MmgEnv) (tetra : List MMG5_Tetra) (v : Int) :
    Option Int :=
  let iel := Int.tdiv v 12
  let ifac := Int.tdiv (Int.tmod v 12) 3
  let iploc := Int.tmod (Int.tmod v 12) 3
  match tetraAt tetra iel with
  | none => none
  | some pt =>
    if ndebug = false ∧ (env.MG_EOK pt = false ∨ pt.flag = 0) then none
    else some (wrapInt (12 * pt.flag + 3 * ifac + iploc))

/-- `PMMG_update_face2intPackedTetra` (lines 125-144): status and new group. -/
def PMMG_update_face2intPackedTetra (ndebug : Bool) (env : MmgEnv) (grp : PMMG_Grp) :
    Option (Int × PMMG_Grp) :=
  (updateSlots (packedFace ndebug env grp.mesh.tetra) grp.nitem_int_face_comm.toNat 0
    grp.face2int_face_comm_index1).map
    (fun l => (1, { grp with face2int_face_comm_index1 := l }))

/-- `PMMG_update_face2intInterfaceTetra` seen on the group: the function works on
the first `nitem_int_face_comm` entries of `face2int_face_comm_index1` and leaves
the rest of the array as it is; it writes outside the array when the array is
shorter (`none`). -/
def updateInterfaceTetraOfGrp (ndebug use_scotch : Bool) (env : MmgEnv) (grp : PMMG_Grp)
    (facesData : List Int) (permNodGlob : Option (List Int)) (room : Option Nat) :
    Option (Int × PMMG_Grp) :=
  match PMMG_update_face2intInterfaceTetra ndebug use_scotch env grp.mesh
      (grp.face2int_face_comm_index1.take grp.nitem_int_face_comm.toNat) facesData
      permNodGlob room with
  | none => none
  | some (ier, l) =>
    if ier = 0 then some (0, grp)
    else if grp.nitem_int_face_comm.toNat ≤ grp.face2int_face_comm_index1.length then
      some (ier, { grp with face2int_face_comm_index1 :=
        l ++ grp.face2int_face_comm_index1.drop grp.nitem_int_face_comm.toNat })
    else none

/-- A group for the examples: the mesh `demoFaceMesh` with three points, two node
slots and three face slots. -/
def demoGrp : PMMG_Grp :=
  ⟨{ demoFaceMesh with
      point := [⟨0, 0, 0⟩, ⟨2, 0, 0⟩, ⟨0, 0, 0⟩, ⟨1, 0, 0⟩],
      tetra := [⟨![0, 0, 0, 0], 0, 0, 0⟩, ⟨![1, 2, 3, 4], 1, 1, 0⟩, ⟨![0, 0, 0, 0], 0, 0, 0⟩,
        ⟨![2, 3, 4, 5], 2, 2, 0⟩],
      ne := 3 },
    2, [3, 1], [0, 1], 3, [13, 41, 42], [0, 1, 2]⟩

/-- The slot structure of the group `grp` is kept in `g2`: same `nitem_int_node_comm`
and `nitem_int_face_comm`, same `index2` arrays, same length of the two `index1`
arrays. -/
def SameSlots (grp g2 : PMMG_Grp) : Prop :=
  g2.nitem_int_node_comm = grp.nitem_int_node_comm ∧
  g2.nitem_int_face_comm = grp.nitem_int_face_comm ∧
  g2.node2int_node_comm_index2 = grp.node2int_node_comm_index2 ∧
  g2.face2int_face_comm_index2 = grp.face2int_face_comm_index2 ∧
  g2.node2int_node_comm_index1.length = grp.node2int_node_comm_index1.length ∧
  g2.face2int_face_comm_index1.length = grp.face2int_face_comm_index1.length

/-- Invariant of the communicator arrays of a group:
`len(index1) == len(index2) == nitem_int_<kind>_comm` for the nodes and the faces. -/
def SlotsInv (grp : PMMG_Grp) : Prop :=
  (grp.node2int_node_comm_index1.length : Int) = grp.nitem_int_node_comm ∧
  (grp.node2int_node_comm_index2.length : Int) = grp.nitem_int_node_comm ∧
  (grp.face2int_face_comm_index1.length : Int) = grp.nitem_int_face_comm ∧
  (grp.face2int_face_comm_index2.length : Int) = grp.nitem_int_face_comm

instance : DecidablePred SlotsInv := fun grp => by unfold SlotsInv; infer_instance

/-- The array `new` is the array `old` rewritten in place on its first `nitem`
slots by `step`: slot `k` of `new` is computed from slot `k` of `old`, and the
slots from `nitem` on are untouched. -/
def RewrittenInPlace (step : Int → Option Int) (nitem : Nat) (old new : List Int) : Prop :=
  (∀ k, k < nitem → ∃ v w, old[k]? = some v ∧ step v = some w ∧ new[k]? = some w) ∧
  (∀ k, nitem ≤ k → new[k]? = old[k]?)

/-- Body of the second loop of `PMMG_update_face2intInterfaceTetra` for the slot
`k` (libparmmg1.c, lines 403-438): the new entry of the slot, computed from the
triple stored for this slot at the positions `3k, 3k+1, 3k+2` of `facesData`
(`none` when it reads outside an array or when an assertion fails). -/
def restoreSlot (ndebug use_scotch : Bool) (env : MmgEnv) (mesh : FaceMesh)
    (hash : MMG5_Hash) (facesData : List Int) (permNodGlob : Option (List Int)) (k : Nat) :
    Option Int :=
  match getInt facesData (3 * k), getInt facesData (3 * k + 1), getInt facesData (3 * k + 2) with
  | some a, some b, some c =>
    match applyPerm use_scotch permNodGlob mesh.renum a,
        applyPerm use_scotch permNodGlob mesh.renum b,
        applyPerm use_scotch permNodGlob mesh.renum c with
    | some ia, some ib, some ic =>
      let hashVal := MMG5_hashGetFace hash ia ib ic
      if ndebug = false ∧ hashVal = 0 then none
      else
        match mesh.tetra[hashVal / 12]? with
        | none => none
        | some pt =>
          let ifac : Fin 4 := ⟨hashVal % 12 / 3, by omega⟩
          let iploc := findIploc env pt ifac ia
          if ndebug = false ∧ (env.MG_EOK pt = false ∨ ¬ iploc < 3) then none
          else some ((hashVal + iploc : Nat) : Int)
    | _, _, _ => none
  | _, _, _ => none

/-- The array `new` is the array `old` restored in place on its first `nitem`
slots: slot `k` of `new` holds the entry computed by `restoreSlot` from the triple
`k` of `facesData`, the one captured from the slot `k`, and the slots from `nitem`
on are untouched. -/
def RestoredInPlace (ndebug use_scotch : Bool) (env : MmgEnv) (mesh : FaceMesh)
    (hash : MMG5_Hash) (facesData : List Int) (permNodGlob : Option (List Int))
    (nitem : Nat) (old new : List Int) : Prop :=
  (∀ k, k < nitem →
    ∃ w, restoreSlot ndebug use_scotch env mesh hash facesData permNodGlob k = some w ∧
      new[k]? = some w) ∧
  (∀ k, nitem ≤ k → new[k]? = old[k]?)

/-! ## Load balancing (`loadbalancing_pmmg.c`) -/

/-- Lines 41-43 of `PMMG_count_parBdy`: `mark` after the loop over the four faces,
incremented once for each face tagged `MG_PARBDY`. -/
def countTagged (env : MmgEnv) (pxt : MMG5_xTetra) (mark : Int) : Int :=
  (List.finRange 4).foldl
    (fun m j => if hasTag env.MG_PARBDY (pxt.ftag j) then m + 1 else m) mark

/-- Lines 35-44 of `PMMG_count_parBdy`: the body of the loop for the
tetrahedron `k`. -/
def markTetra (env : MmgEnv) (mesh : FaceMesh) (k : Nat) : Option FaceMesh :=
  match mesh.tetra[k]? with
  | none => none
  | some pt =>
    let pt1 : MMG5_Tetra := { pt with mark := 1 }
    if env.MG_EOK pt1 = false ∨ pt1.xt = 0 then
      some { mesh with tetra := mesh.tetra.set k pt1 }
    else
      match mesh.xtetra[pt1.xt]? with
      | none => none
      | some pxt =>
        some { mesh with
          tetra := mesh.tetra.set k { pt1 with mark := countTagged env pxt pt1.mark } }

/-- Lines 34-45 of `PMMG_count_parBdy`: the loop over the tetrahedra `ks` of a
mesh. -/
def countMeshParBdy (env : MmgEnv) : List Nat → FaceMesh → Option FaceMesh
  | [], mesh => some mesh
  | k :: ks, mesh =>
    match markTetra env mesh k with
    | none => none
    | some m => countMeshParBdy env ks m

/-- `PMMG_count_parBdy` (lines 22-47): status and the meshes of the groups of
`listgrp` (`none` for a group without mesh, which is skipped); `ngrp` is the length
of the list. -/
def PMMG_count_parBdy (env : MmgEnv) (listgrp : List (Option FaceMesh)) :
    Option (Int × List (Option FaceMesh)) :=
  (allSome (listgrp.map (fun g =>
    match g with
    | none => some none
    | some mesh => (countMeshParBdy env (List.range' 1 mesh.ne) mesh).map some))).map
    (fun l => (1, l))

/-- The macro `MG_EOK` does not read the field `mark` of the tetrahedron. -/
def IgnoresMark (env : MmgEnv) : Prop :=
  ∀ (pt : MMG5_Tetra) (m : Int), env.MG_EOK { pt with mark := m } = env.MG_EOK pt

/-- Target size passed to `PMMG_split_n2mGrps` (macros of `parmmg.h`). -/
inductive PMMG_target
  | METIS_TARGET_MESH_SIZE
  | REMESHER_TARGET_MESH_SIZE
deriving DecidableEq

/-- Phases of `PMMG_loadBalancing`, in the order of the source: the weight count
`PMMG_count_parBdy`, the fine split `PMMG_split_n2mGrps(parmesh,
METIS_TARGET_MESH_SIZE,1)`, the distribution `PMMG_distribute_grps` and the coarse
split `PMMG_split_n2mGrps(parmesh,REMESHER_TARGET_MESH_SIZE,0)`. -/
inductive BalancePhase
  | count_parBdy
  | split_n2mGrps (target : PMMG_target) (fitMesh : Int)
  | distribute_grps
deriving DecidableEq

/-- Rank of a phase in the order of the source. -/
def BalancePhase.rank : BalancePhase → Nat
  | .count_parBdy => 0
  | .split_n2mGrps .METIS_TARGET_MESH_SIZE _ => 1
  | .distribute_grps => 2
  | .split_n2mGrps .REMESHER_TARGET_MESH_SIZE _ => 3

/-- One rank seen by `PMMG_loadBalancing`: its groups, and the status that the
collaborators `PMMG_split_n2mGrps` and `PMMG_distribute_grps` (not part of the
sources) return on this rank when they are called. -/
structure BalanceRank where
  listgrp : List (Option FaceMesh)
  split_n2mGrps : PMMG_target → Int → Int
  distribute_grps : Int

/-- Modelled from the spec: `MPI_Allreduce` with `MPI_MIN` on one integer per rank:
every rank receives the minimum of the values of all the ranks. -/
def MPI_Allreduce_MIN (values : List Int) : Int :=
  values.foldl min (values.headD 0)

/-- State of a rank inside `PMMG_loadBalancing`: the phases it has executed, with
the status of each, and the current value of `ier`. -/
structure BalanceState where
  trace : List (BalancePhase × Int)
  ier : Int
deriving DecidableEq

/-- A rank executes a phase that returns `status`: `ier = <phase>(parmesh)`. -/
def BalanceState.call (s : BalanceState) (p : BalancePhase) (status : Int) : BalanceState :=
  ⟨s.trace ++ [(p, status)], status⟩

/-- The reduction `MPI_Allreduce(&ier,&ier_glob,1,MPI_INT,MPI_MIN,comm)` followed by
`if ( ier_glob <= 0 ) return ier_glob;`: the value returned by every rank when the
function stops there, `none` when it goes on. -/
def reduceAndTest (states : List BalanceState) : Option Int :=
  let ier_glob := MPI_Allreduce_MIN (states.map BalanceState.ier)
  if ier_glob ≤ 0 then some ier_glob else none

/-- End of a run of `PMMG_loadBalancing`: every rank returns `ier_glob`. -/
def finish (states : List BalanceState) (ier_glob : Int) :
    List (List (BalancePhase × Int) × Int) :=
  states.map (fun s => (s.trace, ier_glob))

/-- `PMMG_loadBalancing` (lines 58-109) run by all the ranks: for each rank, the
phases it has executed with their status, and the value it returns.  The
reductions of lines 66-71 and 91-96 exist in a build with assertions only
(`ndebug = false`).  The run is `none` when `PMMG_count_parBdy` reads outside an
array on some rank. -/
def PMMG_loadBalancing (ndebug : Bool) (env : MmgEnv) (ranks : List BalanceRank) :
    Option (List (List (BalancePhase × Int) × Int)) :=
  match allSome (ranks.map (fun rk => (PMMG_count_parBdy env rk.listgrp).map Prod.fst)) with
  | none => none
  | some counted =>
    let s1 : List BalanceState := counted.map (fun ier =>
      BalanceState.call ⟨[], 0⟩ .count_parBdy ier)
    match (if ndebug then none else reduceAndTest s1) with
    | some ier_glob => some (finish s1 ier_glob)
    | none =>
      let s2 := (s1.zip ranks).map (fun sr =>
        if sr.1.ier ≠ 0 then
          sr.1.call (.split_n2mGrps .METIS_TARGET_MESH_SIZE 1)
            (sr.2.split_n2mGrps .METIS_TARGET_MESH_SIZE 1)
        else sr.1)
      match reduceAndTest s2 with
      | some ier_glob => some (finish s2 ier_glob)
      | none =>
        let s3 := (s2.zip ranks).map (fun sr =>
          sr.1.call .distribute_grps sr.2.distribute_grps)
        match (if ndebug then none else reduceAndTest s3) with
        | some ier_glob => some (finish s3 ier_glob)
        | none =>
          let s4 := (s3.zip ranks).map (fun sr =>
            if sr.1.ier ≠ 0 then
              sr.1.call (.split_n2mGrps .REMESHER_TARGET_MESH_SIZE 0)
                (sr.2.split_n2mGrps .REMESHER_TARGET_MESH_SIZE 0)
            else sr.1)
          some (finish s4 (MPI_Allreduce_MIN (s4.map BalanceState.ier)))

/-- What a rank of `PMMG_parmmglib1` does after the reduction that follows the load
balancing (lines 1369-1377): go on with the next iteration, jump to
`failed_handling`, or return `PMMG_STRONGFAILURE`. -/
inductive BalanceExit
  | next_iteration
  | failed_handling
  | return_STRONGFAILURE
deriving DecidableEq

/-- Lines 1369-1377 of `PMMG_parmmglib1`. -/
def afterBalance (ieresult : Int) : BalanceExit :=
  if ieresult = 0 then .failed_handling
  else if ieresult < 0 then .return_STRONGFAILURE
  else .next_iteration

/-- Lines 1340-1377 of `PMMG_parmmglib1` run by all the ranks: the load balancing
(skipped at the last iteration when `info.nobalancing` is set, `ier` keeping then
the status `ier_qual` of `PMMG_tetraQual`), the reduction of `ier` with `MPI_MIN`
and the branch taken by each rank. -/
def balanceStep (ndebug : Bool) (env : MmgEnv) (last_iter nobalancing : Bool)
    (ier_qual : List Int) (ranks : List BalanceRank) : Option (List BalanceExit) :=
  if last_iter = true ∧ nobalancing = true then
    some (ier_qual.map (fun _ => afterBalance (MPI_Allreduce_MIN ier_qual)))
  else
    (PMMG_loadBalancing ndebug env ranks).map (fun res =>
      res.map (fun _ => afterBalance (MPI_Allreduce_MIN (res.map Prod.snd))))

/-- The four phases of `PMMG_loadBalancing` in the order of the source. -/
def balancePhases : List BalancePhase :=
  [.count_parBdy, .split_n2mGrps .METIS_TARGET_MESH_SIZE 1, .distribute_grps,
    .split_n2mGrps .REMESHER_TARGET_MESH_SIZE 0]

/-- On every rank the phases are executed in the order of the source, none being
skipped before the one at which the rank stops. -/
def InOrder (res : List (List (BalancePhase × Int) × Int)) : Prop :=
  ∀ r ∈ res, r.1.map Prod.fst <+: balancePhases

instance : DecidablePred InOrder := fun res => by unfold InOrder; infer_instance

/-- The phase `p` stops the run `res`: if its status is `<= 0` on some rank, then no
later phase is executed on any rank and every rank returns a status `<= 0`. -/
def StopsAt (p : BalancePhase) (res : List (List (BalancePhase × Int) × Int)) : Prop :=
  ∀ r ∈ res, ∀ ps ∈ r.1, ps.1 = p → ps.2 ≤ 0 →
    ∀ r2 ∈ res, r2.2 ≤ 0 ∧ ∀ qs ∈ r2.1, qs.1.rank ≤ p.rank

instance (p : BalancePhase) : DecidablePred (StopsAt p) := fun res => by
  unfold StopsAt; infer_instance

/-- As soon as the status of a phase is `<= 0` on some rank, no later phase is
executed on any rank and every rank returns a status `<= 0`. -/
def StopsAtFailure (res : List (List (BalancePhase × Int) × Int)) : Prop :=
  ∀ p ∈ balancePhases, StopsAt p res

instance : DecidablePred StopsAtFailure := fun res => by unfold StopsAtFailure; infer_instance

/-- A distribution whose status is 0 on some rank: this rank executes no later
phase and every rank returns a status `<= 0`. -/
def StopsLocallyAtDistribute (res : List (List (BalancePhase × Int) × Int)) : Prop :=
  ∀ r ∈ res, (BalancePhase.distribute_grps, (0 : Int)) ∈ r.1 →
    (∀ qs ∈ r.1, qs.1.rank ≤ BalancePhase.distribute_grps.rank) ∧ ∀ r2 ∈ res, r2.2 ≤ 0

instance : DecidablePred StopsLocallyAtDistribute := fun res => by
  unfold StopsLocallyAtDistribute; infer_instance

/-- State of a rank after the weight count, which returns 1. -/
def afterCount : BalanceState :=
  BalanceState.call ⟨[], 0⟩ .count_parBdy 1

/-- State of a rank after the fine split. -/
def afterFine (rk : BalanceRank) : BalanceState :=
  afterCount.call (.split_n2mGrps .METIS_TARGET_MESH_SIZE 1)
    (rk.split_n2mGrps .METIS_TARGET_MESH_SIZE 1)

/-- State of a rank after the distribution. -/
def afterDistribute (rk : BalanceRank) : BalanceState :=
  (afterFine rk).call .distribute_grps rk.distribute_grps

/-- State of a rank after the coarse split, called when `ier` is not 0. -/
def afterCoarse (rk : BalanceRank) : BalanceState :=
  if (afterDistribute rk).ier ≠ 0 then
    (afterDistribute rk).call (.split_n2mGrps .REMESHER_TARGET_MESH_SIZE 0)
      (rk.split_n2mGrps .REMESHER_TARGET_MESH_SIZE 0)
  else afterDistribute rk

/-- A rank for the examples: one group with the mesh `demoFaceMesh`, and the
statuses `fine`, `distr` and `coarse` of the fine split, the distribution and the
coarse split. -/
def demoBalanceRank (fine distr coarse : Int) : BalanceRank :=
  ⟨[some demoFaceMesh], fun t _ =>
    match t with
    | .METIS_TARGET_MESH_SIZE => fine
    | .REMESHER_TARGET_MESH_SIZE => coarse, distr⟩

/-! ## Global numbering of the boundary triangles

`PMMG_Compute_trianglesGloNum` (`libparmmg1.c`, lines 546-831), on one rank.  What
MPI delivers to the rank (the counts gathered by `MPI_Allgather`, the buffers
received by `MPI_Sendrecv`) is an input, what the rank sends is an output.  The
arrays `xtet2tria` and `intvalues` come from `PMMG_MALLOC` and are not
initialised: their first content is the parameter `junk`.  The allocations are
taken to succeed. -/

/-- One rank seen by `PMMG_Compute_trianglesGloNum`: the mesh of its group, the
size of the internal face communicator, the arrays of the group and the external
face communicators. -/
structure FaceParMesh where
  nprocs : Nat
  myrank : Nat
  mesh : FaceMesh
  int_face_comm_nitem : Nat
  nitem_int_face_comm : Nat
  face2int_face_comm_index1 : List Int
  face2int_face_comm_index2 : List Int
  ext_face_comm : List PMMG_Ext_comm

/-- A loop whose body can fail: the state after the last element, `none` as soon
as the body fails. -/
def loopM {σ α : Type} (body : σ → α → Option σ) : List α → σ → Option σ
  | [], s => some s
  | a :: l, s =>
    match body s a with
    | none => none
    | some s2 => loopM body l s2

/-- Read of `mesh->tria[k]`; `none` outside the array. -/
def triaAt (tria : List MMG5_Tria) (k : Int) : Option MMG5_Tria :=
  if k < 0 then none else tria[k.toNat]?

/-- Lines 571-577: the tetrahedra in use that have a boundary record receive in
`flag` their rank `1..nxt` among them.  Returns the tetrahedra and `nxt`. -/
def compactXtetra (env : MmgEnv) (mesh : FaceMesh) : Option (List MMG5_Tetra × Int) :=
  loopM (fun (s : List MMG5_Tetra × Int) ie =>
    match s.1[ie]? with
    | none => none
    | some pt =>
      if env.MG_EOK pt = false then some s
      else if pt.xt = 0 then some s
      else some (s.1.set ie { pt with flag := s.2 + 1 }, s.2 + 1))
    (List.range' 1 mesh.ne) (mesh.tetra, 0)

/-- The values of `pos = 12*(xt-1)+ifac` in the loops
`for xt in 1..nxt, for ifac in 0..3` (lines 583-585, 693-695, 804-806). -/
def facePositions (nxt : Int) : List Int :=
  (List.range' 1 nxt.toNat).flatMap (fun xt =>
    (List.range 4).map (fun ifac => 12 * ((xt : Int) - 1) + (ifac : Int)))

/-- Lines 583-589: `xtet2tria[pos+1] = 0` and `xtet2tria[pos+2] = myrank`. -/
def initXtet2tria (myrank : Nat) (nxt : Int) (xtet2tria : List Int) : Option (List Int) :=
  loopM (fun x pos =>
    match setInt x (pos + 1) 0 with
    | none => none
    | some x1 => setInt x1 (pos + 2) myrank)
    (facePositions nxt) xtet2tria

/-- Lines 605-611: the colour of each external communicator is stored in the slots
of the communicator. -/
def storeColors (pm : FaceParMesh) (intvalues : List Int) : Option (List Int) :=
  loopM (fun iv (c : PMMG_Ext_comm) =>
    loopM (fun iv2 (idx : Nat) => setInt iv2 idx c.color_out) c.int_comm_index iv)
    pm.ext_face_comm intvalues

/-- Lines 616-628 (and 707-719, 776-788): for the interface face `i`, the position
`pos = 12*(xt-1)+ifac` with `ie = k/4`, `ifac = k%4` and `xt` the `flag` of the
tetrahedron `ie`, and the slot `idx`.  The assertions `assert(ie)` and
`assert(pt->xt)` stop a build with assertions. -/
def slotPos (ndebug : Bool) (pm : FaceParMesh) (tetra : List MMG5_Tetra) (i : Nat) :
    Option (Int × Int) :=
  match pm.face2int_face_comm_index1[i]?, pm.face2int_face_comm_index2[i]? with
  | some k, some idx =>
    let ie := Int.tdiv k 4
    let ifac := Int.tmod k 4
    if ndebug = false ∧ ie = 0 then none
    else
      match tetraAt tetra ie with
      | none => none
      | some pt =>
        if ndebug = false ∧ pt.xt = 0 then none
        else some (12 * (pt.flag - 1) + ifac, idx)
  | _, _ => none

/-- Lines 615-633: the owner of an interface face becomes the colour stored in its
slot when this colour is above `myrank`. -/
def markNotOwned (ndebug : Bool) (pm : FaceParMesh) (tetra : List MMG5_Tetra)
    (intvalues xtet2tria : List Int) : Option (List Int) :=
  loopM (fun x i =>
    match slotPos ndebug pm tetra i with
    | none => none
    | some (pos, idx) =>
      match getInt intvalues idx with
      | none => none
      | some color =>
        if color > pm.myrank then
          match getInt x (pos + 2) with
          | none => none
          | some owner =>
            if ndebug = false ∧ owner ≠ pm.myrank then none
            else setInt x (pos + 2) color
        else some x)
    (List.range pm.nitem_int_face_comm) xtet2tria

/-- Lines 640-666: local numbering of the owned triangles that are not purely
parallel.  The position is `8*(xt-1)+ifac` here.  `MG_PARBDYBDY` is a tag of the
Mmg headers, taken as a parameter.  Returns `xtet2tria` and `nglob`. -/
def numberOwned (ndebug : Bool) (env : MmgEnv) (MG_PARBDYBDY : Nat) (pm : FaceParMesh)
    (tetra : List MMG5_Tetra) (xtet2tria : List Int) : Option (List Int × Int) :=
  loopM (fun (s : List Int × Int) (k : Nat) =>
    match pm.mesh.tria[k]? with
    | none => none
    | some ptr =>
      let ie := Int.tdiv ptr.cc 4
      let ifac := Int.tmod ptr.cc 4
      if ndebug = false ∧ ie = 0 then none
      else
        match tetraAt tetra ie with
        | none => none
        | some pt =>
          if ndebug = false ∧ pt.xt = 0 then none
          else
            match pm.mesh.xtetra[pt.xt]? with
            | none => none
            | some pxt =>
              let pos := 8 * (pt.flag - 1) + ifac
              match setInt s.1 pos k with
              | none => none
              | some x1 =>
                if h : 0 ≤ ifac ∧ ifac < 4 then
                  let tag := pxt.ftag ⟨ifac.toNat, by omega⟩
                  if hasTag env.MG_PARBDY tag ∧ ¬ hasTag MG_PARBDYBDY tag then some (x1, s.2)
                  else
                    match getInt x1 (pos + 2) with
                    | none => none
                    | some owner =>
                      if owner ≠ pm.myrank then some (x1, s.2)
                      else (setInt x1 (pos + 1) (s.2 + 1)).map (fun x2 => (x2, s.2 + 1))
                else none)
    (List.range' 1 pm.mesh.nt) (xtet2tria, 0)

/-- Lines 688-691: `nglobvec` holds 0 followed by the gathered counts; the entries
`1..myrank` are turned into prefix sums, accumulated in the type `int`
(`nglobvec[k+1] += nglobvec[k]`), and `offset = nglobvec[myrank]`. -/
def triaOffset (myrank : Nat) (gathered : List Int) : Int :=
  ((List.range myrank).foldl
    (fun o k => o.set (k + 1) (wrapInt (o.getD (k + 1) 0 + o.getD k 0)))
    (0 :: gathered)).getD myrank 0

/-- Lines 693-698: `xtet2tria[pos+1] += offset` for every `xt` and `ifac`, in the
type `int`. -/
def applyOffset (nxt offset : Int) (xtet2tria : List Int) : Option (List Int) :=
  loopM (fun x pos =>
    match getInt x (pos + 1) with
    | none => none
    | some v => setInt x (pos + 1) (wrapInt (v + offset)))
    (facePositions nxt) xtet2tria

/-- Lines 706-722: the offset is added again on the interface faces and the
numbering is stored in the internal communicator.  Returns `xtet2tria` and
`intvalues`. -/
def storeTriaNumbering (ndebug : Bool) (pm : FaceParMesh) (tetra : List MMG5_Tetra)
    (offset : Int) (xtet2tria intvalues : List Int) : Option (List Int × List Int) :=
  loopM (fun (s : List Int × List Int) i =>
    match slotPos ndebug pm tetra i with
    | none => none
    | some (pos, idx) =>
      match getInt s.1 (pos + 1) with
      | none => none
      | some v =>
        match setInt s.1 (pos + 1) (wrapInt (v + offset)),
            setInt s.2 idx (wrapInt (v + offset)) with
        | some x1, some iv1 => some (x1, iv1)
        | _, _ => none)
    (List.range pm.nitem_int_face_comm) (xtet2tria, intvalues)

/-- Lines 725-772: for each external communicator, `itosend` is filled from
`intvalues`, exchanged with `MPI_Sendrecv` against the buffer `itorecv` delivered
by the neighbour, and `itorecv` is stored in `intvalues`.  Returns `intvalues` and
the buffers sent. -/
def exchangeTria (pm : FaceParMesh) (itorecv : List (List Int)) (intvalues : List Int) :
    Option (List Int × List (List Int)) :=
  if itorecv.length ≠ pm.ext_face_comm.length then none
  else
    loopM (fun (s : List Int × List (List Int)) (cr : PMMG_Ext_comm × List Int) =>
      match allSome (cr.1.int_comm_index.map (fun idx => getInt s.1 idx)) with
      | none => none
      | some itosend =>
        if cr.2.length ≠ cr.1.int_comm_index.length then none
        else
          (loopM (fun iv (ir : Nat × Int) => setInt iv ir.1 ir.2)
            (cr.1.int_comm_index.zip cr.2) s.1).map (fun iv => (iv, s.2 ++ [itosend])))
      (pm.ext_face_comm.zip itorecv) (intvalues, [])

/-- Lines 775-793: the faces owned by another rank take the number received. -/
def retrieveTriaNumbering (ndebug : Bool) (pm : FaceParMesh) (tetra : List MMG5_Tetra)
    (intvalues xtet2tria : List Int) : Option (List Int) :=
  loopM (fun x i =>
    match slotPos ndebug pm tetra i with
    | none => none
    | some (pos, idx) =>
      match getInt x (pos + 2) with
      | none => none
      | some owner =>
        if owner ≠ pm.myrank then
          match getInt intvalues idx with
          | none => none
          | some v => setInt x (pos + 1) v
        else some x)
    (List.range pm.nitem_int_face_comm) xtet2tria

/-- Lines 798-802: `flag = 0` and `base = PMMG_UNSET` on the triangles `1..nt`. -/
def resetTria (mesh : FaceMesh) : Option (List MMG5_Tria) :=
  loopM (fun (t : List MMG5_Tria) (k : Nat) =>
    match t[k]? with
    | none => none
    | some ptr => some (t.set k { ptr with flag := 0, base := PMMG_UNSET }))
    (List.range' 1 mesh.nt) mesh.tria

/-- Lines 804-818: the numbering and the owner are copied to the triangles, the
entries whose global index is 0 being skipped. -/
def storeInTria (ndebug : Bool) (nxt : Int) (xtet2tria : List Int) (tria : List MMG5_Tria) :
    Option (List MMG5_Tria) :=
  loopM (fun (t : List MMG5_Tria) pos =>
    match getInt xtet2tria pos, getInt xtet2tria (pos + 1) with
    | some k, some iglob =>
      if iglob = 0 then some t
      else if ndebug = false ∧ k = 0 then none
      else
        match triaAt t k, getInt xtet2tria (pos + 2) with
        | some ptr, some owner => some (t.set k.toNat { ptr with flag := iglob, base := owner })
        | _, _ => none
    | _, _ => none)
    (facePositions nxt) tria

/-- Result of `PMMG_Compute_trianglesGloNum` on a rank: the status, the triangles,
the count `nglob` given to `MPI_Allgather` and the buffers given to
`MPI_Sendrecv`. -/
structure TriaNumbering where
  status : Int
  tria : List MMG5_Tria
  nglob : Int
  itosend : List (List Int)
deriving DecidableEq

/-- `PMMG_Compute_trianglesGloNum` on the rank `pm`, `gathered` being the counts
delivered by `MPI_Allgather` and `itorecv` the buffers delivered by `MPI_Sendrecv`
on the successive external communicators. -/
def PMMG_Compute_trianglesGloNum (ndebug : Bool) (env : MmgEnv) (MG_PARBDYBDY : Nat)
    (junk : Nat → Int) (pm : FaceParMesh) (gathered : List Int) (itorecv : List (List Int)) :
    Option TriaNumbering :=
  match compactXtetra env pm.mesh with
  | none => none
  | some (tetra, nxt) =>
    match initXtet2tria pm.myrank nxt ((List.range (12 * nxt.toNat)).map junk) with
    | none => none
    | some x0 =>
      match storeColors pm ((List.range pm.int_face_comm_nitem).map junk) with
      | none => none
      | some iv0 =>
        match markNotOwned ndebug pm tetra iv0 x0 with
        | none => none
        | some x1 =>
          match numberOwned ndebug env MG_PARBDYBDY pm tetra x1 with
          | none => none
          | some (x2, nglob) =>
            let offset := triaOffset pm.myrank gathered
            match applyOffset nxt offset x2 with
            | none => none
            | some x3 =>
              match storeTriaNumbering ndebug pm tetra offset x3 iv0 with
              | none => none
              | some (x4, iv1) =>
                match exchangeTria pm itorecv iv1 with
                | none => none
                | some (iv2, itosend) =>
                  match retrieveTriaNumbering ndebug pm tetra iv2 x4 with
                  | none => none
                  | some x5 =>
                    match resetTria pm.mesh with
                    | none => none
                    | some tria0 =>
                      (storeInTria ndebug nxt x5 tria0).map (fun tria =>
                        ⟨1, tria, nglob, itosend⟩)

/-- Tetrahedra of the two-rank example: the tetrahedra 1 and 3 have a boundary
record, the tetrahedron 2 has none. -/
def demoTriaTetra : List MMG5_Tetra :=
  [⟨![0, 0, 0, 0], 0, 0, 0⟩, ⟨![1, 2, 3, 4], 1, 0, 0⟩, ⟨![2, 3, 4, 5], 0, 0, 0⟩,
    ⟨![3, 4, 5, 6], 2, 0, 0⟩]

/-- Rank 0 of the two-rank example.  The face 0 of the tetrahedron 1 is the
interface with the rank 1, tagged `MG_PARBDY` only (triangle 1, `cc = 4`); its
face 3 is a true boundary face (triangle 2, `cc = 7`).  The interface face has the
address `12 = 12*1 + 3*0 + 0` in the slot 0. -/
def demoTriaRank0 : FaceParMesh :=
  ⟨2, 0,
    ⟨3, demoTriaTetra, [⟨![0, 0, 0, 0]⟩, ⟨![8192, 0, 0, 16]⟩, ⟨![0, 0, 0, 0]⟩], 0, [], 2,
      [⟨0, 0, 0⟩, ⟨4, 0, 0⟩, ⟨7, 0, 0⟩]⟩,
    1, 1, [12], [0], [⟨1, [0]⟩]⟩

/-- Rank 1 of the two-rank example: the face 0 of its tetrahedron 1 is the
interface with the rank 0, tagged `MG_PARBDY` only (triangle 1, `cc = 4`); the
array `tria` has one spare entry after the triangle 1. -/
def demoTriaRank1 : FaceParMesh :=
  ⟨2, 1,
    ⟨3, demoTriaTetra, [⟨![0, 0, 0, 0]⟩, ⟨![8192, 0, 0, 0]⟩, ⟨![0, 0, 0, 0]⟩], 0, [], 1,
      [⟨0, 0, 0⟩, ⟨4, 0, 0⟩, ⟨0, 0, 0⟩]⟩,
    1, 1, [12], [0], [⟨0, [0]⟩]⟩

/-- A rank of rank 1 holding one tetrahedron whose face 0 is tagged `MG_PARBDY`
only and carries the triangle 1, with empty face communicators. -/
def demoTriaAlone : FaceParMesh :=
  ⟨2, 1,
    ⟨1, [⟨![0, 0, 0, 0], 0, 0, 0⟩, ⟨![1, 2, 3, 4], 1, 0, 0⟩],
      [⟨![0, 0, 0, 0]⟩, ⟨![8192, 0, 0, 0]⟩], 0, [], 1, [⟨0, 0, 0⟩, ⟨4, 0, 0⟩]⟩,
    0, 0, [], [], []⟩

/-- A single rank holding one tetrahedron whose faces 0 and 1 are true boundary
faces (tag 16) and carry the triangles 1 (`cc = 4`) and 2 (`cc = 5`); no
interface. -/
def demoTriaSingle : FaceParMesh :=
  ⟨1, 0,
    ⟨1, [⟨![0, 0, 0, 0], 0, 0, 0⟩, ⟨![1, 2, 3, 4], 1, 0, 0⟩],
      [⟨![0, 0, 0, 0]⟩, ⟨![16, 16, 0, 0]⟩], 0, [], 2, [⟨0, 0, 0⟩, ⟨4, 0, 0⟩, ⟨5, 0, 0⟩]⟩,
    0, 0, [], [], []⟩

/-! ## Comparison of two linked lists (`PMMG_compare_lnkdList`) -/

/-- Loop of `PMMG_compare_lnkdList` (lines 293-302): `cell1` and `cell2` are the
indices of the current cells, `n` the number of remaining iterations. -/
def compareLoop (item1 item2 : List PMMG_lnkdCell) : Nat → Int → Int → Option Int
  | 0, _, _ => some 0
  | n + 1, cell1, cell2 =>
    match cellAt item1 cell1, cellAt item2 cell2 with
    | some c1, some c2 =>
      if c1.val1 > c2.val1 then some 1
      else if c1.val1 < c2.val1 then some (-1)
      else if c1.val2 > c2.val2 then some 1
      else if c1.val2 < c2.val2 then some (-1)
      else compareLoop item1 item2 n c1.nxt c2.nxt
    | _, _ => none

/-- `PMMG_compare_lnkdList`, applied to the two lists the arguments point to;
`none` stands for a read outside an arena. -/
def PMMG_compare_lnkdList (list1 list2 : PMMG_lnkdList) : Option Int :=
  if list1.nitem > list2.nitem then some 1
  else if list1.nitem < list2.nitem then some (-1)
  else compareLoop list1.item list2.item list1.nitem.toNat list1.frst list2.frst

/-- Sign of the lexicographic comparison of two sequences of integers: -1 when the
first one is smaller, 1 when it is greater, 0 when they are equal (a proper prefix
is smaller). -/
def lexSign : List Int → List Int → Int
  | [], [] => 0
  | [], _ :: _ => -1
  | _ :: _, [] => 1
  | x :: xs, y :: ys => if x < y then -1 else if y < x then 1 else lexSign xs ys

/-- A rank with the tetrahedra of `demoTriaRank0` after the numbering of the
boundary records: the tetrahedron 1 has `flag = 1`, the tetrahedron 3 `flag = 2`. -/
def demoTriaFlags : List MMG5_Tetra :=
  [⟨![0, 0, 0, 0], 0, 0, 0⟩, ⟨![1, 2, 3, 4], 1, 1, 0⟩, ⟨![2, 3, 4, 5], 0, 0, 0⟩,
    ⟨![3, 4, 5, 6], 2, 2, 0⟩]

/-! ## The main loop of the library (`PMMG_parmmglib1`, `libparmmg1.c`, lines 1024-1499)

One rank is followed through the function.  The collaborators are called for their
effect on the meshes, which is not modelled: their statuses are inputs
(`Lib1Rank`), also for `PMMG_loadBalancing`, embedded above on its own.  The values
delivered by the successive `MPI_Allreduce(&ier,&ieresult,1,MPI_INT,MPI_MIN,comm)`
are the input `reds`, common to all the ranks; a rank that enters a reduction for
which no value is delivered stays blocked in it.  `IsRun` tells when the delivered
values are those of a run of several ranks.  Prints, timers, memory transfers and
the calls whose failure only raises a warning (the renumbering inside the loop) are
left out, as is the exchange of `inputMet` of the builds with assertions, which has
no effect on the statuses; the assertions on the groups at the entry are taken as
preconditions. -/

/-- Values returned by `PMMG_parmmglib1` (macros of the library header). -/
inductive PMMG_ReturnCode
  | PMMG_SUCCESS
  | PMMG_LOWFAILURE
  | PMMG_STRONGFAILURE
deriving DecidableEq

/-- Collaborators whose status `PMMG_parmmglib1` reads or drops.  `MMG5_mmg3d1` is
the remesher (`MMG5_mmg3d1_pattern` or `MMG5_mmg3d1_delone`), `field_realloc` the
reallocation of the solution fields; `PMMG_loadBalancing` carries the value of
`info.repartitioning` at the call. -/
inductive Lib1Call
  | PMMG_splitPart_grps
  | PMMG_update_oldGrps
  | PMMG_store_faceVerticesInIntComm
  | MMG5_scaleMesh
  | MMG3D_hashTetra
  | MMG5_mmg3d1
  | field_realloc
  | MMG5_paktet
  | PMMG_update_face2intInterfaceTetra
  | PMMG_update_node2intRnbg
  | MMG5_unscaleMesh
  | PMMG_copyMetricsAndFields_point
  | PMMG_interpMetricsAndFields
  | PMMG_tetraQual
  | PMMG_loadBalancing (repartitioning : Int)
  | PMMG_scotchCall
  | PMMG_qualhisto
  | PMMG_packParMesh
  | PMMG_merge_grps
  | PMMG_Compute_verticesGloNum
deriving DecidableEq

/-- What a rank does, in order: calls of collaborators with the status returned,
and reductions with the value `ier` contributed and the value `ieresult`
delivered. -/
inductive Lib1Event
  | call (c : Lib1Call) (status : Int)
  | reduce (ier ieresult : Int)
deriving DecidableEq

/-- How a rank ends: it returns a value, or it stays in a reduction, to which it
has contributed `ier`, that the other ranks never enter. -/
inductive Lib1Exit
  | returned (val : PMMG_ReturnCode)
  | blocked (ier : Int)
deriving DecidableEq

/-- Statement through which a rank leaves the function: the test that follows the
reduction of the splitting, the label `strong_failed`, the label `failed_handling`
reached after the loop over the groups or after the load balancing, the return
after a failed interpolation, the return after a negative load-balancing status,
the label `strong_failed` reached from a failed `PMMG_scotchCall` past the
iterations, the returns after a failed final packing or merging, the last return;
`waiting` for a rank blocked in a reduction. -/
inductive Lib1Via
  | split
  | strong_failed
  | failed_handling_remesh
  | interp
  | failed_handling_balance
  | balance_negative
  | scotchCall
  | pack
  | merge
  | last
  | waiting
deriving DecidableEq

/-- Outcome of the function on a rank. -/
structure Lib1Result where
  trace : List Lib1Event
  via : Lib1Via
  exit : Lib1Exit
deriving DecidableEq

/-- Statuses met by a rank in one group of one iteration (lines 1135-1295):
`empty` is the test `(!mesh->np) && (!mesh->ne)`, `adja` tells that `mesh->adja`
is set before the remesher, `renum` is `mesh->info.renum`, `field_realloc` is 0
when a reallocation of the solution fields fails. -/
structure GroupRun where
  empty : Bool
  store_faceVerticesInIntComm : Int
  scaleMesh : Int
  adja : Bool
  hashTetra : Int
  mmg3d1 : Int
  field_realloc : Int
  paktet : Int
  update_face2intInterfaceTetra : Int
  renum : Bool
  unscaleMesh : Int
  copyMetricsAndFields_point : Int

/-- Statuses met by a rank in one iteration. -/
structure IterRun where
  update_oldGrps : Int
  groups : List GroupRun
  interpMetricsAndFields : Int
  tetraQual : Int
  loadBalancing : Int

/-- Statuses met by a rank, and its options: `scotchCall` holds the statuses of
`PMMG_scotchCall` for the groups after the iterations, `scotchCall0` the one of
the call that follows the merge. -/
structure Lib1Rank where
  splitPart_grps : Int
  iter : Nat → IterRun
  scotchCall : List Int
  qualhisto : Int
  packParMesh : Int
  merge_grps : Int
  scotchCall0 : Int
  nodeGloNum : Bool
  Compute_verticesGloNum : Int
  nobalancing : Bool
  repartitioning : Int

/-- What all the ranks share: the number of iterations, the build option
`USE_SCOTCH` and the value of the macro `PMMG_REDISTRIBUTION_graph_balancing`. -/
structure Lib1Config where
  niter : Nat
  use_scotch : Bool
  PMMG_REDISTRIBUTION_graph_balancing : Int

/-- Variables of a rank between two iterations. -/
structure Lib1State where
  trace : List Lib1Event
  ier : Int
  repartitioning : Int

/-- Modelled from the spec: `PMMG_CLEAN_AND_RETURN` is a macro of the library
header, which is not part of the sources; it releases the work arrays of the
function and returns `val`, without calling any of the collaborators.  `via`
records the statement. -/
def PMMG_CLEAN_AND_RETURN (trace : List Lib1Event) (via : Lib1Via) (val : PMMG_ReturnCode) :
    Lib1Result :=
  ⟨trace, via, .returned val⟩

/-- Status of `PMMG_update_node2intRnbg` (lines 77-90): 1 on every path. -/
def PMMG_update_node2intRnbg_status : Int := 1

/-- A run of statements `if ( !call ) goto strong_failed;`: the calls are made in
order up to the first one that returns 0.  Returns the calls made and whether one
of them has failed. -/
def callsUntilFailure : List (Lib1Call × Int) → List Lib1Event × Bool
  | [] => ([], false)
  | cs :: rest =>
    if cs.2 = 0 then ([.call cs.1 cs.2], true)
    else (.call cs.1 cs.2 :: (callsUntilFailure rest).1, (callsUntilFailure rest).2)

/-- How the body of the loop over the groups ends: next group, `break`, or
`goto strong_failed`. -/
inductive GroupExit
  | next
  | brk
  | strong_failed
deriving DecidableEq

/-- Calls followed by `goto strong_failed` before the remesher (lines 1206-1213):
`MMG3D_hashTetra` is called when `mesh->adja` is not set. -/
def preCalls (g : GroupRun) : List (Lib1Call × Int) :=
  (Lib1Call.MMG5_scaleMesh, g.scaleMesh) ::
    (if g.adja then [] else [(Lib1Call.MMG3D_hashTetra, g.hashTetra)])

/-- Calls followed by `goto strong_failed` after the remesher (lines 1227-1282):
`PMMG_update_node2intRnbg` is called in a build with `USE_SCOTCH` when
`mesh->info.renum` is set. -/
def postCalls (use_scotch : Bool) (g : GroupRun) : List (Lib1Call × Int) :=
  [(Lib1Call.field_realloc, g.field_realloc), (Lib1Call.MMG5_paktet, g.paktet),
    (Lib1Call.PMMG_update_face2intInterfaceTetra, g.update_face2intInterfaceTetra)] ++
  (if use_scotch ∧ g.renum then
    [(Lib1Call.PMMG_update_node2intRnbg, PMMG_update_node2intRnbg_status)]
   else []) ++
  [(Lib1Call.MMG5_unscaleMesh, g.unscaleMesh),
    (Lib1Call.PMMG_copyMetricsAndFields_point, g.copyMetricsAndFields_point)]

/-- Body of the loop over the groups (lines 1135-1295).  Returns the calls made,
the value of `ier` and the way the body ends. -/
def groupBody (use_scotch : Bool) (g : GroupRun) (ier : Int) :
    List Lib1Event × Int × GroupExit :=
  if g.empty then ([], ier, .next)
  else
    let ier1 := g.store_faceVerticesInIntComm
    let t1 : List Lib1Event := [.call .PMMG_store_faceVerticesInIntComm ier1]
    if ier1 = 0 then (t1, ier1, .brk)
    else
      let pre := callsUntilFailure (preCalls g)
      if pre.2 then (t1 ++ pre.1, ier1, .strong_failed)
      else
        let ier2 := g.mmg3d1
        let post := callsUntilFailure (postCalls use_scotch g)
        let t2 := t1 ++ pre.1 ++ [.call .MMG5_mmg3d1 ier2] ++ post.1
        if post.2 then (t2, ier2, .strong_failed)
        else if ier2 = 0 then (t2, ier2, .brk)
        else (t2, ier2, .next)

/-- Loop over the groups.  Returns the calls made, the value of `ier` and whether
the loop is left by `goto strong_failed`. -/
def groupLoop (use_scotch : Bool) : List GroupRun → Int → List Lib1Event × Int × Bool
  | [], ier => ([], ier, false)
  | g :: gs, ier =>
    match groupBody use_scotch g ier with
    | (t, ier1, .next) =>
      (t ++ (groupLoop use_scotch gs ier1).1, (groupLoop use_scotch gs ier1).2)
    | (t, ier1, .brk) => (t, ier1, false)
    | (t, ier1, .strong_failed) => (t, ier1, true)

/-- Label `strong_failed` (lines 1456-1459), reached by `via`: the rank takes part
in one reduction, with the current value of `ier`, and returns. -/
def strong_failed (trace : List Lib1Event) (ier : Int) (reds : List Int) (via : Lib1Via) :
    Lib1Result :=
  match reds with
  | [] => ⟨trace, .waiting, .blocked ier⟩
  | ieresult :: _ =>
    PMMG_CLEAN_AND_RETURN (trace ++ [.reduce ier ieresult]) via .PMMG_STRONGFAILURE

/-- Label `failed_handling` (lines 1461-1498), reached by `via`. -/
def failed_handling (rk : Lib1Rank) (trace : List Lib1Event) (via : Lib1Via) : Lib1Result :=
  if rk.packParMesh = 0 then
    PMMG_CLEAN_AND_RETURN (trace ++ [.call .PMMG_packParMesh rk.packParMesh]) via
      .PMMG_STRONGFAILURE
  else if rk.merge_grps = 0 then
    PMMG_CLEAN_AND_RETURN (trace ++ [.call .PMMG_packParMesh rk.packParMesh,
      .call .PMMG_merge_grps rk.merge_grps]) via .PMMG_STRONGFAILURE
  else
    PMMG_CLEAN_AND_RETURN (trace ++ [.call .PMMG_packParMesh rk.packParMesh,
      .call .PMMG_merge_grps rk.merge_grps]) via .PMMG_LOWFAILURE

/-- Load balancing of an iteration (lines 1340-1359), entered with
`ier = PMMG_tetraQual(...)` and the mode `repartitioning`.  Returns the calls
made, the value of `ier` and the value of `info.repartitioning` after the block. -/
def balance (cfg : Lib1Config) (rk : Lib1Rank) (it : Nat) (run : IterRun)
    (repartitioning : Int) : List Lib1Event × Int × Int :=
  if (it : Int) = (cfg.niter : Int) - 1 then
    if rk.nobalancing = false then
      let repartitioning_mode := repartitioning
      let info_repartitioning := cfg.PMMG_REDISTRIBUTION_graph_balancing
      ([.call (.PMMG_loadBalancing info_repartitioning) run.loadBalancing],
        run.loadBalancing, repartitioning_mode)
    else ([], run.tetraQual, repartitioning)
  else
    ([.call (.PMMG_loadBalancing repartitioning) run.loadBalancing], run.loadBalancing,
      repartitioning)

/-- Outcome of one iteration: the rank goes to the next one, or leaves the
function. -/
inductive IterOutcome
  | next (st : Lib1State) (reds : List Int)
  | done (res : Lib1Result)

/-- One iteration of the adaptation loop (lines 1111-1378). -/
def iteration (cfg : Lib1Config) (rk : Lib1Rank) (it : Nat) (st : Lib1State)
    (reds : List Int) : IterOutcome :=
  let run := rk.iter it
  let gl := groupLoop cfg.use_scotch run.groups st.ier
  let t1 := st.trace ++ [.call .PMMG_update_oldGrps run.update_oldGrps] ++ gl.1
  if gl.2.2 then .done (strong_failed t1 gl.2.1 reds .strong_failed)
  else
    match reds with
    | [] => .done ⟨t1, .waiting, .blocked gl.2.1⟩
    | i1 :: reds1 =>
      let t2 := t1 ++ [.reduce gl.2.1 i1]
      if i1 = 0 then .done (failed_handling rk t2 .failed_handling_remesh)
      else
        let t3 := t2 ++ [.call .PMMG_interpMetricsAndFields run.interpMetricsAndFields]
        match reds1 with
        | [] => .done ⟨t3, .waiting, .blocked run.interpMetricsAndFields⟩
        | i2 :: reds2 =>
          let t4 := t3 ++ [.reduce run.interpMetricsAndFields i2]
          if i2 = 0 then .done (PMMG_CLEAN_AND_RETURN t4 .interp .PMMG_STRONGFAILURE)
          else
            let bal := balance cfg rk it run st.repartitioning
            let t5 := t4 ++ [.call .PMMG_tetraQual run.tetraQual] ++ bal.1
            match reds2 with
            | [] => .done ⟨t5, .waiting, .blocked bal.2.1⟩
            | i3 :: reds3 =>
              let t6 := t5 ++ [.reduce bal.2.1 i3]
              if i3 = 0 then .done (failed_handling rk t6 .failed_handling_balance)
              else if i3 < 0 then
                .done (PMMG_CLEAN_AND_RETURN t6 .balance_negative .PMMG_STRONGFAILURE)
              else .next ⟨t6, bal.2.1, bal.2.2⟩ reds3

/-- What follows the iterations (lines 1384-1454). -/
def finishLib1 (cfg : Lib1Config) (rk : Lib1Rank) (st : Lib1State) (reds : List Int) :
    Lib1Result :=
  let sc := if cfg.use_scotch then
      callsUntilFailure (rk.scotchCall.map (fun s => (Lib1Call.PMMG_scotchCall, s)))
    else ([], false)
  let t1 := st.trace ++ sc.1
  if sc.2 then strong_failed t1 st.ier reds .scotchCall
  else
    let t2 := t1 ++ [.call .PMMG_qualhisto rk.qualhisto]
    match reds with
    | [] => ⟨t2, .waiting, .blocked rk.qualhisto⟩
    | i1 :: reds1 =>
      let ier_end : PMMG_ReturnCode := if i1 = 0 then .PMMG_LOWFAILURE else .PMMG_SUCCESS
      let t3 := t2 ++ [.reduce rk.qualhisto i1, .call .PMMG_packParMesh rk.packParMesh]
      match reds1 with
      | [] => ⟨t3, .waiting, .blocked rk.packParMesh⟩
      | i2 :: reds2 =>
        let t4 := t3 ++ [.reduce rk.packParMesh i2]
        if i2 = 0 then PMMG_CLEAN_AND_RETURN t4 .pack .PMMG_STRONGFAILURE
        else
          let t5 := t4 ++ [.call .PMMG_merge_grps rk.merge_grps]
          match reds2 with
          | [] => ⟨t5, .waiting, .blocked rk.merge_grps⟩
          | i3 :: reds3 =>
            let t6 := t5 ++ [.reduce rk.merge_grps i3]
            if i3 = 0 then PMMG_CLEAN_AND_RETURN t6 .merge .PMMG_STRONGFAILURE
            else
              let t7 := t6 ++
                (if cfg.use_scotch then [.call .PMMG_scotchCall rk.scotchCall0] else [])
              if cfg.use_scotch ∧ rk.scotchCall0 = 0 then
                strong_failed t7 rk.merge_grps reds3 .scotchCall
              else
                let t8 := t7 ++
                  (if rk.nodeGloNum then
                    [.call .PMMG_Compute_verticesGloNum rk.Compute_verticesGloNum]
                   else [])
                PMMG_CLEAN_AND_RETURN t8 .last ier_end

/-- The adaptation loop: `n` iterations remain, the next one has the number
`it`. -/
def iterations (cfg : Lib1Config) (rk : Lib1Rank) :
    Nat → Nat → Lib1State → List Int → Lib1Result
  | 0, _, st, reds => finishLib1 cfg rk st reds
  | n + 1, it, st, reds =>
    match iteration cfg rk it st reds with
    | .next st1 reds1 => iterations cfg rk n (it + 1) st1 reds1
    | .done res => res

/-- `PMMG_parmmglib1` on one rank, `reds` being the values delivered by the
reductions. -/
def PMMG_parmmglib1 (cfg : Lib1Config) (rk : Lib1Rank) (reds : List Int) : Lib1Result :=
  let ier := rk.splitPart_grps
  let t0 : List Lib1Event := [.call .PMMG_splitPart_grps ier]
  match reds with
  | [] => ⟨t0, .waiting, .blocked ier⟩
  | ieresult :: reds0 =>
    let t1 := t0 ++ [.reduce ier ieresult]
    if ieresult = 0 then PMMG_CLEAN_AND_RETURN t1 .split .PMMG_LOWFAILURE
    else if ieresult < 0 then PMMG_CLEAN_AND_RETURN t1 .split .PMMG_STRONGFAILURE
    else iterations cfg rk cfg.niter 0 ⟨t1, ier, rk.repartitioning⟩ reds0

/-- Calls of a trace, in order. -/
def callsOf (trace : List Lib1Event) : List Lib1Call :=
  trace.filterMap (fun e => match e with
    | .call c _ => some c
    | .reduce _ _ => none)

/-- Values contributed to the reductions of a trace, in order. -/
def sentOf (trace : List Lib1Event) : List Int :=
  trace.filterMap (fun e => match e with
    | .reduce ier _ => some ier
    | .call _ _ => none)

/-- Values contributed by a rank to the successive reductions, the one it is
blocked in included. -/
def Lib1Result.sent (res : Lib1Result) : List Int :=
  sentOf res.trace ++
  (match res.exit with
    | .blocked ier => [ier]
    | .returned _ => [])

/-- The values `reds` are those delivered in a run of the ranks `ranks`: every
rank takes part in each of these reductions, each value is the minimum of the
values contributed, and no further reduction completes (some rank does not enter
it). -/
def IsRun (cfg : Lib1Config) (ranks : List Lib1Rank) (reds : List Int) : Prop :=
  (∀ k, k < reds.length → ∀ rk ∈ ranks, k < (PMMG_parmmglib1 cfg rk reds).sent.length) ∧
  (∀ k, k < reds.length → reds[k]? = some (MPI_Allreduce_MIN
    (ranks.map (fun rk => (PMMG_parmmglib1 cfg rk reds).sent.getD k 0)))) ∧
  ¬ (∀ rk ∈ ranks, reds.length < (PMMG_parmmglib1 cfg rk reds).sent.length)

instance (cfg : Lib1Config) (ranks : List Lib1Rank) (reds : List Int) :
    Decidable (IsRun cfg ranks reds) := by unfold IsRun; infer_instance

/-- Statement through which an iteration leaves the function, `none` when the
rank goes to the next iteration. -/
def IterOutcome.via : IterOutcome → Option Lib1Via
  | .next _ _ => none
  | .done res => some res.via

/-- Branch of an iteration as a function of the values delivered by its three
reductions alone. -/
def branchOf : List Int → Option Lib1Via
  | [] => some .waiting
  | i1 :: reds1 =>
    if i1 = 0 then some .failed_handling_remesh
    else
      match reds1 with
      | [] => some .waiting
      | i2 :: reds2 =>
        if i2 = 0 then some .interp
        else
          match reds2 with
          | [] => some .waiting
          | i3 :: _ =>
            if i3 = 0 then some .failed_handling_balance
            else if i3 < 0 then some .balance_negative
            else none

/-- End of a rank on the low-failure path: after a reduction that delivers 0 the
rank leaves the loop, calls `PMMG_packParMesh`, then `PMMG_merge_grps` unless the
packing has failed, and returns `PMMG_LOWFAILURE` when both have succeeded,
`PMMG_STRONGFAILURE` otherwise. -/
def LowFailureEnd (rk : Lib1Rank) (out : IterOutcome) : Prop :=
  ∃ before ier res, out = .done res ∧
    res.trace = before ++ [.reduce ier 0, .call .PMMG_packParMesh rk.packParMesh] ++
      (if rk.packParMesh = 0 then [] else [.call .PMMG_merge_grps rk.merge_grps]) ∧
    res.exit = .returned
      (if rk.packParMesh ≠ 0 ∧ rk.merge_grps ≠ 0 then .PMMG_LOWFAILURE
       else .PMMG_STRONGFAILURE)

/-- Neither `PMMG_packParMesh` nor `PMMG_merge_grps` is called in the trace. -/
def NoPacking (trace : List Lib1Event) : Prop :=
  Lib1Call.PMMG_packParMesh ∉ callsOf trace ∧ Lib1Call.PMMG_merge_grps ∉ callsOf trace

instance (trace : List Lib1Event) : Decidable (NoPacking trace) := by
  unfold NoPacking; infer_instance

/-- Property of an outcome: a rank that leaves through `strong_failed` from the
loop over the groups, through the return after the interpolation or through the
return after a negative load-balancing status returns `PMMG_STRONGFAILURE` and
has called neither `PMMG_packParMesh` nor `PMMG_merge_grps`; a rank that leaves
through `failed_handling` has called `PMMG_packParMesh`. -/
def StrongExitOK (res : Lib1Result) : Prop :=
  (res.via = .strong_failed ∨ res.via = .interp ∨ res.via = .balance_negative →
    res.exit = .returned .PMMG_STRONGFAILURE ∧ NoPacking res.trace) ∧
  (res.via = .failed_handling_remesh ∨ res.via = .failed_handling_balance →
    Lib1Call.PMMG_packParMesh ∈ callsOf res.trace)

/-- The phases of an iteration named by the specification: capture, remesh,
restore, interpolation, quality evaluation, balance. -/
def isPhase : Lib1Call → Bool
  | .PMMG_store_faceVerticesInIntComm => true
  | .MMG5_mmg3d1 => true
  | .PMMG_update_face2intInterfaceTetra => true
  | .PMMG_interpMetricsAndFields => true
  | .PMMG_tetraQual => true
  | .PMMG_loadBalancing _ => true
  | _ => false

/-- Reading of "the local status of every phase is reduced before the next phase
starts" on a trace: `pending` is the status of the last phase, as long as no
reduction has received it; a phase may start only when no status is pending. -/
def phasesReduced : Option Int → List Lib1Event → Bool
  | _, [] => true
  | pending, .call c s :: t =>
    if isPhase c then pending.isNone && phasesReduced (some s) t
    else phasesReduced pending t
  | pending, .reduce ier _ :: t =>
    if pending = some ier then phasesReduced none t else phasesReduced pending t

/-- Calls made in the loop over the groups. -/
def groupCalls : List Lib1Call :=
  [.PMMG_store_faceVerticesInIntComm, .MMG5_scaleMesh, .MMG3D_hashTetra, .MMG5_mmg3d1,
    .field_realloc, .MMG5_paktet, .PMMG_update_face2intInterfaceTetra,
    .PMMG_update_node2intRnbg, .MMG5_unscaleMesh, .PMMG_copyMetricsAndFields_point]

/-- A group in which every collaborator succeeds. -/
def demoGroupOK : GroupRun := ⟨false, 1, 1, false, 1, 1, 1, 1, 1, false, 1, 1⟩

/-- An iteration with one group in which every collaborator succeeds. -/
def demoIterOK : IterRun := ⟨1, [demoGroupOK], 1, 1, 1⟩

/-- A rank on which every collaborator succeeds, with the global numbering of the
vertices requested. -/
def demoRankOK : Lib1Rank := ⟨1, fun _ => demoIterOK, [1], 1, 1, 1, 1, true, 1, false, 7⟩

/-- One iteration, without renumbering; the graph balancing mode is 3. -/
def demoConfig : Lib1Config := ⟨1, false, 3⟩

/-- The rank `demoRankOK` with the statuses `g` in its group. -/
def demoRankGroup (g : GroupRun) : Lib1Rank :=
  { demoRankOK with iter := fun _ => { demoIterOK with groups := [g] } }

/-- The rank `demoRankOK` with the statuses `run` in its iterations. -/
def demoRankIter (run : IterRun) : Lib1Rank :=
  { demoRankOK with iter := fun _ => run }

/-- Groups in which one of the calls followed by `goto strong_failed` fails, the
capture and the remesher having succeeded. -/
def demoStrongGroups : List GroupRun :=
  [{ demoGroupOK with scaleMesh := 0 }, { demoGroupOK with hashTetra := 0 },
   { demoGroupOK with field_realloc := 0 }, { demoGroupOK with paktet := 0 },
   { demoGroupOK with update_face2intInterfaceTetra := 0 },
   { demoGroupOK with unscaleMesh := 0 },
   { demoGroupOK with copyMetricsAndFields_point := 0 }]

/-- State of a rank at the entry of the first iteration of the examples. -/
def demoState : Lib1Rank → Lib1State := fun _ => ⟨[], 1, 7⟩

/-- A single rank whose interpolation fails. -/
def demoRankInterpFails : Lib1Rank :=
  demoRankIter { demoIterOK with interpMetricsAndFields := 0 }

/-- A single rank whose load balancing returns a negative status. -/
def demoRankBalanceNegative : Lib1Rank := demoRankIter { demoIterOK with loadBalancing := -1 }

/-! ## Packed index of the tetrahedra (`PMMG_mark_packedTetra`) -/

/-- `PMMG_mark_packedTetra` (lines 102-113): returns the status, the counter `*ne`
and the mesh; `none` stands for a read outside the array `tetra`. -/
def PMMG_mark_packedTetra (env : MmgEnv) (mesh : FaceMesh) : Option (Int × Int × FaceMesh) :=
  (loopM (fun (s : List MMG5_Tetra × Int) k =>
      match s.1[k]? with
      | none => none
      | some pt =>
        if env.MG_EOK pt = false then some s
        else some (s.1.set k { pt with flag := s.2 + 1 }, s.2 + 1))
    (List.range' 1 mesh.ne) (mesh.tetra, 0)).map
    (fun s => (1, s.2, { mesh with tetra := s.1 }))

/-- The tetrahedron of index `k` is in use (`MG_EOK`). -/
def validTetra (env : MmgEnv) (mesh : FaceMesh) (k : Nat) : Bool :=
  match mesh.tetra[k]? with
  | some pt => env.MG_EOK pt
  | none => false

/-- Number of tetrahedra in use among those of index `1..k`. -/
def validUpTo (env : MmgEnv) (mesh : FaceMesh) (k : Nat) : Nat :=
  (List.range' 1 k).countP (validTetra env mesh)

/-- The field `flag` of the tetrahedron of index `k` (0 outside the array). -/
def flagAt (mesh : FaceMesh) (k : Nat) : Int :=
  match mesh.tetra[k]? with
  | some pt => pt.flag
  | none => 0

/-- A mesh of four tetrahedra of which the second is not in use. -/
def demoPackMesh : FaceMesh :=
  ⟨4, [⟨![0, 0, 0, 0], 0, 0, 0⟩, ⟨![1, 2, 3, 4], 0, 9, 0⟩, ⟨![0, 3, 4, 5], 0, 9, 0⟩,
    ⟨![3, 4, 5, 6], 0, 9, 0⟩, ⟨![4, 5, 6, 7], 0, 9, 0⟩], [], 0, [], 0, []⟩

/-! ## Reduction of the worst element (`quality_pmmg.c`) -/

/-- Record reduced by `PMMG_min_iel_compute` (`min_iel_t`).  The field `min` is a
`double` that the function only compares: it is given its exact rational value
(no NaN). -/
structure min_iel_t where
  min : ℚ
  iel : Int
  iel_grp : Int
  cpu : Int
deriving DecidableEq

/-- `PMMG_min_iel_compute` (lines 9-25): `in1` is combined into `out1`, entry by
entry; returns the content of `out1`.  `none` stands for a read outside an
array. -/
def PMMG_min_iel_compute (in1 out1 : List min_iel_t) (len : Nat) : Option (List min_iel_t) :=
  loopM (fun (out : List min_iel_t) i =>
      match in1[i]?, out[i]? with
      | some a, some b =>
        if a.min < b.min then some (out.set i ⟨a.min, a.iel, a.iel_grp, a.cpu⟩)
        else some out
      | _, _ => none)
    (List.range len) out1

/-- The rank 1 of `demoRanks`: three points, of which the points 2 and 1 are in
the slots 0 and 1, shared with the ranks 0 and 2. -/
def demoNodeRank : NodeParMesh :=
  ⟨3, 1, 3, [9, 9, 9, 9], [7, 7, 7, 7], 2, [55, 66], [2, 1], [0, 1], [⟨0, [1, 0]⟩, ⟨2, [0]⟩]⟩

/-- The entry `e` of the face communicator can be captured: it decodes to a
tetrahedron of the array and, in a build with assertions, this tetrahedron is in
use and the face is tagged `MG_PARBDY` in its boundary record. -/
def Captures (ndebug : Bool) (env : MmgEnv) (mesh : FaceMesh) (e : Int) : Prop :=
  match decodeFace e with
  | none => False
  | some (iel, ifac, _) =>
    match mesh.tetra[iel]? with
    | none => False
    | some pt =>
      ndebug = true ∨ (env.MG_EOK pt = true ∧ pt.xt ≠ 0 ∧
        (mesh.xtetra[pt.xt]?).any (fun pxt => decide (hasTag env.MG_PARBDY (pxt.ftag ifac)))
          = true)

instance (ndebug : Bool) (env : MmgEnv) (mesh : FaceMesh) :
    DecidablePred (Captures ndebug env mesh) := fun e => by
  unfold Captures
  split
  · infer_instance
  · split <;> infer_instance

/-! ## Structure of the lists built by the insertions -/

/-- Index reached from `start` after following `nxt` through `n` cells; `none`
when one of these cells lies outside the arena. -/
def chainEnd (item : List PMMG_lnkdCell) : Nat → Int → Option Int
  | 0, s => some s
  | n + 1, s =>
    match cellAt item s with
    | none => none
    | some c => chainEnd item n c.nxt

/-- Indices of the cells read by the search loop of `PMMG_add_cell2lnkdList`
(lines 87-94), with the arguments of `searchLoop`: the cell of index `cell` is
read when `k < nitem`.  The test of line 96 reads the cell on which the loop has
stopped. -/
def searchReads (list : PMMG_lnkdList) (val1 val2 : Int) : Nat → Int → Int → List Int
  | 0, _, _ => []
  | fuel + 1, k, cell =>
    if k < list.nitem then
      cell :: (match cellAt list.item cell with
        | none => []
        | some c =>
          if c.val1 < val1 ∨ (c.val1 = val1 ∧ c.val2 < val2) then
            searchReads list val1 val2 fuel (k + 1) c.nxt
          else [])
    else []

/-- Structure of an arena-linked list: the cell of index `i < nitem` holds
`id = i`, `frst` is `PMMG_UNSET` exactly when the list is empty, following `nxt`
from `frst` for `nitem` cells visits each of the cells `0..nitem-1` exactly once,
and the index reached after the last one is -1. -/
def StructOK (l : PMMG_lnkdList) : Prop :=
  0 ≤ l.nitem ∧
  (∀ i ∈ List.range l.nitem.toNat, (l.item[i]?).map PMMG_lnkdCell.id = some (i : Int)) ∧
  (l.frst = PMMG_UNSET ↔ l.nitem = 0) ∧
  (chainIdx l.item l.nitem.toNat l.frst).isSome = true ∧
  (∀ idxs ∈ chainIdx l.item l.nitem.toNat l.frst, idxs.Perm (List.range l.nitem.toNat)) ∧
  chainEnd l.item l.nitem.toNat l.frst = some (-1)

instance : DecidablePred StructOK := fun l => by unfold StructOK; infer_instance

/-- The lists reached from `PMMG_lnkdListNew` (whose allocation of `nitem_max`
cells has succeeded) by calls of `PMMG_reset_lnkdList`, `PMMG_add_cell2lnkdList`
and `PMMG_merge_lnkdList` that return (no access outside the arena). -/
inductive Reached : PMMG_lnkdList → Prop
  | new (mem : List PMMG_lnkdCell) (l0 : PMMG_lnkdList) (nitem_max : Int)
      (h : (mem.length : Int) = nitem_max) :
      Reached (PMMG_lnkdListNew (some mem) l0 nitem_max).2
  | reset (l : PMMG_lnkdList) (h : Reached l) : Reached (PMMG_reset_lnkdList l)
  | add (fresh : Option (List PMMG_lnkdCell)) (l : PMMG_lnkdList) (val1 val2 s : Int)
      (l2 : PMMG_lnkdList) (h : Reached l)
      (hres : PMMG_add_cell2lnkdList fresh l val1 val2 = some (s, l2)) : Reached l2
  | merge (alloc : Nat → Option (List PMMG_lnkdCell)) (list1 list2 : PMMG_lnkdList)
      (ier : Int) (l : PMMG_lnkdList) (h1 : Reached list1) (h2 : Reached list2)
      (hres : PMMG_merge_lnkdList alloc list1 list2 = some (ier, l)) : Reached l

/-- Invariant of the reached lists: the chain `cs` of the list is sorted and the
`nxt` of its last cell (or `frst` when the list is empty) is -1. -/
def ListInv (l : PMMG_lnkdList) : Prop :=
  ∃ cs, ListRepr l cs ∧ (pairsOf cs).Pairwise pairLt ∧ endC l.frst cs = -1

/-- The entry of the hash table is the one of a face tagged `MG_PARBDY` of a
tetrahedron in use of the mesh. -/
def SoundEntry (env : MmgEnv) (mesh : FaceMesh) (entry : Multiset Int × Nat) : Prop :=
  ∃ (k : Nat) (i : Fin 4) (pt : MMG5_Tetra), 1 ≤ k ∧ mesh.tetra[k]? = some pt ∧
    i ∈ tetraParFaces env mesh k ∧ entry = hashEntry env pt k i

/-- The slot `k` has been restored from the captured triple: the new entry is
`12*e + 3*f + o`, the face `f` of the tetrahedron `e` is tagged `MG_PARBDY`, its
vertices are those of the captured triple (after the renumbering, when one is
applied) and the vertex of local index `MMG5_idir[f][o]` is the first one of the
triple. -/
def RestoredSlot (use_scotch : Bool) (env : MmgEnv) (mesh : FaceMesh) (facesData : List Int)
    (permNodGlob : Option (List Int)) (k : Nat) (entry : Int) : Prop :=
  ∃ (e : Nat) (f : Fin 4) (o : Fin 3) (pt : MMG5_Tetra) (a b c ia ib ic : Int),
    entry = ((12 * e + 3 * f.val + o.val : Nat) : Int) ∧
    getInt facesData (3 * k) = some a ∧ getInt facesData (3 * k + 1) = some b ∧
    getInt facesData (3 * k + 2) = some c ∧
    applyPerm use_scotch permNodGlob mesh.renum a = some ia ∧
    applyPerm use_scotch permNodGlob mesh.renum b = some ib ∧
    applyPerm use_scotch permNodGlob mesh.renum c = some ic ∧
    f ∈ tetraParFaces env mesh e ∧ mesh.tetra[e]? = some pt ∧
    faceKey ia ib ic = ↑(faceVertices env mesh e f) ∧ pt.v (env.MMG5_idir f o) = ia

/-! ## Sorted insertion -/

theorem cellAt_natCast (item : List PMMG_lnkdCell) (i : Nat) :
    cellAt item (i : Int) = item[i]? := by
  simp [cellAt]

theorem cellAt_eq_some {item : List PMMG_lnkdCell} {s : Int} {c : PMMG_lnkdCell}
    (h : cellAt item s = some c) : s = (s.toNat : Int) ∧ item[s.toNat]? = some c := by
  unfold cellAt at h
  split at h
  · cases h
  · exact ⟨by omega, h⟩

theorem chainIdx_some_chain (item : List PMMG_lnkdCell) :
    ∀ (n : Nat) (s : Int) (idxs : List Nat), chainIdx item n s = some idxs →
      ∃ cs, cs.length = n ∧ IsChainC item s cs ∧ cs.map Prod.fst = idxs := by
  intro n
  induction n with
  | zero =>
    intro s idxs h
    simp [chainIdx] at h
    exact ⟨[], rfl, trivial, by simp [h]⟩
  | succ n ih =>
    intro s idxs h
    simp only [chainIdx] at h
    cases hc : cellAt item s with
    | none => simp [hc] at h
    | some c =>
      simp only [hc, Option.map_eq_some'] at h
      obtain ⟨rest, hrest, rfl⟩ := h
      obtain ⟨cs, hlen, hch, hmap⟩ := ih c.nxt rest hrest
      obtain ⟨hs, hget⟩ := cellAt_eq_some hc
      exact ⟨(s.toNat, c) :: cs, by simp [hlen], ⟨hs, hget, hch⟩, by simp [hmap]⟩

theorem chain_chainIdx (item : List PMMG_lnkdCell) :
    ∀ (cs : List (Nat × PMMG_lnkdCell)) (s : Int), IsChainC item s cs →
      chainIdx item cs.length s = some (cs.map Prod.fst) := by
  intro cs
  induction cs with
  | nil => intro s _; rfl
  | cons ic rest ih =>
    intro s h
    obtain ⟨hs, hget, hrest⟩ := h
    simp only [List.length_cons, chainIdx]
    rw [hs, cellAt_natCast, hget]
    simp [ih _ hrest]

theorem chain_traverse (item : List PMMG_lnkdCell) :
    ∀ (cs : List (Nat × PMMG_lnkdCell)) (s : Int), IsChainC item s cs →
      traverse item cs.length s = some (cs.map (fun ic => pairOf ic.2)) := by
  intro cs
  induction cs with
  | nil => intro s _; rfl
  | cons ic rest ih =>
    intro s h
    obtain ⟨hs, hget, hrest⟩ := h
    simp only [List.length_cons, traverse]
    rw [hs, cellAt_natCast, hget]
    simp [ih _ hrest, pairOf]

theorem chain_frame {item item2 : List PMMG_lnkdCell} :
    ∀ (cs : List (Nat × PMMG_lnkdCell)) (s : Int), IsChainC item s cs →
      (∀ ic ∈ cs, item2[ic.1]? = some ic.2) → IsChainC item2 s cs := by
  intro cs
  induction cs with
  | nil => intro s _ _; trivial
  | cons ic rest ih =>
    intro s h hf
    obtain ⟨hs, _, hrest⟩ := h
    exact ⟨hs, hf ic (List.mem_cons_self _ _),
      ih _ hrest (fun jc hj => hf jc (List.mem_cons_of_mem _ hj))⟩

theorem chain_append {item : List PMMG_lnkdCell} :
    ∀ (pre post : List (Nat × PMMG_lnkdCell)) (s : Int),
      IsChainC item s (pre ++ post) ↔ IsChainC item s pre ∧ IsChainC item (endC s pre) post := by
  intro pre
  induction pre with
  | nil => intro post s; simp [IsChainC, endC]
  | cons ic rest ih =>
    intro post s
    show (s = (ic.1 : Int) ∧ item[ic.1]? = some ic.2 ∧ IsChainC item ic.2.nxt (rest ++ post)) ↔
      (s = (ic.1 : Int) ∧ item[ic.1]? = some ic.2 ∧ IsChainC item ic.2.nxt rest) ∧
        IsChainC item (endC ic.2.nxt rest) post
    rw [ih]
    tauto

theorem chain_mem_get {item : List PMMG_lnkdCell} :
    ∀ (cs : List (Nat × PMMG_lnkdCell)) (s : Int), IsChainC item s cs →
      ∀ ic ∈ cs, item[ic.1]? = some ic.2 := by
  intro cs
  induction cs with
  | nil => intro s _ ic hic; cases hic
  | cons jc rest ih =>
    intro s h ic hic
    obtain ⟨_, hget, hrest⟩ := h
    rcases List.mem_cons.1 hic with rfl | hmem
    · exact hget
    · exact ih _ hrest ic hmem

theorem searchLoop_spec (list : PMMG_lnkdList) (v1 v2 : Int) :
    ∀ (rest : List (Nat × PMMG_lnkdCell)) (cur k prevId : Int),
      IsChainC list.item cur rest → (∀ ic ∈ rest, ic.2.id = (ic.1 : Int)) →
      k + rest.length = list.nitem →
      ∃ pre post, rest = pre ++ post ∧ (∀ ic ∈ pre, pairLt (pairOf ic.2) (v1, v2)) ∧
        (∀ ic, post.head? = some ic → ¬ pairLt (pairOf ic.2) (v1, v2)) ∧
        searchLoop list v1 v2 rest.length k cur prevId =
          some (k + pre.length, endC cur pre, pre.foldl (fun _ ic => (ic.1 : Int)) prevId) := by
  intro rest
  induction rest with
  | nil =>
    intro cur k prevId _ _ _
    exact ⟨[], [], rfl, by simp, by simp, by simp [searchLoop, endC]⟩
  | cons ic rest ih =>
    intro cur k prevId hch hid hk
    obtain ⟨hs, hget, hrest⟩ := hch
    have hklt : k < list.nitem := by
      simp only [List.length_cons] at hk
      push_cast at hk
      omega
    by_cases hlt : pairLt (pairOf ic.2) (v1, v2)
    · have hk2 : (k + 1) + rest.length = list.nitem := by
        simp only [List.length_cons] at hk
        push_cast at hk
        omega
      obtain ⟨pre, post, hsplit, hpre, hpost, hloop⟩ :=
        ih ic.2.nxt (k + 1) ic.2.id hrest
          (fun jc hj => hid jc (List.mem_cons_of_mem _ hj)) hk2
      refine ⟨ic :: pre, post, by simp [hsplit], ?_, hpost, ?_⟩
      · intro jc hj
        rcases List.mem_cons.1 hj with rfl | hmem
        · exact hlt
        · exact hpre jc hmem
      · have hlt2 : ic.2.val1 < v1 ∨ (ic.2.val1 = v1 ∧ ic.2.val2 < v2) := hlt
        simp only [List.length_cons, searchLoop, if_pos hklt]
        rw [hs, cellAt_natCast, hget]
        simp only [if_pos hlt2, hloop, endC, List.foldl_cons]
        rw [hid ic (List.mem_cons_self _ _)]
        have e : k + 1 + (pre.length : Int) = k + ((pre.length + 1 : Nat) : Int) := by
          push_cast; omega
        rw [e]
    · refine ⟨[], ic :: rest, rfl, by simp, ?_, ?_⟩
      · intro jc hj
        simp only [List.head?_cons, Option.some.injEq] at hj
        subst hj
        exact hlt
      · have hlt2 : ¬ (ic.2.val1 < v1 ∨ (ic.2.val1 = v1 ∧ ic.2.val2 < v2)) := hlt
        simp only [List.length_cons, searchLoop, if_pos hklt]
        rw [hs, cellAt_natCast, hget]
        simp [if_neg hlt2, endC]

theorem linkNewCell_head (list : PMMG_lnkdList) (v1 v2 prevId : Int) (n : Nat)
    (cs : List (Nat × PMMG_lnkdCell))
    (hn : list.nitem = (n : Int)) (hlen : n < list.item.length)
    (hch : IsChainC list.item list.frst cs) (hne : ∀ ic ∈ cs, ic.1 ≠ n) :
    ∃ l2, linkNewCell list v1 v2 0 prevId = some l2 ∧ l2.nitem = list.nitem + 1 ∧
      l2.nitem_max = list.nitem_max ∧ l2.item.length = list.item.length ∧
      l2.frst = (n : Int) ∧
      IsChainC l2.item l2.frst ((n, ⟨v1, v2, (n : Int), list.frst⟩) :: cs) := by
  obtain ⟨nitem, nmax, frst, item⟩ := list
  simp only at hn hlen hch
  subst hn
  have hold : item[n]? = some (item[n]) := List.getElem?_eq_getElem hlen
  have hlink : linkNewCell ⟨(n : Int), nmax, frst, item⟩ v1 v2 0 prevId =
      some ⟨(n : Int) + 1, nmax, (n : Int),
        (item.set n { item[n] with id := (n : Int), val1 := v1, val2 := v2 }).set n
          ⟨v1, v2, (n : Int), frst⟩⟩ := by
    simp only [linkNewCell, cellAt_natCast, hold, if_true, Int.toNat_ofNat]
  refine ⟨_, hlink, rfl, rfl, by simp, rfl, ?_⟩
  refine ⟨rfl, ?_, ?_⟩
  · simp [hlen]
  · refine chain_frame cs _ hch ?_
    intro ic hic
    have h1 := chain_mem_get cs _ hch ic hic
    have h2 := hne ic hic
    show ((item.set n _).set n _)[ic.1]? = some ic.2
    rw [List.getElem?_set_ne (Ne.symm h2), List.getElem?_set_ne (Ne.symm h2)]
    exact h1

theorem linkNewCell_inside (list : PMMG_lnkdList) (v1 v2 k : Int) (n p : Nat)
    (cp : PMMG_lnkdCell) (pre0 post : List (Nat × PMMG_lnkdCell))
    (hk : k ≠ 0)
    (hn : list.nitem = (n : Int)) (hlen : n < list.item.length)
    (hch : IsChainC list.item list.frst (pre0 ++ (p, cp) :: post))
    (hne : ∀ ic ∈ pre0 ++ (p, cp) :: post, ic.1 ≠ n)
    (hnd : (List.map Prod.fst (pre0 ++ (p, cp) :: post)).Nodup) :
    ∃ l2, linkNewCell list v1 v2 k (p : Int) = some l2 ∧ l2.nitem = list.nitem + 1 ∧
      l2.nitem_max = list.nitem_max ∧ l2.item.length = list.item.length ∧
      l2.frst = list.frst ∧
      IsChainC l2.item l2.frst
        (pre0 ++ (p, { cp with nxt := (n : Int) }) :: (n, ⟨v1, v2, (n : Int), cp.nxt⟩) :: post) := by
  obtain ⟨nitem, nmax, frst, item⟩ := list
  simp only at hn hlen hch
  subst hn
  have hold : item[n]? = some (item[n]) := List.getElem?_eq_getElem hlen
  have hpn : p ≠ n := hne (p, cp) (by simp)
  have hgetp : item[p]? = some cp := chain_mem_get _ _ hch (p, cp) (by simp)
  have hplen : p < item.length := by
    rcases List.getElem?_eq_some.1 hgetp with ⟨h, _⟩
    exact h
  obtain ⟨hpre, hmid⟩ := (chain_append pre0 ((p, cp) :: post) frst).1 hch
  obtain ⟨hend, _, hpost⟩ := hmid
  rw [List.map_append, List.map_cons, List.nodup_append] at hnd
  obtain ⟨_, hnd2, hdisj⟩ := hnd
  have hp_notin_post : ∀ ic ∈ post, ic.1 ≠ p := by
    intro ic hic heq
    have := (List.nodup_cons.1 hnd2).1
    apply this
    simp only [List.mem_map]
    exact ⟨ic, hic, heq⟩
  have hp_notin_pre : ∀ ic ∈ pre0, ic.1 ≠ p := by
    intro ic hic heq
    have h1 : ic.1 ∈ List.map Prod.fst pre0 := List.mem_map.2 ⟨ic, hic, rfl⟩
    have h2 : ic.1 ∈ (p, cp).1 :: List.map Prod.fst post := by simp [heq]
    exact hdisj h1 h2
  have hlink : linkNewCell ⟨(n : Int), nmax, frst, item⟩ v1 v2 k (p : Int) =
      some ⟨(n : Int) + 1, nmax, frst,
        ((item.set n { item[n] with id := (n : Int), val1 := v1, val2 := v2 }).set p
          { cp with nxt := (n : Int) }).set n ⟨v1, v2, (n : Int), cp.nxt⟩⟩ := by
    simp only [linkNewCell, cellAt_natCast, hold, if_neg hk, Int.toNat_ofNat]
    rw [List.getElem?_set_ne (Ne.symm hpn), hgetp]
    simp only []
    rw [List.getElem?_set_ne hpn, List.getElem?_set_self hlen]
  refine ⟨_, hlink, rfl, rfl, by simp, rfl, ?_⟩
  show IsChainC (((item.set n _).set p _).set n _) frst _
  rw [chain_append]
  refine ⟨?_, ?_⟩
  · refine chain_frame pre0 _ hpre ?_
    intro ic hic
    have h1 := chain_mem_get _ _ hpre ic hic
    have h2 : ic.1 ≠ n := hne ic (by simp [hic])
    have h3 := hp_notin_pre ic hic
    rw [List.getElem?_set_ne (Ne.symm h2), List.getElem?_set_ne (Ne.symm h3),
      List.getElem?_set_ne (Ne.symm h2)]
    exact h1
  · refine ⟨hend, ?_, rfl, ?_, ?_⟩
    · show (((item.set n _).set p _).set n _)[p]? = _
      rw [List.getElem?_set_ne (Ne.symm hpn), List.getElem?_set_self (by simpa using hplen)]
    · show (((item.set n _).set p _).set n _)[n]? = _
      rw [List.getElem?_set_self (by simpa using hlen)]
    · refine chain_frame post _ hpost ?_
      intro ic hic
      have h1 := chain_mem_get _ _ hpost ic hic
      have h2 : ic.1 ≠ n := hne ic (by simp [hic])
      have h3 := hp_notin_post ic hic
      rw [List.getElem?_set_ne (Ne.symm h2), List.getElem?_set_ne (Ne.symm h3),
        List.getElem?_set_ne (Ne.symm h2)]
      exact h1

theorem ListRepr.toList_eq {l : PMMG_lnkdList} {cs : List (Nat × PMMG_lnkdCell)}
    (h : ListRepr l cs) : l.toList = some (pairsOf cs) := by
  unfold PMMG_lnkdList.toList
  rw [h.len, Int.toNat_ofNat]
  exact chain_traverse _ _ _ h.chain

theorem pairLt_irrefl (a : Int × Int) : ¬ pairLt a a := by
  unfold pairLt; omega

theorem pairLt_trans {a b c : Int × Int} (h1 : pairLt a b) (h2 : pairLt b c) : pairLt a c := by
  unfold pairLt at *; omega

theorem pairLt_trichotomy (a b : Int × Int) (h1 : ¬ pairLt a b) (h2 : a ≠ b) : pairLt b a := by
  unfold pairLt at *
  have : a.1 ≠ b.1 ∨ a.2 ≠ b.2 := by
    by_contra hc
    push_neg at hc
    exact h2 (Prod.ext hc.1 hc.2)
  omega

theorem add_eval_found (fresh : Option (List PMMG_lnkdCell)) (list : PMMG_lnkdList)
    (v1 v2 k cell prevId : Int) (c : PMMG_lnkdCell) (hf : ¬ list.frst < 0)
    (hs : searchLoop list v1 v2 list.nitem.toNat 0 list.frst 0 = some (k, cell, prevId))
    (hk : k < list.nitem) (hc : cellAt list.item cell = some c)
    (h1 : c.val1 = v1) (h2 : c.val2 = v2) :
    PMMG_add_cell2lnkdList fresh list v1 v2 = some (2, list) := by
  have hk2 : k ≠ list.nitem := by omega
  simp [PMMG_add_cell2lnkdList, hf, hs, hk, hk2, hc, h1, h2]

theorem add_eval_insert (fresh : Option (List PMMG_lnkdCell)) (list : PMMG_lnkdList)
    (v1 v2 k cell prevId : Int) (hf : ¬ list.frst < 0)
    (hs : searchLoop list v1 v2 list.nitem.toNat 0 list.frst 0 = some (k, cell, prevId))
    (hk : k = list.nitem ∨
      (k < list.nitem ∧ ∃ c, cellAt list.item cell = some c ∧ (c.val1 ≠ v1 ∨ c.val2 ≠ v2))) :
    PMMG_add_cell2lnkdList fresh list v1 v2 = addNewCell fresh list v1 v2 k prevId := by
  rcases hk with hk | ⟨hk, c, hc, hne⟩
  · simp [PMMG_add_cell2lnkdList, hf, hs, hk]
  · have hk2 : k ≠ list.nitem := by omega
    have hne2 : (decide (c.val1 ≠ v1 ∨ c.val2 ≠ v2)) = true := by simpa using hne
    simp only [PMMG_add_cell2lnkdList, if_neg hf, hs, if_neg hk2, if_pos hk, hc,
      Option.map_some', hne2]

theorem link_core (l : PMMG_lnkdList) (v1 v2 : Int) (pre post : List (Nat × PMMG_lnkdCell))
    (hrep : ListRepr l (pre ++ post)) (hcap : l.nitem < l.nitem_max) :
    ∃ l2 cs2, linkNewCell l v1 v2 ((pre.length : Nat) : Int)
        (pre.foldl (fun _ ic => (ic.1 : Int)) 0) = some l2 ∧
      ListRepr l2 cs2 ∧ pairsOf cs2 = pairsOf pre ++ (v1, v2) :: pairsOf post ∧
      l2.nitem_max = l.nitem_max ∧ l2.item.length = l.item.length := by
  have hn := hrep.len
  have hlen : (pre ++ post).length < l.item.length := by
    have := hrep.arena
    omega
  have hne : ∀ ic ∈ pre ++ post, ic.1 ≠ (pre ++ post).length := by
    intro ic hic
    exact Nat.ne_of_lt (hrep.lt ic hic)
  rcases List.eq_nil_or_concat pre with hp | ⟨pre0, pc, hp⟩
  · subst hp
    simp only [List.nil_append] at hrep hn hlen hne
    obtain ⟨l2, hl2, hnit, hmax, hlen2, hfr, hch⟩ :=
      linkNewCell_head l v1 v2 0 _ _ hn hlen hrep.chain hne
    refine ⟨l2, (post.length, ⟨v1, v2, (post.length : Int), l.frst⟩) :: post,
      by simpa using hl2, ?_, ?_, hmax, hlen2⟩
    · refine ⟨?_, ?_, ?_, ?_, hch, ?_, ?_, ?_⟩
      · rw [hnit, hn]; simp
      · rw [hnit, hmax]; omega
      · rw [hmax, hlen2]; exact hrep.arena
      · rw [hfr, hnit, hn]; constructor <;> intro h <;> omega
      · simp only [List.map_cons, List.nodup_cons]
        refine ⟨?_, hrep.nodup⟩
        intro hmem
        obtain ⟨ic, hic, heq⟩ := List.mem_map.1 hmem
        exact hne ic hic heq
      · intro ic hic
        rcases List.mem_cons.1 hic with rfl | hmem
        · simp
        · have := hrep.lt ic hmem
          simp only [List.length_cons]
          omega
      · intro ic hic
        rcases List.mem_cons.1 hic with rfl | hmem
        · rfl
        · exact hrep.ids ic hmem
    · simp [pairsOf, pairOf]
  · subst hp
    rw [List.concat_eq_append, List.append_assoc] at hrep hlen hne
    simp only [List.singleton_append] at hrep hlen hne
    have hk : (((pre0.concat pc).length : Nat) : Int) ≠ 0 := by simp; omega
    have hn2 := hrep.len
    obtain ⟨l2, hl2, hnit, hmax, hlen2, hfr, hch⟩ :=
      linkNewCell_inside l v1 v2 _ _ pc.1 pc.2 pre0 post hk hn2 hlen hrep.chain hne hrep.nodup
    refine ⟨l2, pre0 ++ (pc.1, { pc.2 with nxt := ((pre0 ++ pc :: post).length : Int) }) ::
        ((pre0 ++ pc :: post).length,
          ⟨v1, v2, ((pre0 ++ pc :: post).length : Int), pc.2.nxt⟩) :: post,
      by simpa using hl2, ?_, ?_, hmax, hlen2⟩
    · refine ⟨?_, ?_, ?_, ?_, hch, ?_, ?_, ?_⟩
      · rw [hnit, hn2]; simp; omega
      · rw [hnit, hmax]; omega
      · rw [hmax, hlen2]; exact hrep.arena
      · rw [hfr, hnit]
        have := hrep.frst_iff
        constructor
        · intro h
          have := this.1 h
          rw [hn2] at this
          simp at this
          omega
        · intro h; omega
      · have hnd := hrep.nodup
        simp only [List.map_append, List.map_cons, List.nodup_append, List.nodup_cons,
          List.mem_map, List.disjoint_cons_right, List.mem_cons] at hnd ⊢
        obtain ⟨h1, ⟨h2, h3⟩, h4, h5⟩ := hnd
        refine ⟨h1, ⟨?_, ?_, h3⟩, h4, ?_, h5⟩
        · rintro (heq | ⟨ic, hic, heq⟩)
          · exact hne pc (by simp) heq
          · exact h2 ⟨ic, hic, heq⟩
        · rintro ⟨ic, hic, heq⟩
          exact hne ic (by simp [hic]) heq
        · rintro ⟨ic, hic, heq⟩
          exact hne ic (by simp [hic]) heq
      · intro ic hic
        simp only [List.mem_append, List.mem_cons] at hic
        simp only [List.length_append, List.length_cons]
        rcases hic with h | rfl | rfl | h
        · have := hrep.lt ic (by simp [h])
          simp only [List.length_append, List.length_cons] at this
          omega
        · have := hrep.lt pc (by simp)
          simp only [List.length_append, List.length_cons] at this
          omega
        · simp only [List.length_append, List.length_cons]
          omega
        · have := hrep.lt ic (by simp [h])
          simp only [List.length_append, List.length_cons] at this
          omega
      · intro ic hic
        simp only [List.mem_append, List.mem_cons] at hic
        rcases hic with h | rfl | rfl | h
        · exact hrep.ids ic (by simp [h])
        · exact hrep.ids pc (by simp)
        · rfl
        · exact hrep.ids ic (by simp [h])
    · simp [pairsOf, pairOf]

theorem realloc_length (g item : List PMMG_lnkdCell) (newsize : Int) (item2 : List PMMG_lnkdCell)
    (h : PMMG_REALLOC (some g) item newsize = some item2) : item2.length = newsize.toNat := by
  simp only [PMMG_REALLOC, Option.some.injEq] at h
  subst h
  simp only [List.length_append, List.length_take, List.length_replicate]
  omega

theorem realloc_get (g item : List PMMG_lnkdCell) (newsize : Int) (item2 : List PMMG_lnkdCell)
    (h : PMMG_REALLOC (some g) item newsize = some item2) (i : Nat) (hi : i < newsize.toNat)
    (c : PMMG_lnkdCell) (hc : item[i]? = some c) : item2[i]? = some c := by
  simp only [PMMG_REALLOC, Option.some.injEq] at h
  subst h
  have hlen : i < item.length := (List.getElem?_eq_some.1 hc).1
  rw [List.getElem?_append_left (by simp; omega), List.getElem?_take_of_lt hi]
  exact hc

theorem addNewCell_core (fresh : Option (List PMMG_lnkdCell)) (l : PMMG_lnkdList)
    (v1 v2 : Int) (pre post : List (Nat × PMMG_lnkdCell)) (hrep : ListRepr l (pre ++ post))
    (hpre : ∀ a ∈ pairsOf pre, pairLt a (v1, v2))
    (hpost : ∀ a ∈ pairsOf post, pairLt (v1, v2) a) :
    (l.nitem < l.nitem_max →
      ∃ l2, addNewCell fresh l v1 v2 (pre.length : Int)
          (pre.foldl (fun _ ic => (ic.1 : Int)) 0) = some (1, l2) ∧
        InsertedAt (pre ++ post) l2 (v1, v2) ∧
        l2.nitem_max = l.nitem_max ∧ l2.item.length = l.item.length) ∧
    (∀ s l2, addNewCell fresh l v1 v2 (pre.length : Int)
        (pre.foldl (fun _ ic => (ic.1 : Int)) 0) = some (s, l2) →
      (s = 0 ∧ l2 = l) ∨ (s = 1 ∧ InsertedAt (pre ++ post) l2 (v1, v2))) := by
  have hpairs : pairsOf (pre ++ post) = pairsOf pre ++ pairsOf post := by simp [pairsOf]
  have nogrow : l.nitem < l.nitem_max →
      ∃ l2, addNewCell fresh l v1 v2 (pre.length : Int)
          (pre.foldl (fun _ ic => (ic.1 : Int)) 0) = some (1, l2) ∧
        InsertedAt (pre ++ post) l2 (v1, v2) ∧
        l2.nitem_max = l.nitem_max ∧ l2.item.length = l.item.length := by
    intro hcap
    obtain ⟨l2, cs2, hl2, hrep2, hp2, hmax, hlen2⟩ := link_core l v1 v2 pre post hrep hcap
    refine ⟨l2, ?_, ⟨cs2, pairsOf pre, pairsOf post, hrep2, hpairs, hp2, hpre, hpost⟩, hmax, hlen2⟩
    have hcap2 : ¬ l.nitem ≥ l.nitem_max := by omega
    simp only [addNewCell, if_neg hcap2, hl2, Option.map_some']
  refine ⟨nogrow, ?_⟩
  intro s l2 hres
  by_cases hcap : l.nitem < l.nitem_max
  · obtain ⟨l3, h3, hins, _, _⟩ := nogrow hcap
    rw [h3] at hres
    simp only [Option.some.injEq, Prod.mk.injEq] at hres
    obtain ⟨rfl, rfl⟩ := hres
    exact Or.inr ⟨rfl, hins⟩
  · have hcap2 : l.nitem ≥ l.nitem_max := by omega
    simp only [addNewCell, if_pos hcap2] at hres
    cases fresh with
    | none =>
      simp only [PMMG_REALLOC, Option.some.injEq, Prod.mk.injEq] at hres
      exact Or.inl ⟨hres.1.symm, hres.2.symm⟩
    | some g =>
      cases hre : PMMG_REALLOC (some g) l.item (grow12 l.nitem_max) with
      | none => simp [PMMG_REALLOC] at hre
      | some item2 =>
        rw [hre] at hres
        simp only [] at hres
        have hlen2 := realloc_length g l.item _ item2 hre
        by_cases hgrow : l.nitem < grow12 l.nitem_max
        · have hrepg : ListRepr { l with item := item2, nitem_max := grow12 l.nitem_max }
              (pre ++ post) := by
            have hframe : ∀ ic ∈ pre ++ post, item2[ic.1]? = some ic.2 := by
              intro ic hic
              refine realloc_get g l.item _ item2 hre ic.1 ?_ ic.2
                (chain_mem_get _ _ hrep.chain ic hic)
              have h1 := hrep.lt ic hic
              have h2 := hrep.len
              omega
            exact ⟨hrep.len, by show l.nitem ≤ grow12 l.nitem_max; omega,
              by show grow12 l.nitem_max = (item2.length : Int); rw [hlen2]; have := hrep.len; omega,
              hrep.frst_iff, chain_frame _ _ hrep.chain hframe, hrep.nodup, hrep.lt, hrep.ids⟩
          obtain ⟨l3, cs2, hl3, hrep3, hp3, _, _⟩ :=
            link_core _ v1 v2 pre post hrepg hgrow
          rw [hl3] at hres
          simp only [Option.map_some', Option.some.injEq, Prod.mk.injEq] at hres
          obtain ⟨rfl, rfl⟩ := hres
          exact Or.inr ⟨rfl, cs2, pairsOf pre, pairsOf post, hrep3, hpairs, hp3, hpre, hpost⟩
        · exfalso
          have hnone : cellAt item2 l.nitem = none := by
            have h2 := hrep.len
            rw [h2, cellAt_natCast]
            apply List.getElem?_eq_none
            omega
          simp [linkNewCell, hnone] at hres

theorem add_cell_core (fresh : Option (List PMMG_lnkdCell)) (l : PMMG_lnkdList)
    (v1 v2 : Int) (cs : List (Nat × PMMG_lnkdCell)) (hrep : ListRepr l cs)
    (hsorted : (pairsOf cs).Pairwise pairLt) :
    ((v1, v2) ∈ pairsOf cs → PMMG_add_cell2lnkdList fresh l v1 v2 = some (2, l)) ∧
    ((v1, v2) ∉ pairsOf cs →
      (l.nitem < l.nitem_max →
        ∃ l2, PMMG_add_cell2lnkdList fresh l v1 v2 = some (1, l2) ∧
          InsertedAt cs l2 (v1, v2) ∧
          l2.nitem_max = l.nitem_max ∧ l2.item.length = l.item.length) ∧
      (∀ s l2, PMMG_add_cell2lnkdList fresh l v1 v2 = some (s, l2) →
        (s = 0 ∧ l2 = l) ∨ (s = 1 ∧ InsertedAt cs l2 (v1, v2)))) := by
  by_cases hnil : cs = []
  · subst hnil
    have hn : l.nitem = 0 := by simpa using hrep.len
    have hf : l.frst < 0 := hrep.frst_iff.2 hn
    refine ⟨by intro h; simp [pairsOf] at h, ?_⟩
    intro _
    have key : 0 < l.item.length →
        ∃ l2, PMMG_add_cell2lnkdList fresh l v1 v2 = some (1, l2) ∧
          InsertedAt [] l2 (v1, v2) ∧
          l2.nitem_max = l.nitem_max ∧ l2.item.length = l.item.length := by
      intro hlen
      have hset : setCell l.item l.nitem ⟨v1, v2, 0, -1⟩ =
          some (l.item.set 0 ⟨v1, v2, 0, -1⟩) := by
        simp [setCell, hn, hlen]
      refine ⟨{ l with frst := 0, nitem := l.nitem + 1, item := l.item.set 0 ⟨v1, v2, 0, -1⟩ },
        ?_, ⟨[(0, ⟨v1, v2, 0, -1⟩)], [], [], ?_, by simp [pairsOf], by simp [pairsOf, pairOf],
        by simp, by simp⟩, rfl, by simp⟩
      · simp [PMMG_add_cell2lnkdList, hf, hset]
      · refine ⟨by simp [hn], ?_, by simpa using hrep.arena, by simp [hn], ?_, by simp,
          by simp, by simp⟩
        · show l.nitem + 1 ≤ l.nitem_max
          have := hrep.arena
          omega
        · exact ⟨rfl, by simp [hlen], trivial⟩
    refine ⟨?_, ?_⟩
    · intro hcap
      exact key (by have := hrep.arena; omega)
    · intro s l2 hres
      by_cases hlen : 0 < l.item.length
      · obtain ⟨l3, h3, hins, _, _⟩ := key hlen
        rw [h3] at hres
        simp only [Option.some.injEq, Prod.mk.injEq] at hres
        obtain ⟨rfl, rfl⟩ := hres
        exact Or.inr ⟨rfl, hins⟩
      · exfalso
        have hset : setCell l.item l.nitem ⟨v1, v2, 0, -1⟩ = none := by
          have h0 : l.item.length = 0 := by omega
          simp [setCell, hn, h0]
        simp [PMMG_add_cell2lnkdList, hf, hset] at hres
  · have hpos : 0 < cs.length := List.length_pos.2 hnil
    have hn := hrep.len
    have hf : ¬ l.frst < 0 := by
      intro h
      have := hrep.frst_iff.1 h
      omega
    obtain ⟨pre, post, hsplit, hpre, hpost, hloop⟩ :=
      searchLoop_spec l v1 v2 cs l.frst 0 0 hrep.chain hrep.ids (by omega)
    have hloop2 : searchLoop l v1 v2 l.nitem.toNat 0 l.frst 0 =
        some ((pre.length : Int), endC l.frst pre, pre.foldl (fun _ ic => (ic.1 : Int)) 0) := by
      rw [hn, Int.toNat_ofNat, hloop]
      simp
    subst hsplit
    have hpre_ne : ∀ a ∈ pairsOf pre, a ≠ (v1, v2) := by
      intro a ha heq
      obtain ⟨ic, hic, rfl⟩ := List.mem_map.1 ha
      have := hpre ic hic
      rw [heq] at this
      exact pairLt_irrefl _ this
    have hpre_lt : ∀ a ∈ pairsOf pre, pairLt a (v1, v2) := by
      intro a ha
      obtain ⟨ic, hic, rfl⟩ := List.mem_map.1 ha
      exact hpre ic hic
    have hpairs : pairsOf (pre ++ post) = pairsOf pre ++ pairsOf post := by
      simp [pairsOf]
    rw [hpairs] at hsorted ⊢
    have insert_case : (∀ a ∈ pairsOf post, pairLt (v1, v2) a) →
        PMMG_add_cell2lnkdList fresh l v1 v2 =
          addNewCell fresh l v1 v2 (pre.length : Int)
            (pre.foldl (fun _ ic => (ic.1 : Int)) 0) →
        (l.nitem < l.nitem_max →
          ∃ l2, PMMG_add_cell2lnkdList fresh l v1 v2 = some (1, l2) ∧
            InsertedAt (pre ++ post) l2 (v1, v2) ∧
            l2.nitem_max = l.nitem_max ∧ l2.item.length = l.item.length) ∧
        (∀ s l2, PMMG_add_cell2lnkdList fresh l v1 v2 = some (s, l2) →
          (s = 0 ∧ l2 = l) ∨ (s = 1 ∧ InsertedAt (pre ++ post) l2 (v1, v2))) := by
      intro hgt heval
      rw [heval]
      exact addNewCell_core fresh l v1 v2 pre post hrep hpre_lt hgt
    rcases post with _ | ⟨jc, post2⟩
    · -- the search reached the end of the list
      have hk : (pre.length : Int) = l.nitem := by rw [hn]; simp
      refine ⟨?_, ?_⟩
      · intro hmem
        simp only [pairsOf, List.map_nil, List.append_nil] at hmem
        exact absurd rfl (hpre_ne _ hmem)
      · intro _
        exact insert_case (by simp [pairsOf])
          (add_eval_insert fresh l v1 v2 _ _ _ hf hloop2 (Or.inl hk))
    · -- the search stopped on the cell `jc`
      have hk : (pre.length : Int) < l.nitem := by
        rw [hn]; simp
      obtain ⟨_, hmid⟩ := (chain_append pre (jc :: post2) l.frst).1 hrep.chain
      obtain ⟨hend, hget, _⟩ := hmid
      have hcell : cellAt l.item (endC l.frst pre) = some jc.2 := by
        rw [hend, cellAt_natCast, hget]
      have hnlt : ¬ pairLt (pairOf jc.2) (v1, v2) := hpost jc rfl
      by_cases heq : pairOf jc.2 = (v1, v2)
      · refine ⟨?_, ?_⟩
        · intro _
          have h1 : jc.2.val1 = v1 := congrArg Prod.fst heq
          have h2 : jc.2.val2 = v2 := congrArg Prod.snd heq
          exact add_eval_found fresh l v1 v2 _ _ _ jc.2 hf hloop2 hk hcell h1 h2
        · intro hnot
          exfalso
          apply hnot
          simp [pairsOf, heq]
      · have hgt : pairLt (v1, v2) (pairOf jc.2) := pairLt_trichotomy _ _ hnlt heq
        have hpost_gt : ∀ a ∈ pairsOf (jc :: post2), pairLt (v1, v2) a := by
          intro a ha
          simp only [pairsOf, List.map_cons, List.mem_cons] at ha
          rcases ha with rfl | ha
          · exact hgt
          · have hs2 := (List.pairwise_append.1 hsorted).2.1
            simp only [pairsOf, List.map_cons, List.pairwise_cons] at hs2
            exact pairLt_trans hgt (hs2.1 a ha)
        refine ⟨?_, ?_⟩
        · intro hmem
          exfalso
          rcases List.mem_append.1 hmem with h | h
          · exact hpre_ne _ h rfl
          · exact pairLt_irrefl _ (hpost_gt _ h)
        · intro _
          have hne : jc.2.val1 ≠ v1 ∨ jc.2.val2 ≠ v2 := by
            by_contra hc
            push_neg at hc
            exact heq (Prod.ext hc.1 hc.2)
          exact insert_case hpost_gt
            (add_eval_insert fresh l v1 v2 _ _ _ hf hloop2
              (Or.inr ⟨hk, jc.2, hcell, hne⟩))

theorem wf_repr {l : PMMG_lnkdList} (h : WellFormed l) : ∃ cs, ListRepr l cs := by
  obtain ⟨_, hcap, harena, hfrst, hsome, hall⟩ := h
  obtain ⟨idxs, hidx⟩ := Option.isSome_iff_exists.1 hsome
  obtain ⟨hnd, hall⟩ := hall idxs hidx
  obtain ⟨cs, hlen, hch, hmap⟩ := chainIdx_some_chain _ _ _ _ hidx
  have hn : l.nitem = (cs.length : Int) := by rw [hlen]; omega
  refine ⟨cs, hn, hcap, harena, hfrst, hch, by rw [hmap]; exact hnd, ?_, ?_⟩
  · intro ic hic
    have hmem : ic.1 ∈ idxs := by rw [← hmap]; exact List.mem_map.2 ⟨ic, hic, rfl⟩
    have := (hall ic.1 hmem).1
    omega
  · intro ic hic
    have hmem : ic.1 ∈ idxs := by rw [← hmap]; exact List.mem_map.2 ⟨ic, hic, rfl⟩
    have hid := (hall ic.1 hmem).2
    rw [chain_mem_get _ _ hch ic hic] at hid
    simpa using hid

theorem repr_wf {l : PMMG_lnkdList} {cs : List (Nat × PMMG_lnkdCell)} (h : ListRepr l cs) :
    WellFormed l := by
  have hidx : chainIdx l.item l.nitem.toNat l.frst = some (cs.map Prod.fst) := by
    rw [h.len, Int.toNat_ofNat]
    exact chain_chainIdx _ _ _ h.chain
  refine ⟨by have := h.len; omega, h.cap, h.arena, h.frst_iff, by rw [hidx]; rfl, ?_⟩
  intro idxs hmem
  rw [hidx] at hmem
  cases hmem
  refine ⟨h.nodup, ?_⟩
  intro i hi
  obtain ⟨ic, hic, rfl⟩ := List.mem_map.1 hi
  refine ⟨?_, ?_⟩
  · have := h.lt ic hic
    have := h.len
    omega
  · rw [chain_mem_get _ _ h.chain ic hic]
    simp [h.ids ic hic]

theorem sorted_insert {pre post : List (Int × Int)} {v : Int × Int}
    (hs : (pre ++ post).Pairwise pairLt) (hpre : ∀ a ∈ pre, pairLt a v)
    (hpost : ∀ a ∈ post, pairLt v a) : (pre ++ v :: post).Pairwise pairLt := by
  rw [List.pairwise_append] at hs ⊢
  obtain ⟨h1, h2, h3⟩ := hs
  refine ⟨h1, List.pairwise_cons.2 ⟨hpost, h2⟩, ?_⟩
  intro a ha b hb
  rcases List.mem_cons.1 hb with rfl | hb
  · exact hpre a ha
  · exact h3 a ha b hb

theorem InsertedAt.toList {cs : List (Nat × PMMG_lnkdCell)} {l l2 : PMMG_lnkdList}
    {v : Int × Int} (hrep : ListRepr l cs) (h : InsertedAt cs l2 v) :
    ∃ pre post, l.toList = some (pre ++ post) ∧ l2.toList = some (pre ++ v :: post) ∧
      (∀ a ∈ pre, pairLt a v) ∧ (∀ a ∈ post, pairLt v a) ∧ WellFormed l2 ∧
      l2.nitem = l.nitem + 1 := by
  obtain ⟨cs2, pre, post, hrep2, hp, hp2, hpre, hpost⟩ := h
  refine ⟨pre, post, by rw [hrep.toList_eq, hp], by rw [hrep2.toList_eq, hp2], hpre, hpost,
    repr_wf hrep2, ?_⟩
  have h1 := hrep.len
  have h2 := hrep2.len
  have e1 : (pairsOf cs).length = cs.length := by simp [pairsOf]
  have e2 : (pairsOf cs2).length = cs2.length := by simp [pairsOf]
  rw [hp] at e1
  rw [hp2] at e2
  simp only [List.length_append, List.length_cons] at e1 e2
  omega

/-- C3: a pair absent from a sorted well-formed list with spare capacity is
inserted: the call returns 1, `nitem` grows by exactly one and the traversal is
the old one with the pair placed at its lexicographic position (all the former
pairs are kept in their order, no other pair appears). -/
theorem add_cell_inserts_absent (fresh : Option (List PMMG_lnkdCell)) (l : PMMG_lnkdList)
    (val1 val2 : Int) (L : List (Int × Int)) (hwf : WellFormed l)
    (hL : l.toList = some L) (hsorted : L.Pairwise pairLt)
    (hcap : l.nitem < l.nitem_max) (habs : (val1, val2) ∉ L) :
    ∃ l2 pre post, PMMG_add_cell2lnkdList fresh l val1 val2 = some (1, l2) ∧
      l2.nitem = l.nitem + 1 ∧ L = pre ++ post ∧
      l2.toList = some (pre ++ (val1, val2) :: post) ∧
      (∀ a ∈ pre, pairLt a (val1, val2)) ∧ (∀ a ∈ post, pairLt (val1, val2) a) ∧
      WellFormed l2 ∧ (pre ++ (val1, val2) :: post).Pairwise pairLt := by
  obtain ⟨cs, hrep⟩ := wf_repr hwf
  have hLcs : L = pairsOf cs := by
    have := hrep.toList_eq
    rw [hL] at this
    exact Option.some.inj this
  subst hLcs
  obtain ⟨l2, hadd, hins, _, _⟩ :=
    ((add_cell_core fresh l val1 val2 cs hrep hsorted).2 habs).1 hcap
  obtain ⟨pre, post, h1, h2, hpre, hpost, hwf2, hn⟩ := hins.toList hrep
  have hsplit : pairsOf cs = pre ++ post := by
    rw [hL] at h1
    exact Option.some.inj h1
  refine ⟨l2, pre, post, hadd, hn, hsplit, h2, hpre, hpost, hwf2, ?_⟩
  rw [hsplit] at hsorted
  exact sorted_insert hsorted hpre hpost

theorem sorted_nodup {L : List (Int × Int)} (h : L.Pairwise pairLt) : L.Nodup := by
  refine List.Pairwise.imp ?_ h
  intro a b hab heq
  rw [heq] at hab
  exact pairLt_irrefl _ hab

theorem pairsOf_length (cs : List (Nat × PMMG_lnkdCell)) : (pairsOf cs).length = cs.length := by
  simp [pairsOf]

theorem addSeq_core (alloc : Nat → Option (List PMMG_lnkdCell)) :
    ∀ (ops : List (Int × Int)) (l : PMMG_lnkdList) (cs : List (Nat × PMMG_lnkdCell)),
      ListRepr l cs → (pairsOf cs).Pairwise pairLt →
      (((pairsOf cs ++ ops).toFinset.card : Nat) : Int) ≤ l.nitem_max →
      ∃ sts l2 cs2, addSeq alloc l ops = some (sts, l2) ∧ ListRepr l2 cs2 ∧
        (pairsOf cs2).Pairwise pairLt ∧
        (∀ v, v ∈ pairsOf cs2 ↔ v ∈ pairsOf cs ∨ v ∈ ops) ∧
        l2.nitem_max = l.nitem_max ∧ sts.length = ops.length ∧
        (∀ s ∈ sts, s = 1 ∨ s = 2) ∧ (1 ∈ sts ↔ ∃ v ∈ ops, v ∉ pairsOf cs) := by
  intro ops
  induction ops with
  | nil =>
    intro l cs hrep hs _
    exact ⟨[], l, cs, rfl, hrep, hs, by simp, rfl, rfl, by simp, by simp⟩
  | cons v ops ih =>
    intro l cs hrep hs hcard
    obtain ⟨hfound, habsent⟩ := add_cell_core (alloc ops.length) l v.1 v.2 cs hrep hs
    by_cases hmem : v ∈ pairsOf cs
    · have hadd := hfound hmem
      have hcard2 : (((pairsOf cs ++ ops).toFinset.card : Nat) : Int) ≤ l.nitem_max := by
        have hsub : (pairsOf cs ++ ops).toFinset ⊆ (pairsOf cs ++ v :: ops).toFinset := by
          intro x hx
          simp only [List.toFinset_append, List.toFinset_cons, Finset.mem_union,
            Finset.mem_insert, List.mem_toFinset] at hx ⊢
          tauto
        have := Finset.card_le_card hsub
        omega
      obtain ⟨sts, l2, cs2, hseq, hrep2, hs2, hmem2, hmax, hlen, hst, h1⟩ :=
        ih l cs hrep hs hcard2
      refine ⟨2 :: sts, l2, cs2, ?_, hrep2, hs2, ?_, hmax, by simp [hlen], ?_, ?_⟩
      · simp only [addSeq, hadd, hseq, Option.map_some']
      · intro w
        rw [hmem2 w]
        simp only [List.mem_cons]
        constructor
        · tauto
        · rintro (h | rfl | h)
          · exact Or.inl h
          · exact Or.inl hmem
          · exact Or.inr h
      · intro s hs'
        rcases List.mem_cons.1 hs' with rfl | h
        · exact Or.inr rfl
        · exact hst s h
      · simp only [List.mem_cons, show (1 : Int) ≠ 2 by decide, false_or, h1]
        constructor
        · rintro ⟨w, hw, hn⟩
          exact ⟨w, Or.inr hw, hn⟩
        · rintro ⟨w, hw | hw, hn⟩
          · subst hw; exact absurd hmem hn
          · exact ⟨w, hw, hn⟩
    · have hnd := sorted_nodup hs
      have hcap : l.nitem < l.nitem_max := by
        have hsub : insert v (pairsOf cs).toFinset ⊆ (pairsOf cs ++ v :: ops).toFinset := by
          intro x hx
          simp only [List.toFinset_append, List.toFinset_cons, Finset.mem_union,
            Finset.mem_insert, List.mem_toFinset] at hx ⊢
          tauto
        have h1 := Finset.card_le_card hsub
        rw [Finset.card_insert_of_not_mem (by simpa using hmem),
          List.toFinset_card_of_nodup hnd, pairsOf_length] at h1
        have := hrep.len
        omega
      obtain ⟨l1, hadd, hins, hmax1, _⟩ := (habsent hmem).1 hcap
      obtain ⟨cs1, pre, post, hrep1, hsplit, hp1, hpre, hpost⟩ := hins
      have hs1 : (pairsOf cs1).Pairwise pairLt := by
        rw [hp1]
        rw [hsplit] at hs
        exact sorted_insert hs hpre hpost
      have hmem1 : ∀ w, w ∈ pairsOf cs1 ↔ w = v ∨ w ∈ pairsOf cs := by
        intro w
        rw [hp1, hsplit]
        simp only [List.mem_append, List.mem_cons]
        tauto
      have hcard1 : (((pairsOf cs1 ++ ops).toFinset.card : Nat) : Int) ≤ l1.nitem_max := by
        have heq : (pairsOf cs1 ++ ops).toFinset = (pairsOf cs ++ v :: ops).toFinset := by
          ext x
          simp only [List.toFinset_append, List.toFinset_cons, Finset.mem_union,
            Finset.mem_insert, List.mem_toFinset, hmem1]
          tauto
        rw [heq, hmax1]
        exact hcard
      obtain ⟨sts, l2, cs2, hseq, hrep2, hs2, hmem2, hmax, hlen, hst, _⟩ :=
        ih l1 cs1 hrep1 hs1 hcard1
      refine ⟨1 :: sts, l2, cs2, ?_, hrep2, hs2, ?_, by rw [hmax, hmax1], by simp [hlen], ?_, ?_⟩
      · simp only [addSeq, hadd, hseq, Option.map_some']
      · intro w
        rw [hmem2 w, hmem1 w]
        simp only [List.mem_cons]
        tauto
      · intro s hs'
        rcases List.mem_cons.1 hs' with rfl | h
        · exact Or.inl rfl
        · exact hst s h
      · simp only [List.mem_cons, true_or, true_iff]
        exact ⟨v, Or.inl rfl, hmem⟩

theorem new_repr (mem : List PMMG_lnkdCell) (l0 : PMMG_lnkdList) (nitem_max : Int)
    (hmem : (mem.length : Int) = nitem_max) :
    ListRepr (PMMG_lnkdListNew (some mem) l0 nitem_max).2 [] := by
  refine ⟨rfl, ?_, ?_, ?_, trivial, by simp, by simp, by simp⟩
  · show (0 : Int) ≤ nitem_max
    omega
  · show nitem_max = (mem.length : Int)
    omega
  · show PMMG_UNSET < 0 ↔ (0 : Int) = 0
    simp [PMMG_UNSET]

/-- C1: every finite sequence of insertions into a freshly initialised list whose
capacity holds all the distinct inserted pairs runs to its end without failure and
leaves a traversal that is strictly ascending in lexicographic order, hence without
duplicate; the traversal holds exactly the inserted pairs. -/
theorem add_cell_sequence_sorted (alloc : Nat → Option (List PMMG_lnkdCell))
    (mem : List PMMG_lnkdCell) (l0 : PMMG_lnkdList) (nitem_max : Int)
    (ops : List (Int × Int)) (hmem : (mem.length : Int) = nitem_max)
    (hcap : ((ops.toFinset.card : Nat) : Int) ≤ nitem_max) :
    ∃ sts l2 L, addSeq alloc (PMMG_lnkdListNew (some mem) l0 nitem_max).2 ops = some (sts, l2) ∧
      (∀ s ∈ sts, s = 1 ∨ s = 2) ∧
      l2.toList = some L ∧ L.Pairwise pairLt ∧ L.Nodup ∧ (∀ v, v ∈ L ↔ v ∈ ops) ∧
      WellFormed l2 := by
  have hrep := new_repr mem l0 nitem_max hmem
  obtain ⟨sts, l2, cs2, hseq, hrep2, hs2, hmem2, _, _, hst, _⟩ :=
    addSeq_core alloc ops _ [] hrep (by simp [pairsOf]) (by simpa [pairsOf] using hcap)
  refine ⟨sts, l2, pairsOf cs2, hseq, hst, hrep2.toList_eq, hs2, sorted_nodup hs2, ?_,
    repr_wf hrep2⟩
  intro v
  rw [hmem2 v]
  simp [pairsOf]

/-- Witness of C1: three insertions (one of them a duplicate) into a fresh list of
capacity 2. -/
theorem add_cell_sequence_sorted_witness :
    ∃ sts l2 L,
      addSeq (fun _ => none)
        (PMMG_lnkdListNew (some [⟨0, 0, 0, 0⟩, ⟨7, 7, 7, 7⟩]) ⟨0, 0, 0, []⟩ 2).2
        [(5, 2), (3, 1), (5, 2)] = some (sts, l2) ∧
      (∀ s ∈ sts, s = 1 ∨ s = 2) ∧
      l2.toList = some L ∧ L.Pairwise pairLt ∧ L.Nodup ∧
      (∀ v, v ∈ L ↔ v ∈ [((5 : Int), (2 : Int)), (3, 1), (5, 2)]) ∧ WellFormed l2 :=
  add_cell_sequence_sorted (fun _ => none) [⟨0, 0, 0, 0⟩, ⟨7, 7, 7, 7⟩] ⟨0, 0, 0, []⟩ 2
    [(5, 2), (3, 1), (5, 2)] (by decide) (by decide)

/-- C2: on a sorted well-formed list the insertion returns 2 exactly when the pair
is already stored, and then the list (`nitem`, `frst`, every cell of the arena) is
returned unchanged; once `(5,2)` has been inserted (status 1 or 2), inserting
`(5,2)` again returns 2 and leaves the list as it is. -/
theorem add_cell_duplicate_iff (fresh fresh2 : Option (List PMMG_lnkdCell))
    (l : PMMG_lnkdList) (val1 val2 : Int) (L : List (Int × Int)) (hwf : WellFormed l)
    (hL : l.toList = some L) (hsorted : L.Pairwise pairLt) :
    ((∃ l2, PMMG_add_cell2lnkdList fresh l val1 val2 = some (2, l2)) ↔ (val1, val2) ∈ L) ∧
    (∀ l2, PMMG_add_cell2lnkdList fresh l val1 val2 = some (2, l2) → l2 = l) ∧
    (∀ s l1, PMMG_add_cell2lnkdList fresh l 5 2 = some (s, l1) → s ≠ 0 →
      PMMG_add_cell2lnkdList fresh2 l1 5 2 = some (2, l1) ∧
        (PMMG_add_cell2lnkdList fresh2 l1 5 2).map (fun r => r.2.nitem) = some l1.nitem) := by
  obtain ⟨cs, hrep⟩ := wf_repr hwf
  have hLcs : L = pairsOf cs := by
    have := hrep.toList_eq
    rw [hL] at this
    exact Option.some.inj this
  subst hLcs
  have hcore := add_cell_core fresh l val1 val2 cs hrep hsorted
  have hiff : ∀ l2, PMMG_add_cell2lnkdList fresh l val1 val2 = some (2, l2) →
      (val1, val2) ∈ pairsOf cs ∧ l2 = l := by
    intro l2 h2
    by_cases hmem : (val1, val2) ∈ pairsOf cs
    · have := hcore.1 hmem
      rw [this] at h2
      simp only [Option.some.injEq, Prod.mk.injEq, true_and] at h2
      exact ⟨hmem, h2.symm⟩
    · exfalso
      rcases (hcore.2 hmem).2 2 l2 h2 with ⟨h, _⟩ | ⟨h, _⟩
      · exact absurd h (by decide)
      · exact absurd h (by decide)
  refine ⟨⟨?_, ?_⟩, ?_, ?_⟩
  · rintro ⟨l2, h2⟩
    exact (hiff l2 h2).1
  · intro hmem
    exact ⟨l, hcore.1 hmem⟩
  · intro l2 h2
    exact (hiff l2 h2).2
  · intro s l1 h1 hs0
    have hcore5 := add_cell_core fresh l 5 2 cs hrep hsorted
    have key : PMMG_add_cell2lnkdList fresh2 l1 5 2 = some (2, l1) := by
      by_cases hmem : ((5 : Int), (2 : Int)) ∈ pairsOf cs
      · have := hcore5.1 hmem
        rw [this] at h1
        simp only [Option.some.injEq, Prod.mk.injEq] at h1
        obtain ⟨_, rfl⟩ := h1
        exact (add_cell_core fresh2 l 5 2 cs hrep hsorted).1 hmem
      · rcases (hcore5.2 hmem).2 s l1 h1 with ⟨h, _⟩ | ⟨_, cs1, pre, post, hrep1, hsplit, hp1, hpre, hpost⟩
        · exact absurd h hs0
        · have hs1 : (pairsOf cs1).Pairwise pairLt := by
            rw [hp1]
            rw [hsplit] at hsorted
            exact sorted_insert hsorted hpre hpost
          exact (add_cell_core fresh2 l1 5 2 cs1 hrep1 hs1).1 (by rw [hp1]; simp)
    exact ⟨key, by rw [key]; rfl⟩

/-- Witness of C2: the one-cell list holding `(5,2)`. -/
theorem add_cell_duplicate_iff_witness :
    WellFormed ⟨1, 3, 0, [⟨5, 2, 0, -1⟩, ⟨0, 0, 0, 0⟩, ⟨0, 0, 0, 0⟩]⟩ ∧
    ((∃ l2, PMMG_add_cell2lnkdList none ⟨1, 3, 0, [⟨5, 2, 0, -1⟩, ⟨0, 0, 0, 0⟩, ⟨0, 0, 0, 0⟩]⟩
        5 2 = some (2, l2)) ↔ ((5 : Int), (2 : Int)) ∈ [((5 : Int), (2 : Int))]) :=
  ⟨by decide,
    (add_cell_duplicate_iff none none ⟨1, 3, 0, [⟨5, 2, 0, -1⟩, ⟨0, 0, 0, 0⟩, ⟨0, 0, 0, 0⟩]⟩
      5 2 [(5, 2)] (by decide) (by decide) (by decide)).1⟩

/-- Witness of C3: `(3,1)` is inserted before `(5,2)`. -/
theorem add_cell_inserts_absent_witness :
    ∃ l2 pre post,
      PMMG_add_cell2lnkdList none ⟨1, 3, 0, [⟨5, 2, 0, -1⟩, ⟨0, 0, 0, 0⟩, ⟨0, 0, 0, 0⟩]⟩ 3 1 =
        some (1, l2) ∧
      l2.nitem = 1 + 1 ∧ [((5 : Int), (2 : Int))] = pre ++ post ∧
      l2.toList = some (pre ++ (3, 1) :: post) ∧
      (∀ a ∈ pre, pairLt a (3, 1)) ∧ (∀ a ∈ post, pairLt (3, 1) a) ∧
      WellFormed l2 ∧ (pre ++ (3, 1) :: post).Pairwise pairLt :=
  add_cell_inserts_absent none ⟨1, 3, 0, [⟨5, 2, 0, -1⟩, ⟨0, 0, 0, 0⟩, ⟨0, 0, 0, 0⟩]⟩ 3 1
    [(5, 2)] (by decide) (by decide) (by decide) (by decide) (by decide)

theorem minier_fold (sts : List Int) : ∀ (m : Int), (∀ s ∈ sts, s = 1 ∨ s = 2) → (m = 1 ∨ m = 2) →
    sts.foldl (fun m s => min s m) m = if 1 ∈ sts ∨ m = 1 then 1 else 2 := by
  induction sts with
  | nil =>
    intro m _ hm
    rcases hm with rfl | rfl <;> simp
  | cons s sts ih =>
    intro m hs hm
    have hs1 := hs s (List.mem_cons_self _ _)
    have hrest : ∀ t ∈ sts, t = 1 ∨ t = 2 := fun t ht => hs t (List.mem_cons_of_mem _ ht)
    simp only [List.foldl_cons]
    rw [ih (min s m) hrest (by rcases hs1 with rfl | rfl <;> rcases hm with rfl | rfl <;> simp)]
    rcases hs1 with rfl | rfl <;> rcases hm with rfl | rfl <;> simp

theorem mergeLoop_addSeq (alloc : Nat → Option (List PMMG_lnkdCell))
    (item2 : List PMMG_lnkdCell) :
    ∀ (cs : List (Nat × PMMG_lnkdCell)) (cell minier : Int) (l1 l2 : PMMG_lnkdList)
      (sts : List Int), IsChainC item2 cell cs →
      addSeq alloc l1 (pairsOf cs) = some (sts, l2) → (∀ s ∈ sts, s ≠ 0) →
      mergeLoop alloc item2 cs.length cell minier l1 =
        some (sts.foldl (fun m s => min s m) minier, l2) := by
  intro cs
  induction cs with
  | nil =>
    intro cell minier l1 l2 sts _ hseq _
    simp only [pairsOf, List.map_nil, addSeq, Option.some.injEq, Prod.mk.injEq] at hseq
    obtain ⟨rfl, rfl⟩ := hseq
    rfl
  | cons ic cs ih =>
    intro cell minier l1 l2 sts hch hseq hne
    obtain ⟨hs, hget, hrest⟩ := hch
    simp only [pairsOf, List.map_cons, addSeq, List.length_map] at hseq
    cases hadd : PMMG_add_cell2lnkdList (alloc cs.length) l1 (pairOf ic.2).1 (pairOf ic.2).2 with
    | none => simp [hadd] at hseq
    | some r =>
      obtain ⟨s, l1b⟩ := r
      rw [hadd] at hseq
      simp only [] at hseq
      cases hseq2 : addSeq alloc l1b (List.map (fun ic => pairOf ic.2) cs) with
      | none => simp [hseq2] at hseq
      | some r2 =>
        obtain ⟨sts2, l2b⟩ := r2
        rw [hseq2] at hseq
        simp only [Option.map_some', Option.some.injEq, Prod.mk.injEq] at hseq
        obtain ⟨rfl, rfl⟩ := hseq
        have hs0 : s ≠ 0 := hne s (List.mem_cons_self _ _)
        have hadd2 : PMMG_add_cell2lnkdList (alloc cs.length) l1 ic.2.val1 ic.2.val2 =
            some (s, l1b) := hadd
        simp only [List.length_cons, mergeLoop]
        rw [hs, cellAt_natCast, hget]
        simp only [hadd2, if_neg hs0, List.foldl_cons]
        exact ih ic.2.nxt (min s minier) l1b l2b sts2 hrest hseq2
          (fun t ht => hne t (List.mem_cons_of_mem _ ht))

theorem merge_core (alloc : Nat → Option (List PMMG_lnkdCell)) (list1 list2 : PMMG_lnkdList)
    (cs1 cs2 : List (Nat × PMMG_lnkdCell)) (hrep1 : ListRepr list1 cs1)
    (hrep2 : ListRepr list2 cs2) (hs1 : (pairsOf cs1).Pairwise pairLt)
    (hcap : (((pairsOf cs1 ++ pairsOf cs2).toFinset.card : Nat) : Int) ≤ list1.nitem_max) :
    ∃ ier l cs, PMMG_merge_lnkdList alloc list1 list2 = some (ier, l) ∧ ListRepr l cs ∧
      (pairsOf cs).Pairwise pairLt ∧
      (∀ v, v ∈ pairsOf cs ↔ v ∈ pairsOf cs1 ∨ v ∈ pairsOf cs2) ∧
      (ier = 1 ∨ ier = 2) ∧ (ier = 1 ↔ ∃ v ∈ pairsOf cs2, v ∉ pairsOf cs1) := by
  by_cases hn : list2.nitem = 0
  · have hnil : cs2 = [] := by
      have := hrep2.len
      rw [hn] at this
      exact List.length_eq_zero.1 (by omega)
    subst hnil
    refine ⟨2, list1, cs1, by simp [PMMG_merge_lnkdList, hn], hrep1, hs1, by simp [pairsOf],
      Or.inr rfl, by simp [pairsOf]⟩
  · obtain ⟨sts, l, cs, hseq, hrep, hs, hmem, _, _, hst, h1⟩ :=
      addSeq_core alloc (pairsOf cs2) list1 cs1 hrep1 hs1 hcap
    have hne : ∀ s ∈ sts, s ≠ 0 := by
      intro s hs'
      rcases hst s hs' with rfl | rfl <;> decide
    have hloop := mergeLoop_addSeq alloc list2.item cs2 list2.frst 2 list1 l sts hrep2.chain
      hseq hne
    rw [minier_fold sts 2 hst (Or.inr rfl)] at hloop
    have hmerge : PMMG_merge_lnkdList alloc list1 list2 =
        some (if 1 ∈ sts ∨ (2 : Int) = 1 then 1 else 2, l) := by
      simp only [PMMG_merge_lnkdList, if_neg hn]
      rw [hrep2.len, Int.toNat_ofNat]
      exact hloop
    refine ⟨_, l, cs, hmerge, hrep, hs, hmem, ?_, ?_⟩
    · by_cases h : (1 : Int) ∈ sts <;> simp [h]
    · rw [← h1]
      by_cases h : (1 : Int) ∈ sts <;> simp [h]

theorem wf_toList {l : PMMG_lnkdList} {L : List (Int × Int)} (hwf : WellFormed l)
    (hL : l.toList = some L) : ∃ cs, ListRepr l cs ∧ L = pairsOf cs := by
  obtain ⟨cs, hrep⟩ := wf_repr hwf
  refine ⟨cs, hrep, ?_⟩
  have := hrep.toList_eq
  rw [hL] at this
  exact Option.some.inj this

/-- C4: merging a well-formed `list2` into a sorted well-formed `list1` whose
capacity holds the union leaves in `list1` the strictly ascending sequence of the
union of the pairs of both lists (`list2` is only read by the merge). -/
theorem merge_sorted_union (alloc : Nat → Option (List PMMG_lnkdCell))
    (list1 list2 : PMMG_lnkdList) (L1 L2 : List (Int × Int))
    (hwf1 : WellFormed list1) (hwf2 : WellFormed list2)
    (hL1 : list1.toList = some L1) (hL2 : list2.toList = some L2)
    (hs1 : L1.Pairwise pairLt)
    (hcap : (((L1 ++ L2).toFinset.card : Nat) : Int) ≤ list1.nitem_max) :
    ∃ ier l L, PMMG_merge_lnkdList alloc list1 list2 = some (ier, l) ∧
      l.toList = some L ∧ L.Pairwise pairLt ∧ (∀ v, v ∈ L ↔ v ∈ L1 ∨ v ∈ L2) ∧
      WellFormed l := by
  obtain ⟨cs1, hrep1, rfl⟩ := wf_toList hwf1 hL1
  obtain ⟨cs2, hrep2, rfl⟩ := wf_toList hwf2 hL2
  obtain ⟨ier, l, cs, hm, hrep, hs, hmem, _, _⟩ :=
    merge_core alloc list1 list2 cs1 cs2 hrep1 hrep2 hs1 hcap
  exact ⟨ier, l, pairsOf cs, hm, hrep.toList_eq, hs, hmem, repr_wf hrep⟩

/-- Witness of C4: merging `B = {(1,1),(2,2)}` into `A = {(2,2),(3,3)}` leaves
`A = {(1,1),(2,2),(3,3)}`. -/
theorem merge_sorted_union_witness :
    (∃ ier l L,
      PMMG_merge_lnkdList (fun _ => none)
        ⟨2, 4, 0, [⟨2, 2, 0, 1⟩, ⟨3, 3, 1, -1⟩, ⟨0, 0, 0, 0⟩, ⟨0, 0, 0, 0⟩]⟩
        ⟨2, 2, 0, [⟨1, 1, 0, 1⟩, ⟨2, 2, 1, -1⟩]⟩ = some (ier, l) ∧
      l.toList = some L ∧ L.Pairwise pairLt ∧
      (∀ v, v ∈ L ↔ v ∈ [((2 : Int), (2 : Int)), (3, 3)] ∨ v ∈ [((1 : Int), (1 : Int)), (2, 2)]) ∧
      WellFormed l) ∧
    (PMMG_merge_lnkdList (fun _ => none)
        ⟨2, 4, 0, [⟨2, 2, 0, 1⟩, ⟨3, 3, 1, -1⟩, ⟨0, 0, 0, 0⟩, ⟨0, 0, 0, 0⟩]⟩
        ⟨2, 2, 0, [⟨1, 1, 0, 1⟩, ⟨2, 2, 1, -1⟩]⟩).bind (fun r => r.2.toList) =
      some [(1, 1), (2, 2), (3, 3)] :=
  ⟨merge_sorted_union (fun _ => none)
      ⟨2, 4, 0, [⟨2, 2, 0, 1⟩, ⟨3, 3, 1, -1⟩, ⟨0, 0, 0, 0⟩, ⟨0, 0, 0, 0⟩]⟩
      ⟨2, 2, 0, [⟨1, 1, 0, 1⟩, ⟨2, 2, 1, -1⟩]⟩ [(2, 2), (3, 3)] [(1, 1), (2, 2)]
      (by decide) (by decide) (by decide) (by decide) (by decide) (by decide),
    by decide⟩

/-- C5: with sufficient capacity the merge returns 1 exactly when some pair of
`list2` was absent from `list1`, and 2 exactly when every pair of `list2` was
already in `list1` (in particular when `list2` is empty); it returns nothing else. -/
theorem merge_status (alloc : Nat → Option (List PMMG_lnkdCell))
    (list1 list2 : PMMG_lnkdList) (L1 L2 : List (Int × Int))
    (hwf1 : WellFormed list1) (hwf2 : WellFormed list2)
    (hL1 : list1.toList = some L1) (hL2 : list2.toList = some L2)
    (hs1 : L1.Pairwise pairLt)
    (hcap : (((L1 ++ L2).toFinset.card : Nat) : Int) ≤ list1.nitem_max) :
    ∃ ier l, PMMG_merge_lnkdList alloc list1 list2 = some (ier, l) ∧
      (ier = 1 ↔ ∃ v ∈ L2, v ∉ L1) ∧ (ier = 2 ↔ ∀ v ∈ L2, v ∈ L1) ∧
      (L2 = [] → ier = 2) := by
  obtain ⟨cs1, hrep1, rfl⟩ := wf_toList hwf1 hL1
  obtain ⟨cs2, hrep2, rfl⟩ := wf_toList hwf2 hL2
  obtain ⟨ier, l, cs, hm, _, _, _, h12, h1⟩ :=
    merge_core alloc list1 list2 cs1 cs2 hrep1 hrep2 hs1 hcap
  have h2 : ier = 2 ↔ ∀ v ∈ pairsOf cs2, v ∈ pairsOf cs1 := by
    constructor
    · intro h v hv
      by_contra hc
      have := h1.2 ⟨v, hv, hc⟩
      omega
    · intro h
      rcases h12 with h3 | h3
      · obtain ⟨v, hv, hn⟩ := h1.1 h3
        exact absurd (h v hv) hn
      · exact h3
  refine ⟨ier, l, hm, h1, h2, ?_⟩
  intro hnil
  rw [h2, hnil]
  simp

/-- Witness of C5: `(1,1)` of `B` is absent from `A`, the merge returns 1. -/
theorem merge_status_witness :
    ∃ ier l,
      PMMG_merge_lnkdList (fun _ => none)
        ⟨2, 4, 0, [⟨2, 2, 0, 1⟩, ⟨3, 3, 1, -1⟩, ⟨0, 0, 0, 0⟩, ⟨0, 0, 0, 0⟩]⟩
        ⟨2, 2, 0, [⟨1, 1, 0, 1⟩, ⟨2, 2, 1, -1⟩]⟩ = some (ier, l) ∧
      (ier = 1 ↔ ∃ v ∈ [((1 : Int), (1 : Int)), (2, 2)], v ∉ [((2 : Int), (2 : Int)), (3, 3)]) ∧
      (ier = 2 ↔ ∀ v ∈ [((1 : Int), (1 : Int)), (2, 2)], v ∈ [((2 : Int), (2 : Int)), (3, 3)]) ∧
      ([((1 : Int), (1 : Int)), (2, 2)] = [] → ier = 2) :=
  merge_status (fun _ => none)
    ⟨2, 4, 0, [⟨2, 2, 0, 1⟩, ⟨3, 3, 1, -1⟩, ⟨0, 0, 0, 0⟩, ⟨0, 0, 0, 0⟩]⟩
    ⟨2, 2, 0, [⟨1, 1, 0, 1⟩, ⟨2, 2, 1, -1⟩]⟩ [(2, 2), (3, 3)] [(1, 1), (2, 2)]
    (by decide) (by decide) (by decide) (by decide) (by decide) (by decide)

theorem flatPairs_length (L : List (Int × Int)) : (flatPairs L).length = 2 * L.length := by
  induction L with
  | nil => rfl
  | cons p L ih => simp only [flatPairs, List.length_cons, ih]; omega

theorem traverse_length (item : List PMMG_lnkdCell) :
    ∀ (n : Nat) (s : Int) (L : List (Int × Int)), traverse item n s = some L → L.length = n := by
  intro n
  induction n with
  | zero =>
    intro s L h
    simp only [traverse, Option.some.injEq] at h
    subst h
    rfl
  | succ n ih =>
    intro s L h
    simp only [traverse] at h
    cases hc : cellAt item s with
    | none => simp [hc] at h
    | some c =>
      simp only [hc, Option.map_eq_some'] at h
      obtain ⟨rest, hrest, rfl⟩ := h
      simp [ih _ _ hrest]

theorem set_append_at {α : Type} (pre : List α) (x v : α) (rest : List α) :
    (pre ++ x :: rest).set pre.length v = pre ++ v :: rest := by
  induction pre with
  | nil => rfl
  | cons a pre ih => simp only [List.cons_append, List.length_cons, List.set_cons_succ, ih]

theorem setInt_append (pre : List Int) (x v : Int) (rest : List Int) :
    setInt (pre ++ x :: rest) (pre.length : Int) v = some (pre ++ v :: rest) := by
  simp only [setInt, Int.toNat_ofNat, List.length_append, List.length_cons]
  rw [if_pos (by constructor <;> omega), set_append_at]

theorem packLoop_spec (item : List PMMG_lnkdCell) :
    ∀ (n : Nat) (s : Int) (L : List (Int × Int)) (pre rest : List Int),
      traverse item n s = some L → 2 * n ≤ rest.length →
      packLoop item n s (pre.length : Int) (pre ++ rest) =
        some (((pre.length + 2 * n : Nat) : Int), pre ++ flatPairs L ++ rest.drop (2 * n)) := by
  intro n
  induction n with
  | zero =>
    intro s L pre rest h _
    simp only [traverse, Option.some.injEq] at h
    subst h
    simp [packLoop, flatPairs]
  | succ n ih =>
    intro s L pre rest h hlen
    simp only [traverse] at h
    cases hc : cellAt item s with
    | none => simp [hc] at h
    | some c =>
      simp only [hc, Option.map_eq_some'] at h
      obtain ⟨L2, hL2, rfl⟩ := h
      obtain _ | ⟨x, _ | ⟨y, rest2⟩⟩ := rest
      · simp at hlen
      · simp at hlen; omega
      · simp only [List.length_cons] at hlen
        have h1 : setInt (pre ++ x :: y :: rest2) (pre.length : Int) c.val1 =
            some (pre ++ c.val1 :: y :: rest2) := setInt_append _ _ _ _
        have h2 : setInt (pre ++ c.val1 :: y :: rest2) ((pre.length : Int) + 1) c.val2 =
            some ((pre ++ [c.val1]) ++ c.val2 :: rest2) := by
          have := setInt_append (pre ++ [c.val1]) y c.val2 rest2
          simpa using this
        have h3 := ih c.nxt L2 (pre ++ [c.val1, c.val2]) rest2 hL2 (by omega)
        have e1 : (((pre ++ [c.val1, c.val2]).length : Nat) : Int) = (pre.length : Int) + 2 := by
          simp
        rw [e1] at h3
        simp only [packLoop, hc, h1, h2]
        have e2 : (pre ++ [c.val1]) ++ c.val2 :: rest2 = (pre ++ [c.val1, c.val2]) ++ rest2 := by
          simp
        rw [e2, h3]
        simp only [List.length_append, List.length_cons, List.length_nil, flatPairs,
          Option.some.injEq, Prod.mk.injEq]
        refine ⟨by push_cast; omega, ?_⟩
        have e3 : 2 * (n + 1) = (2 * n) + 1 + 1 := by omega
        rw [e3]
        simp

theorem pack_spec (l : PMMG_lnkdList) (L : List (Int × Int)) (x : Int) (rest : List Int)
    (hL : l.toList = some L) (hn : 0 ≤ l.nitem) (hlen : 2 * l.nitem ≤ (rest.length : Int)) :
    PMMG_packInArray_lnkdList l (x :: rest) =
      some (2 * l.nitem + 1, l.nitem :: flatPairs L ++ rest.drop (2 * l.nitem.toNat)) := by
  have h0 : setInt (x :: rest) 0 l.nitem = some ([l.nitem] ++ rest) := by
    simp [setInt]
  have h1 := packLoop_spec l.item l.nitem.toNat l.frst L [l.nitem] rest hL (by omega)
  simp only [PMMG_packInArray_lnkdList, h0]
  have e : (([l.nitem].length : Nat) : Int) = 1 := rfl
  rw [e] at h1
  rw [h1]
  simp only [List.length_cons, List.length_nil, Option.some.injEq, Prod.mk.injEq]
  refine ⟨by push_cast; omega, by simp⟩

theorem getElem?_append_at {α : Type} (pre : List α) (x : α) (rest : List α) :
    (pre ++ x :: rest)[pre.length]? = some x := by
  rw [List.getElem?_append_right (le_refl _)]
  simp

theorem cellAt_append (done : List PMMG_lnkdCell) (c : PMMG_lnkdCell)
    (rest : List PMMG_lnkdCell) : cellAt (done ++ c :: rest) (done.length : Int) = some c := by
  rw [cellAt_natCast]
  exact getElem?_append_at _ _ _

theorem getInt_append (pre : List Int) (x : Int) (rest : List Int) :
    getInt (pre ++ x :: rest) (pre.length : Int) = some x := by
  unfold getInt
  rw [if_neg (by omega), Int.toNat_ofNat]
  exact getElem?_append_at _ _ _

theorem setCell_append (done : List PMMG_lnkdCell) (t c : PMMG_lnkdCell)
    (todo : List PMMG_lnkdCell) :
    setCell (done ++ t :: todo) (done.length : Int) c = some (done ++ c :: todo) := by
  simp only [setCell, Int.toNat_ofNat, List.length_append, List.length_cons]
  rw [if_pos (by constructor <;> omega), set_append_at]

theorem cellsOf_length (L : List (Int × Int)) : ∀ k, (cellsOf k L).length = L.length := by
  induction L with
  | nil => intro k; rfl
  | cons p L ih => intro k; simp [cellsOf, ih]

theorem cellsOf_append (A : List (Int × Int)) (p : Int × Int) :
    ∀ k, cellsOf k (A ++ [p]) =
      cellsOf k A ++ [⟨p.1, p.2, ((k + A.length : Nat) : Int), ((k + A.length : Nat) : Int) + 1⟩] := by
  induction A with
  | nil => intro k; simp [cellsOf]
  | cons a A ih =>
    intro k
    have e : k + 1 + A.length = k + (A.length + 1) := by omega
    rw [List.cons_append]
    simp only [cellsOf, ih (k + 1), List.length_cons, List.cons_append, e]

theorem unpackLoop_spec :
    ∀ (L : List (Int × Int)) (apre atail : List Int) (done todo : List PMMG_lnkdCell)
      (cell : Option Int), L.length ≤ todo.length →
      unpackLoop (apre ++ flatPairs L ++ atail) L.length (done.length : Int) (apre.length : Int)
          (done ++ todo) cell =
        some (((apre.length + 2 * L.length : Nat) : Int),
          done ++ cellsOf done.length L ++ todo.drop L.length,
          if L = [] then cell else some (((done.length + L.length - 1 : Nat) : Int))) := by
  intro L
  induction L with
  | nil =>
    intro apre atail done todo cell _
    simp [unpackLoop, cellsOf]
  | cons p L ih =>
    intro apre atail done todo cell hlen
    obtain _ | ⟨t, todo2⟩ := todo
    · simp at hlen
    · simp only [List.length_cons] at hlen
      have g1 : getInt (apre ++ flatPairs (p :: L) ++ atail) (apre.length : Int) = some p.1 := by
        have := getInt_append apre p.1 (p.2 :: flatPairs L ++ atail)
        simpa [flatPairs] using this
      have g2 : getInt (apre ++ flatPairs (p :: L) ++ atail) ((apre.length : Int) + 1) =
          some p.2 := by
        have := getInt_append (apre ++ [p.1]) p.2 (flatPairs L ++ atail)
        simpa [flatPairs] using this
      have s1 := setCell_append done t ⟨p.1, p.2, (done.length : Int), (done.length : Int) + 1⟩ todo2
      have h3 := ih (apre ++ [p.1, p.2]) atail
        (done ++ [⟨p.1, p.2, (done.length : Int), (done.length : Int) + 1⟩]) todo2
        (some (done.length : Int)) (by omega)
      have e0 : apre ++ [p.1, p.2] ++ flatPairs L ++ atail = apre ++ flatPairs (p :: L) ++ atail := by
        simp [flatPairs]
      have e1 : (((apre ++ [p.1, p.2]).length : Nat) : Int) = (apre.length : Int) + 2 := by simp
      have e2 : (((done ++ [(⟨p.1, p.2, (done.length : Int), (done.length : Int) + 1⟩ :
          PMMG_lnkdCell)]).length : Nat) : Int) = (done.length : Int) + 1 := by simp
      have e3 : done ++ [(⟨p.1, p.2, (done.length : Int), (done.length : Int) + 1⟩ :
          PMMG_lnkdCell)] ++ todo2 =
          done ++ ⟨p.1, p.2, (done.length : Int), (done.length : Int) + 1⟩ :: todo2 := by simp
      rw [e0, e1, e2, e3] at h3
      simp only [List.length_cons, unpackLoop, g1, g2, s1, h3, Option.some.injEq, Prod.mk.injEq]
      refine ⟨by simp only [List.length_append, List.length_cons, List.length_nil]; push_cast; omega,
        by simp [cellsOf], ?_⟩
      by_cases hL : L = []
      · subst hL
        simp
      · have hpos : 0 < L.length := List.length_pos.2 hL
        simp only [hL, if_false, List.length_append, List.length_cons, List.length_nil,
          reduceCtorEq, Option.some.injEq]
        congr 1
        omega

theorem traverse_cells (A : List (Int × Int)) :
    ∀ (done : List PMMG_lnkdCell) (c : PMMG_lnkdCell) (rest : List PMMG_lnkdCell),
      traverse (done ++ cellsOf done.length A ++ c :: rest) (A.length + 1) (done.length : Int) =
        some (A ++ [pairOf c]) := by
  induction A with
  | nil =>
    intro done c rest
    have := cellAt_append done c rest
    simp only [cellsOf, List.append_nil, List.length_nil, traverse, this]
    simp [pairOf]
  | cons a A ih =>
    intro done c rest
    have h := ih (done ++ [⟨a.1, a.2, (done.length : Int), (done.length : Int) + 1⟩]) c rest
    have e1 : (done ++ [(⟨a.1, a.2, (done.length : Int), (done.length : Int) + 1⟩ :
        PMMG_lnkdCell)]).length = done.length + 1 := by simp
    rw [e1] at h
    have e2 : done ++ [(⟨a.1, a.2, (done.length : Int), (done.length : Int) + 1⟩ :
        PMMG_lnkdCell)] ++ cellsOf (done.length + 1) A ++ c :: rest =
        done ++ cellsOf done.length (a :: A) ++ c :: rest := by simp [cellsOf]
    rw [e2] at h
    have hcell : cellAt (done ++ cellsOf done.length (a :: A) ++ c :: rest) (done.length : Int) =
        some ⟨a.1, a.2, (done.length : Int), (done.length : Int) + 1⟩ := by
      have := cellAt_append done ⟨a.1, a.2, (done.length : Int), (done.length : Int) + 1⟩
        (cellsOf (done.length + 1) A ++ c :: rest)
      simpa [cellsOf] using this
    rw [show (a :: A).length + 1 = (A.length + 1) + 1 from rfl]
    push_cast at h
    generalize A.length + 1 = m at h ⊢
    simp only [traverse, hcell, h]
    simp

theorem unpack_spec (fresh : Option (List PMMG_lnkdCell)) (target : PMMG_lnkdList)
    (L : List (Int × Int)) (atail : List Int) (hne : L ≠ [])
    (hcap : (L.length : Int) < target.nitem_max) (harena : L.length ≤ target.item.length) :
    ∃ l2, PMMG_unpackArray_inLnkdList fresh target ((L.length : Int) :: flatPairs L ++ atail) =
        some (2 * (L.length : Int) + 1, l2) ∧
      l2.nitem = (L.length : Int) ∧ l2.nitem_max = target.nitem_max ∧ l2.frst = 0 ∧
      l2.toList = some L := by
  rcases List.eq_nil_or_concat L with h | ⟨A, p, hA⟩
  · exact absurd h hne
  · rw [List.concat_eq_append] at hA
    have hcap2 : ¬ (L.length : Int) ≥ target.nitem_max := by omega
    have hloop := unpackLoop_spec L [(L.length : Int)] atail [] target.item none harena
    simp only [List.length_nil, List.nil_append, List.length_cons, if_neg hne,
      List.singleton_append, List.cons_append] at hloop
    have hitem : cellsOf 0 L ++ List.drop L.length target.item =
        cellsOf 0 A ++ ⟨p.1, p.2, (A.length : Int), (A.length : Int) + 1⟩ ::
          List.drop L.length target.item := by
      rw [hA, cellsOf_append]
      simp
    have hlast : (((0 + L.length - 1 : Nat) : Nat) : Int) = ((cellsOf 0 A).length : Int) := by
      rw [cellsOf_length, hA]
      simp
    have hcell := cellAt_append (cellsOf 0 A)
      ⟨p.1, p.2, (A.length : Int), (A.length : Int) + 1⟩ (List.drop L.length target.item)
    refine ⟨⟨(L.length : Int), target.nitem_max, 0,
        cellsOf 0 A ++ ⟨p.1, p.2, (A.length : Int), -1⟩ ::
          List.drop L.length target.item⟩, ?_, rfl, rfl, rfl, ?_⟩
    · have g0 : getInt ((L.length : Int) :: (flatPairs L ++ atail)) 0 = some (L.length : Int) := by
        simp [getInt]
      simp only [PMMG_unpackArray_inLnkdList, List.cons_append, g0, if_neg hcap2,
        Int.toNat_ofNat]
      have hloop2 : unpackLoop ((L.length : Int) :: (flatPairs L ++ atail)) L.length 0 1
          target.item none = some (((1 + 2 * L.length : Nat) : Int),
            cellsOf 0 L ++ List.drop L.length target.item,
            some (((0 + L.length - 1 : Nat) : Int))) := by
        have := hloop
        simpa using this
      rw [hloop2, hitem, hlast]
      simp only [hcell, Int.toNat_ofNat, set_append_at, Option.some.injEq, Prod.mk.injEq,
        and_true]
      push_cast
      omega
    · have := traverse_cells A [] ⟨p.1, p.2, (A.length : Int), -1⟩
        (List.drop L.length target.item)
      simp only [List.length_nil, List.nil_append] at this
      show traverse _ (L.length : Int).toNat 0 = some L
      rw [Int.toNat_ofNat, hA, List.length_append, List.length_singleton]
      rw [hA] at this
      simpa [pairOf] using this

theorem pack_unpack_core (fresh : Option (List PMMG_lnkdCell)) (l target : PMMG_lnkdList)
    (L : List (Int × Int)) (x : Int) (rest : List Int) (hL : l.toList = some L)
    (hne : 0 < l.nitem) (hbuf : 2 * l.nitem ≤ (rest.length : Int))
    (hcap : l.nitem < target.nitem_max) (harena : target.nitem_max ≤ (target.item.length : Int)) :
    ∃ array l2, PMMG_packInArray_lnkdList l (x :: rest) = some (2 * l.nitem + 1, array) ∧
      PMMG_unpackArray_inLnkdList fresh target array = some (2 * l.nitem + 1, l2) ∧
      l2.nitem = l.nitem ∧ l2.toList = some L ∧
      PMMG_packInArray_lnkdList l2 array = some (2 * l.nitem + 1, array) := by
  have hlen : L.length = l.nitem.toNat := traverse_length _ _ _ _ hL
  have hn : l.nitem = (L.length : Int) := by omega
  have hLne : L ≠ [] := by
    intro h
    rw [h] at hn
    simp at hn
    omega
  have hpack := pack_spec l L x rest hL (by omega) hbuf
  obtain ⟨l2, hun, hn2, _, _, hL2⟩ := unpack_spec fresh target L
    (rest.drop (2 * l.nitem.toNat)) hLne (by omega) (by omega)
  refine ⟨_, l2, hpack, ?_, by rw [hn2, hn], hL2, ?_⟩
  · rw [← hlen] at hun
    rw [hn, Int.toNat_ofNat]
    exact hun
  · have hp2 := pack_spec l2 L l.nitem (flatPairs L ++ rest.drop (2 * l.nitem.toNat)) hL2
      (by omega) (by
        rw [hn2]
        simp only [List.length_append, flatPairs_length]
        push_cast
        omega)
    rw [hn2, ← hn] at hp2
    have e : List.drop (2 * l.nitem.toNat) (flatPairs L ++ List.drop (2 * l.nitem.toNat) rest) =
        List.drop (2 * l.nitem.toNat) rest := by
      rw [List.drop_append_of_le_length (by rw [flatPairs_length]; omega)]
      rw [List.drop_of_length_le (by rw [flatPairs_length]; omega)]
      rfl
    have e2 : (l.nitem :: flatPairs L ++ List.drop (2 * l.nitem.toNat) rest) =
        l.nitem :: (flatPairs L ++ List.drop (2 * l.nitem.toNat) rest) := rfl
    rw [e2, hp2, e]
    rfl

/-- C6: round trip of the wire format.  For a non-empty well-formed list, the array
written by `PMMG_packInArray_lnkdList`, unpacked into a list whose capacity exceeds
`nitem`, gives a list with the same `nitem` and the same traversal, and packing that
list again reproduces the array entry for entry. -/
theorem pack_unpack_roundtrip (fresh : Option (List PMMG_lnkdCell)) (l target : PMMG_lnkdList)
    (x : Int) (rest : List Int) (hwf : WellFormed l)
    (hne : 0 < l.nitem) (hbuf : 2 * l.nitem ≤ (rest.length : Int))
    (hcap : l.nitem < target.nitem_max) (harena : target.nitem_max ≤ (target.item.length : Int)) :
    ∃ L array l2, l.toList = some L ∧
      PMMG_packInArray_lnkdList l (x :: rest) = some (2 * l.nitem + 1, array) ∧
      PMMG_unpackArray_inLnkdList fresh target array = some (2 * l.nitem + 1, l2) ∧
      l2.nitem = l.nitem ∧ l2.toList = some L ∧
      PMMG_packInArray_lnkdList l2 array = some (2 * l.nitem + 1, array) := by
  obtain ⟨cs, hrep⟩ := wf_repr hwf
  obtain ⟨array, l2, h1, h2, h3, h4, h5⟩ :=
    pack_unpack_core fresh l target (pairsOf cs) x rest hrep.toList_eq hne hbuf hcap harena
  exact ⟨pairsOf cs, array, l2, hrep.toList_eq, h1, h2, h3, h4, h5⟩

/-- Witness of C6: the list `(3,1),(5,2)` stored in arena order `(5,2),(3,1)`. -/
theorem pack_unpack_roundtrip_witness :
    ∃ L array l2,
      (⟨2, 3, 1, [⟨5, 2, 0, -1⟩, ⟨3, 1, 1, 0⟩, ⟨0, 0, 0, 0⟩]⟩ : PMMG_lnkdList).toList = some L ∧
      PMMG_packInArray_lnkdList ⟨2, 3, 1, [⟨5, 2, 0, -1⟩, ⟨3, 1, 1, 0⟩, ⟨0, 0, 0, 0⟩]⟩
        (9 :: [9, 9, 9, 9, 9]) = some (2 * 2 + 1, array) ∧
      PMMG_unpackArray_inLnkdList none
        ⟨0, 3, -1, [⟨0, 0, 0, 0⟩, ⟨0, 0, 0, 0⟩, ⟨0, 0, 0, 0⟩]⟩ array = some (2 * 2 + 1, l2) ∧
      l2.nitem = 2 ∧ l2.toList = some L ∧
      PMMG_packInArray_lnkdList l2 array = some (2 * 2 + 1, array) :=
  pack_unpack_roundtrip none ⟨2, 3, 1, [⟨5, 2, 0, -1⟩, ⟨3, 1, 1, 0⟩, ⟨0, 0, 0, 0⟩]⟩
    ⟨0, 3, -1, [⟨0, 0, 0, 0⟩, ⟨0, 0, 0, 0⟩, ⟨0, 0, 0, 0⟩]⟩ 9 [9, 9, 9, 9, 9]
    (by decide) (by decide) (by decide) (by decide) (by decide)

/-! ## Array loops -/

theorem getD_set_ne (a : List Int) (i j : Nat) (v : Int) (h : i ≠ j) :
    (a.set i v).getD j 0 = a.getD j 0 := by
  simp only [List.getD_eq_getElem?_getD, List.getElem?_set_ne h]

theorem getD_set_self (a : List Int) (i : Nat) (v : Int) (h : i < a.length) :
    (a.set i v).getD i 0 = v := by
  simp only [List.getD_eq_getElem?_getD, List.getElem?_set_self h, Option.getD_some]

theorem foldl_keep {β : Type} (F : β → List Int → List Int) (P : List Int → Prop) :
    ∀ (l : List β) (a : List Int), P a → (∀ x ∈ l, ∀ b, P b → P (F x b)) →
      P (l.foldl (fun b x => F x b) a) := by
  intro l
  induction l with
  | nil => intro a ha _; exact ha
  | cons x l ih =>
    intro a ha h
    exact ih (F x a) (h x (List.mem_cons_self _ _) a ha)
      (fun y hy b hb => h y (List.mem_cons_of_mem _ hy) b hb)

theorem foldl_length {β : Type} (F : β → List Int → List Int) (l : List β) (a : List Int)
    (h : ∀ x ∈ l, ∀ b, (F x b).length = b.length) :
    (l.foldl (fun b x => F x b) a).length = a.length :=
  foldl_keep F (fun b => b.length = a.length) l a rfl (fun x hx b hb => by show (F x b).length = a.length; rw [h x hx b]; exact hb)

theorem foldl_getD_unchanged {β : Type} (F : β → List Int → List Int) (j : Nat) (l : List β)
    (a : List Int) (h : ∀ x ∈ l, ∀ b, (F x b).getD j 0 = b.getD j 0) :
    (l.foldl (fun b x => F x b) a).getD j 0 = a.getD j 0 :=
  foldl_keep F (fun b => b.getD j 0 = a.getD j 0) l a rfl
    (fun x hx b hb => by show (F x b).getD j 0 = a.getD j 0; rw [h x hx b]; exact hb)

theorem foldl_getD_last {β : Type} (F : β → List Int → List Int) (j n : Nat) (v : Int)
    (A : List β) (x : β) (B : List β) (a : List Int) (ha : a.length = n)
    (hlen : ∀ y ∈ A, ∀ b, (F y b).length = b.length)
    (hx : ∀ b, b.length = n → (F x b).getD j 0 = v)
    (hB : ∀ y ∈ B, ∀ b, (F y b).getD j 0 = b.getD j 0) :
    ((A ++ x :: B).foldl (fun b y => F y b) a).getD j 0 = v := by
  rw [List.foldl_append, List.foldl_cons, foldl_getD_unchanged F j B _ hB]
  apply hx
  rw [foldl_length F A a hlen, ha]

/-- A loop of writes `a[i x] = v x` guarded by `c x`: an entry that is written, and
always with the same value, holds this value at the end. -/
theorem foldl_set_const {β : Type} (c : β → Prop) [DecidablePred c] (i : β → Nat) (v : β → Int)
    (j : Nat) (v0 : Int) :
    ∀ (l : List β) (a : List Int), j < a.length → (∃ x ∈ l, c x ∧ i x = j) →
      (∀ x ∈ l, c x → i x = j → v x = v0) →
      (l.foldl (fun b x => if c x then b.set (i x) (v x) else b) a).getD j 0 = v0 := by
  intro l
  induction l with
  | nil => intro a _ h _; obtain ⟨x, hx, _⟩ := h; cases hx
  | cons y l ih =>
    intro a hj hex hall
    simp only [List.foldl_cons]
    by_cases hlater : ∃ x ∈ l, c x ∧ i x = j
    · refine ih _ ?_ hlater (fun x hx => hall x (List.mem_cons_of_mem _ hx))
      split
      · rw [List.length_set]; exact hj
      · exact hj
    · have hy : c y ∧ i y = j := by
        obtain ⟨x, hx, hcx⟩ := hex
        rcases List.mem_cons.1 hx with rfl | hx
        · exact hcx
        · exact absurd ⟨x, hx, hcx⟩ hlater
      have hun := foldl_getD_unchanged (fun x b => if c x then b.set (i x) (v x) else b) j l
        (if c y then a.set (i y) (v y) else a) (by
          intro x hx b
          by_cases hc : c x
          · have hne : i x ≠ j := fun h => hlater ⟨x, hx, hc, h⟩
            simp only [if_pos hc, getD_set_ne _ _ _ _ hne]
          · simp only [if_neg hc])
      rw [hun, if_pos hy.1, hy.2, getD_set_self _ _ _ hj]
      exact hall y (List.mem_cons_self _ _) hy.1 hy.2

theorem foldl_set_untouched {β : Type} (c : β → Prop) [DecidablePred c] (i : β → Nat)
    (v : β → Int) (j : Nat) (l : List β) (a : List Int) (h : ∀ x ∈ l, c x → i x ≠ j) :
    (l.foldl (fun b x => if c x then b.set (i x) (v x) else b) a).getD j 0 = a.getD j 0 := by
  refine foldl_getD_unchanged (fun x b => if c x then b.set (i x) (v x) else b) j l a ?_
  intro x hx b
  by_cases hc : c x
  · simp only [if_pos hc, getD_set_ne _ _ _ _ (h x hx hc)]
  · simp only [if_neg hc]

theorem foldl_set_length {β : Type} (c : β → Prop) [DecidablePred c] (i : β → Nat)
    (v : β → Int) (l : List β) (a : List Int) :
    (l.foldl (fun b x => if c x then b.set (i x) (v x) else b) a).length = a.length := by
  refine foldl_length (fun x b => if c x then b.set (i x) (v x) else b) l a ?_
  intro x _ b
  by_cases hc : c x
  · simp only [if_pos hc, List.length_set]
  · simp only [if_neg hc]

theorem allSome_map {α β : Type} (f : α → Option β) (g : α → β) :
    ∀ (l : List α), (∀ x ∈ l, f x = some (g x)) → allSome (l.map f) = some (l.map g) := by
  intro l
  induction l with
  | nil => intro _; rfl
  | cons a l ih =>
    intro h
    simp only [List.map_cons, h a (List.mem_cons_self _ _), allSome,
      ih (fun x hx => h x (List.mem_cons_of_mem _ hx)), Option.map_some']

theorem foldl_set_const' {β : Type} (i : β → Nat) (v : β → Int) (j : Nat) (v0 : Int)
    (l : List β) (a : List Int) (hj : j < a.length) (hex : ∃ x ∈ l, i x = j)
    (hall : ∀ x ∈ l, i x = j → v x = v0) :
    (l.foldl (fun b x => b.set (i x) (v x)) a).getD j 0 = v0 := by
  have := foldl_set_const (fun _ => True) i v j v0 l a hj
    (by obtain ⟨x, hx, h⟩ := hex; exact ⟨x, hx, trivial, h⟩) (fun x hx _ h => hall x hx h)
  simpa using this

theorem foldl_set_untouched' {β : Type} (i : β → Nat) (v : β → Int) (j : Nat) (l : List β)
    (a : List Int) (h : ∀ x ∈ l, i x ≠ j) :
    (l.foldl (fun b x => b.set (i x) (v x)) a).getD j 0 = a.getD j 0 := by
  have := foldl_set_untouched (fun _ => True) i v j l a (fun x hx _ => h x hx)
  simpa using this

theorem foldl_set_length' {β : Type} (i : β → Nat) (v : β → Int) (l : List β) (a : List Int) :
    (l.foldl (fun b x => b.set (i x) (v x)) a).length = a.length := by
  have := foldl_set_length (fun _ => True) i v l a
  simpa using this

theorem nodup_map_index {α β : Type} (f : α → β) (l : List α) (h : (l.map f).Nodup)
    (i j : Nat) (a b : α) (hi : l[i]? = some a) (hj : l[j]? = some b) (hab : f a = f b) :
    i = j := by
  obtain ⟨hi1, hi2⟩ := List.getElem?_eq_some.1 hi
  obtain ⟨hj1, hj2⟩ := List.getElem?_eq_some.1 hj
  have hi3 : i < (l.map f).length := by simpa using hi1
  have hj3 : j < (l.map f).length := by simpa using hj1
  have : (l.map f)[i] = (l.map f)[j] := by
    simp only [List.getElem_map, hi2, hj2, hab]
  exact (List.Nodup.getElem_inj_iff h).1 this

theorem getD_replicate_unset (n q : Nat) (h : q < n) :
    (List.replicate n PMMG_UNSET).getD q 0 = PMMG_UNSET := by
  simp [List.getD_eq_getElem?_getD, List.getElem?_replicate, h]

theorem iproc2comm_found (pm : NodeParMesh) (hok : LocalOK pm) (i : Nat) (c : PMMG_Ext_comm)
    (hc : pm.ext_node_comm[i]? = some c) :
    (build_iproc2comm pm).getD c.color_out 0 = (i : Int) := by
  obtain ⟨_, _, _, _, _, _, _, _, _, hnd, hext⟩ := hok
  have hmem : c ∈ pm.ext_node_comm := List.mem_iff_getElem?.2 ⟨i, hc⟩
  refine foldl_set_const' (fun ic : Nat × PMMG_Ext_comm => ic.2.color_out)
    (fun ic => (ic.1 : Int)) c.color_out (i : Int) pm.ext_node_comm.enum _ ?_ ?_ ?_
  · simpa using (hext c hmem).1
  · exact ⟨(i, c), List.mk_mem_enum_iff_getElem?.2 hc, rfl⟩
  · intro x hx hcol
    have hx2 : pm.ext_node_comm[x.1]? = some x.2 := List.mk_mem_enum_iff_getElem?.1 hx
    have := nodup_map_index PMMG_Ext_comm.color_out pm.ext_node_comm hnd x.1 i x.2 c hx2 hc hcol
    simp [this]

theorem iproc2comm_unset (pm : NodeParMesh) (q : Nat) (hq : q < pm.nprocs)
    (hno : ∀ c ∈ pm.ext_node_comm, c.color_out ≠ q) :
    (build_iproc2comm pm).getD q 0 = PMMG_UNSET := by
  unfold build_iproc2comm
  rw [foldl_set_untouched' (fun ic : Nat × PMMG_Ext_comm => ic.2.color_out)
    (fun ic => (ic.1 : Int)) q pm.ext_node_comm.enum _ ?_]
  · exact getD_replicate_unset _ _ hq
  · intro x hx
    have hx2 : pm.ext_node_comm[x.1]? = some x.2 := List.mk_mem_enum_iff_getElem?.1 hx
    exact hno x.2 (List.mem_iff_getElem?.2 ⟨x.1, hx2⟩)

theorem procStep_found (pm : NodeParMesh) (hok : LocalOK pm)
    (body : Nat → PMMG_Ext_comm → List Int → List Int) (i : Nat) (c : PMMG_Ext_comm)
    (hc : pm.ext_node_comm[i]? = some c) (iv : List Int) :
    procStep pm (build_iproc2comm pm) body c.color_out iv = body i c iv := by
  have h1 := iproc2comm_found pm hok i c hc
  have h2 : ((i : Int) = PMMG_UNSET) = False := by
    simp only [PMMG_UNSET, eq_iff_iff, iff_false]
    omega
  simp only [procStep, h1, h2, if_false, Int.toNat_ofNat, hc]

theorem procStep_unset (pm : NodeParMesh)
    (body : Nat → PMMG_Ext_comm → List Int → List Int) (q : Nat) (hq : q < pm.nprocs)
    (hno : ∀ c ∈ pm.ext_node_comm, c.color_out ≠ q) (iv : List Int) :
    procStep pm (build_iproc2comm pm) body q iv = iv := by
  simp only [procStep, iproc2comm_unset pm q hq hno, if_true]

/-- Effect of a loop over the ranks on one entry `idx`: the value is the one given
by the body for the neighbour `c` when no neighbour of higher rank in the loop
touches the entry. -/
theorem forProcs_last (pm : NodeParMesh) (hok : LocalOK pm)
    (body : Nat → PMMG_Ext_comm → List Int → List Int) (start len n idx : Nat) (v : Int)
    (iv : List Int) (hiv : iv.length = n) (hend : start + len ≤ pm.nprocs)
    (i : Nat) (c : PMMG_Ext_comm) (hc : pm.ext_node_comm[i]? = some c)
    (hin : start ≤ c.color_out ∧ c.color_out < start + len)
    (hlen : ∀ k d b, (body k d b).length = b.length)
    (hval : ∀ b, b.length = n → (body i c b).getD idx 0 = v)
    (hlater : ∀ k d, pm.ext_node_comm[k]? = some d → c.color_out < d.color_out →
      ∀ b, (body k d b).getD idx 0 = b.getD idx 0) :
    (forProcs pm (build_iproc2comm pm) (List.range' start len) body iv).getD idx 0 = v := by
  have hsplit : List.range' start len =
      List.range' start (c.color_out - start) ++
        c.color_out :: List.range' (c.color_out + 1) (start + len - (c.color_out + 1)) := by
    have h1 := List.range'_append start (c.color_out - start)
      (start + len - c.color_out) 1
    have h2 : start + len - c.color_out = (start + len - (c.color_out + 1)) + 1 := by omega
    have h3 : start + 1 * (c.color_out - start) = c.color_out := by omega
    have h4 : start + len - c.color_out + (c.color_out - start) = len := by omega
    rw [h3, h4] at h1
    rw [← h1, h2, List.range'_succ]
  have hstep_len : ∀ q b, (procStep pm (build_iproc2comm pm) body q b).length = b.length := by
    intro q b
    unfold procStep
    simp only []
    split
    · rfl
    · split
      · rfl
      · exact hlen _ _ _
  unfold forProcs
  rw [hsplit]
  refine foldl_getD_last (fun q b => procStep pm (build_iproc2comm pm) body q b) idx n v _ _ _ iv
    hiv (fun y _ b => hstep_len y b) ?_ ?_
  · intro b hb
    show (procStep pm (build_iproc2comm pm) body c.color_out b).getD idx 0 = v
    rw [procStep_found pm hok body i c hc b]
    exact hval b hb
  · intro y hy b
    show (procStep pm (build_iproc2comm pm) body y b).getD idx 0 = b.getD idx 0
    have hy2 := List.mem_range'_1.1 hy
    by_cases hex : ∃ d ∈ pm.ext_node_comm, d.color_out = y
    · obtain ⟨d, hd, hdy⟩ := hex
      obtain ⟨k, hk⟩ := List.mem_iff_getElem?.1 hd
      rw [← hdy, procStep_found pm hok body k d hk b]
      exact hlater k d hk (by omega) b
    · rw [procStep_unset pm body y (by omega) (fun d hd hdy => hex ⟨d, hd, hdy⟩) b]

theorem forProcs_untouched (pm : NodeParMesh) (hok : LocalOK pm)
    (body : Nat → PMMG_Ext_comm → List Int → List Int) (start len idx : Nat)
    (iv : List Int) (hend : start + len ≤ pm.nprocs)
    (hno : ∀ k d, pm.ext_node_comm[k]? = some d → start ≤ d.color_out →
      ∀ b, (body k d b).getD idx 0 = b.getD idx 0) :
    (forProcs pm (build_iproc2comm pm) (List.range' start len) body iv).getD idx 0 =
      iv.getD idx 0 := by
  unfold forProcs
  refine foldl_getD_unchanged (fun q b => procStep pm (build_iproc2comm pm) body q b) idx _ iv ?_
  intro y hy b
  show (procStep pm (build_iproc2comm pm) body y b).getD idx 0 = b.getD idx 0
  have hy2 := List.mem_range'_1.1 hy
  by_cases hex : ∃ d ∈ pm.ext_node_comm, d.color_out = y
  · obtain ⟨d, hd, hdy⟩ := hex
    obtain ⟨k, hk⟩ := List.mem_iff_getElem?.1 hd
    rw [← hdy, procStep_found pm hok body k d hk b]
    exact hno k d hk (by omega) b
  · rw [procStep_unset pm body y (by omega) (fun d hd hdy => hex ⟨d, hd, hdy⟩) b]

theorem forProcs_length (pm : NodeParMesh) (i2c : List Int)
    (body : Nat → PMMG_Ext_comm → List Int → List Int) (iprocs : List Nat) (iv : List Int)
    (hlen : ∀ k d b, (body k d b).length = b.length) :
    (forProcs pm i2c iprocs body iv).length = iv.length := by
  unfold forProcs
  refine foldl_length (fun q b => procStep pm i2c body q b) iprocs iv ?_
  intro q _ b
  show (procStep pm i2c body q b).length = b.length
  unfold procStep
  simp only []
  split
  · rfl
  · split
    · rfl
    · exact hlen _ _ _

theorem exists_top {α : Type} (f : α → Nat) (P : α → Prop) :
    ∀ (l : List α), (∃ c ∈ l, P c) → ∃ c ∈ l, P c ∧ ∀ d ∈ l, P d → f d ≤ f c := by
  intro l
  induction l with
  | nil => rintro ⟨c, hc, _⟩; cases hc
  | cons a l ih =>
    intro hex
    by_cases hl : ∃ c ∈ l, P c
    · obtain ⟨c, hc, hPc, hmax⟩ := ih hl
      by_cases ha : P a ∧ f c < f a
      · refine ⟨a, List.mem_cons_self _ _, ha.1, ?_⟩
        intro d hd hPd
        rcases List.mem_cons.1 hd with rfl | hd
        · exact le_refl _
        · exact le_trans (hmax d hd hPd) (le_of_lt ha.2)
      · refine ⟨c, List.mem_cons_of_mem _ hc, hPc, ?_⟩
        intro d hd hPd
        rcases List.mem_cons.1 hd with rfl | hd
        · by_contra hlt
          exact ha ⟨hPd, by omega⟩
        · exact hmax d hd hPd
    · obtain ⟨c, hc, hPc⟩ := hex
      rcases List.mem_cons.1 hc with rfl | hc
      · refine ⟨c, List.mem_cons_self _ _, hPc, ?_⟩
        intro d hd hPd
        rcases List.mem_cons.1 hd with rfl | hd
        · exact le_refl _
        · exact absurd ⟨d, hd, hPd⟩ hl
      · exact absurd ⟨c, hc, hPc⟩ hl

theorem zip_fst_unique {α β : Type} :
    ∀ (l1 : List α) (l2 : List β), l1.Nodup → ∀ a b b2, (a, b) ∈ l1.zip l2 →
      (a, b2) ∈ l1.zip l2 → b = b2 := by
  intro l1
  induction l1 with
  | nil => intro l2 _ a b b2 h; simp at h
  | cons x l1 ih =>
    intro l2 hnd a b b2 h1 h2
    cases l2 with
    | nil => simp at h1
    | cons y l2 =>
      simp only [List.zip_cons_cons, List.mem_cons, Prod.mk.injEq] at h1 h2
      have hx := (List.nodup_cons.1 hnd).1
      rcases h1 with ⟨rfl, rfl⟩ | h1
      · rcases h2 with ⟨_, rfl⟩ | h2
        · rfl
        · exact absurd (List.of_mem_zip h2).1 hx
      · rcases h2 with ⟨rfl, rfl⟩ | h2
        · exact absurd (List.of_mem_zip h1).1 hx
        · exact ih l2 (List.nodup_cons.1 hnd).2 a b b2 h1 h2

theorem zip_snd_unique {α β : Type} :
    ∀ (l1 : List α) (l2 : List β), l2.Nodup → ∀ a a2 b, (a, b) ∈ l1.zip l2 →
      (a2, b) ∈ l1.zip l2 → a = a2 := by
  intro l1
  induction l1 with
  | nil => intro l2 _ a a2 b h; simp at h
  | cons x l1 ih =>
    intro l2 hnd a a2 b h1 h2
    cases l2 with
    | nil => simp at h1
    | cons y l2 =>
      simp only [List.zip_cons_cons, List.mem_cons, Prod.mk.injEq] at h1 h2
      have hy := (List.nodup_cons.1 hnd).1
      rcases h1 with ⟨rfl, rfl⟩ | h1
      · rcases h2 with ⟨rfl, _⟩ | h2
        · rfl
        · exact absurd (List.of_mem_zip h2).2 hy
      · rcases h2 with ⟨rfl, rfl⟩ | h2
        · exact absurd (List.of_mem_zip h1).2 hy
        · exact ih l2 (List.nodup_cons.1 hnd).2 a a2 b h1 h2

theorem markOwners_length (pm : NodeParMesh) :
    (markOwners pm).length = pm.intvalues.length := by
  unfold markOwners
  exact forProcs_length pm _ _ _ _ (fun k d b => foldl_set_length' _ _ _ _)

theorem markOwners_spec (pm : NodeParMesh) (hok : LocalOK pm) (idx : Nat)
    (c : PMMG_Ext_comm) (hc : c ∈ pm.ext_node_comm) (hidx : idx ∈ c.int_comm_index)
    (htop : ∀ d ∈ pm.ext_node_comm, idx ∈ d.int_comm_index → d.color_out ≤ c.color_out) :
    (markOwners pm).getD idx 0 = max (pm.myrank : Int) c.color_out := by
  obtain ⟨i, hi⟩ := List.mem_iff_getElem?.1 hc
  have hlt : idx < pm.int_node_comm_nitem := (hok.2.2.2.2.2.2.2.2.2.2 c hc).2 idx hidx
  have hcol : c.color_out < pm.nprocs := (hok.2.2.2.2.2.2.2.2.2.2 c hc).1
  unfold markOwners
  rw [List.range_eq_range']
  refine forProcs_last pm hok _ 0 pm.nprocs pm.int_node_comm_nitem idx _ pm.intvalues
    hok.2.2.1 (by omega) i c hi ⟨by omega, by omega⟩
    (fun k d b => foldl_set_length' _ _ _ _) ?_ ?_
  · intro b hb
    exact foldl_set_const' (fun x : Nat => x) _ idx _ c.int_comm_index b (by omega)
      ⟨idx, hidx, rfl⟩ (fun x _ _ => rfl)
  · intro k d hk hgt b
    refine foldl_set_untouched' (fun x : Nat => x) _ idx d.int_comm_index b ?_
    intro x hx hxi
    have := htop d (List.mem_iff_getElem?.2 ⟨k, hk⟩) (by rw [← hxi]; exact hx)
    omega

theorem ownerFlags_interface (pm : NodeParMesh) (hok : LocalOK pm) (p idx : Nat)
    (hmem : (p, idx) ∈ pm.node2int_node_comm_index1.zip pm.node2int_node_comm_index2) :
    (ownerFlags pm).getD p 0 = (markOwners pm).getD idx 0 := by
  have hp := hok.2.2.2.2.2.1 p (List.of_mem_zip hmem).1
  unfold ownerFlags
  refine foldl_set_const' (fun pi : Nat × Nat => pi.1) (fun pi => (markOwners pm).getD pi.2 0)
    p _ _ _ ?_ ⟨(p, idx), hmem, rfl⟩ ?_
  · rw [foldl_set_length']
    have := hok.1
    omega
  · intro x hx hxp
    have : x.2 = idx := by
      refine zip_fst_unique _ _ hok.2.2.2.2.1 p x.2 idx ?_ hmem
      have hxp2 : x.1 = p := hxp
      rw [← hxp2]
      exact hx
    show (markOwners pm).getD x.2 0 = _
    rw [this]

theorem ownerFlags_interior (pm : NodeParMesh) (hok : LocalOK pm) (p : Nat)
    (h1 : 1 ≤ p) (h2 : p ≤ pm.np) (hno : p ∉ pm.node2int_node_comm_index1) :
    (ownerFlags pm).getD p 0 = (pm.myrank : Int) := by
  unfold ownerFlags
  simp only []
  rw [foldl_set_untouched' (fun pi : Nat × Nat => pi.1) (fun pi => (markOwners pm).getD pi.2 0)
    p _ _ (fun x hx hxp => hno (by rw [← hxp]; exact (List.of_mem_zip hx).1))]
  refine foldl_set_const' (fun x : Nat => x) (fun _ => (pm.myrank : Int)) p _ _ _ ?_
    ⟨p, List.mem_range'_1.2 ⟨h1, by omega⟩, rfl⟩ (fun x _ _ => rfl)
  have := hok.1
  omega

/-- C9: after the ownership pass, the flag of an interface vertex is the maximum of
the local rank and of the ranks of all the external communicators that contain its
slot, and the flag of the other vertices is the local rank; when the sharers of
the vertex are the ranks `S` (the local rank and the colours of the communicators
containing the slot), the flag is the maximum of `S`. -/
theorem owner_flag_is_max_rank (pm : NodeParMesh) (hok : LocalOK pm) :
    (∀ p idx, (p, idx) ∈ pm.node2int_node_comm_index1.zip pm.node2int_node_comm_index2 →
      ∀ c ∈ pm.ext_node_comm, idx ∈ c.int_comm_index →
      (∀ d ∈ pm.ext_node_comm, idx ∈ d.int_comm_index → d.color_out ≤ c.color_out) →
      (ownerFlags pm).getD p 0 = max (pm.myrank : Int) c.color_out) ∧
    (∀ p, 1 ≤ p → p ≤ pm.np → p ∉ pm.node2int_node_comm_index1 →
      (ownerFlags pm).getD p 0 = (pm.myrank : Int)) ∧
    (∀ p idx, (p, idx) ∈ pm.node2int_node_comm_index1.zip pm.node2int_node_comm_index2 →
      ∀ S : List Nat,
      (∀ s, s ∈ S ↔ s = pm.myrank ∨ ∃ c ∈ pm.ext_node_comm, c.color_out = s ∧ idx ∈ c.int_comm_index) →
      (∃ c ∈ pm.ext_node_comm, idx ∈ c.int_comm_index) →
      ∀ m ∈ S, (∀ s ∈ S, s ≤ m) → (ownerFlags pm).getD p 0 = (m : Int)) := by
  refine ⟨?_, ownerFlags_interior pm hok, ?_⟩
  · intro p idx hmem c hc hidx htop
    rw [ownerFlags_interface pm hok p idx hmem]
    exact markOwners_spec pm hok idx c hc hidx htop
  · intro p idx hmem S hS hex m hm hmax
    obtain ⟨c, hc, hidx, htop⟩ := exists_top PMMG_Ext_comm.color_out
      (fun d => idx ∈ d.int_comm_index) pm.ext_node_comm hex
    rw [ownerFlags_interface pm hok p idx hmem, markOwners_spec pm hok idx c hc hidx htop]
    have h1 : pm.myrank ≤ m := hmax _ ((hS _).2 (Or.inl rfl))
    have h2 : c.color_out ≤ m := hmax _ ((hS _).2 (Or.inr ⟨c, hc, rfl, hidx⟩))
    rcases (hS m).1 hm with h | ⟨d, hd, hdm, hdi⟩
    · rw [h]
      have : c.color_out ≤ pm.myrank := by omega
      simp [this]
    · have := htop d hd hdi
      have h3 : c.color_out = m := by omega
      rw [h3]
      simp [h1]

/-- Witness of C9: rank 0 of three ranks, point 3 shared with the ranks 1 and 2. -/
theorem owner_flag_is_max_rank_witness :
    LocalOK ⟨3, 0, 3, [9, 9, 9, 9], [7, 7, 7, 7], 2, [55, 66], [2, 3], [0, 1],
      [⟨1, [0, 1]⟩, ⟨2, [1]⟩]⟩ ∧
    (ownerFlags ⟨3, 0, 3, [9, 9, 9, 9], [7, 7, 7, 7], 2, [55, 66], [2, 3], [0, 1],
      [⟨1, [0, 1]⟩, ⟨2, [1]⟩]⟩).getD 3 0 = ((2 : Nat) : Int) :=
  ⟨by decide,
    (owner_flag_is_max_rank ⟨3, 0, 3, [9, 9, 9, 9], [7, 7, 7, 7], 2, [55, 66], [2, 3], [0, 1],
      [⟨1, [0, 1]⟩, ⟨2, [1]⟩]⟩ (by decide)).2.2 3 1 (by decide) [0, 1, 2]
      (by intro s; simp; omega) (by decide) 2 (by decide) (by decide)⟩

theorem foldl_dec_count {β : Type} (Q : β → Prop) [DecidablePred Q] :
    ∀ (l : List β) (n0 : Int),
      l.foldl (fun n x => if Q x then n - 1 else n) n0 = n0 - (l.countP (fun x => decide (Q x)) : Nat) := by
  intro l
  induction l with
  | nil => intro n0; simp
  | cons x l ih =>
    intro n0
    simp only [List.foldl_cons, ih, List.countP_cons]
    by_cases h : Q x
    · simp only [if_pos h, decide_eq_true_eq]
      push_cast
      omega
    · simp only [if_neg h, decide_eq_true_eq]
      push_cast
      omega

theorem countOwned_eq (pm : NodeParMesh) (hok : LocalOK pm) :
    countOwned pm = (ownedUpTo pm pm.np : Int) := by
  obtain ⟨_, _, _, hlen, hnd1, hr1, hnd2, hr2, hcov, _, _⟩ := id hok
  unfold countOwned
  rw [foldl_dec_count (fun idx => (markOwners pm).getD idx 0 ≠ (pm.myrank : Int))]
  have hperm : List.Perm (List.range pm.int_node_comm_nitem) pm.node2int_node_comm_index2 := by
    rw [List.perm_ext_iff_of_nodup (List.nodup_range _) hnd2]
    intro a
    rw [List.mem_range]
    exact ⟨hcov a, hr2 a⟩
  rw [List.Perm.countP_eq _ hperm]
  have e2 : pm.node2int_node_comm_index2 =
      (pm.node2int_node_comm_index1.zip pm.node2int_node_comm_index2).map Prod.snd :=
    (List.map_snd_zip _ _ (by omega)).symm
  have e1 : pm.node2int_node_comm_index1 =
      (pm.node2int_node_comm_index1.zip pm.node2int_node_comm_index2).map Prod.fst :=
    (List.map_fst_zip _ _ (by omega)).symm
  have hA : List.countP (fun idx => decide ((markOwners pm).getD idx 0 ≠ (pm.myrank : Int)))
        pm.node2int_node_comm_index2 =
      List.countP (fun p => decide ((ownerFlags pm).getD p 0 ≠ (pm.myrank : Int)))
        pm.node2int_node_comm_index1 := by
    conv_lhs => rw [e2]
    conv_rhs => rw [e1]
    rw [List.countP_map, List.countP_map]
    apply List.countP_congr
    intro pi hpi
    simp only [Function.comp, decide_eq_true_eq]
    rw [ownerFlags_interface pm hok pi.1 pi.2 hpi]
  have hB : List.countP (fun p => decide ((ownerFlags pm).getD p 0 ≠ (pm.myrank : Int)))
        pm.node2int_node_comm_index1 =
      List.countP (fun p => decide ((ownerFlags pm).getD p 0 ≠ (pm.myrank : Int)))
        (List.range' 1 pm.np) := by
    rw [List.countP_eq_length_filter, List.countP_eq_length_filter]
    apply List.Perm.length_eq
    rw [List.perm_ext_iff_of_nodup (List.Nodup.filter _ hnd1)
      (List.Nodup.filter _ (List.nodup_range' 1 pm.np))]
    intro a
    simp only [List.mem_filter, decide_eq_true_eq, List.mem_range'_1]
    constructor
    · rintro ⟨ha, hq⟩
      have := hr1 a ha
      exact ⟨⟨this.1, by omega⟩, hq⟩
    · rintro ⟨ha, hq⟩
      refine ⟨?_, hq⟩
      by_contra hno
      exact hq (ownerFlags_interior pm hok a ha.1 (by omega) hno)
  rw [hA, hB]
  have hC := List.length_eq_countP_add_countP
    (fun q => decide ((ownerFlags pm).getD q 0 = (pm.myrank : Int))) (List.range' 1 pm.np)
  rw [List.length_range'] at hC
  have hD : List.countP (fun a => decide ¬(decide ((ownerFlags pm).getD a 0 = (pm.myrank : Int))) = true)
        (List.range' 1 pm.np) =
      List.countP (fun p => decide ((ownerFlags pm).getD p 0 ≠ (pm.myrank : Int)))
        (List.range' 1 pm.np) := by
    apply List.countP_congr
    intro x _
    simp
  rw [hD] at hC
  unfold ownedUpTo
  omega

theorem wrapInt_of_range (x : Int) (h1 : -2147483648 ≤ x) (h2 : x ≤ INT_MAX) :
    wrapInt x = x := by
  unfold INT_MAX at h2
  unfold wrapInt
  omega

theorem wrapInt_add_wrapInt (a b : Int) : wrapInt (a + wrapInt b) = wrapInt (a + b) := by
  unfold wrapInt
  omega

theorem wrapInt_zero : wrapInt 0 = 0 := by decide

theorem take_sum_bounds (g : List Int) (hpos : ∀ c ∈ g, 0 ≤ c) (j : Nat) :
    0 ≤ (g.take j).sum ∧ (g.take j).sum ≤ g.sum := by
  have h1 : 0 ≤ (g.take j).sum :=
    List.sum_nonneg (fun x hx => hpos x (List.mem_of_mem_take hx))
  have h2 : 0 ≤ (g.drop j).sum :=
    List.sum_nonneg (fun x hx => hpos x (List.mem_of_mem_drop hx))
  have h3 := List.sum_take_add_sum_drop g j
  exact ⟨h1, by omega⟩

theorem computeOffsets_aux (g : List Int) :
    ∀ k, k ≤ g.length →
      ((List.range' 1 k).foldl
        (fun o i => o.set i (wrapInt (o.getD i 0 + o.getD (i - 1) 0)))
        (0 :: g)).length = g.length + 1 ∧
      ∀ j, j ≤ g.length →
        ((List.range' 1 k).foldl
          (fun o i => o.set i (wrapInt (o.getD i 0 + o.getD (i - 1) 0)))
          (0 :: g)).getD j 0 =
          if j ≤ k then wrapInt ((g.take j).sum) else g.getD (j - 1) 0 := by
  intro k
  induction k with
  | zero =>
    intro _
    refine ⟨by simp, ?_⟩
    intro j hj
    cases j with
    | zero => simp [wrapInt_zero]
    | succ j => simp
  | succ k ih =>
    intro hk
    obtain ⟨hlen, hval⟩ := ih (by omega)
    rw [List.range'_concat, List.foldl_concat]
    have e : 1 + 1 * k = k + 1 := by omega
    rw [e]
    refine ⟨by rw [List.length_set]; exact hlen, ?_⟩
    intro j hj
    by_cases hjk : j = k + 1
    · subst hjk
      have a1 := hval (k + 1) hj
      have a2 := hval k (by omega)
      rw [if_neg (show ¬ k + 1 ≤ k by omega)] at a1
      rw [if_pos (le_refl k)] at a2
      have hkg : k < g.length := by omega
      have a3 : g.getD (k + 1 - 1) 0 = g[k] := by
        simp [List.getD_eq_getElem?_getD, List.getElem?_eq_getElem hkg]
      rw [getD_set_self _ _ _ (by omega), if_pos (le_refl _), a1, a3,
        show k + 1 - 1 = k by omega, a2, List.sum_take_succ g k hkg, wrapInt_add_wrapInt]
      congr 1
      ring
    · rw [getD_set_ne _ _ _ _ (fun h => hjk h.symm), hval j hj]
      by_cases h1 : j ≤ k
      · simp only [if_pos h1, if_pos (show j ≤ k + 1 by omega)]
      · simp only [if_neg h1, if_neg (show ¬ j ≤ k + 1 by omega)]

theorem computeOffsets_spec (g : List Int) (j : Nat) (hj : j ≤ g.length) :
    (computeOffsets g.length g).getD j 0 = wrapInt ((g.take j).sum) := by
  have := (computeOffsets_aux g g.length (le_refl _)).2 j hj
  unfold computeOffsets
  rw [this, if_pos hj]

/-- When the counts are non-negative and their sum is representable, the offsets
are the exact prefix sums. -/
theorem computeOffsets_exact (g : List Int) (hpos : ∀ c ∈ g, 0 ≤ c) (hsum : g.sum ≤ INT_MAX)
    (j : Nat) (hj : j ≤ g.length) :
    (computeOffsets g.length g).getD j 0 = (g.take j).sum := by
  have hb := take_sum_bounds g hpos j
  rw [computeOffsets_spec g j hj, wrapInt_of_range _ (by omega) (by omega)]

/-- Beyond the range of `int` the offsets follow the 32-bit arithmetic of the
program: with the gathered counts `2^30, 2^30, 1` the sum `2^31` is stored as
`-2^31`. -/
theorem computeOffsets_overflow :
    (computeOffsets 3 [1073741824, 1073741824, 1]).getD 2 0 = -2147483648 ∧
    (computeOffsets 3 [1073741824, 1073741824, 1]).getD 3 0 = -2147483647 := by
  decide

theorem ownedUpTo_succ (pm : NodeParMesh) (k : Nat) :
    ownedUpTo pm (k + 1) = ownedUpTo pm k +
      (if (ownerFlags pm).getD (k + 1) 0 = (pm.myrank : Int) then 1 else 0) := by
  unfold ownedUpTo
  rw [List.range'_concat, List.countP_append]
  have e : 1 + 1 * k = k + 1 := by omega
  rw [e]
  simp [List.countP_cons]

theorem ownedUpTo_mono (pm : NodeParMesh) (a b : Nat) (h : a ≤ b) :
    ownedUpTo pm a ≤ ownedUpTo pm b := by
  induction b with
  | zero =>
    have : a = 0 := by omega
    rw [this]
  | succ b ih =>
    by_cases hab : a = b + 1
    · rw [hab]
    · have := ih (by omega)
      rw [ownedUpTo_succ]
      omega

theorem ownedUpTo_zero (pm : NodeParMesh) : ownedUpTo pm 0 = 0 := rfl

theorem packLoop_aux (pm : NodeParMesh) (off : Int) (tmp0 : List Int) :
    ∀ k,
      ((List.range' 1 k).foldl
        (fun (ct : Int × List Int) ip =>
          if (ownerFlags pm).getD ip 0 ≠ (pm.myrank : Int) then ct
          else (ct.1 + 1, ct.2.set ip (wrapInt (ct.1 + 1 + off))))
        (0, tmp0)).1 = (ownedUpTo pm k : Int) ∧
      ((List.range' 1 k).foldl
        (fun (ct : Int × List Int) ip =>
          if (ownerFlags pm).getD ip 0 ≠ (pm.myrank : Int) then ct
          else (ct.1 + 1, ct.2.set ip (wrapInt (ct.1 + 1 + off))))
        (0, tmp0)).2.length = tmp0.length ∧
      ∀ p, p < tmp0.length →
        ((List.range' 1 k).foldl
          (fun (ct : Int × List Int) ip =>
            if (ownerFlags pm).getD ip 0 ≠ (pm.myrank : Int) then ct
            else (ct.1 + 1, ct.2.set ip (wrapInt (ct.1 + 1 + off))))
          (0, tmp0)).2.getD p 0 =
          if 1 ≤ p ∧ p ≤ k ∧ (ownerFlags pm).getD p 0 = (pm.myrank : Int)
          then wrapInt ((ownedUpTo pm p : Int) + off) else tmp0.getD p 0 := by
  intro k
  induction k with
  | zero =>
    refine ⟨by simp [ownedUpTo_zero], by simp, ?_⟩
    intro p _
    have : ¬ (1 ≤ p ∧ p ≤ 0 ∧ (ownerFlags pm).getD p 0 = (pm.myrank : Int)) := by omega
    rw [if_neg this]
    rfl
  | succ k ih =>
    obtain ⟨h1, h2, h3⟩ := ih
    rw [List.range'_concat, List.foldl_concat]
    have e : 1 + 1 * k = k + 1 := by omega
    rw [e]
    by_cases hown : (ownerFlags pm).getD (k + 1) 0 = (pm.myrank : Int)
    · have hn : ¬ ((ownerFlags pm).getD (k + 1) 0 ≠ (pm.myrank : Int)) := by simpa using hown
      simp only [if_neg hn]
      refine ⟨?_, ?_, ?_⟩
      · rw [h1, ownedUpTo_succ, if_pos hown]
        push_cast
        ring
      · rw [List.length_set]; exact h2
      · intro p hp
        by_cases hpk : p = k + 1
        · subst hpk
          rw [getD_set_self _ _ _ (by omega), h1,
            if_pos ⟨by omega, le_refl _, hown⟩, ownedUpTo_succ, if_pos hown]
          congr 1
        · rw [getD_set_ne _ _ _ _ (fun h => hpk h.symm), h3 p hp]
          by_cases hc : 1 ≤ p ∧ p ≤ k ∧ (ownerFlags pm).getD p 0 = (pm.myrank : Int)
          · rw [if_pos hc, if_pos ⟨hc.1, by omega, hc.2.2⟩]
          · rw [if_neg hc, if_neg (fun h => hc ⟨h.1, by omega, h.2.2⟩)]
    · have hn : (ownerFlags pm).getD (k + 1) 0 ≠ (pm.myrank : Int) := hown
      simp only [if_pos hn]
      refine ⟨?_, h2, ?_⟩
      · rw [h1, ownedUpTo_succ, if_neg hown]
        simp
      · intro p hp
        rw [h3 p hp]
        by_cases hc : 1 ≤ p ∧ p ≤ k ∧ (ownerFlags pm).getD p 0 = (pm.myrank : Int)
        · rw [if_pos hc, if_pos ⟨hc.1, by omega, hc.2.2⟩]
        · rw [if_neg hc, if_neg]
          rintro ⟨ha, hb, hc2⟩
          by_cases hpk : p = k + 1
          · subst hpk; exact hown hc2
          · exact hc ⟨ha, by omega, hc2⟩

theorem resetTmp_spec (ndebug : Bool) (pm : NodeParMesh) (hok : LocalOK pm) :
    (resetTmp ndebug pm).length = pm.tmp.length ∧
    (ndebug = false → ∀ p, 1 ≤ p → p ≤ pm.np → (resetTmp ndebug pm).getD p 0 = PMMG_UNSET) := by
  unfold resetTmp
  cases ndebug with
  | true => simp
  | false =>
    refine ⟨?_, ?_⟩
    · simp only [Bool.false_eq_true, if_false]
      exact foldl_set_length' (fun x : Nat => x) (fun _ => PMMG_UNSET) _ _
    · intro _ p h1 h2
      simp only [Bool.false_eq_true, if_false]
      refine foldl_set_const' (fun x : Nat => x) (fun _ => PMMG_UNSET) p _ _ _ ?_
        ⟨p, List.mem_range'_1.2 ⟨h1, by omega⟩, rfl⟩ (fun _ _ _ => rfl)
      have := hok.2.1
      omega

theorem packNumbering_spec (ndebug : Bool) (pm : NodeParMesh) (hok : LocalOK pm)
    (offsets : List Int) :
    (packNumbering ndebug pm offsets).1 = (ownedUpTo pm pm.np : Int) ∧
    (packNumbering ndebug pm offsets).2.length = pm.tmp.length ∧
    (∀ p, 1 ≤ p → p ≤ pm.np → (ownerFlags pm).getD p 0 = (pm.myrank : Int) →
      (packNumbering ndebug pm offsets).2.getD p 0 =
        wrapInt ((ownedUpTo pm p : Int) + offsets.getD pm.myrank 0)) ∧
    (ndebug = false → ∀ p, 1 ≤ p → p ≤ pm.np → (ownerFlags pm).getD p 0 ≠ (pm.myrank : Int) →
      (packNumbering ndebug pm offsets).2.getD p 0 = PMMG_UNSET) := by
  obtain ⟨hl0, hv0⟩ := resetTmp_spec ndebug pm hok
  obtain ⟨h1, h2, h3⟩ := packLoop_aux pm (offsets.getD pm.myrank 0) (resetTmp ndebug pm) pm.np
  have hnp := hok.2.1
  refine ⟨h1, by rw [← hl0]; exact h2, ?_, ?_⟩
  · intro p hp1 hp2 hown
    have := h3 p (by rw [hl0]; omega)
    rw [if_pos ⟨hp1, hp2, hown⟩] at this
    exact this
  · intro hnd p hp1 hp2 hown
    have := h3 p (by rw [hl0]; omega)
    rw [if_neg (fun h => hown h.2.2)] at this
    rw [← hv0 hnd p hp1 hp2]
    exact this

theorem storeNumbering_spec (pm : NodeParMesh) (hok : LocalOK pm) (tmp : List Int)
    (p idx : Nat)
    (hmem : (p, idx) ∈ pm.node2int_node_comm_index1.zip pm.node2int_node_comm_index2) :
    (storeNumbering pm tmp).getD idx 0 = tmp.getD p 0 := by
  unfold storeNumbering
  refine foldl_set_const' (fun pi : Nat × Nat => pi.2) (fun pi => tmp.getD pi.1 0) idx _ _ _ ?_
    ⟨(p, idx), hmem, rfl⟩ ?_
  · rw [markOwners_length, hok.2.2.1]
    exact hok.2.2.2.2.2.2.2.1 idx (List.of_mem_zip hmem).2
  · intro x hx hxi
    have hxi2 : x.2 = idx := hxi
    have : x.1 = p := by
      refine zip_snd_unique _ _ hok.2.2.2.2.2.2.1 x.1 p idx ?_ hmem
      rw [← hxi2]
      exact hx
    show tmp.getD x.1 0 = _
    rw [this]

theorem storeNumbering_length (pm : NodeParMesh) (tmp : List Int) :
    (storeNumbering pm tmp).length = pm.intvalues.length := by
  unfold storeNumbering
  rw [foldl_set_length', markOwners_length]

theorem retrieveNumbering_interface (pm : NodeParMesh) (hok : LocalOK pm)
    (intvalues tmp : List Int) (htmp : tmp.length = pm.tmp.length) (p idx : Nat)
    (hmem : (p, idx) ∈ pm.node2int_node_comm_index1.zip pm.node2int_node_comm_index2)
    (hgt : (ownerFlags pm).getD p 0 > (pm.myrank : Int)) :
    (retrieveNumbering pm intvalues tmp).getD p 0 = intvalues.getD idx 0 := by
  have hp := hok.2.2.2.2.2.1 p (List.of_mem_zip hmem).1
  unfold retrieveNumbering
  refine foldl_set_const (fun pi : Nat × Nat => (ownerFlags pm).getD pi.1 0 > (pm.myrank : Int))
    (fun pi => pi.1) (fun pi => intvalues.getD pi.2 0) p _ _ tmp ?_ ⟨(p, idx), hmem, hgt, rfl⟩ ?_
  · have := hok.2.1
    omega
  · intro x hx _ hxp
    have hxp2 : x.1 = p := hxp
    have : x.2 = idx := by
      refine zip_fst_unique _ _ hok.2.2.2.2.1 p x.2 idx ?_ hmem
      rw [← hxp2]
      exact hx
    show intvalues.getD x.2 0 = _
    rw [this]

theorem retrieveNumbering_keep (pm : NodeParMesh) (intvalues tmp : List Int) (p : Nat)
    (hle : ¬ (ownerFlags pm).getD p 0 > (pm.myrank : Int)) :
    (retrieveNumbering pm intvalues tmp).getD p 0 = tmp.getD p 0 := by
  unfold retrieveNumbering
  refine foldl_set_untouched
    (fun pi : Nat × Nat => (ownerFlags pm).getD pi.1 0 > (pm.myrank : Int))
    (fun pi => pi.1) (fun pi => intvalues.getD pi.2 0) p _ tmp ?_
  intro x _ hc hxp
  have hxp2 : x.1 = p := hxp
  rw [hxp2] at hc
  exact hle hc

theorem ranks_index {pms : List NodeParMesh} {gid : Nat → Nat → Nat} (h : RanksOK pms gid)
    {pm : NodeParMesh} (hpm : pm ∈ pms) : pms[pm.myrank]? = some pm := by
  obtain ⟨i, hi⟩ := List.mem_iff_getElem?.1 hpm
  have := (h (i, pm) (List.mk_mem_enum_iff_getElem?.2 hi)).1
  simp only at this
  rw [this]
  exact hi

theorem ranks_props {pms : List NodeParMesh} {gid : Nat → Nat → Nat} (h : RanksOK pms gid)
    {pm : NodeParMesh} (hpm : pm ∈ pms) :
    pm.nprocs = pms.length ∧ LocalOK pm ∧ pm.myrank < pms.length ∧
    (∀ idx < pm.int_node_comm_nitem, ∃ c ∈ pm.ext_node_comm, idx ∈ c.int_comm_index) ∧
    (∀ p ∈ List.range' 1 pm.np, ∀ q ∈ List.range' 1 pm.np,
      gid pm.myrank p = gid pm.myrank q → p = q) := by
  have hi := ranks_index h hpm
  obtain ⟨_, h2, h3, h4, h5⟩ := h (pm.myrank, pm) (List.mk_mem_enum_iff_getElem?.2 hi)
  exact ⟨h2, h3, (List.getElem?_eq_some.1 hi).1, h4, h5⟩

theorem ranks_unique {pms : List NodeParMesh} {gid : Nat → Nat → Nat} (h : RanksOK pms gid)
    {pm pm2 : NodeParMesh} (hpm : pm ∈ pms) (hpm2 : pm2 ∈ pms)
    (heq : pm.myrank = pm2.myrank) : pm = pm2 := by
  have h1 := ranks_index h hpm
  have h2 := ranks_index h hpm2
  rw [heq, h2] at h1
  exact (Option.some.inj h1).symm

theorem nodup_map_inj {α β : Type} (f : α → β) (l : List α) (h : (l.map f).Nodup)
    (a b : α) (ha : a ∈ l) (hb : b ∈ l) (hab : f a = f b) : a = b := by
  obtain ⟨i, hi⟩ := List.mem_iff_getElem?.1 ha
  obtain ⟨j, hj⟩ := List.mem_iff_getElem?.1 hb
  have := nodup_map_index f l h i j a b hi hj hab
  rw [this, hj] at hi
  exact (Option.some.inj hi).symm

theorem postedSends_find (pm2 : NodeParMesh) (hok : LocalOK pm2) (iv : List Int)
    (c2 : PMMG_Ext_comm) (hc2 : c2 ∈ pm2.ext_node_comm) (hle : c2.color_out ≤ pm2.myrank) :
    (postedSends pm2 iv).find?
        (fun m => decide (m.1 = c2.color_out ∧ m.2.1 = pm2.nprocs * pm2.myrank + c2.color_out)) =
      some (c2.color_out, pm2.nprocs * pm2.myrank + c2.color_out,
        c2.int_comm_index.map (fun idx => iv.getD idx 0)) := by
  have hnd := hok.2.2.2.2.2.2.2.2.2.1
  have hin : (c2.color_out, pm2.nprocs * pm2.myrank + c2.color_out,
      c2.int_comm_index.map (fun idx => iv.getD idx 0)) ∈ postedSends pm2 iv := by
    unfold postedSends
    rw [List.mem_filterMap]
    refine ⟨c2, hc2, ?_⟩
    have h1 : max pm2.myrank c2.color_out = pm2.myrank := by omega
    have h2 : min pm2.myrank c2.color_out = c2.color_out := by omega
    rw [h1, h2]
    simp
  cases hf : (postedSends pm2 iv).find?
      (fun m => decide (m.1 = c2.color_out ∧ m.2.1 = pm2.nprocs * pm2.myrank + c2.color_out)) with
  | none =>
    rw [List.find?_eq_none] at hf
    have := hf _ hin
    simp at this
  | some m =>
    have hP := List.find?_some hf
    have hm := List.mem_of_find?_eq_some hf
    unfold postedSends at hm
    rw [List.mem_filterMap] at hm
    obtain ⟨c, hc, hFc⟩ := hm
    simp only [decide_eq_true_eq] at hP
    by_cases hs : pm2.myrank = max pm2.myrank c.color_out
    · rw [if_pos hs] at hFc
      have hmeq := Option.some.inj hFc
      have hcol : c.color_out = c2.color_out := by
        have : m.1 = min pm2.myrank c.color_out := by rw [← hmeq]
        omega
      have hcc := nodup_map_inj PMMG_Ext_comm.color_out pm2.ext_node_comm hnd c c2 hc hc2 hcol
      subst hcc
      rw [← hmeq]
      have h1 : max pm2.myrank c.color_out = pm2.myrank := by omega
      have h2 : min pm2.myrank c.color_out = c.color_out := by omega
      rw [h1, h2]
    · rw [if_neg hs] at hFc
      cases hFc

theorem sendsOf_getD (ndebug : Bool) {pms : List NodeParMesh} {gid : Nat → Nat → Nat}
    (h : RanksOK pms gid) {pm : NodeParMesh} (hpm : pm ∈ pms) :
    (sendsOf ndebug pms).getD pm.myrank [] = postedSends pm (storedOf ndebug pms pm) := by
  unfold sendsOf
  rw [List.getD_eq_getElem?_getD, List.getElem?_map, ranks_index h hpm]
  rfl

theorem recvOne_spec (ndebug : Bool) {pms : List NodeParMesh} {gid : Nat → Nat → Nat}
    (hr : RanksOK pms gid) {pm pm2 : NodeParMesh} (hpm : pm ∈ pms) (hpm2 : pm2 ∈ pms)
    (c c2 : PMMG_Ext_comm) (hc2 : c2 ∈ pm2.ext_node_comm)
    (h1 : pm2.myrank = c.color_out) (h2 : c2.color_out = pm.myrank)
    (hlen : c2.int_comm_index.length = c.int_comm_index.length)
    (hle : pm.myrank ≤ c.color_out) :
    recvOne pm (sendsOf ndebug pms) c =
      some (c2.int_comm_index.map (fun idx => (storedOf ndebug pms pm2).getD idx 0)) := by
  have hn1 := (ranks_props hr hpm).1
  have hn2 := (ranks_props hr hpm2).1
  have hok2 := (ranks_props hr hpm2).2.1
  have hmin : min pm.myrank c.color_out = pm.myrank := by omega
  have hmax : max pm.myrank c.color_out = c.color_out := by omega
  unfold recvOne
  rw [hmin, hmax, if_pos rfl]
  unfold mpiRecv
  rw [← h1, sendsOf_getD ndebug hr hpm2]
  have hf := postedSends_find pm2 hok2 (storedOf ndebug pms pm2) c2 hc2 (by omega)
  rw [h2, hn2, ← hn1] at hf
  rw [hf]
  simp only [List.length_map, hlen, le_refl, if_true, Nat.sub_self, List.replicate_zero,
    List.append_nil]

theorem recvBuffers_spec (ndebug : Bool) {pms : List NodeParMesh} {gid : Nat → Nat → Nat}
    (hr : RanksOK pms gid) (hs : SidesAgree pms gid) {pm : NodeParMesh} (hpm : pm ∈ pms) :
    recvBuffers pm (sendsOf ndebug pms) =
      some (pm.ext_node_comm.map (fun c => (recvOne pm (sendsOf ndebug pms) c).getD [])) := by
  unfold recvBuffers
  apply allSome_map
  intro c hc
  by_cases hle : pm.myrank ≤ c.color_out
  · obtain ⟨pm2, hpm2, h1, c2, hc2, h2, hlen, _⟩ := hs pm hpm c hc
    rw [recvOne_spec ndebug hr hpm hpm2 c c2 hc2 h1 h2 hlen hle]
    rfl
  · have : ¬ pm.myrank = min pm.myrank c.color_out := by omega
    simp only [recvOne, if_neg this, Option.getD_some]

theorem exists_zip_of_mem_left {α β : Type} (l1 : List α) (l2 : List β)
    (hlen : l1.length ≤ l2.length) (a : α) (ha : a ∈ l1) : ∃ b, (a, b) ∈ l1.zip l2 := by
  rw [← List.map_fst_zip l1 l2 hlen] at ha
  obtain ⟨pi, hpi, rfl⟩ := List.mem_map.1 ha
  exact ⟨pi.2, hpi⟩

theorem exists_zip_of_mem_right {α β : Type} (l1 : List α) (l2 : List β)
    (hlen : l2.length ≤ l1.length) (b : β) (hb : b ∈ l2) : ∃ a, (a, b) ∈ l1.zip l2 := by
  rw [← List.map_snd_zip l1 l2 hlen] at hb
  obtain ⟨pi, hpi, rfl⟩ := List.mem_map.1 hb
  exact ⟨pi.1, hpi⟩

theorem pointOfSlot_mem (pm : NodeParMesh) (hok : LocalOK pm) (p idx : Nat)
    (hmem : (p, idx) ∈ pm.node2int_node_comm_index1.zip pm.node2int_node_comm_index2) :
    pointOfSlot pm idx = p := by
  unfold pointOfSlot
  cases hf : (pm.node2int_node_comm_index1.zip pm.node2int_node_comm_index2).find?
      (fun pi => decide (pi.2 = idx)) with
  | none =>
    rw [List.find?_eq_none] at hf
    have := hf _ hmem
    simp at this
  | some pi =>
    have hP := List.find?_some hf
    have hm := List.mem_of_find?_eq_some hf
    simp only [decide_eq_true_eq] at hP
    simp only []
    refine zip_snd_unique _ _ hok.2.2.2.2.2.2.1 pi.1 p idx ?_ hmem
    rw [← hP]
    exact hm

theorem slot_point (pm : NodeParMesh) (hok : LocalOK pm) (idx : Nat)
    (hidx : idx < pm.int_node_comm_nitem) :
    (pointOfSlot pm idx, idx) ∈
        pm.node2int_node_comm_index1.zip pm.node2int_node_comm_index2 ∧
      pointOfSlot pm idx ∈ List.range' 1 pm.np := by
  have h2 := hok.2.2.2.2.2.2.2.2.1 idx hidx
  obtain ⟨p, hp⟩ := exists_zip_of_mem_right pm.node2int_node_comm_index1
    pm.node2int_node_comm_index2 (by rw [hok.2.2.2.1]) idx h2
  rw [pointOfSlot_mem pm hok p idx hp]
  refine ⟨hp, ?_⟩
  have := hok.2.2.2.2.2.1 p (List.of_mem_zip hp).1
  rw [List.mem_range'_1]
  omega

theorem storeRecv_spec (pm : NodeParMesh) (hok : LocalOK pm) (itorecv : List (List Int))
    (iv : List Int) (hiv : iv.length = pm.int_node_comm_nitem) (i : Nat) (c : PMMG_Ext_comm)
    (hc : pm.ext_node_comm[i]? = some c) (hgt : pm.myrank < c.color_out) (idx : Nat)
    (hidx : idx ∈ c.int_comm_index)
    (htop : ∀ d ∈ pm.ext_node_comm, idx ∈ d.int_comm_index → d.color_out ≤ c.color_out)
    (v : Int) (hbuf : c.int_comm_index.length ≤ (itorecv.getD i []).length)
    (hval : ∀ xy ∈ c.int_comm_index.zip (itorecv.getD i []), xy.1 = idx → xy.2 = v) :
    (storeRecv pm itorecv iv).getD idx 0 = v := by
  have hcm : c ∈ pm.ext_node_comm := List.mem_iff_getElem?.2 ⟨i, hc⟩
  have hlt : idx < pm.int_node_comm_nitem := (hok.2.2.2.2.2.2.2.2.2.2 c hcm).2 idx hidx
  have hcol : c.color_out < pm.nprocs := (hok.2.2.2.2.2.2.2.2.2.2 c hcm).1
  unfold storeRecv
  refine forProcs_last pm hok _ (pm.myrank + 1) (pm.nprocs - (pm.myrank + 1))
    pm.int_node_comm_nitem idx v iv hiv (by omega) i c hc ⟨by omega, by omega⟩
    (fun k d b => foldl_set_length' _ _ _ _) ?_ ?_
  · intro b hb
    obtain ⟨y, hy⟩ := exists_zip_of_mem_left c.int_comm_index (itorecv.getD i []) hbuf idx hidx
    exact foldl_set_const' (fun ir : Nat × Int => ir.1) (fun ir => ir.2) idx v _ b (by omega)
      ⟨(idx, y), hy, rfl⟩ hval
  · intro k d hk hgt2 b
    refine foldl_set_untouched' (fun ir : Nat × Int => ir.1) (fun ir => ir.2) idx _ b ?_
    intro x hx hxi
    have hxi2 : x.1 = idx := hxi
    have := htop d (List.mem_iff_getElem?.2 ⟨k, hk⟩) (by rw [← hxi2]; exact (List.of_mem_zip hx).1)
    omega

/-- Value of the owner flag of a valid point: it is a rank `m ≥ myrank`, either
`myrank` or the colour of a communicator containing the slot of the point, and no
communicator containing the slot has a higher colour. -/
theorem flag_value {pms : List NodeParMesh} {gid : Nat → Nat → Nat} (hr : RanksOK pms gid)
    {pm : NodeParMesh} (hpm : pm ∈ pms) (p : Nat) (hp : p ∈ List.range' 1 pm.np) :
    ∃ m : Nat, (ownerFlags pm).getD p 0 = (m : Int) ∧ pm.myrank ≤ m ∧
      (m = pm.myrank ∨ ∃ c ∈ pm.ext_node_comm, c.color_out = m ∧
        ∃ idx, (p, idx) ∈ pm.node2int_node_comm_index1.zip pm.node2int_node_comm_index2 ∧
          idx ∈ c.int_comm_index ∧
          ∀ d ∈ pm.ext_node_comm, idx ∈ d.int_comm_index → d.color_out ≤ c.color_out) ∧
      (∀ c ∈ pm.ext_node_comm, ∀ idx,
        (p, idx) ∈ pm.node2int_node_comm_index1.zip pm.node2int_node_comm_index2 →
        idx ∈ c.int_comm_index → c.color_out ≤ m) := by
  obtain ⟨_, hok, _, hcov, _⟩ := ranks_props hr hpm
  have hp2 := List.mem_range'_1.1 hp
  by_cases hint : p ∈ pm.node2int_node_comm_index1
  · obtain ⟨idx, hidx⟩ := exists_zip_of_mem_left pm.node2int_node_comm_index1
      pm.node2int_node_comm_index2 (by rw [hok.2.2.2.1]) p hint
    have hlt := hok.2.2.2.2.2.2.2.1 idx (List.of_mem_zip hidx).2
    obtain ⟨c, hc, hci, htop⟩ := exists_top PMMG_Ext_comm.color_out
      (fun d => idx ∈ d.int_comm_index) pm.ext_node_comm (hcov idx hlt)
    have hflag : (ownerFlags pm).getD p 0 = max (pm.myrank : Int) c.color_out := by
      rw [ownerFlags_interface pm hok p idx hidx]
      exact markOwners_spec pm hok idx c hc hci htop
    refine ⟨max pm.myrank c.color_out, by rw [hflag]; push_cast; rfl, by omega, ?_, ?_⟩
    · by_cases hle : c.color_out ≤ pm.myrank
      · left; omega
      · right
        exact ⟨c, hc, by omega, idx, hidx, hci, htop⟩
    · intro d hd idx2 hidx2 hdi
      have : idx2 = idx := zip_fst_unique _ _ hok.2.2.2.2.1 p idx2 idx hidx2 hidx
      subst this
      have := htop d hd hdi
      omega
  · refine ⟨pm.myrank, ownerFlags_interior pm hok p hp2.1 (by omega) hint, le_refl _,
      Or.inl rfl, ?_⟩
    intro c _ idx hidx _
    exact absurd (List.of_mem_zip hidx).1 hint

/-- A communicator of `pm` containing the slot of `p` comes with a point of the
neighbour rank that designates the same mesh vertex. -/
theorem sharer_point {pms : List NodeParMesh} {gid : Nat → Nat → Nat} (hr : RanksOK pms gid)
    (hs : SidesAgree pms gid) {pm : NodeParMesh} (hpm : pm ∈ pms) (p idx : Nat)
    (hidx : (p, idx) ∈ pm.node2int_node_comm_index1.zip pm.node2int_node_comm_index2)
    (c : PMMG_Ext_comm) (hc : c ∈ pm.ext_node_comm) (hci : idx ∈ c.int_comm_index) :
    ∃ pm2 ∈ pms, pm2.myrank = c.color_out ∧ ∃ q ∈ List.range' 1 pm2.np,
      gid pm2.myrank q = gid pm.myrank p := by
  obtain ⟨pm2, hpm2, h1, c2, hc2, _, hlen, hg⟩ := hs pm hpm c hc
  obtain ⟨_, hok, _, _, _⟩ := ranks_props hr hpm
  obtain ⟨_, hok2, _, _, _⟩ := ranks_props hr hpm2
  obtain ⟨y, hy⟩ := exists_zip_of_mem_left c.int_comm_index c2.int_comm_index (by omega) idx hci
  have hg2 := hg (idx, y) hy
  simp only at hg2
  rw [pointOfSlot_mem pm hok p idx hidx] at hg2
  have hy2 : y < pm2.int_node_comm_nitem :=
    (hok2.2.2.2.2.2.2.2.2.2.2 c2 hc2).2 y (List.of_mem_zip hy).2
  exact ⟨pm2, hpm2, h1, pointOfSlot pm2 y, (slot_point pm2 hok2 y hy2).2, hg2.symm⟩

theorem flag_le {pms : List NodeParMesh} {gid : Nat → Nat → Nat} (hcons : Consistent pms gid)
    {pm pm2 : NodeParMesh} (hpm : pm ∈ pms) (hpm2 : pm2 ∈ pms) (p q : Nat)
    (hp : p ∈ List.range' 1 pm.np) (hq : q ∈ List.range' 1 pm2.np)
    (hg : gid pm.myrank p = gid pm2.myrank q) :
    (ownerFlags pm).getD p 0 ≤ (ownerFlags pm2).getD q 0 := by
  obtain ⟨hr, hs, hl⟩ := hcons
  obtain ⟨m1, hf1, _, hm1, _⟩ := flag_value hr hpm p hp
  obtain ⟨m2, hf2, hge2, _, htop2⟩ := flag_value hr hpm2 q hq
  rw [hf1, hf2]
  -- every sharer of the vertex is at most `m2`
  have key : ∀ pm3 ∈ pms, ∀ q3 ∈ List.range' 1 pm3.np,
      gid pm3.myrank q3 = gid pm2.myrank q → pm3.myrank ≤ m2 := by
    intro pm3 hpm3 q3 hq3 hg3
    by_cases heq : pm2.myrank = pm3.myrank
    · omega
    · obtain ⟨c, hc, hcol, pi, hpi, hpi1, hpi2⟩ := hl pm2 hpm2 pm3 hpm3 heq q hq q3 hq3 hg3.symm
      have := htop2 c hc pi.2 (by rw [← hpi1]; exact hpi) hpi2
      omega
  rcases hm1 with h | ⟨c, hc, hcol, idx, hidx, hci, _⟩
  · have := key pm hpm p hp hg
    rw [h]
    exact_mod_cast this
  · obtain ⟨pm3, hpm3, h3, q3, hq3, hg3⟩ := sharer_point hr hs hpm p idx hidx c hc hci
    have := key pm3 hpm3 q3 hq3 (by rw [hg3, hg])
    rw [← hcol, ← h3]
    exact_mod_cast this

/-- The copies of a mesh vertex carry the same owner on every rank. -/
theorem flag_agree {pms : List NodeParMesh} {gid : Nat → Nat → Nat} (hcons : Consistent pms gid)
    {pm pm2 : NodeParMesh} (hpm : pm ∈ pms) (hpm2 : pm2 ∈ pms) (p q : Nat)
    (hp : p ∈ List.range' 1 pm.np) (hq : q ∈ List.range' 1 pm2.np)
    (hg : gid pm.myrank p = gid pm2.myrank q) :
    (ownerFlags pm).getD p 0 = (ownerFlags pm2).getD q 0 :=
  le_antisymm (flag_le hcons hpm hpm2 p q hp hq hg) (flag_le hcons hpm2 hpm q p hq hp hg.symm)

theorem countOwned_nonneg {pms : List NodeParMesh} {gid : Nat → Nat → Nat}
    (hr : RanksOK pms gid) {pm : NodeParMesh} (hpm : pm ∈ pms) : 0 ≤ countOwned pm := by
  rw [countOwned_eq pm (ranks_props hr hpm).2.1]
  omega

theorem offsetOfRank_succ {pms : List NodeParMesh} {gid : Nat → Nat → Nat}
    (hr : RanksOK pms gid) {pm : NodeParMesh} (hpm : pm ∈ pms) :
    offsetOfRank pms (pm.myrank + 1) = offsetOfRank pms pm.myrank + countOwned pm := by
  unfold offsetOfRank
  have hi := ranks_index hr hpm
  have hlt := (ranks_props hr hpm).2.2.1
  rw [List.sum_take_succ _ _ (by simpa using hlt)]
  congr 1
  rw [List.getElem_map]
  have := List.getElem?_eq_getElem hlt
  rw [hi] at this
  rw [← Option.some.inj this]

theorem offsetOfRank_mono {pms : List NodeParMesh} {gid : Nat → Nat → Nat}
    (hr : RanksOK pms gid) (a b : Nat) (hab : a ≤ b) :
    offsetOfRank pms a ≤ offsetOfRank pms b := by
  induction b with
  | zero =>
    have : a = 0 := by omega
    rw [this]
  | succ b ih =>
    by_cases h : a = b + 1
    · rw [h]
    · have h1 := ih (by omega)
      by_cases hb : b < pms.length
      · have hmem : pms[b] ∈ pms := List.getElem_mem hb
        have hrk : (pms[b]).myrank = b := by
          have := (hr (b, pms[b]) (List.mk_mem_enum_iff_getElem?.2
            (List.getElem?_eq_getElem hb))).1
          exact this
        have h2 := offsetOfRank_succ hr hmem
        have h3 := countOwned_nonneg hr hmem
        rw [hrk] at h2
        omega
      · have : offsetOfRank pms (b + 1) = offsetOfRank pms b := by
          unfold offsetOfRank
          rw [List.take_of_length_le (by simp; omega), List.take_of_length_le (by simp; omega)]
        omega

theorem offsetOfRank_zero (pms : List NodeParMesh) : offsetOfRank pms 0 = 0 := by
  simp [offsetOfRank]

theorem offsetOfRank_total (pms : List NodeParMesh) :
    offsetOfRank pms pms.length = (pms.map countOwned).sum := by
  unfold offsetOfRank
  rw [List.take_of_length_le (by simp)]

theorem ownedUpTo_pos (pm : NodeParMesh) (p : Nat) (hp : 1 ≤ p)
    (hown : (ownerFlags pm).getD p 0 = (pm.myrank : Int)) : 1 ≤ ownedUpTo pm p := by
  obtain ⟨k, rfl⟩ : ∃ k, p = k + 1 := ⟨p - 1, by omega⟩
  rw [ownedUpTo_succ, if_pos hown]
  omega

theorem ownedUpTo_lt (pm : NodeParMesh) (p q : Nat) (hp : 1 ≤ p) (hpq : p < q)
    (hown : (ownerFlags pm).getD q 0 = (pm.myrank : Int)) :
    ownedUpTo pm p < ownedUpTo pm q := by
  obtain ⟨k, rfl⟩ : ∃ k, q = k + 1 := ⟨q - 1, by omega⟩
  have := ownedUpTo_mono pm p k (by omega)
  rw [ownedUpTo_succ, if_pos hown]
  omega

theorem ownedUpTo_surj (pm : NodeParMesh) :
    ∀ n k, 1 ≤ k → k ≤ ownedUpTo pm n →
      ∃ q, 1 ≤ q ∧ q ≤ n ∧ (ownerFlags pm).getD q 0 = (pm.myrank : Int) ∧ ownedUpTo pm q = k := by
  intro n
  induction n with
  | zero =>
    intro k h1 h2
    rw [ownedUpTo_zero] at h2
    omega
  | succ n ih =>
    intro k h1 h2
    by_cases hk : k ≤ ownedUpTo pm n
    · obtain ⟨q, hq1, hq2, hq3, hq4⟩ := ih k h1 hk
      exact ⟨q, hq1, by omega, hq3, hq4⟩
    · rw [ownedUpTo_succ] at h2
      by_cases hown : (ownerFlags pm).getD (n + 1) 0 = (pm.myrank : Int)
      · rw [if_pos hown] at h2
        refine ⟨n + 1, by omega, le_refl _, hown, ?_⟩
        rw [ownedUpTo_succ, if_pos hown]
        omega
      · rw [if_neg hown] at h2
        omega

/-- When the total number of owned points is representable, the offsets computed
by a rank are the exact sums of the counts of the ranks below. -/
theorem offsetsOf_getD {pms : List NodeParMesh} {gid : Nat → Nat → Nat} (hr : RanksOK pms gid)
    (hfit : (pms.map countOwned).sum ≤ INT_MAX)
    {pm : NodeParMesh} (hpm : pm ∈ pms) (j : Nat) (hj : j ≤ pms.length) :
    (offsetsOf pms pm).getD j 0 = offsetOfRank pms j := by
  unfold offsetsOf offsetOfRank
  rw [(ranks_props hr hpm).1]
  have hpos : ∀ c ∈ pms.map countOwned, 0 ≤ c := by
    intro c hc
    obtain ⟨pm2, hpm2, rfl⟩ := List.mem_map.1 hc
    exact countOwned_nonneg hr hpm2
  have := computeOffsets_exact (pms.map countOwned) hpos hfit j (by simpa using hj)
  simpa using this

theorem id_bounds {pms : List NodeParMesh} {gid : Nat → Nat → Nat} (hr : RanksOK pms gid)
    {pmo : NodeParMesh} (hpmo : pmo ∈ pms) (q : Nat) (hq : q ∈ List.range' 1 pmo.np)
    (hown : (ownerFlags pmo).getD q 0 = (pmo.myrank : Int)) :
    offsetOfRank pms pmo.myrank < (ownedUpTo pmo q : Int) + offsetOfRank pms pmo.myrank ∧
    (ownedUpTo pmo q : Int) + offsetOfRank pms pmo.myrank ≤ offsetOfRank pms (pmo.myrank + 1) ∧
    0 ≤ offsetOfRank pms pmo.myrank ∧
    offsetOfRank pms (pmo.myrank + 1) ≤ offsetOfRank pms pms.length := by
  obtain ⟨_, hok, hlt, _, _⟩ := ranks_props hr hpmo
  have hq2 := List.mem_range'_1.1 hq
  have h1 := ownedUpTo_pos pmo q hq2.1 hown
  have h2 := ownedUpTo_mono pmo q pmo.np (by omega)
  have h3 := countOwned_eq pmo hok
  have h4 := offsetOfRank_succ hr hpmo
  have h5 := offsetOfRank_mono hr 0 pmo.myrank (by omega)
  have h6 := offsetOfRank_mono hr (pmo.myrank + 1) pms.length (by omega)
  rw [offsetOfRank_zero] at h5
  refine ⟨by omega, by omega, h5, h6⟩

/-- Value numbered by the owner: an owned point `q` of a rank gets the offset of
the rank plus its position among the owned points. -/
theorem packed_owned (ndebug : Bool) {pms : List NodeParMesh} {gid : Nat → Nat → Nat}
    (hr : RanksOK pms gid) (hfit : (pms.map countOwned).sum ≤ INT_MAX)
    {pm : NodeParMesh} (hpm : pm ∈ pms) (q : Nat)
    (hq : q ∈ List.range' 1 pm.np) (hown : (ownerFlags pm).getD q 0 = (pm.myrank : Int)) :
    (packedOf ndebug pms pm).2.getD q 0 = (ownedUpTo pm q : Int) + offsetOfRank pms pm.myrank := by
  obtain ⟨_, hok, hlt, _, _⟩ := ranks_props hr hpm
  have hq2 := List.mem_range'_1.1 hq
  have hb := id_bounds hr hpm q hq hown
  have htot := offsetOfRank_total pms
  unfold packedOf
  rw [(packNumbering_spec ndebug pm hok _).2.2.1 q hq2.1 (by omega) hown,
    offsetsOf_getD hr hfit hpm pm.myrank (by omega)]
  exact wrapInt_of_range _ (by omega) (by omega)

/-- Final value of `tmp`: the number given by the owner rank to its copy of the
vertex. -/
theorem final_value (ndebug : Bool) {pms : List NodeParMesh} {gid : Nat → Nat → Nat}
    (hcons : Consistent pms gid) (hfit : (pms.map countOwned).sum ≤ INT_MAX) {pm : NodeParMesh} (hpm : pm ∈ pms) (p : Nat)
    (hp : p ∈ List.range' 1 pm.np) :
    ∃ pmo ∈ pms, ∃ q ∈ List.range' 1 pmo.np,
      (ownerFlags pmo).getD q 0 = (pmo.myrank : Int) ∧
      gid pmo.myrank q = gid pm.myrank p ∧
      (finalTmp ndebug pms pm (itorecvOf ndebug pms pm)).getD p 0 =
        (ownedUpTo pmo q : Int) + offsetOfRank pms pmo.myrank := by
  obtain ⟨hr, hs, hl⟩ := id hcons
  obtain ⟨_, hok, _, _, _⟩ := ranks_props hr hpm
  obtain ⟨m, hf, hge, hm, _⟩ := flag_value hr hpm p hp
  by_cases hown : (ownerFlags pm).getD p 0 = (pm.myrank : Int)
  · refine ⟨pm, hpm, p, hp, hown, rfl, ?_⟩
    unfold finalTmp
    rw [retrieveNumbering_keep pm _ _ p (by rw [hown]; omega)]
    exact packed_owned ndebug hr hfit hpm p hp hown
  · have hne : m ≠ pm.myrank := by
      intro h
      apply hown
      rw [hf, h]
    rcases hm with h | ⟨c, hc, hcol, idx, hidx, hci, htop⟩
    · exact absurd h hne
    · obtain ⟨pm2, hpm2, h1, c2, hc2, h2, hlen, hg⟩ := hs pm hpm c hc
      obtain ⟨_, hok2, _, _, hinj2⟩ := ranks_props hr hpm2
      obtain ⟨i, hi⟩ := List.mem_iff_getElem?.1 hc
      -- the points of the owner rank listed opposite to the slot of `p`
      have hpart : ∀ y, (idx, y) ∈ c.int_comm_index.zip c2.int_comm_index →
          pointOfSlot pm2 y ∈ List.range' 1 pm2.np ∧
          gid pm2.myrank (pointOfSlot pm2 y) = gid pm.myrank p ∧
          (storedOf ndebug pms pm2).getD y 0 =
            (ownedUpTo pm2 (pointOfSlot pm2 y) : Int) + offsetOfRank pms pm2.myrank := by
        intro y hy
        have hg2 := hg (idx, y) hy
        simp only at hg2
        rw [pointOfSlot_mem pm hok p idx hidx] at hg2
        have hy2 : y < pm2.int_node_comm_nitem :=
          (hok2.2.2.2.2.2.2.2.2.2.2 c2 hc2).2 y (List.of_mem_zip hy).2
        obtain ⟨hz, hv⟩ := slot_point pm2 hok2 y hy2
        have hown2 : (ownerFlags pm2).getD (pointOfSlot pm2 y) 0 = (pm2.myrank : Int) := by
          rw [← flag_agree hcons hpm hpm2 p _ hp hv hg2, hf, h1, hcol]
        refine ⟨hv, hg2.symm, ?_⟩
        unfold storedOf
        rw [storeNumbering_spec pm2 hok2 _ _ y hz]
        exact packed_owned ndebug hr hfit hpm2 _ hv hown2
      obtain ⟨y0, hy0⟩ := exists_zip_of_mem_left c.int_comm_index c2.int_comm_index
        (by omega) idx hci
      obtain ⟨hv0, hg0, hs0⟩ := hpart y0 hy0
      refine ⟨pm2, hpm2, pointOfSlot pm2 y0, hv0, ?_, hg0, ?_⟩
      · rw [← flag_agree hcons hpm hpm2 p _ hp hv0 hg0.symm, hf, h1, hcol]
      · have hbufeq : (itorecvOf ndebug pms pm).getD i [] =
            c2.int_comm_index.map (fun idx => (storedOf ndebug pms pm2).getD idx 0) := by
          unfold itorecvOf
          rw [List.getD_eq_getElem?_getD, List.getElem?_map, hi]
          simp only [Option.map_some', Option.getD_some]
          rw [recvOne_spec ndebug hr hpm hpm2 c c2 hc2 h1 h2 hlen (by omega)]
          rfl
        have hlenp : (packedOf ndebug pms pm).2.length = pm.tmp.length :=
          (packNumbering_spec ndebug pm hok _).2.1
        unfold finalTmp
        rw [retrieveNumbering_interface pm hok _ _ hlenp p idx hidx (by rw [hf]; omega)]
        refine storeRecv_spec pm hok _ _ ?_ i c hi (by omega) idx hci htop _ ?_ ?_
        · unfold storedOf
          rw [storeNumbering_length, hok.2.2.1]
        · rw [hbufeq, List.length_map, hlen]
        · intro xy hxy hx
          rw [hbufeq, List.zip_map_right] at hxy
          obtain ⟨ab, hab, rfl⟩ := List.mem_map.1 hxy
          simp only [Prod.map_fst, id_eq] at hx
          have hab2 : (idx, ab.2) ∈ c.int_comm_index.zip c2.int_comm_index := by
            rw [← hx]
            exact hab
          obtain ⟨hv, hg3, hs3⟩ := hpart ab.2 hab2
          have hsame : pointOfSlot pm2 ab.2 = pointOfSlot pm2 y0 :=
            hinj2 _ hv _ hv0 (by rw [hg3, hg0])
          simp only [Prod.map_snd]
          rw [hs3, hsame]

theorem final_owned (ndebug : Bool) {pms : List NodeParMesh} {gid : Nat → Nat → Nat}
    (hr : RanksOK pms gid) (hfit : (pms.map countOwned).sum ≤ INT_MAX) {pm : NodeParMesh} (hpm : pm ∈ pms) (p : Nat)
    (hp : p ∈ List.range' 1 pm.np) (hown : (ownerFlags pm).getD p 0 = (pm.myrank : Int))
    (itorecv : List (List Int)) :
    (finalTmp ndebug pms pm itorecv).getD p 0 =
      (ownedUpTo pm p : Int) + offsetOfRank pms pm.myrank := by
  unfold finalTmp
  rw [retrieveNumbering_keep pm _ _ p (by rw [hown]; omega)]
  exact packed_owned ndebug hr hfit hpm p hp hown

theorem assertions_hold {pms : List NodeParMesh} {gid : Nat → Nat → Nat}
    (hcons : Consistent pms gid) (hfit : (pms.map countOwned).sum ≤ INT_MAX) {pm : NodeParMesh} (hpm : pm ∈ pms) :
    assertionsHold pm (offsetsOf pms pm) (packedOf false pms pm).1 (packedOf false pms pm).2
      (storedOf false pms pm) (finalTmp false pms pm (itorecvOf false pms pm)) = true := by
  obtain ⟨hr, hs, hl⟩ := id hcons
  obtain ⟨hnp, hok, hlt, _, _⟩ := ranks_props hr hpm
  have hstored : ∀ idx ∈ pm.node2int_node_comm_index2, (storedOf false pms pm).getD idx 0 ≠ 0 := by
    intro idx hidx
    obtain ⟨p, hpz⟩ := exists_zip_of_mem_right pm.node2int_node_comm_index1
      pm.node2int_node_comm_index2 (by rw [hok.2.2.2.1]) idx hidx
    have hp := hok.2.2.2.2.2.1 p (List.of_mem_zip hpz).1
    have hpr : p ∈ List.range' 1 pm.np := List.mem_range'_1.2 ⟨hp.1, by omega⟩
    unfold storedOf
    rw [storeNumbering_spec pm hok _ p idx hpz]
    by_cases hown : (ownerFlags pm).getD p 0 = (pm.myrank : Int)
    · rw [packed_owned false hr hfit hpm p hpr hown]
      have := id_bounds hr hpm p hpr hown
      omega
    · unfold packedOf
      rw [(packNumbering_spec false pm hok _).2.2.2 rfl p hp.1 hp.2 hown]
      decide
  unfold assertionsHold
  rw [decide_eq_true_eq]
  refine ⟨?_, ?_, hstored, ?_, ?_⟩
  · intro ip hip hown
    rw [packed_owned false hr hfit hpm ip hip hown]
    have := id_bounds hr hpm ip hip hown
    omega
  · unfold packedOf
    rw [(packNumbering_spec false pm hok _).1, countOwned_eq pm hok]
  · intro m hm v hv
    unfold postedSends at hm
    rw [List.mem_filterMap] at hm
    obtain ⟨c, hc, hFc⟩ := hm
    by_cases hsrc : pm.myrank = max pm.myrank c.color_out
    · rw [if_pos hsrc] at hFc
      have hmeq := Option.some.inj hFc
      rw [← hmeq] at hv
      simp only [List.mem_map] at hv
      obtain ⟨idx, hidx, rfl⟩ := hv
      have hlt2 := (hok.2.2.2.2.2.2.2.2.2.2 c hc).2 idx hidx
      exact hstored idx (hok.2.2.2.2.2.2.2.2.1 idx hlt2)
    · rw [if_neg hsrc] at hFc
      cases hFc
  · intro ip hip
    obtain ⟨pmo, hpmo, q, hq, hown, _, hval⟩ := final_value false hcons hfit hpm ip hip
    rw [hval, offsetsOf_getD hr hfit hpm pm.nprocs (by omega), hnp]
    have := id_bounds hr hpmo q hq hown
    omega

theorem run_result (ndebug : Bool) {pms : List NodeParMesh} {gid : Nat → Nat → Nat}
    (hcons : Consistent pms gid) (hfit : (pms.map countOwned).sum ≤ INT_MAX) :
    PMMG_Compute_verticesGloNum ndebug pms =
      some (pms.map (fun pm =>
        (ownerFlags pm, finalTmp ndebug pms pm (itorecvOf ndebug pms pm)))) := by
  unfold PMMG_Compute_verticesGloNum
  apply allSome_map
  intro pm hpm
  unfold rankResult
  rw [recvBuffers_spec ndebug hcons.1 hcons.2.1 hpm]
  have hcond : ndebug = true ∨
      assertionsHold pm (offsetsOf pms pm) (packedOf ndebug pms pm).1
        (packedOf ndebug pms pm).2 (storedOf ndebug pms pm)
        (finalTmp ndebug pms pm
          (pm.ext_node_comm.map (fun c => (recvOne pm (sendsOf ndebug pms) c).getD []))) = true := by
    cases ndebug with
    | true => exact Or.inl rfl
    | false => exact Or.inr (assertions_hold hcons hfit hpm)
  simp only [if_pos hcond]
  rfl

theorem tmpOf_run (ndebug : Bool) {pms : List NodeParMesh} {gid : Nat → Nat → Nat}
    (hr : RanksOK pms gid) {pm : NodeParMesh} (hpm : pm ∈ pms) (p : Nat) :
    tmpOf (pms.map (fun pm =>
        (ownerFlags pm, finalTmp ndebug pms pm (itorecvOf ndebug pms pm)))) pm.myrank p =
      (finalTmp ndebug pms pm (itorecvOf ndebug pms pm)).getD p 0 ∧
    flagOf (pms.map (fun pm =>
        (ownerFlags pm, finalTmp ndebug pms pm (itorecvOf ndebug pms pm)))) pm.myrank p =
      (ownerFlags pm).getD p 0 := by
  have h : (pms.map (fun pm =>
        (ownerFlags pm, finalTmp ndebug pms pm (itorecvOf ndebug pms pm)))).getD pm.myrank
          ([], []) = (ownerFlags pm, finalTmp ndebug pms pm (itorecvOf ndebug pms pm)) := by
    rw [List.getD_eq_getElem?_getD, List.getElem?_map, ranks_index hr hpm]
    rfl
  unfold tmpOf flagOf
  rw [h]
  exact ⟨rfl, rfl⟩

theorem owner_unique {pms : List NodeParMesh} {gid : Nat → Nat → Nat}
    (hcons : Consistent pms gid) {pm1 pm2 : NodeParMesh} (h1 : pm1 ∈ pms) (h2 : pm2 ∈ pms)
    (q1 q2 : Nat) (hq1 : q1 ∈ List.range' 1 pm1.np) (hq2 : q2 ∈ List.range' 1 pm2.np)
    (ho1 : (ownerFlags pm1).getD q1 0 = (pm1.myrank : Int))
    (ho2 : (ownerFlags pm2).getD q2 0 = (pm2.myrank : Int))
    (hg : gid pm1.myrank q1 = gid pm2.myrank q2) : pm1 = pm2 ∧ q1 = q2 := by
  have hf := flag_agree hcons h1 h2 q1 q2 hq1 hq2 hg
  rw [ho1, ho2] at hf
  have hrk : pm1.myrank = pm2.myrank := by exact_mod_cast hf
  have hpm := ranks_unique hcons.1 h1 h2 hrk
  subst hpm
  exact ⟨rfl, (ranks_props hcons.1 h1).2.2.2.2 q1 hq1 q2 hq2 hg⟩

/-- C8: in a consistent multi-rank configuration whose total number of owned
points fits in the type `int` (the ids are stored in `int` fields), the run
succeeds on every rank and every copy of a mesh vertex carries the id assigned by
its owner rank (the rank stored in `flag`, which numbered its own copy with its
offset plus its counter): two points that designate the same mesh vertex, on any
ranks, hold the same `tmp`.  The statement does not depend on the order of the
external communicators; a message is identified by its source and tag, not by its
arrival order. -/
theorem shared_vertex_same_id (ndebug : Bool) (pms : List NodeParMesh)
    (gid : Nat → Nat → Nat) (hcons : Consistent pms gid)
    (hfit : (pms.map countOwned).sum ≤ INT_MAX) :
    ∃ res, PMMG_Compute_verticesGloNum ndebug pms = some res ∧
      ∀ pm ∈ pms, ∀ p ∈ List.range' 1 pm.np,
        (∃ pmo ∈ pms, (pmo.myrank : Int) = flagOf res pm.myrank p ∧
          ∃ qo ∈ List.range' 1 pmo.np, gid pmo.myrank qo = gid pm.myrank p ∧
            flagOf res pmo.myrank qo = (pmo.myrank : Int) ∧
            tmpOf res pmo.myrank qo = (ownedUpTo pmo qo : Int) + offsetOfRank pms pmo.myrank ∧
            tmpOf res pm.myrank p = tmpOf res pmo.myrank qo) ∧
        ∀ pm2 ∈ pms, ∀ q ∈ List.range' 1 pm2.np, gid pm.myrank p = gid pm2.myrank q →
          tmpOf res pm.myrank p = tmpOf res pm2.myrank q := by
  refine ⟨_, run_result ndebug hcons hfit, ?_⟩
  intro pm hpm p hp
  obtain ⟨pmo, hpmo, qo, hqo, hown, hg, hval⟩ := final_value ndebug hcons hfit hpm p hp
  refine ⟨⟨pmo, hpmo, ?_, qo, hqo, hg, ?_, ?_, ?_⟩, ?_⟩
  · rw [(tmpOf_run ndebug hcons.1 hpm p).2, ← hown]
    exact flag_agree hcons hpmo hpm qo p hqo hp hg
  · rw [(tmpOf_run ndebug hcons.1 hpmo qo).2, hown]
  · rw [(tmpOf_run ndebug hcons.1 hpmo qo).1]
    exact final_owned ndebug hcons.1 hfit hpmo qo hqo hown _
  · rw [(tmpOf_run ndebug hcons.1 hpm p).1, (tmpOf_run ndebug hcons.1 hpmo qo).1, hval,
      final_owned ndebug hcons.1 hfit hpmo qo hqo hown _]
  · intro pm2 hpm2 q hq hgq
    obtain ⟨pmo2, hpmo2, qo2, hqo2, hown2, hg2, hval2⟩ := final_value ndebug hcons hfit hpm2 q hq
    obtain ⟨rfl, rfl⟩ := owner_unique hcons hpmo hpmo2 qo qo2 hqo hqo2 hown hown2
      (by rw [hg, hg2, hgq])
    rw [(tmpOf_run ndebug hcons.1 hpm p).1, (tmpOf_run ndebug hcons.1 hpm2 q).1, hval, hval2]

/-- Witness of C8: the three ranks of `demoRanks`, in a debug build. -/
theorem shared_vertex_same_id_witness :
    Consistent demoRanks demoGid ∧ (demoRanks.map countOwned).sum ≤ INT_MAX ∧
    ∃ res, PMMG_Compute_verticesGloNum false demoRanks = some res ∧
      ∀ pm ∈ demoRanks, ∀ p ∈ List.range' 1 pm.np,
        (∃ pmo ∈ demoRanks, (pmo.myrank : Int) = flagOf res pm.myrank p ∧
          ∃ qo ∈ List.range' 1 pmo.np, demoGid pmo.myrank qo = demoGid pm.myrank p ∧
            flagOf res pmo.myrank qo = (pmo.myrank : Int) ∧
            tmpOf res pmo.myrank qo =
              (ownedUpTo pmo qo : Int) + offsetOfRank demoRanks pmo.myrank ∧
            tmpOf res pm.myrank p = tmpOf res pmo.myrank qo) ∧
        ∀ pm2 ∈ demoRanks, ∀ q ∈ List.range' 1 pm2.np,
          demoGid pm.myrank p = demoGid pm2.myrank q →
          tmpOf res pm.myrank p = tmpOf res pm2.myrank q :=
  ⟨by decide, by decide,
    shared_vertex_same_id false demoRanks demoGid (by decide) (by decide)⟩

theorem offset_locate {pms : List NodeParMesh} (id : Int) (h1 : 1 ≤ id) :
    ∀ n, id ≤ offsetOfRank pms n →
      ∃ o < n, offsetOfRank pms o < id ∧ id ≤ offsetOfRank pms (o + 1) := by
  intro n
  induction n with
  | zero =>
    intro h
    rw [offsetOfRank_zero] at h
    omega
  | succ n ih =>
    intro h
    by_cases hn : id ≤ offsetOfRank pms n
    · obtain ⟨o, ho, h2, h3⟩ := ih hn
      exact ⟨o, by omega, h2, h3⟩
    · exact ⟨n, by omega, by omega, h⟩

/-- C7: in a consistent multi-rank configuration the run succeeds on every rank and
the ids stored in `tmp` over all the ranks are exactly `1..N`, `N` being the sum
over the ranks of the owned counts `nowned`, provided that `N` fits in the type
`int` in which the offsets and the ids are computed: every id lies in `1..N`, every
value of `1..N` is the id of some point, and two distinct mesh vertices never get
the same id. -/
theorem global_ids_dense (ndebug : Bool) (pms : List NodeParMesh)
    (gid : Nat → Nat → Nat) (hcons : Consistent pms gid)
    (hfit : (pms.map countOwned).sum ≤ INT_MAX) :
    ∃ res, PMMG_Compute_verticesGloNum ndebug pms = some res ∧
      (∀ pm ∈ pms, ∀ p ∈ List.range' 1 pm.np,
        1 ≤ tmpOf res pm.myrank p ∧ tmpOf res pm.myrank p ≤ (pms.map countOwned).sum) ∧
      (∀ id : Int, 1 ≤ id → id ≤ (pms.map countOwned).sum →
        ∃ pm ∈ pms, ∃ p ∈ List.range' 1 pm.np, tmpOf res pm.myrank p = id) ∧
      (∀ pm ∈ pms, ∀ pm2 ∈ pms, ∀ p ∈ List.range' 1 pm.np, ∀ q ∈ List.range' 1 pm2.np,
        gid pm.myrank p ≠ gid pm2.myrank q →
        tmpOf res pm.myrank p ≠ tmpOf res pm2.myrank q) := by
  have hr := hcons.1
  refine ⟨_, run_result ndebug hcons hfit, ?_, ?_, ?_⟩
  · intro pm hpm p hp
    obtain ⟨pmo, hpmo, qo, hqo, hown, _, hval⟩ := final_value ndebug hcons hfit hpm p hp
    rw [(tmpOf_run ndebug hr hpm p).1, hval, ← offsetOfRank_total]
    have := id_bounds hr hpmo qo hqo hown
    omega
  · intro id h1 h2
    rw [← offsetOfRank_total] at h2
    obtain ⟨o, ho, h3, h4⟩ := offset_locate id h1 pms.length h2
    have hmem : pms[o] ∈ pms := List.getElem_mem ho
    have hrk : (pms[o]).myrank = o :=
      (hr (o, pms[o]) (List.mk_mem_enum_iff_getElem?.2 (List.getElem?_eq_getElem ho))).1
    have hsucc := offsetOfRank_succ hr hmem
    rw [hrk] at hsucc
    have hcnt := countOwned_eq pms[o] (ranks_props hr hmem).2.1
    obtain ⟨q, hq1, hq2, hown, hk⟩ := ownedUpTo_surj pms[o] (pms[o]).np
      (id - offsetOfRank pms o).toNat (by omega) (by omega)
    have hq : q ∈ List.range' 1 (pms[o]).np := List.mem_range'_1.2 ⟨hq1, by omega⟩
    refine ⟨pms[o], hmem, q, hq, ?_⟩
    rw [(tmpOf_run ndebug hr hmem q).1, final_owned ndebug hr hfit hmem q hq hown, hk, hrk]
    omega
  · intro pm hpm pm2 hpm2 p hp q hq hne heq
    obtain ⟨pmo, hpmo, qo, hqo, hown, hg, hval⟩ := final_value ndebug hcons hfit hpm p hp
    obtain ⟨pmo2, hpmo2, qo2, hqo2, hown2, hg2, hval2⟩ := final_value ndebug hcons hfit hpm2 q hq
    rw [(tmpOf_run ndebug hr hpm p).1, (tmpOf_run ndebug hr hpm2 q).1, hval, hval2] at heq
    have b1 := id_bounds hr hpmo qo hqo hown
    have b2 := id_bounds hr hpmo2 qo2 hqo2 hown2
    have hrk : pmo.myrank = pmo2.myrank := by
      rcases Nat.lt_trichotomy pmo.myrank pmo2.myrank with h | h | h
      · have := offsetOfRank_mono hr (pmo.myrank + 1) pmo2.myrank (by omega)
        omega
      · exact h
      · have := offsetOfRank_mono hr (pmo2.myrank + 1) pmo.myrank (by omega)
        omega
    have hpmeq := ranks_unique hr hpmo hpmo2 hrk
    subst hpmeq
    have hqq : qo = qo2 := by
      have hk : ownedUpTo pmo qo = ownedUpTo pmo qo2 := by omega
      have hq1 := List.mem_range'_1.1 hqo
      have hq2 := List.mem_range'_1.1 hqo2
      rcases Nat.lt_trichotomy qo qo2 with h | h | h
      · have := ownedUpTo_lt pmo qo qo2 hq1.1 h hown2
        omega
      · exact h
      · have := ownedUpTo_lt pmo qo2 qo hq2.1 h hown
        omega
    subst hqq
    exact hne (by rw [← hg, ← hg2])

/-- Witness of C7: the three ranks of `demoRanks` (five mesh vertices, ids 1..5). -/
theorem global_ids_dense_witness :
    Consistent demoRanks demoGid ∧ (demoRanks.map countOwned).sum ≤ INT_MAX ∧
    ∃ res, PMMG_Compute_verticesGloNum true demoRanks = some res ∧
      (∀ pm ∈ demoRanks, ∀ p ∈ List.range' 1 pm.np,
        1 ≤ tmpOf res pm.myrank p ∧
          tmpOf res pm.myrank p ≤ (demoRanks.map countOwned).sum) ∧
      (∀ id : Int, 1 ≤ id → id ≤ (demoRanks.map countOwned).sum →
        ∃ pm ∈ demoRanks, ∃ p ∈ List.range' 1 pm.np, tmpOf res pm.myrank p = id) ∧
      (∀ pm ∈ demoRanks, ∀ pm2 ∈ demoRanks, ∀ p ∈ List.range' 1 pm.np,
        ∀ q ∈ List.range' 1 pm2.np, demoGid pm.myrank p ≠ demoGid pm2.myrank q →
        tmpOf res pm.myrank p ≠ tmpOf res pm2.myrank q) :=
  ⟨by decide, by decide, global_ids_dense true demoRanks demoGid (by decide) (by decide)⟩

theorem hashFace_new (hash : MMG5_Hash) (a b c : Int) (k : Nat)
    (hnew : faceKey a b c ∉ hash.item.map Prod.fst) (hroom : hash.item.length < hash.room) :
    MMG5_hashFace hash a b c k = (-1, ⟨hash.room, hash.item ++ [(faceKey a b c, k)]⟩) := by
  unfold MMG5_hashFace
  have h : hash.item.find? (fun e => e.1 = faceKey a b c) = none := by
    rw [List.find?_eq_none]
    intro e he hk
    apply hnew
    rw [List.mem_map]
    exact ⟨e, he, by simpa using hk⟩
  rw [h]
  simp only [if_pos hroom]

theorem hashTetraFaces_spec (env : MmgEnv) (pt : MMG5_Tetra) (pxt : MMG5_xTetra) (k : Nat) :
    ∀ (is : List (Fin 4)) (hash : MMG5_Hash),
      (hash.item.map Prod.fst ++
        ((is.filter (fun i => hasTag env.MG_PARBDY (pxt.ftag i))).map
          (fun i => (hashEntry env pt k i).1))).Nodup →
      hash.item.length + (is.filter (fun i => hasTag env.MG_PARBDY (pxt.ftag i))).length
        ≤ hash.room →
      hashTetraFaces env pt pxt k is hash =
        (1, ⟨hash.room, hash.item ++
          (is.filter (fun i => hasTag env.MG_PARBDY (pxt.ftag i))).map (hashEntry env pt k)⟩) := by
  intro is
  induction is with
  | nil => intro hash _ _; simp [hashTetraFaces]
  | cons i rest ih =>
    intro hash hnd hroom
    by_cases ht : hasTag env.MG_PARBDY (pxt.ftag i)
    · have hf : (i :: rest).filter (fun i => hasTag env.MG_PARBDY (pxt.ftag i))
          = i :: rest.filter (fun i => hasTag env.MG_PARBDY (pxt.ftag i)) := by
        rw [List.filter_cons_of_pos (by simpa using ht)]
      rw [hf] at hnd hroom ⊢
      simp only [List.map_cons, List.length_cons] at hnd hroom
      have hnew : faceKey (pt.v (env.MMG5_idir i 0)) (pt.v (env.MMG5_idir i 1))
          (pt.v (env.MMG5_idir i 2)) ∉ hash.item.map Prod.fst := by
        intro hmem
        rw [List.nodup_append] at hnd
        exact hnd.2.2 hmem (List.mem_cons_self _ _)
      have hstep := hashFace_new hash _ _ _ (12 * k + 3 * i.val) hnew (by omega)
      unfold hashTetraFaces
      rw [if_neg (by simpa using ht)]
      simp only [hstep]
      rw [if_neg (by decide)]
      rw [ih]
      · simp [hashEntry]
      · simp only [List.map_append, List.map_cons, List.map_nil, List.append_assoc,
          List.singleton_append]
        exact hnd
      · simp only [List.length_append, List.length_cons, List.length_nil]
        omega
    · have hf : (i :: rest).filter (fun i => hasTag env.MG_PARBDY (pxt.ftag i))
          = rest.filter (fun i => hasTag env.MG_PARBDY (pxt.ftag i)) := by
        rw [List.filter_cons_of_neg (by simpa using ht)]
      rw [hf] at hnd hroom ⊢
      unfold hashTetraFaces
      rw [if_pos ht]
      exact ih hash hnd hroom

theorem hashEntries_cons (env : MmgEnv) (mesh : FaceMesh) (k : Nat) (ks : List Nat) :
    hashEntries env mesh (k :: ks) =
      (tetraParFaces env mesh k).map (fun i =>
        ((↑(faceVertices env mesh k i) : Multiset Int), 12 * k + 3 * i.val)) ++
        hashEntries env mesh ks := by
  simp [hashEntries, parFaces, List.map_map, Function.comp_def]

theorem parFaces_cons (env : MmgEnv) (mesh : FaceMesh) (k : Nat) (ks : List Nat) :
    parFaces env mesh (k :: ks) =
      (tetraParFaces env mesh k).map (fun i => (k, i)) ++ parFaces env mesh ks := by
  simp [parFaces]

theorem hashParFaces_spec (env : MmgEnv) (mesh : FaceMesh) (hmesh : MeshOK env mesh) :
    ∀ (ks : List Nat) (hash : MMG5_Hash),
      (∀ k ∈ ks, k < mesh.tetra.length) →
      (hash.item.map Prod.fst ++ (hashEntries env mesh ks).map Prod.fst).Nodup →
      hash.item.length + (parFaces env mesh ks).length ≤ hash.room →
      hashParFaces env mesh ks hash =
        some (1, ⟨hash.room, hash.item ++ hashEntries env mesh ks⟩) := by
  intro ks
  induction ks with
  | nil => intro hash _ _ _; simp [hashParFaces, hashEntries, parFaces]
  | cons k ks ih =>
    intro hash hks hnd hroom
    have hk : k < mesh.tetra.length := hks k (List.mem_cons_self _ _)
    have hpt : mesh.tetra[k]? = some mesh.tetra[k] := List.getElem?_eq_getElem hk
    rw [hashEntries_cons] at hnd ⊢
    rw [parFaces_cons] at hroom
    unfold hashParFaces
    simp only [hpt]
    by_cases hskip : env.MG_EOK mesh.tetra[k] = false ∨ mesh.tetra[k].xt = 0
    · have ht : tetraParFaces env mesh k = [] := by
        unfold tetraParFaces
        simp only [hpt, if_pos hskip]
      rw [ht] at hnd hroom ⊢
      rw [if_pos hskip]
      exact ih hash (fun j hj => hks j (List.mem_cons_of_mem _ hj)) hnd hroom
    · rw [if_neg hskip]
      have hok : env.MG_EOK mesh.tetra[k] = true := by
        cases h : env.MG_EOK mesh.tetra[k]
        · exact absurd (Or.inl h) hskip
        · rfl
      have hx : mesh.tetra[k].xt < mesh.xtetra.length :=
        hmesh.2 _ (List.getElem_mem _) hok
      have hpxt : mesh.xtetra[mesh.tetra[k].xt]? = some mesh.xtetra[mesh.tetra[k].xt] :=
        List.getElem?_eq_getElem hx
      have ht : tetraParFaces env mesh k = (List.finRange 4).filter
          (fun i => hasTag env.MG_PARBDY (mesh.xtetra[mesh.tetra[k].xt].ftag i)) := by
        unfold tetraParFaces
        simp only [hpt, if_neg hskip, hpxt]
      have hmap : (tetraParFaces env mesh k).map (fun i =>
          ((↑(faceVertices env mesh k i) : Multiset Int), 12 * k + 3 * i.val)) =
          (tetraParFaces env mesh k).map (hashEntry env mesh.tetra[k] k) := by
        apply List.map_congr_left
        intro i _
        simp only [faceVertices, hpt, hashEntry, faceKey]
      rw [hmap] at hnd ⊢
      rw [ht] at hnd hroom ⊢
      simp only [hpxt]
      simp only [List.map_append, List.length_append, List.length_map, List.map_map] at hnd hroom
      rw [hashTetraFaces_spec env _ _ k (List.finRange 4) hash]
      · rw [if_neg (by simp)]
        rw [ih]
        · simp
        · intro j hj; exact hks j (List.mem_cons_of_mem _ hj)
        · simp only [List.map_append, List.map_map, List.append_assoc]
          exact hnd
        · simp only [List.length_append, List.length_map]
          omega
      · rw [← List.append_assoc] at hnd
        have := (List.nodup_append.1 hnd).1
        simpa [List.map_map, Function.comp_def] using this
      · omega

theorem renumber_tetra_get (g : Int → Int) (mesh : FaceMesh) (k : Nat) :
    (renumber g mesh).tetra[k]? = (mesh.tetra[k]?).map (renumberTetra g) := by
  simp [renumber]

theorem tetraParFaces_renumber (env : MmgEnv) (g : Int → Int) (mesh : FaceMesh)
    (hvalid : KeepsValidity env g mesh) (k : Nat) :
    tetraParFaces env (renumber g mesh) k = tetraParFaces env mesh k := by
  unfold tetraParFaces
  rw [renumber_tetra_get]
  cases hpt : mesh.tetra[k]? with
  | none => rfl
  | some pt =>
    have hv : env.MG_EOK (renumberTetra g pt) = env.MG_EOK pt :=
      hvalid pt (List.getElem?_mem hpt)
    simp only [Option.map_some', hv]
    rfl

theorem parFaces_renumber (env : MmgEnv) (g : Int → Int) (mesh : FaceMesh)
    (hvalid : KeepsValidity env g mesh) (ks : List Nat) :
    parFaces env (renumber g mesh) ks = parFaces env mesh ks := by
  unfold parFaces
  simp only [tetraParFaces_renumber env g mesh hvalid]

theorem faceVertices_renumber (env : MmgEnv) (g : Int → Int) (mesh : FaceMesh) (k : Nat)
    (i : Fin 4) :
    faceVertices env (renumber g mesh) k i = (faceVertices env mesh k i).map g := by
  unfold faceVertices
  rw [renumber_tetra_get]
  cases hpt : mesh.tetra[k]? with
  | none => rfl
  | some pt => rfl

theorem meshOK_renumber (env : MmgEnv) (g : Int → Int) (mesh : FaceMesh)
    (hvalid : KeepsValidity env g mesh) (hmesh : MeshOK env mesh) :
    MeshOK env (renumber g mesh) := by
  refine ⟨?_, ?_⟩
  · simpa [renumber] using hmesh.1
  · intro pt hpt hok
    simp only [renumber, List.mem_map] at hpt
    obtain ⟨p, hp, rfl⟩ := hpt
    rw [hvalid p hp] at hok
    exact hmesh.2 p hp hok

theorem parFaces_nodup (env : MmgEnv) (mesh : FaceMesh) (ks : List Nat) (hks : ks.Nodup) :
    (parFaces env mesh ks).Nodup := by
  unfold parFaces
  rw [List.nodup_flatMap]
  refine ⟨?_, ?_⟩
  · intro k _
    apply List.Nodup.map
    · intro a b h; simpa using h
    · unfold tetraParFaces
      split
      · exact List.nodup_nil
      · split
        · exact List.nodup_nil
        · split
          · exact List.nodup_nil
          · exact (List.nodup_finRange 4).filter _
  · refine List.Pairwise.imp ?_ hks
    intro a b hab
    intro x hxa hxb
    simp only [List.mem_map] at hxa hxb
    obtain ⟨i, _, rfl⟩ := hxa
    obtain ⟨j, _, hj⟩ := hxb
    exact hab (by simpa using (congrArg Prod.fst hj).symm)

theorem mem_parVertices (env : MmgEnv) (mesh : FaceMesh) (f : Nat × Fin 4)
    (hf : f ∈ parFaces env mesh (List.range' 1 mesh.ne)) (a : Int)
    (ha : a ∈ faceVertices env mesh f.1 f.2) : a ∈ parVertices env mesh := by
  unfold parVertices
  rw [List.mem_flatMap]
  exact ⟨f, hf, ha⟩

theorem key_injective (env : MmgEnv) (g : Int → Int) (mesh : FaceMesh)
    (hdist : DistinctFaces env mesh) (hinj : InjOnParVertices env g mesh)
    (f f' : Nat × Fin 4)
    (hf : f ∈ parFaces env mesh (List.range' 1 mesh.ne))
    (hf' : f' ∈ parFaces env mesh (List.range' 1 mesh.ne))
    (hkey : (↑((faceVertices env mesh f.1 f.2).map g) : Multiset Int) =
      ↑((faceVertices env mesh f'.1 f'.2).map g)) : f = f' := by
  have hperm := Multiset.coe_eq_coe.1 hkey
  have hsub : ∀ (p q : Nat × Fin 4), p ∈ parFaces env mesh (List.range' 1 mesh.ne) →
      q ∈ parFaces env mesh (List.range' 1 mesh.ne) →
      (∀ x, x ∈ (faceVertices env mesh p.1 p.2).map g →
        x ∈ (faceVertices env mesh q.1 q.2).map g) →
      ∀ a, a ∈ faceVertices env mesh p.1 p.2 → a ∈ faceVertices env mesh q.1 q.2 := by
    intro p q hp hq hpq a ha
    have h1 := hpq (g a) (List.mem_map_of_mem g ha)
    rw [List.mem_map] at h1
    obtain ⟨b, hb, hgb⟩ := h1
    have := hinj b (mem_parVertices env mesh q hq b hb) a (mem_parVertices env mesh p hp a ha) hgb
    rw [← this]
    exact hb
  apply hdist f hf f' hf'
  ext a
  simp only [List.mem_toFinset]
  exact ⟨hsub f f' hf hf' (fun x hx => hperm.mem_iff.1 hx) a,
    hsub f' f hf' hf (fun x hx => hperm.mem_iff.2 hx) a⟩

theorem hashEntries_renumber (env : MmgEnv) (g : Int → Int) (mesh : FaceMesh)
    (hvalid : KeepsValidity env g mesh) (ks : List Nat) :
    hashEntries env (renumber g mesh) ks =
      (parFaces env mesh ks).map (fun f =>
        ((↑((faceVertices env mesh f.1 f.2).map g) : Multiset Int), 12 * f.1 + 3 * f.2.val)) := by
  unfold hashEntries
  rw [parFaces_renumber env g mesh hvalid]
  simp only [faceVertices_renumber]

theorem hashEntries_keys_nodup (env : MmgEnv) (g : Int → Int) (mesh : FaceMesh)
    (hvalid : KeepsValidity env g mesh)
    (hdist : DistinctFaces env mesh) (hinj : InjOnParVertices env g mesh) :
    ((hashEntries env (renumber g mesh) (List.range' 1 mesh.ne)).map Prod.fst).Nodup := by
  rw [hashEntries_renumber env g mesh hvalid, List.map_map]
  apply List.Nodup.map_on
  · intro f hf f' hf' h
    exact key_injective env g mesh hdist hinj f f' hf hf' h
  · exact parFaces_nodup env mesh _ (List.nodup_range' 1 mesh.ne)

theorem hashGet_spec (env : MmgEnv) (g : Int → Int) (mesh : FaceMesh)
    (hvalid : KeepsValidity env g mesh)
    (hdist : DistinctFaces env mesh) (hinj : InjOnParVertices env g mesh) (n : Nat)
    (f : Nat × Fin 4) (hf : f ∈ parFaces env mesh (List.range' 1 mesh.ne)) (ia ib ic : Int)
    (hkey : faceKey ia ib ic = ↑((faceVertices env mesh f.1 f.2).map g)) :
    MMG5_hashGetFace ⟨n, hashEntries env (renumber g mesh) (List.range' 1 mesh.ne)⟩ ia ib ic
      = 12 * f.1 + 3 * f.2.val := by
  unfold MMG5_hashGetFace
  simp only
  rw [hashEntries_renumber env g mesh hvalid]
  cases h : List.find? (fun e => decide (e.1 = faceKey ia ib ic))
      ((parFaces env mesh (List.range' 1 mesh.ne)).map (fun f =>
        ((↑((faceVertices env mesh f.1 f.2).map g) : Multiset Int), 12 * f.1 + 3 * f.2.val))) with
  | none =>
    rw [List.find?_eq_none] at h
    have := h _ (List.mem_map_of_mem _ hf)
    simp only [decide_eq_true_eq] at this
    exact absurd hkey.symm this
  | some e =>
    have hp := List.find?_some h
    have hm := List.mem_of_find?_eq_some h
    simp only [decide_eq_true_eq] at hp
    rw [List.mem_map] at hm
    obtain ⟨f', hf', rfl⟩ := hm
    simp only at hp ⊢
    have := key_injective env g mesh hdist hinj f' f hf' hf (hp.trans hkey)
    rw [this]

theorem mem_tetraParFaces (env : MmgEnv) (mesh : FaceMesh) (k : Nat) (i : Fin 4)
    (h : i ∈ tetraParFaces env mesh k) :
    ∃ pt pxt, mesh.tetra[k]? = some pt ∧ env.MG_EOK pt = true ∧ pt.xt ≠ 0 ∧
      mesh.xtetra[pt.xt]? = some pxt ∧ hasTag env.MG_PARBDY (pxt.ftag i) := by
  unfold tetraParFaces at h
  cases hpt : mesh.tetra[k]? with
  | none => simp [hpt] at h
  | some pt =>
    simp only [hpt] at h
    by_cases hskip : env.MG_EOK pt = false ∨ pt.xt = 0
    · simp [if_pos hskip] at h
    · rw [if_neg hskip] at h
      cases hpxt : mesh.xtetra[pt.xt]? with
      | none => simp [hpxt] at h
      | some pxt =>
        simp only [hpxt, List.mem_filter, decide_eq_true_eq] at h
        refine ⟨pt, pxt, rfl, ?_, ?_, hpxt, h.2⟩
        · cases hv : env.MG_EOK pt
          · exact absurd (Or.inl hv) hskip
          · rfl
        · exact fun hx => hskip (Or.inr hx)

theorem mem_parFaces (env : MmgEnv) (mesh : FaceMesh) (ks : List Nat) (k : Nat) (i : Fin 4)
    (hk : k ∈ ks) (hi : i ∈ tetraParFaces env mesh k) : (k, i) ∈ parFaces env mesh ks := by
  unfold parFaces
  rw [List.mem_flatMap]
  exact ⟨k, hk, List.mem_map_of_mem _ hi⟩

theorem decodeFace_eq (e : Int) (iel : Nat) (ifac : Fin 4) (iploc : Fin 3)
    (h : decodeFace e = some (iel, ifac, iploc)) :
    e = ((12 * iel + 3 * ifac.val + iploc.val : Nat) : Int) := by
  unfold decodeFace at h
  by_cases hneg : e < 0
  · simp [hneg] at h
  · rw [if_neg hneg] at h
    simp only [Option.some.injEq, Prod.mk.injEq] at h
    obtain ⟨h1, h2, h3⟩ := h
    have h2v := congrArg Fin.val h2
    have h3v := congrArg Fin.val h3
    simp only at h2v h3v
    omega

theorem storeFaces_spec (ndebug : Bool) (env : MmgEnv) (mesh : FaceMesh) :
    ∀ (index1 : List Int), (∀ e ∈ index1, Designates env mesh e) →
      storeFaces ndebug env mesh index1 = some (index1.flatMap (captured env mesh)) := by
  intro index1
  induction index1 with
  | nil => intro _; rfl
  | cons e rest ih =>
    intro hent
    have he := hent e (List.mem_cons_self _ _)
    unfold Designates at he
    cases hd : decodeFace e with
    | none => simp [hd] at he
    | some d =>
      obtain ⟨iel, ifac, iploc⟩ := d
      simp only [hd] at he
      obtain ⟨pt, pxt, hpt, hok, hxt, hpxt, htag⟩ := mem_tetraParFaces env mesh iel ifac he.2.2.1
      unfold storeFaces
      simp only [hd, hpt]
      have hass : (if ndebug = true then some true
          else if env.MG_EOK pt = false then some false
          else if pt.xt = 0 then some false
          else (mesh.xtetra[pt.xt]?).map
            (fun pxt => decide (hasTag env.MG_PARBDY (pxt.ftag ifac)))) = some true := by
        cases ndebug
        · simp [hok, hxt, hpxt, htag]
        · simp
      simp only [hass]
      rw [ih (fun x hx => hent x (List.mem_cons_of_mem _ hx))]
      simp [captured, hd, hpt]

theorem faceKey_rotate (x : Fin 3 → Int) (p : Fin 3) :
    faceKey (x p) (x (p + 1)) (x (p + 2)) = ↑[x 0, x 1, x 2] := by
  unfold faceKey
  apply Multiset.coe_eq_coe.2
  fin_cases p
  · exact List.Perm.refl _
  · show List.Perm ([x 1, x 2] ++ [x 0]) ([x 0] ++ [x 1, x 2])
    exact List.perm_append_comm
  · show List.Perm ([x 2] ++ [x 0, x 1]) ([x 0, x 1] ++ [x 2])
    exact List.perm_append_comm

theorem findIploc_spec (env : MmgEnv) (g : Int → Int) (pt : MMG5_Tetra) (ifac : Fin 4)
    (iploc : Fin 3)
    (hnd : [pt.v (env.MMG5_idir ifac 0), pt.v (env.MMG5_idir ifac 1),
      pt.v (env.MMG5_idir ifac 2)].Nodup)
    (hinj : ∀ j : Fin 3, g (pt.v (env.MMG5_idir ifac j)) = g (pt.v (env.MMG5_idir ifac iploc)) →
      pt.v (env.MMG5_idir ifac j) = pt.v (env.MMG5_idir ifac iploc)) :
    findIploc env (renumberTetra g pt) ifac (g (pt.v (env.MMG5_idir ifac iploc))) = iploc.val := by
  simp only [List.nodup_cons, List.mem_cons, List.mem_singleton, not_or, List.not_mem_nil,
    not_false_eq_true, List.nodup_nil, and_true] at hnd
  obtain ⟨⟨h01, h02⟩, h12⟩ := hnd
  unfold findIploc renumberTetra
  simp only
  fin_cases iploc
  · exact if_pos rfl
  · exact (if_neg (fun h => h01 (hinj 0 h))).trans (if_pos rfl)
  · exact (if_neg (fun h => h02 (hinj 0 h))).trans
      ((if_neg (fun h => h12 (hinj 1 h))).trans (if_pos rfl))

theorem getInt_triple (pre : List Int) (a b c : Int) (rest : List Int) (k : Nat)
    (h : pre.length = 3 * k) :
    getInt (pre ++ a :: b :: c :: rest) (3 * k) = some a ∧
    getInt (pre ++ a :: b :: c :: rest) (3 * k + 1) = some b ∧
    getInt (pre ++ a :: b :: c :: rest) (3 * k + 2) = some c := by
  have e0 : (3 * (k : Int)) = ((pre.length : Nat) : Int) := by rw [h]; push_cast; rfl
  have e1 : (3 * (k : Int) + 1) = (((pre ++ [a]).length : Nat) : Int) := by
    rw [List.length_append, h]; push_cast; simp
  have e2 : (3 * (k : Int) + 2) = (((pre ++ [a, b]).length : Nat) : Int) := by
    rw [List.length_append, h]; push_cast; simp
  refine ⟨?_, ?_, ?_⟩
  · rw [e0]; exact getInt_append _ _ _
  · rw [e1]
    have : pre ++ a :: b :: c :: rest = (pre ++ [a]) ++ b :: (c :: rest) := by simp
    rw [this]; exact getInt_append _ _ _
  · rw [e2]
    have : pre ++ a :: b :: c :: rest = (pre ++ [a, b]) ++ c :: rest := by simp
    rw [this]; exact getInt_append _ _ _

theorem restoreFaces_spec (ndebug use_scotch : Bool) (env : MmgEnv) (g : Int → Int)
    (mesh : FaceMesh) (permNodGlob : Option (List Int)) (n : Nat)
    (hvalid : KeepsValidity env g mesh) (hdist : DistinctFaces env mesh)
    (hinj : InjOnParVertices env g mesh)
    (hperm : AppliesPerm use_scotch permNodGlob g env mesh) :
    ∀ (todo pre : List Int) (k : Nat), pre.length = 3 * k →
      (∀ e ∈ todo, Designates env mesh e) →
      restoreFaces ndebug use_scotch env (renumber g mesh)
        ⟨n, hashEntries env (renumber g mesh) (List.range' 1 mesh.ne)⟩
        (pre ++ todo.flatMap (captured env mesh)) permNodGlob todo.length k = some todo := by
  intro todo
  induction todo with
  | nil => intro pre k _ _; rfl
  | cons e rest ih =>
    intro pre k hpre hent
    have he := hent e (List.mem_cons_self _ _)
    unfold Designates at he
    cases hd : decodeFace e with
    | none => simp [hd] at he
    | some d =>
      obtain ⟨iel, ifac, iploc⟩ := d
      simp only [hd] at he
      obtain ⟨h1, hne, hface, hnd⟩ := he
      obtain ⟨pt, pxt, hpt, hok, hxt, hpxt, htag⟩ := mem_tetraParFaces env mesh iel ifac hface
      have hfv : faceVertices env mesh iel ifac = [pt.v (env.MMG5_idir ifac 0),
          pt.v (env.MMG5_idir ifac 1), pt.v (env.MMG5_idir ifac 2)] := by
        simp [faceVertices, hpt]
      have hf : (iel, ifac) ∈ parFaces env mesh (List.range' 1 mesh.ne) :=
        mem_parFaces env mesh _ iel ifac (by rw [List.mem_range']; exact ⟨iel - 1, by omega, by omega⟩)
          hface
      have hcap : captured env mesh e = [pt.v (env.MMG5_idir ifac iploc),
          pt.v (env.MMG5_idir ifac (iploc + 1)), pt.v (env.MMG5_idir ifac (iploc + 2))] := by
        simp [captured, hd, hpt]
      have hmemv : ∀ j : Fin 3, pt.v (env.MMG5_idir ifac j) ∈ parVertices env mesh := by
        intro j
        apply mem_parVertices env mesh (iel, ifac) hf
        rw [hfv]
        fin_cases j <;> simp
      have hdata : pre ++ (e :: rest).flatMap (captured env mesh) =
          pre ++ pt.v (env.MMG5_idir ifac iploc) :: pt.v (env.MMG5_idir ifac (iploc + 1)) ::
            pt.v (env.MMG5_idir ifac (iploc + 2)) :: rest.flatMap (captured env mesh) := by
        simp [hcap]
      obtain ⟨g0, g1, g2⟩ := getInt_triple pre (pt.v (env.MMG5_idir ifac iploc))
        (pt.v (env.MMG5_idir ifac (iploc + 1))) (pt.v (env.MMG5_idir ifac (iploc + 2)))
        (rest.flatMap (captured env mesh)) k hpre
      have hkey : faceKey (g (pt.v (env.MMG5_idir ifac iploc)))
          (g (pt.v (env.MMG5_idir ifac (iploc + 1)))) (g (pt.v (env.MMG5_idir ifac (iploc + 2))))
          = ↑((faceVertices env mesh iel ifac).map g) := by
        rw [hfv]
        exact faceKey_rotate (fun j => g (pt.v (env.MMG5_idir ifac j))) iploc
      have hval := hashGet_spec env g mesh hvalid hdist hinj n (iel, ifac) hf _ _ _ hkey
      have hfind := findIploc_spec env g pt ifac iploc (hfv ▸ hnd)
        (fun j h => hinj _ (hmemv j) _ (hmemv iploc) h)
      have hpt2 : (renumber g mesh).tetra[(12 * iel + 3 * ifac.val) / 12]?
          = some (renumberTetra g pt) := by
        rw [renumber_tetra_get]
        have : (12 * iel + 3 * ifac.val) / 12 = iel := by omega
        rw [this, hpt]; rfl
      have hifac : ∀ h, (⟨(12 * iel + 3 * ifac.val) % 12 / 3, h⟩ : Fin 4) = ifac := by
        intro h; apply Fin.ext; show (12 * iel + 3 * ifac.val) % 12 / 3 = ifac.val; omega
      have hren : (renumber g mesh).renum = mesh.renum := rfl
      have hok2 : env.MG_EOK (renumberTetra g pt) = true := by
        rw [hvalid pt (List.getElem?_mem hpt)]; exact hok
      have hrec := ih (pre ++ [pt.v (env.MMG5_idir ifac iploc),
          pt.v (env.MMG5_idir ifac (iploc + 1)), pt.v (env.MMG5_idir ifac (iploc + 2))]) (k + 1)
        (by simp [hpre]; omega) (fun x hx => hent x (List.mem_cons_of_mem _ hx))
      have hdata2 : pre ++ pt.v (env.MMG5_idir ifac iploc) ::
          pt.v (env.MMG5_idir ifac (iploc + 1)) ::
            pt.v (env.MMG5_idir ifac (iploc + 2)) :: rest.flatMap (captured env mesh) =
          (pre ++ [pt.v (env.MMG5_idir ifac iploc),
          pt.v (env.MMG5_idir ifac (iploc + 1)), pt.v (env.MMG5_idir ifac (iploc + 2))]) ++
            rest.flatMap (captured env mesh) := by simp
      rw [← hdata2, ← hdata] at hrec
      rw [List.length_cons]
      unfold restoreFaces
      rw [hdata] at hrec ⊢
      simp only [g0, g1, g2, hren, hperm _ (hmemv _), hval]
      rw [if_neg (by omega)]
      simp only [hpt2, hifac, hfind, hok2]
      rw [if_neg (by simp)]
      rw [hrec]
      simp only [Option.map_some', Option.some.injEq, List.cons.injEq, and_true]
      exact (decodeFace_eq e iel ifac iploc hd).symm

theorem renumber_id (mesh : FaceMesh) : renumber (fun a => a) mesh = mesh := by
  unfold renumber
  have h : renumberTetra (fun a => a) = id := by
    funext pt
    rfl
  rw [h, List.map_id]

/-- C10. Capture/restore round trip.  In a group whose mesh arrays are large enough
(`MeshOK`), whose face-communicator entries each designate a face tagged `MG_PARBDY`
of a tetrahedron in use, with pairwise distinct vertices (`Designates`), and in which
no two `MG_PARBDY` faces have the same vertex set (`DistinctFaces`):
`PMMG_store_faceVerticesInIntComm` returns 1 with a buffer `facesData`, and after a
pure renumbering `g` of the vertex ids (one to one on the interface vertices and
keeping the tetrahedra in use; `AppliesPerm`: passed as `permNodGlob` with
renumbering enabled, or nothing applied and `g` leaving the ids as they are),
`PMMG_update_face2intInterfaceTetra` called on this buffer returns 1 and leaves
`face2int_face_comm_index1` equal, entry by entry, to its value before the capture.
This holds with and without the assertions (`ndebug`), the allocation of `facesData`
succeeding and the hash table having room for the `MG_PARBDY` faces. -/
theorem face_comm_roundtrip (ndebug use_scotch : Bool) (env : MmgEnv) (mesh : FaceMesh)
    (index1 : List Int) (g : Int → Int) (permNodGlob : Option (List Int)) (n : Nat)
    (hmesh : MeshOK env mesh)
    (hent : ∀ e ∈ index1, Designates env mesh e)
    (hdist : DistinctFaces env mesh)
    (hvalid : KeepsValidity env g mesh)
    (hinj : InjOnParVertices env g mesh)
    (hperm : AppliesPerm use_scotch permNodGlob g env mesh)
    (hroom : (parFaces env mesh (List.range' 1 mesh.ne)).length ≤ n) :
    ∃ facesData,
      PMMG_store_faceVerticesInIntComm ndebug env mesh index1 true = some (1, facesData) ∧
      PMMG_update_face2intInterfaceTetra ndebug use_scotch env (renumber g mesh) index1
        facesData permNodGlob (some n) = some (1, index1) := by
  refine ⟨index1.flatMap (captured env mesh), ?_, ?_⟩
  · unfold PMMG_store_faceVerticesInIntComm
    rw [if_pos rfl, storeFaces_spec ndebug env mesh index1 hent]
    rfl
  · unfold PMMG_update_face2intInterfaceTetra
    have hmesh2 := meshOK_renumber env g mesh hvalid hmesh
    have hne : (renumber g mesh).ne = mesh.ne := rfl
    have hstep := hashParFaces_spec env (renumber g mesh) hmesh2 (List.range' 1 mesh.ne) ⟨n, []⟩
      (by
        intro k hk
        rw [List.mem_range'] at hk
        obtain ⟨i, hi, rfl⟩ := hk
        have := hmesh2.1
        rw [hne] at this
        omega)
      (by
        simp only [List.map_nil, List.nil_append]
        exact hashEntries_keys_nodup env g mesh hvalid hdist hinj)
      (by
        rw [parFaces_renumber env g mesh hvalid]
        simpa using hroom)
    simp only [hne, hstep, List.nil_append]
    rw [if_neg (by decide)]
    have hrest := restoreFaces_spec ndebug use_scotch env g mesh permNodGlob n hvalid hdist hinj
      hperm index1 [] 0 rfl hent
    rw [List.nil_append] at hrest
    rw [hrest]
    rfl

/-- Witness for C10 on `demoFaceMesh`: three interface entries, the node
permutation `demoPerm` applied with renumbering enabled, assertions on. -/
theorem face_comm_roundtrip_witness :
    ∃ facesData,
      PMMG_store_faceVerticesInIntComm false demoEnv demoFaceMesh [13, 29, 30] true
        = some (1, facesData) ∧
      PMMG_update_face2intInterfaceTetra false true demoEnv (renumber demoRenum demoFaceMesh)
        [13, 29, 30] facesData (some demoPerm) (some 3) = some (1, [13, 29, 30]) :=
  face_comm_roundtrip false true demoEnv demoFaceMesh [13, 29, 30] demoRenum (some demoPerm) 3
    (by decide) (by decide) (by decide) (by decide) (by decide) (by decide) (by decide)

theorem updateSlots_spec (step : Int → Option Int) :
    ∀ (n k : Nat) (l l2 : List Int), updateSlots step n k l = some l2 →
      l2.length = l.length ∧ (0 < n → k + n ≤ l.length) ∧
      (∀ j, k ≤ j → j < k + n → ∃ v w, l[j]? = some v ∧ step v = some w ∧ l2[j]? = some w) ∧
      (∀ j, j < k ∨ k + n ≤ j → l2[j]? = l[j]?) := by
  intro n
  induction n with
  | zero =>
    intro k l l2 h
    simp only [updateSlots, Option.some.injEq] at h
    subst h
    refine ⟨rfl, ?_, ?_, fun _ _ => rfl⟩
    · intro h0; omega
    · intro j h1 h2; omega
  | succ n ih =>
    intro k l l2 h
    unfold updateSlots at h
    cases hk : l[k]? with
    | none => simp [hk] at h
    | some v =>
      simp only [hk] at h
      cases hs : step v with
      | none => simp [hs] at h
      | some w =>
        simp only [hs] at h
        obtain ⟨hlen, hle, hin, hout⟩ := ih (k + 1) (l.set k w) l2 h
        rw [List.length_set] at hlen hle
        have hkl : k < l.length := by
          rcases List.getElem?_eq_some.1 hk with ⟨hlt, _⟩
          exact hlt
        refine ⟨hlen, fun _ => by omega, ?_, ?_⟩
        · intro j h1 h2
          by_cases hjk : j = k
          · subst hjk
            refine ⟨v, w, hk, hs, ?_⟩
            rw [hout j (Or.inl (by omega)), List.getElem?_set_self hkl]
          · obtain ⟨v2, w2, hv2, hw2, hl2⟩ := hin j (by omega) (by omega)
            rw [List.getElem?_set_ne (fun h => hjk h.symm)] at hv2
            exact ⟨v2, w2, hv2, hw2, hl2⟩
        · intro j hj
          rw [hout j (by omega), List.getElem?_set_ne (by omega)]

theorem updateSlots_some (step : Int → Option Int) :
    ∀ (n k : Nat) (l : List Int), k + n ≤ l.length →
      (∀ j, k ≤ j → j < k + n → ∀ v, l[j]? = some v → (step v).isSome = true) →
      ∃ l2, updateSlots step n k l = some l2 := by
  intro n
  induction n with
  | zero => intro k l _ _; exact ⟨l, rfl⟩
  | succ n ih =>
    intro k l hle hstep
    have hkl : k < l.length := by omega
    have hk : l[k]? = some l[k] := List.getElem?_eq_getElem hkl
    have hs := hstep k (le_refl k) (by omega) _ hk
    obtain ⟨w, hw⟩ := Option.isSome_iff_exists.1 hs
    unfold updateSlots
    simp only [hk, hw]
    apply ih (k + 1) (l.set k w) (by rw [List.length_set]; omega)
    intro j h1 h2 v hv
    rw [List.getElem?_set_ne (by omega)] at hv
    exact hstep j (by omega) (by omega) v hv

theorem packedFace_nonneg (ndebug : Bool) (env : MmgEnv) (tetra : List MMG5_Tetra) (v : Int)
    (hv : 0 ≤ v) (pt : MMG5_Tetra) (hpt : tetra[(v / 12).toNat]? = some pt)
    (hok : ndebug = true ∨ (env.MG_EOK pt = true ∧ pt.flag ≠ 0)) :
    packedFace ndebug env tetra v = some (wrapInt (12 * pt.flag + v % 12)) := by
  unfold packedFace tetraAt
  have h1 : Int.tdiv v 12 = v / 12 := Int.tdiv_eq_ediv hv (by decide)
  have h2 : Int.tmod v 12 = v % 12 := Int.tmod_eq_emod hv (by decide)
  have h3 : Int.tdiv (v % 12) 3 = v % 12 / 3 := Int.tdiv_eq_ediv (by omega) (by decide)
  have h4 : Int.tmod (v % 12) 3 = v % 12 % 3 := Int.tmod_eq_emod (by omega) (by decide)
  simp only [h1, h2, h3, h4]
  rw [if_neg (by omega), hpt]
  simp only
  have hcond : ¬ (ndebug = false ∧ (env.MG_EOK pt = false ∨ pt.flag = 0)) := by
    rintro ⟨hd, hbad⟩
    rcases hok with h | ⟨h5, h6⟩
    · rw [h] at hd; exact Bool.noConfusion hd
    · rcases hbad with h7 | h7
      · rw [h5] at h7; exact Bool.noConfusion h7
      · exact h6 h7
  rw [if_neg hcond]
  have harith : 12 * pt.flag + 3 * (v % 12 / 3) + v % 12 % 3 = 12 * pt.flag + v % 12 := by
    omega
  rw [harith]

/-- Beyond the range of `int` the packed entry follows the 32-bit arithmetic of the
program: for the packed index 178956971 and the entry `17 = 12*1 + 5` the product
`12*flag + 5 = 2^31 + 9` is stored as `9 - 2^31`; the packed index 178956970 gives
the largest entries that are representable. -/
theorem packedFace_overflow :
    packedFace true demoEnv [⟨![0, 0, 0, 0], 0, 0, 0⟩, ⟨![1, 2, 3, 4], 1, 178956971, 0⟩] 17 =
      some (-2147483639) ∧
    packedFace true demoEnv [⟨![0, 0, 0, 0], 0, 0, 0⟩, ⟨![1, 2, 3, 4], 1, 178956970, 0⟩] 17 =
      some 2147483645 := by
  decide

theorem decodeFace_packed (v flag : Int) (hv : 0 ≤ v) (hf : 0 ≤ flag) (iel : Nat)
    (ifac : Fin 4) (iploc : Fin 3) (h : decodeFace v = some (iel, ifac, iploc)) :
    decodeFace (12 * flag + v % 12) = some (flag.toNat, ifac, iploc) := by
  unfold decodeFace at h ⊢
  rw [if_neg (by omega)] at h ⊢
  simp only [Option.some.injEq, Prod.mk.injEq] at h ⊢
  obtain ⟨_, h2, h3⟩ := h
  have h2v := congrArg Fin.val h2
  have h3v := congrArg Fin.val h3
  simp only at h2v h3v
  refine ⟨?_, ?_, ?_⟩
  · omega
  · apply Fin.ext
    show (12 * flag + v % 12).toNat % 12 / 3 = ifac.val
    omega
  · apply Fin.ext
    show (12 * flag + v % 12).toNat % 12 % 3 = iploc.val
    omega

/-- The packed entry is representable as soon as the old entry is and the packed
index of a tetrahedron is at most its index, as `PMMG_mark_packedTetra` leaves
it. -/
theorem packed_entry_fits (v flag : Int) (h0 : 0 ≤ v) (hv : v ≤ INT_MAX)
    (hf : flag ≤ v / 12) : 12 * flag + v % 12 ≤ INT_MAX := by
  unfold INT_MAX at hv ⊢
  omega

/-- C12. In a group whose face slots each hold a non-negative entry `v` whose
element `v/12` is a tetrahedron in use with a packed index `flag >= 1`, the packed
entry `12*flag + (v mod 12)` being representable in the type `int` of the array
(it is when `flag <= v/12`, `packed_entry_fits`),
`PMMG_update_face2intPackedTetra` returns 1 and replaces every entry `v` by
`12*flag + (v mod 12)`, `flag` being the packed index of the element of `v`; the new
entry decodes to the element `flag` and to the local face and the local vertex
offset of `v`. -/
theorem update_packed_tetra_entries (ndebug : Bool) (env : MmgEnv) (grp : PMMG_Grp)
    (hn : grp.nitem_int_face_comm.toNat ≤ grp.face2int_face_comm_index1.length)
    (hent : ∀ k, k < grp.nitem_int_face_comm.toNat →
      ∀ v, grp.face2int_face_comm_index1[k]? = some v →
        0 ≤ v ∧ ∃ pt, grp.mesh.tetra[(v / 12).toNat]? = some pt ∧ env.MG_EOK pt = true ∧
          1 ≤ pt.flag ∧ 12 * pt.flag + v % 12 ≤ INT_MAX) :
    ∃ grp2, PMMG_update_face2intPackedTetra ndebug env grp = some (1, grp2) ∧
      ∀ k, k < grp.nitem_int_face_comm.toNat →
        ∀ v pt, grp.face2int_face_comm_index1[k]? = some v →
          grp.mesh.tetra[(v / 12).toNat]? = some pt →
          grp2.face2int_face_comm_index1[k]? = some (12 * pt.flag + v % 12) ∧
          ∀ iel ifac iploc, decodeFace v = some (iel, ifac, iploc) →
            decodeFace (12 * pt.flag + v % 12) = some (pt.flag.toNat, ifac, iploc) := by
  have hstep : ∀ k, k < grp.nitem_int_face_comm.toNat →
      ∀ v pt, grp.face2int_face_comm_index1[k]? = some v →
        grp.mesh.tetra[(v / 12).toNat]? = some pt →
        packedFace ndebug env grp.mesh.tetra v = some (12 * pt.flag + v % 12) := by
    intro k hk v pt hv hpt
    obtain ⟨h0, pt2, hpt2, hok, hfl, hmax⟩ := hent k hk v hv
    rw [hpt] at hpt2
    cases hpt2
    rw [packedFace_nonneg ndebug env _ v h0 pt hpt (Or.inr ⟨hok, by omega⟩),
      wrapInt_of_range _ (by omega) hmax]
  obtain ⟨l2, hl2⟩ := updateSlots_some (packedFace ndebug env grp.mesh.tetra)
    grp.nitem_int_face_comm.toNat 0 grp.face2int_face_comm_index1 (by omega)
    (by
      intro j _ hj v hv
      obtain ⟨_, pt, hpt, _, _, _⟩ := hent j (by omega) v hv
      rw [hstep j (by omega) v pt hv hpt]
      rfl)
  refine ⟨{ grp with face2int_face_comm_index1 := l2 }, ?_, ?_⟩
  · unfold PMMG_update_face2intPackedTetra
    rw [hl2]
    rfl
  · intro k hk v pt hv hpt
    obtain ⟨_, _, hin, _⟩ := updateSlots_spec _ _ _ _ _ hl2
    obtain ⟨v2, w, hv2, hw, hnew⟩ := hin k (Nat.zero_le k) (by omega)
    rw [hv] at hv2
    cases hv2
    rw [hstep k hk v pt hv hpt] at hw
    cases hw
    obtain ⟨h0, pt2, hpt2, _, hfl, _⟩ := hent k hk v hv
    rw [hpt] at hpt2
    cases hpt2
    exact ⟨hnew, fun iel ifac iploc hd =>
      decodeFace_packed v pt.flag h0 (by omega) iel ifac iploc hd⟩

/-- Witness for C12 on `demoGrp`: the entry `41 = 12*3 + 5` of the slot 1 becomes
`29 = 12*2 + 5`, the tetrahedron 3 having the packed index 2. -/
theorem update_packed_tetra_entries_witness :
    ∃ grp2, PMMG_update_face2intPackedTetra false demoEnv demoGrp = some (1, grp2) ∧
      ∀ k, k < demoGrp.nitem_int_face_comm.toNat →
        ∀ v pt, demoGrp.face2int_face_comm_index1[k]? = some v →
          demoGrp.mesh.tetra[(v / 12).toNat]? = some pt →
          grp2.face2int_face_comm_index1[k]? = some (12 * pt.flag + v % 12) ∧
          ∀ iel ifac iploc, decodeFace v = some (iel, ifac, iploc) →
            decodeFace (12 * pt.flag + v % 12) = some (pt.flag.toNat, ifac, iploc) :=
  update_packed_tetra_entries false demoEnv demoGrp (by decide) (by
    intro k hk v hv
    have hk3 : k < 3 := hk
    interval_cases k
    · have : v = 13 := by simpa [demoGrp] using hv.symm
      subst this
      exact ⟨by decide, _, rfl, by decide, by decide, by decide⟩
    · have : v = 41 := by simpa [demoGrp] using hv.symm
      subst this
      exact ⟨by decide, _, rfl, by decide, by decide, by decide⟩
    · have : v = 42 := by simpa [demoGrp] using hv.symm
      subst this
      exact ⟨by decide, _, rfl, by decide, by decide, by decide⟩)

theorem packedVertex_eq (ndebug : Bool) (MG_VOK : MMG5_Point → Bool) (point : List MMG5_Point)
    (iadr : Int) (h0 : 0 ≤ iadr) (ppt : MMG5_Point) (hp : point[iadr.toNat]? = some ppt)
    (hok : ndebug = false → MG_VOK ppt = true) :
    packedVertex ndebug MG_VOK point iadr = some ppt.tmp := by
  unfold packedVertex pointAt
  rw [if_neg (by omega), hp]
  simp only
  rw [if_neg]
  rintro ⟨hd, hbad⟩
  rw [hok hd] at hbad
  exact Bool.noConfusion hbad

/-- C13. When every node slot holds the index of a point of the mesh (in use, in
a build with assertions), `PMMG_update_node2intPackedVertices` returns 1 and sets
every slot `k < nitem_int_node_comm` to the `tmp` field of the point whose index the
slot held before the call.  The function returns 0 on no input: the only failure it
knows is the assertion on the point, so a status 0 can only follow from a point
without a compacted index. -/
theorem update_packed_vertices_entries (ndebug : Bool) (MG_VOK : MMG5_Point → Bool)
    (grp : PMMG_Grp)
    (hn : grp.nitem_int_node_comm.toNat ≤ grp.node2int_node_comm_index1.length)
    (hent : ∀ k, k < grp.nitem_int_node_comm.toNat →
      ∀ iadr, grp.node2int_node_comm_index1[k]? = some iadr →
        0 ≤ iadr ∧ ∃ ppt, grp.mesh.point[iadr.toNat]? = some ppt ∧
          (ndebug = false → MG_VOK ppt = true)) :
    (∃ grp2, PMMG_update_node2intPackedVertices ndebug MG_VOK grp = some (1, grp2) ∧
      ∀ k, k < grp.nitem_int_node_comm.toNat →
        ∀ iadr ppt, grp.node2int_node_comm_index1[k]? = some iadr →
          grp.mesh.point[iadr.toNat]? = some ppt →
          grp2.node2int_node_comm_index1[k]? = some ppt.tmp) ∧
    (∀ (nd : Bool) (g : PMMG_Grp) (r : Int × PMMG_Grp),
      PMMG_update_node2intPackedVertices nd MG_VOK g = some r → r.1 = 1) := by
  have hstep : ∀ k, k < grp.nitem_int_node_comm.toNat →
      ∀ iadr ppt, grp.node2int_node_comm_index1[k]? = some iadr →
        grp.mesh.point[iadr.toNat]? = some ppt →
        packedVertex ndebug MG_VOK grp.mesh.point iadr = some ppt.tmp := by
    intro k hk iadr ppt hv hp
    obtain ⟨h0, p2, hp2, hok⟩ := hent k hk iadr hv
    rw [hp] at hp2
    cases hp2
    exact packedVertex_eq ndebug MG_VOK _ iadr h0 ppt hp hok
  obtain ⟨l2, hl2⟩ := updateSlots_some (packedVertex ndebug MG_VOK grp.mesh.point)
    grp.nitem_int_node_comm.toNat 0 grp.node2int_node_comm_index1 (by omega)
    (by
      intro j _ hj v hv
      obtain ⟨_, ppt, hp, _⟩ := hent j (by omega) v hv
      rw [hstep j (by omega) v ppt hv hp]
      rfl)
  refine ⟨⟨{ grp with node2int_node_comm_index1 := l2 }, ?_, ?_⟩, ?_⟩
  · unfold PMMG_update_node2intPackedVertices
    rw [hl2]
    rfl
  · intro k hk iadr ppt hv hp
    obtain ⟨_, _, hin, _⟩ := updateSlots_spec _ _ _ _ _ hl2
    obtain ⟨v2, w, hv2, hw, hnew⟩ := hin k (Nat.zero_le k) (by omega)
    rw [hv] at hv2
    cases hv2
    rw [hstep k hk iadr ppt hv hp] at hw
    cases hw
    exact hnew
  · intro nd g r hr
    unfold PMMG_update_node2intPackedVertices at hr
    cases hl : updateSlots (packedVertex nd MG_VOK g.mesh.point) g.nitem_int_node_comm.toNat 0
        g.node2int_node_comm_index1 with
    | none => simp [hl] at hr
    | some l =>
      simp only [hl, Option.map_some', Option.some.injEq] at hr
      rw [← hr]

/-- Witness for C13 on `demoGrp`, with assertions: the slots `3, 1` become the
`tmp` fields `1, 2` of the points 3 and 1. -/
theorem update_packed_vertices_entries_witness :
    ∃ grp2, PMMG_update_node2intPackedVertices false (fun p => decide (p.tag = 0)) demoGrp
        = some (1, grp2) ∧
      ∀ k, k < demoGrp.nitem_int_node_comm.toNat →
        ∀ iadr ppt, demoGrp.node2int_node_comm_index1[k]? = some iadr →
          demoGrp.mesh.point[iadr.toNat]? = some ppt →
          grp2.node2int_node_comm_index1[k]? = some ppt.tmp :=
  (update_packed_vertices_entries false (fun p => decide (p.tag = 0)) demoGrp (by decide) (by
    intro k hk v hv
    have hk2 : k < 2 := hk
    interval_cases k
    · have : v = 3 := by simpa [demoGrp] using hv.symm
      subst this
      exact ⟨by decide, _, rfl, fun _ => by decide⟩
    · have : v = 1 := by simpa [demoGrp] using hv.symm
      subst this
      exact ⟨by decide, _, rfl, fun _ => by decide⟩)).1

theorem restoreFaces_length (ndebug use_scotch : Bool) (env : MmgEnv) (mesh : FaceMesh)
    (hash : MMG5_Hash) (facesData : List Int) (permNodGlob : Option (List Int)) :
    ∀ (n k : Nat) (l : List Int),
      restoreFaces ndebug use_scotch env mesh hash facesData permNodGlob n k = some l →
      l.length = n := by
  intro n
  induction n with
  | zero =>
    intro k l h
    simp only [restoreFaces, Option.some.injEq] at h
    subst h
    rfl
  | succ n ih =>
    intro k l h
    unfold restoreFaces at h
    split at h
    · split at h
      · simp only at h
        split at h
        · exact absurd h (by simp)
        · split at h
          · exact absurd h (by simp)
          · split at h
            · exact absurd h (by simp)
            · cases hr : restoreFaces ndebug use_scotch env mesh hash facesData permNodGlob n
                  (k + 1) with
              | none => simp [hr] at h
              | some l2 =>
                simp only [hr, Option.map_some', Option.some.injEq] at h
                subst h
                simp [ih (k + 1) l2 hr]
      · exact absurd h (by simp)
    · exact absurd h (by simp)

theorem update_interface_length (ndebug use_scotch : Bool) (env : MmgEnv) (mesh : FaceMesh)
    (index1 facesData : List Int) (permNodGlob : Option (List Int)) (room : Option Nat)
    (ier : Int) (l : List Int)
    (h : PMMG_update_face2intInterfaceTetra ndebug use_scotch env mesh index1 facesData
      permNodGlob room = some (ier, l)) : l.length = index1.length := by
  unfold PMMG_update_face2intInterfaceTetra at h
  split at h
  · simp only [Option.some.injEq, Prod.mk.injEq] at h
    rw [← h.2]
  · split at h
    · exact absurd h (by simp)
    · split at h
      · simp only [Option.some.injEq, Prod.mk.injEq] at h
        rw [← h.2]
      · rename_i ier2 hash _ _
        cases hr : restoreFaces ndebug use_scotch env mesh hash facesData permNodGlob
            index1.length 0 with
        | none => simp [hr] at h
        | some l2 =>
          simp only [hr, Option.map_some', Option.some.injEq, Prod.mk.injEq] at h
          rw [← h.2]
          exact restoreFaces_length ndebug use_scotch env mesh hash facesData permNodGlob _ _ _ hr

theorem sameSlots_inv (grp g2 : PMMG_Grp) (h : SameSlots grp g2) (hinv : SlotsInv grp) :
    SlotsInv g2 := by
  obtain ⟨h1, h2, h3, h4, h5, h6⟩ := h
  obtain ⟨i1, i2, i3, i4⟩ := hinv
  refine ⟨?_, ?_, ?_, ?_⟩
  · rw [h5, h1]; exact i1
  · rw [h3, h1]; exact i2
  · rw [h6, h2]; exact i3
  · rw [h4, h2]; exact i4

theorem updateSlots_inPlace (step : Int → Option Int) (n : Nat) (old new : List Int)
    (h : updateSlots step n 0 old = some new) :
    new.length = old.length ∧ RewrittenInPlace step n old new := by
  obtain ⟨hlen, _, hin, hout⟩ := updateSlots_spec step n 0 old new h
  refine ⟨hlen, ?_, ?_⟩
  · intro k hk
    exact hin k (Nat.zero_le k) (by omega)
  · intro k hk
    exact hout k (Or.inr (by omega))

/-- Every entry written by the second loop of
`PMMG_update_face2intInterfaceTetra` is the one computed for its slot: the entry
`k + j` of the array comes from the triple `k + j` of `facesData`. -/
theorem restoreFaces_slots (ndebug use_scotch : Bool) (env : MmgEnv) (mesh : FaceMesh)
    (hash : MMG5_Hash) (facesData : List Int) (permNodGlob : Option (List Int)) :
    ∀ (n k : Nat) (l : List Int),
      restoreFaces ndebug use_scotch env mesh hash facesData permNodGlob n k = some l →
      ∀ j, j < n →
        ∃ w, restoreSlot ndebug use_scotch env mesh hash facesData permNodGlob (k + j) = some w ∧
          l[j]? = some w := by
  intro n
  induction n with
  | zero => intro k l _ j hj; omega
  | succ n ih =>
    intro k l h j hj
    unfold restoreFaces at h
    cases ha : getInt facesData (3 * k) with
    | none => simp [ha] at h
    | some a =>
      cases hb : getInt facesData (3 * k + 1) with
      | none => simp [ha, hb] at h
      | some b =>
        cases hc : getInt facesData (3 * k + 2) with
        | none => simp [ha, hb, hc] at h
        | some c =>
          simp only [ha, hb, hc] at h
          cases hia : applyPerm use_scotch permNodGlob mesh.renum a with
          | none => simp [hia] at h
          | some ia =>
            cases hib : applyPerm use_scotch permNodGlob mesh.renum b with
            | none => simp [hia, hib] at h
            | some ib =>
              cases hic : applyPerm use_scotch permNodGlob mesh.renum c with
              | none => simp [hia, hib, hic] at h
              | some ic =>
                simp only [hia, hib, hic] at h
                by_cases hz : ndebug = false ∧ MMG5_hashGetFace hash ia ib ic = 0
                · rw [if_pos hz] at h
                  exact absurd h (by simp)
                · rw [if_neg hz] at h
                  cases hpt : mesh.tetra[MMG5_hashGetFace hash ia ib ic / 12]? with
                  | none => simp [hpt] at h
                  | some pt =>
                    simp only [hpt] at h
                    by_cases hass : ndebug = false ∧ (env.MG_EOK pt = false ∨
                        ¬ findIploc env pt ⟨MMG5_hashGetFace hash ia ib ic % 12 / 3, by omega⟩
                          ia < 3)
                    · rw [if_pos hass] at h
                      exact absurd h (by simp)
                    · rw [if_neg hass] at h
                      cases hrec : restoreFaces ndebug use_scotch env mesh hash facesData
                          permNodGlob n (k + 1) with
                      | none => simp [hrec] at h
                      | some rest =>
                        rw [hrec] at h
                        simp only [Option.map_some', Option.some.injEq] at h
                        subst h
                        cases j with
                        | zero =>
                          refine ⟨_, ?_, List.getElem?_cons_zero⟩
                          unfold restoreSlot
                          simp only [Nat.add_zero, ha, hb, hc, hia, hib, hic, hpt]
                          rw [if_neg hz, if_neg hass]
                        | succ j =>
                          obtain ⟨w, hw, hl⟩ := ih (k + 1) rest hrec j (by omega)
                          have e1 : k + 1 + j = k + (j + 1) := by omega
                          rw [e1] at hw
                          exact ⟨w, hw, by rw [List.getElem?_cons_succ]; exact hl⟩

/-- C14. Each of `PMMG_update_node2intPackedVertices`,
`PMMG_update_face2intPackedTetra` and `PMMG_update_face2intInterfaceTetra` keeps
`nitem_int_node_comm`, `nitem_int_face_comm`, the two `index2` arrays and the length
of the two `index1` arrays (`SameSlots`), does not touch the `index1` array of the
other kind, and rewrites its own `index1` array in place: slot `k` of the new array
is computed from slot `k` of the old one by the two packing functions, and from the
triple `k` of `facesData`, captured from the slot `k`, by
`PMMG_update_face2intInterfaceTetra` (which leaves the array as it is when it
returns 0); the slots from `nitem` on are untouched.  Hence
`len(index1) == len(index2) == nitem_int_<kind>_comm` (`SlotsInv`) is preserved. -/
theorem update_functions_keep_slots (ndebug use_scotch : Bool) (env : MmgEnv)
    (MG_VOK : MMG5_Point → Bool) (grp : PMMG_Grp) (facesData : List Int)
    (permNodGlob : Option (List Int)) (room : Option Nat) :
    (∀ ier g2, PMMG_update_node2intPackedVertices ndebug MG_VOK grp = some (ier, g2) →
      SameSlots grp g2 ∧ g2.face2int_face_comm_index1 = grp.face2int_face_comm_index1 ∧
      RewrittenInPlace (packedVertex ndebug MG_VOK grp.mesh.point)
        grp.nitem_int_node_comm.toNat grp.node2int_node_comm_index1
        g2.node2int_node_comm_index1 ∧
      (SlotsInv grp → SlotsInv g2)) ∧
    (∀ ier g2, PMMG_update_face2intPackedTetra ndebug env grp = some (ier, g2) →
      SameSlots grp g2 ∧ g2.node2int_node_comm_index1 = grp.node2int_node_comm_index1 ∧
      RewrittenInPlace (packedFace ndebug env grp.mesh.tetra)
        grp.nitem_int_face_comm.toNat grp.face2int_face_comm_index1
        g2.face2int_face_comm_index1 ∧
      (SlotsInv grp → SlotsInv g2)) ∧
    (∀ ier g2, updateInterfaceTetraOfGrp ndebug use_scotch env grp facesData permNodGlob room
        = some (ier, g2) →
      SameSlots grp g2 ∧ g2.node2int_node_comm_index1 = grp.node2int_node_comm_index1 ∧
      (ier = 0 → g2.face2int_face_comm_index1 = grp.face2int_face_comm_index1) ∧
      (ier ≠ 0 → ∃ n r hash, room = some n ∧
        hashParFaces env grp.mesh (List.range' 1 grp.mesh.ne) ⟨n, []⟩ = some (r, hash) ∧
        RestoredInPlace ndebug use_scotch env grp.mesh hash facesData permNodGlob
          grp.nitem_int_face_comm.toNat grp.face2int_face_comm_index1
          g2.face2int_face_comm_index1) ∧
      (SlotsInv grp → SlotsInv g2)) := by
  refine ⟨?_, ?_, ?_⟩
  · intro ier g2 h
    unfold PMMG_update_node2intPackedVertices at h
    cases hl : updateSlots (packedVertex ndebug MG_VOK grp.mesh.point)
        grp.nitem_int_node_comm.toNat 0 grp.node2int_node_comm_index1 with
    | none => simp [hl] at h
    | some l =>
      simp only [hl, Option.map_some', Option.some.injEq, Prod.mk.injEq] at h
      obtain ⟨_, rfl⟩ := h
      obtain ⟨hlen, hrw⟩ := updateSlots_inPlace _ _ _ _ hl
      have hs : SameSlots grp { grp with node2int_node_comm_index1 := l } :=
        ⟨rfl, rfl, rfl, rfl, hlen, rfl⟩
      exact ⟨hs, rfl, hrw, sameSlots_inv _ _ hs⟩
  · intro ier g2 h
    unfold PMMG_update_face2intPackedTetra at h
    cases hl : updateSlots (packedFace ndebug env grp.mesh.tetra)
        grp.nitem_int_face_comm.toNat 0 grp.face2int_face_comm_index1 with
    | none => simp [hl] at h
    | some l =>
      simp only [hl, Option.map_some', Option.some.injEq, Prod.mk.injEq] at h
      obtain ⟨_, rfl⟩ := h
      obtain ⟨hlen, hrw⟩ := updateSlots_inPlace _ _ _ _ hl
      have hs : SameSlots grp { grp with face2int_face_comm_index1 := l } :=
        ⟨rfl, rfl, rfl, rfl, rfl, hlen⟩
      exact ⟨hs, rfl, hrw, sameSlots_inv _ _ hs⟩
  · intro ier g2 h
    unfold updateInterfaceTetraOfGrp at h
    cases hr : PMMG_update_face2intInterfaceTetra ndebug use_scotch env grp.mesh
        (grp.face2int_face_comm_index1.take grp.nitem_int_face_comm.toNat) facesData
        permNodGlob room with
    | none => simp [hr] at h
    | some r =>
      obtain ⟨ier2, l⟩ := r
      simp only [hr] at h
      have hlen := update_interface_length _ _ _ _ _ _ _ _ _ _ hr
      by_cases h0 : ier2 = 0
      · rw [if_pos h0] at h
        simp only [Option.some.injEq, Prod.mk.injEq] at h
        obtain ⟨hier, rfl⟩ := h
        have hs : SameSlots grp grp := ⟨rfl, rfl, rfl, rfl, rfl, rfl⟩
        exact ⟨hs, rfl, fun _ => rfl, fun hne => absurd hier.symm hne, fun hi => hi⟩
      · rw [if_neg h0] at h
        by_cases hn : grp.nitem_int_face_comm.toNat ≤ grp.face2int_face_comm_index1.length
        · rw [if_pos hn] at h
          simp only [Option.some.injEq, Prod.mk.injEq] at h
          obtain ⟨hier, rfl⟩ := h
          have hlen2 := hlen
          rw [List.length_take, Nat.min_eq_left hn] at hlen
          have hs : SameSlots grp { grp with face2int_face_comm_index1 :=
              l ++ grp.face2int_face_comm_index1.drop grp.nitem_int_face_comm.toNat } := by
            refine ⟨rfl, rfl, rfl, rfl, rfl, ?_⟩
            simp only [List.length_append, List.length_drop, hlen]
            omega
          refine ⟨hs, rfl, fun hz => absurd (hier.trans hz) h0, ?_, sameSlots_inv _ _ hs⟩
          intro _
          -- the table built from the mesh and the loop over the slots
          unfold PMMG_update_face2intInterfaceTetra at hr
          cases room with
          | none =>
            simp only [Option.some.injEq, Prod.mk.injEq] at hr
            exact absurd hr.1.symm h0
          | some n =>
            simp only at hr
            cases hh : hashParFaces env grp.mesh (List.range' 1 grp.mesh.ne) ⟨n, []⟩ with
            | none => simp [hh] at hr
            | some rh =>
              obtain ⟨r, hash⟩ := rh
              rw [hh] at hr
              simp only at hr
              by_cases hr0 : r = 0
              · rw [if_pos hr0] at hr
                simp only [Option.some.injEq, Prod.mk.injEq] at hr
                exact absurd hr.1.symm h0
              · rw [if_neg hr0] at hr
                cases hrest : restoreFaces ndebug use_scotch env grp.mesh hash facesData
                    permNodGlob
                    (grp.face2int_face_comm_index1.take grp.nitem_int_face_comm.toNat).length
                    0 with
                | none =>
                  rw [hrest] at hr
                  exact absurd hr (by simp)
                | some l2 =>
                  rw [hrest] at hr
                  simp only [Option.map_some', Option.some.injEq, Prod.mk.injEq] at hr
                  obtain ⟨_, rfl⟩ := hr
                  rw [List.length_take, Nat.min_eq_left hn] at hrest
                  refine ⟨n, r, hash, rfl, hh, ?_, ?_⟩
                  · intro k hk
                    obtain ⟨w, hw, hl⟩ := restoreFaces_slots ndebug use_scotch env grp.mesh hash
                      facesData permNodGlob _ 0 l2 hrest k hk
                    rw [Nat.zero_add] at hw
                    refine ⟨w, hw, ?_⟩
                    show (l2 ++ grp.face2int_face_comm_index1.drop
                      grp.nitem_int_face_comm.toNat)[k]? = _
                    rw [List.getElem?_append_left (by omega)]
                    exact hl
                  · intro k hk
                    show (l2 ++ grp.face2int_face_comm_index1.drop
                      grp.nitem_int_face_comm.toNat)[k]? = _
                    rw [List.getElem?_append_right (by omega), hlen, List.getElem?_drop]
                    congr 1
                    omega
        · rw [if_neg hn] at h
          exact absurd h (by simp)

/-- Witness for C14 on `demoGrp`: the three functions return and keep the slot
structure and the invariant; the three face slots are restored from their
triples. -/
theorem update_functions_keep_slots_witness :
    SlotsInv demoGrp ∧
    (∃ g2, PMMG_update_node2intPackedVertices false (fun p => decide (p.tag = 0)) demoGrp
        = some (1, g2) ∧ SameSlots demoGrp g2 ∧ SlotsInv g2) ∧
    (∃ g2, PMMG_update_face2intPackedTetra false demoEnv demoGrp = some (1, g2) ∧
      SameSlots demoGrp g2 ∧ SlotsInv g2) ∧
    (∃ g2, updateInterfaceTetraOfGrp false false demoEnv
        { demoGrp with mesh := demoFaceMesh, face2int_face_comm_index1 := [13, 29, 30] }
        [3, 4, 2, 4, 2, 5, 2, 3, 5] none (some 3) = some (1, g2) ∧
      SameSlots { demoGrp with mesh := demoFaceMesh, face2int_face_comm_index1 := [13, 29, 30] }
        g2 ∧ SlotsInv g2 ∧
      ∃ n r hash, some 3 = some n ∧
        hashParFaces demoEnv demoFaceMesh (List.range' 1 demoFaceMesh.ne) ⟨n, []⟩ =
          some (r, hash) ∧
        RestoredInPlace false false demoEnv demoFaceMesh hash [3, 4, 2, 4, 2, 5, 2, 3, 5] none
          3 [13, 29, 30] g2.face2int_face_comm_index1) :=
  ⟨by decide,
    ⟨_, rfl,
      ((update_functions_keep_slots false false demoEnv (fun p => decide (p.tag = 0)) demoGrp
        [] none none).1 1 _ rfl).1,
      ((update_functions_keep_slots false false demoEnv (fun p => decide (p.tag = 0)) demoGrp
        [] none none).1 1 _ rfl).2.2.2 (by decide)⟩,
    ⟨_, rfl,
      ((update_functions_keep_slots false false demoEnv (fun p => decide (p.tag = 0)) demoGrp
        [] none none).2.1 1 _ rfl).1,
      ((update_functions_keep_slots false false demoEnv (fun p => decide (p.tag = 0)) demoGrp
        [] none none).2.1 1 _ rfl).2.2.2 (by decide)⟩,
    ⟨_, rfl,
      ((update_functions_keep_slots false false demoEnv (fun p => decide (p.tag = 0))
        { demoGrp with mesh := demoFaceMesh, face2int_face_comm_index1 := [13, 29, 30] }
        [3, 4, 2, 4, 2, 5, 2, 3, 5] none (some 3)).2.2 1 _ rfl).1,
      ((update_functions_keep_slots false false demoEnv (fun p => decide (p.tag = 0))
        { demoGrp with mesh := demoFaceMesh, face2int_face_comm_index1 := [13, 29, 30] }
        [3, 4, 2, 4, 2, 5, 2, 3, 5] none (some 3)).2.2 1 _ rfl).2.2.2.2 (by decide),
      ((update_functions_keep_slots false false demoEnv (fun p => decide (p.tag = 0))
        { demoGrp with mesh := demoFaceMesh, face2int_face_comm_index1 := [13, 29, 30] }
        [3, 4, 2, 4, 2, 5, 2, 3, 5] none (some 3)).2.2 1 _ rfl).2.2.2.1 (by decide)⟩⟩

/-- C11. Failing input: the mesh `demoFaceMesh`, one slot whose captured triple
`1 2 3` is a face of the tetrahedron 1 that is not tagged `MG_PARBDY` (no face
tagged `MG_PARBDY` has this vertex set), no permutation.  With the assertions
disabled the lookup returns 0, the slot receives `0 + 3` (no vertex of `tetra[0]`
is 1) and the function returns 1; with the assertions enabled `assert(hashVal)`
stops the program.  The status 0 is returned in neither build. -/
theorem update_interface_hash_miss :
    (∀ f ∈ parFaces demoEnv demoFaceMesh (List.range' 1 demoFaceMesh.ne),
      (faceVertices demoEnv demoFaceMesh f.1 f.2).toFinset ≠ {1, 2, 3}) ∧
    PMMG_update_face2intInterfaceTetra true false demoEnv demoFaceMesh [13] [1, 2, 3] none
      (some 3) = some (1, [3]) ∧
    PMMG_update_face2intInterfaceTetra false false demoEnv demoFaceMesh [13] [1, 2, 3] none
      (some 3) = none :=
  ⟨by decide, by decide, by decide⟩

theorem countTagged_aux (env : MmgEnv) (pxt : MMG5_xTetra) :
    ∀ (l : List (Fin 4)) (m : Int),
      l.foldl (fun m j => if hasTag env.MG_PARBDY (pxt.ftag j) then m + 1 else m) m =
        m + ((l.filter (fun j => hasTag env.MG_PARBDY (pxt.ftag j))).length : Nat) := by
  intro l
  induction l with
  | nil => intro m; simp
  | cons j l ih =>
    intro m
    rw [List.foldl_cons, ih]
    by_cases h : hasTag env.MG_PARBDY (pxt.ftag j)
    · rw [if_pos h, List.filter_cons_of_pos (by simpa using h), List.length_cons]
      push_cast
      ring
    · rw [if_neg h, List.filter_cons_of_neg (by simpa using h)]

theorem markTetra_spec (env : MmgEnv) (hmark : IgnoresMark env) (mesh : FaceMesh) (k : Nat)
    (pt : MMG5_Tetra) (hpt : mesh.tetra[k]? = some pt)
    (hx : env.MG_EOK pt = true → pt.xt < mesh.xtetra.length) :
    markTetra env mesh k = some { mesh with
      tetra := mesh.tetra.set k { pt with mark := 1 + ((tetraParFaces env mesh k).length : Nat) } } := by
  unfold markTetra tetraParFaces
  simp only [hpt, hmark pt 1]
  by_cases hskip : env.MG_EOK pt = false ∨ pt.xt = 0
  · rw [if_pos hskip, if_pos hskip]
    simp
  · rw [if_neg hskip, if_neg hskip]
    have hok : env.MG_EOK pt = true := by
      cases h : env.MG_EOK pt
      · exact absurd (Or.inl h) hskip
      · rfl
    have hlt : pt.xt < mesh.xtetra.length := hx hok
    have hpxt : mesh.xtetra[pt.xt]? = some mesh.xtetra[pt.xt] :=
      List.getElem?_eq_getElem hlt
    simp only [hpxt, countTagged, countTagged_aux]

theorem tetraParFaces_congr (env : MmgEnv) (m1 m2 : FaceMesh) (k : Nat)
    (hx : m1.xtetra = m2.xtetra)
    (ht : ∀ pt, m1.tetra[k]? = some pt →
      ∃ pt2, m2.tetra[k]? = some pt2 ∧ env.MG_EOK pt2 = env.MG_EOK pt ∧ pt2.xt = pt.xt)
    (hn : m1.tetra[k]? = none → m2.tetra[k]? = none) :
    tetraParFaces env m1 k = tetraParFaces env m2 k := by
  unfold tetraParFaces
  cases h1 : m1.tetra[k]? with
  | none => rw [hn h1]
  | some pt =>
    obtain ⟨pt2, h2, hok, hxt⟩ := ht pt h1
    simp only [h2, hok, hxt, hx]

theorem tetraParFaces_length_le (env : MmgEnv) (mesh : FaceMesh) (k : Nat) :
    (tetraParFaces env mesh k).length ≤ 4 := by
  unfold tetraParFaces
  split
  · simp
  · split
    · simp
    · split
      · simp
      · exact (List.length_filter_le _ _).trans (by simp)

theorem allSome_exists {α β : Type} (f : α → Option β) (P : α → β → Prop) :
    ∀ (l : List α), (∀ x ∈ l, ∃ y, f x = some y ∧ P x y) →
      ∃ l2 : List β, allSome (l.map f) = some l2 ∧ l2.length = l.length ∧
        ∀ (i : Nat) (x : α), l[i]? = some x → ∃ y, l2[i]? = some y ∧ P x y := by
  intro l
  induction l with
  | nil => intro _; exact ⟨[], rfl, rfl, fun i x h => by simp at h⟩
  | cons a l ih =>
    intro h
    obtain ⟨y, hy, hP⟩ := h a (List.mem_cons_self _ _)
    obtain ⟨l2, hl2, hlen, hall⟩ := ih (fun x hx => h x (List.mem_cons_of_mem _ hx))
    refine ⟨y :: l2, ?_, ?_, ?_⟩
    · simp only [List.map_cons, hy, allSome, hl2, Option.map_some']
    · simp [hlen]
    · intro i x hx
      cases i with
      | zero =>
        simp only [List.getElem?_cons_zero, Option.some.injEq] at hx
        subst hx
        exact ⟨y, by simp, hP⟩
      | succ i =>
        simp only [List.getElem?_cons_succ] at hx ⊢
        exact hall i x hx

theorem countMesh_spec (env : MmgEnv) (hmark : IgnoresMark env) (mesh0 : FaceMesh)
    (hx0 : ∀ pt ∈ mesh0.tetra, env.MG_EOK pt = true → pt.xt < mesh0.xtetra.length) :
    ∀ (ks : List Nat) (mesh : FaceMesh), ks.Nodup →
      (∀ k ∈ ks, k < mesh0.tetra.length ∧ mesh.tetra[k]? = mesh0.tetra[k]?) →
      mesh.xtetra = mesh0.xtetra →
      ∃ mesh2, countMeshParBdy env ks mesh = some mesh2 ∧
        mesh2.xtetra = mesh.xtetra ∧
        (∀ k ∈ ks, ∀ pt, mesh0.tetra[k]? = some pt → mesh2.tetra[k]? =
          some { pt with mark := 1 + ((tetraParFaces env mesh0 k).length : Nat) }) ∧
        (∀ k, k ∉ ks → mesh2.tetra[k]? = mesh.tetra[k]?) := by
  intro ks
  induction ks with
  | nil =>
    intro mesh _ _ _
    exact ⟨mesh, rfl, rfl, fun k hk => by simp at hk, fun _ _ => rfl⟩
  | cons k ks ih =>
    intro mesh hnd hks hxt
    obtain ⟨hk0, hkeq⟩ := hks k (List.mem_cons_self _ _)
    have hpt0 : mesh0.tetra[k]? = some mesh0.tetra[k] := List.getElem?_eq_getElem hk0
    have hpt : mesh.tetra[k]? = some mesh0.tetra[k] := by rw [hkeq, hpt0]
    have hklen : k < mesh.tetra.length := (List.getElem?_eq_some.1 hpt).1
    have hstep := markTetra_spec env hmark mesh k mesh0.tetra[k] hpt
      (fun hok => by rw [hxt]; exact hx0 _ (List.getElem_mem _) hok)
    have hcongr : tetraParFaces env mesh k = tetraParFaces env mesh0 k :=
      tetraParFaces_congr env mesh mesh0 k hxt
        (fun pt h => ⟨pt, by rw [← hkeq]; exact h, rfl, rfl⟩)
        (fun h => by rw [← hkeq]; exact h)
    rw [hcongr] at hstep
    have hnd2 := List.nodup_cons.1 hnd
    have hm1 : ∃ m1, markTetra env mesh k = some m1 ∧ m1.xtetra = mesh.xtetra ∧
        m1.tetra = mesh.tetra.set k { mesh0.tetra[k] with
          mark := 1 + ((tetraParFaces env mesh0 k).length : Nat) } := ⟨_, hstep, rfl, rfl⟩
    obtain ⟨m1, hm1, hm1x, hm1t⟩ := hm1
    obtain ⟨mesh2, hrun, hx2, hin, hout⟩ := ih m1 hnd2.2
      (fun j hj => by
        have hjk : k ≠ j := fun h => hnd2.1 (h ▸ hj)
        obtain ⟨hj0, hjeq⟩ := hks j (List.mem_cons_of_mem _ hj)
        refine ⟨hj0, ?_⟩
        rw [hm1t, List.getElem?_set_ne hjk]
        exact hjeq)
      (by rw [hm1x]; exact hxt)
    refine ⟨mesh2, ?_, ?_, ?_, ?_⟩
    · unfold countMeshParBdy
      simp only [hm1]
      exact hrun
    · rw [hx2, hm1x]
    · intro j hj pt hjpt
      rcases List.mem_cons.1 hj with hjk | hj2
      · subst hjk
        rw [hout j hnd2.1, hm1t, List.getElem?_set_self hklen]
        rw [hpt0] at hjpt
        cases hjpt
        rfl
      · exact hin j hj2 pt hjpt
    · intro j hj
      have hjk : j ≠ k := fun h => hj (h ▸ List.mem_cons_self _ _)
      rw [hout j (fun h => hj (List.mem_cons_of_mem _ h)), hm1t,
        List.getElem?_set_ne (fun h => hjk h.symm)]

theorem tetraParFaces_eq (env : MmgEnv) (mesh : FaceMesh) (k : Nat) (pt : MMG5_Tetra)
    (hpt : mesh.tetra[k]? = some pt) :
    (env.MG_EOK pt = true → pt.xt ≠ 0 → ∀ pxt, mesh.xtetra[pt.xt]? = some pxt →
      tetraParFaces env mesh k =
        (List.finRange 4).filter (fun j => hasTag env.MG_PARBDY (pxt.ftag j))) ∧
    (env.MG_EOK pt = false ∨ pt.xt = 0 → tetraParFaces env mesh k = []) := by
  unfold tetraParFaces
  simp only [hpt]
  refine ⟨?_, ?_⟩
  · intro hok hxt pxt hpxt
    rw [if_neg (by rintro (h | h); · rw [hok] at h; exact Bool.noConfusion h
                   · exact hxt h)]
    simp only [hpxt]
  · intro h
    rw [if_pos h]

/-- C18. After `PMMG_count_parBdy`, which returns 1, in every group that has a
mesh and for every tetrahedron `k` in `1..ne`, the weight `mark` is 1 plus the
number of the faces `j` in `0..3` whose `ftag[j]` has the bit `MG_PARBDY` when the
tetrahedron is in use and has a boundary record, and 1 otherwise; hence
`1 <= mark <= 5`.  The groups without mesh are skipped. -/
theorem count_parBdy_weights (env : MmgEnv) (listgrp : List (Option FaceMesh))
    (hmark : IgnoresMark env) (hok : ∀ mesh, some mesh ∈ listgrp → MeshOK env mesh) :
    ∃ l2 : List (Option FaceMesh), PMMG_count_parBdy env listgrp = some (1, l2) ∧
      l2.length = listgrp.length ∧
      ∀ (i : Nat) (mesh : FaceMesh), listgrp[i]? = some (some mesh) →
        ∃ mesh2, l2[i]? = some (some mesh2) ∧
          ∀ k, 1 ≤ k → k ≤ mesh.ne → ∀ pt, mesh.tetra[k]? = some pt →
            ∃ pt2, mesh2.tetra[k]? = some pt2 ∧
              (env.MG_EOK pt = true → pt.xt ≠ 0 → ∀ pxt, mesh.xtetra[pt.xt]? = some pxt →
                pt2.mark = 1 + (((List.finRange 4).filter
                  (fun j => hasTag env.MG_PARBDY (pxt.ftag j))).length : Nat)) ∧
              (env.MG_EOK pt = false ∨ pt.xt = 0 → pt2.mark = 1) ∧
              1 ≤ pt2.mark ∧ pt2.mark ≤ 5 := by
  obtain ⟨l2, hl2, hlen, hall⟩ := allSome_exists
    (fun g : Option FaceMesh =>
      match g with
      | none => some none
      | some mesh => (countMeshParBdy env (List.range' 1 mesh.ne) mesh).map some)
    (fun g y => ∀ mesh, g = some mesh → ∃ mesh2, y = some mesh2 ∧
      ∀ k, 1 ≤ k → k ≤ mesh.ne → ∀ pt, mesh.tetra[k]? = some pt → mesh2.tetra[k]? =
        some { pt with mark := 1 + ((tetraParFaces env mesh k).length : Nat) })
    listgrp
    (by
      intro g hg
      cases g with
      | none => exact ⟨none, rfl, fun mesh h => by cases h⟩
      | some mesh =>
        have hm := hok mesh hg
        obtain ⟨mesh2, hrun, _, hin, _⟩ := countMesh_spec env hmark mesh hm.2
          (List.range' 1 mesh.ne) mesh (List.nodup_range' 1 mesh.ne)
          (fun k hk => by
            rw [List.mem_range'] at hk
            obtain ⟨i, hi, rfl⟩ := hk
            have := hm.1
            exact ⟨by omega, rfl⟩)
          rfl
        refine ⟨some mesh2, by simp only [hrun, Option.map_some'], ?_⟩
        intro m hmm
        cases hmm
        exact ⟨mesh2, rfl, fun k h1 h2 pt hpt =>
          hin k (List.mem_range'_1.2 ⟨h1, by omega⟩) pt hpt⟩)
  refine ⟨l2, ?_, hlen, ?_⟩
  · unfold PMMG_count_parBdy
    rw [hl2]
    rfl
  · intro i mesh hi
    obtain ⟨y, hy, hP⟩ := hall i (some mesh) hi
    obtain ⟨mesh2, rfl, hk⟩ := hP mesh rfl
    refine ⟨mesh2, hy, ?_⟩
    intro k h1 h2 pt hpt
    refine ⟨_, hk k h1 h2 pt hpt, ?_, ?_, ?_, ?_⟩
    · intro hok2 hxt pxt hpxt
      show (1 : Int) + _ = _
      rw [(tetraParFaces_eq env mesh k pt hpt).1 hok2 hxt pxt hpxt]
    · intro hbad
      show (1 : Int) + _ = _
      rw [(tetraParFaces_eq env mesh k pt hpt).2 hbad]
      simp
    · show (1 : Int) ≤ 1 + _
      omega
    · show (1 : Int) + _ ≤ 5
      have := tetraParFaces_length_le env mesh k
      omega

/-- Witness for C18: a parmesh with the group `demoFaceMesh` and a group without
mesh; the tetrahedron 2 has two faces tagged `MG_PARBDY` and gets the weight 3. -/
theorem count_parBdy_weights_witness :
    ∃ l2 : List (Option FaceMesh),
      PMMG_count_parBdy demoEnv [some demoFaceMesh, none] = some (1, l2) ∧
      l2.length = [some demoFaceMesh, none].length ∧
      ∀ (i : Nat) (mesh : FaceMesh), [some demoFaceMesh, none][i]? = some (some mesh) →
        ∃ mesh2, l2[i]? = some (some mesh2) ∧
          ∀ k, 1 ≤ k → k ≤ mesh.ne → ∀ pt, mesh.tetra[k]? = some pt →
            ∃ pt2, mesh2.tetra[k]? = some pt2 ∧
              (demoEnv.MG_EOK pt = true → pt.xt ≠ 0 → ∀ pxt, mesh.xtetra[pt.xt]? = some pxt →
                pt2.mark = 1 + (((List.finRange 4).filter
                  (fun j => hasTag demoEnv.MG_PARBDY (pxt.ftag j))).length : Nat)) ∧
              (demoEnv.MG_EOK pt = false ∨ pt.xt = 0 → pt2.mark = 1) ∧
              1 ≤ pt2.mark ∧ pt2.mark ≤ 5 :=
  count_parBdy_weights demoEnv [some demoFaceMesh, none] (fun _ _ => rfl) (by
    intro mesh hm
    simp only [List.mem_cons, Option.some.injEq, List.mem_singleton, List.not_mem_nil,
      or_false] at hm
    rcases hm with h | h
    · subst h
      decide
    · cases h)

theorem count_parBdy_some (env : MmgEnv) (listgrp : List (Option FaceMesh))
    (hmark : IgnoresMark env) (hok : ∀ mesh, some mesh ∈ listgrp → MeshOK env mesh) :
    (PMMG_count_parBdy env listgrp).map Prod.fst = some 1 := by
  obtain ⟨l2, hl2, _, _⟩ := allSome_exists
    (fun g : Option FaceMesh =>
      match g with
      | none => some none
      | some mesh => (countMeshParBdy env (List.range' 1 mesh.ne) mesh).map some)
    (fun _ _ => True) listgrp
    (by
      intro g hg
      cases g with
      | none => exact ⟨none, rfl, trivial⟩
      | some mesh =>
        have hm := hok mesh hg
        obtain ⟨mesh2, hrun, _, _, _⟩ := countMesh_spec env hmark mesh hm.2
          (List.range' 1 mesh.ne) mesh (List.nodup_range' 1 mesh.ne)
          (fun k hk => by
            rw [List.mem_range'] at hk
            obtain ⟨i, hi, rfl⟩ := hk
            have := hm.1
            exact ⟨by omega, rfl⟩)
          rfl
        exact ⟨some mesh2, by simp only [hrun, Option.map_some'], trivial⟩)
  unfold PMMG_count_parBdy
  rw [hl2]
  rfl

theorem allreduce_min_le : ∀ (l : List Int) (x : Int), x ∈ l → MPI_Allreduce_MIN l ≤ x := by
  have key : ∀ (l : List Int) (a : Int), l.foldl min a ≤ a ∧ ∀ x ∈ l, l.foldl min a ≤ x := by
    intro l
    induction l with
    | nil => intro a; exact ⟨le_refl a, fun x hx => by simp at hx⟩
    | cons b l ih =>
      intro a
      obtain ⟨h1, h2⟩ := ih (min a b)
      rw [List.foldl_cons]
      refine ⟨h1.trans (min_le_left a b), ?_⟩
      intro x hx
      rcases List.mem_cons.1 hx with rfl | hx
      · exact h1.trans (min_le_right a x)
      · exact h2 x hx
  intro l x hx
  exact (key l (l.headD 0)).2 x hx

theorem allreduce_min_mem : ∀ (l : List Int), l ≠ [] → MPI_Allreduce_MIN l ∈ l := by
  have key : ∀ (l : List Int) (a : Int), l.foldl min a = a ∨ l.foldl min a ∈ l := by
    intro l
    induction l with
    | nil => intro a; exact Or.inl rfl
    | cons b l ih =>
      intro a
      rw [List.foldl_cons]
      rcases ih (min a b) with h | h
      · rw [h]
        rcases min_choice a b with h2 | h2
        · exact Or.inl h2
        · exact Or.inr (by rw [h2]; exact List.mem_cons_self _ _)
      · exact Or.inr (List.mem_cons_of_mem _ h)
  intro l hl
  cases l with
  | nil => exact absurd rfl hl
  | cons a l =>
    rcases key (a :: l) a with h | h
    · show List.foldl min a (a :: l) ∈ a :: l
      rw [h]
      exact List.mem_cons_self _ _
    · exact h

theorem zip_map_self {α β : Type} (f : α → β) (l : List α) :
    (l.map f).zip l = l.map (fun x => (f x, x)) := by
  induction l with
  | nil => rfl
  | cons a l ih => simp [ih]

theorem reduceAndTest_map {α : Type} (f : α → BalanceState) (l : List α) :
    reduceAndTest (l.map f) =
      if MPI_Allreduce_MIN (l.map (fun x => (f x).ier)) ≤ 0 then
        some (MPI_Allreduce_MIN (l.map (fun x => (f x).ier)))
      else none := by
  unfold reduceAndTest
  simp only [List.map_map, Function.comp_def]

theorem loadBalancing_run (ndebug : Bool) (env : MmgEnv) (ranks : List BalanceRank)
    (hne : ranks ≠ [])
    (hcount : ∀ rk ∈ ranks, (PMMG_count_parBdy env rk.listgrp).map Prod.fst = some 1) :
    PMMG_loadBalancing ndebug env ranks = some (
      if MPI_Allreduce_MIN (ranks.map (fun rk => (afterFine rk).ier)) ≤ 0 then
        finish (ranks.map afterFine) (MPI_Allreduce_MIN (ranks.map (fun rk => (afterFine rk).ier)))
      else if ndebug = false ∧
          MPI_Allreduce_MIN (ranks.map (fun rk => (afterDistribute rk).ier)) ≤ 0 then
        finish (ranks.map afterDistribute)
          (MPI_Allreduce_MIN (ranks.map (fun rk => (afterDistribute rk).ier)))
      else
        finish (ranks.map afterCoarse)
          (MPI_Allreduce_MIN (ranks.map (fun rk => (afterCoarse rk).ier)))) := by
  unfold PMMG_loadBalancing
  rw [allSome_map _ (fun _ => (1 : Int)) ranks hcount]
  have hc1 : (ranks.map (fun _ => (1 : Int))).map
      (fun ier => BalanceState.call ⟨[], 0⟩ .count_parBdy ier) = ranks.map (fun _ => afterCount) := by
    rw [List.map_map]
    rfl
  simp only [hc1]
  have h1 : ¬ MPI_Allreduce_MIN (ranks.map (fun _ => (afterCount).ier)) ≤ 0 := by
    have hmem := allreduce_min_mem (ranks.map (fun _ => (afterCount).ier)) (by simpa using hne)
    rw [List.mem_map] at hmem
    obtain ⟨_, _, h⟩ := hmem
    rw [← h]
    decide
  have hs1 : (if ndebug = true then none
      else reduceAndTest (ranks.map (fun _ => afterCount))) = none := by
    cases ndebug
    · simp only [Bool.false_eq_true, if_false]
      rw [reduceAndTest_map]
      exact if_neg h1
    · simp
  simp only [hs1]
  have hs2 : ((ranks.map (fun _ => afterCount)).zip ranks).map
      (fun sr =>
        if sr.1.ier ≠ 0 then
          sr.1.call (.split_n2mGrps .METIS_TARGET_MESH_SIZE 1)
            (sr.2.split_n2mGrps .METIS_TARGET_MESH_SIZE 1)
        else sr.1) = ranks.map afterFine := by
    rw [zip_map_self, List.map_map]
    apply List.map_congr_left
    intro rk _
    rfl
  simp only [hs2]
  rw [reduceAndTest_map]
  by_cases hf : MPI_Allreduce_MIN (ranks.map (fun rk => (afterFine rk).ier)) ≤ 0
  · simp only [if_pos hf]
  · simp only [if_neg hf]
    have hs3 : ((ranks.map afterFine).zip ranks).map
        (fun sr => sr.1.call .distribute_grps sr.2.distribute_grps)
        = ranks.map afterDistribute := by
      rw [zip_map_self, List.map_map]
      apply List.map_congr_left
      intro rk _
      rfl
    simp only [hs3]
    have hs4 : ((ranks.map afterDistribute).zip ranks).map
        (fun sr =>
          if sr.1.ier ≠ 0 then
            sr.1.call (.split_n2mGrps .REMESHER_TARGET_MESH_SIZE 0)
              (sr.2.split_n2mGrps .REMESHER_TARGET_MESH_SIZE 0)
          else sr.1) = ranks.map afterCoarse := by
      rw [zip_map_self, List.map_map]
      apply List.map_congr_left
      intro rk _
      rfl
    simp only [hs4]
    have hs5 : (ranks.map afterCoarse).map BalanceState.ier
        = ranks.map (fun rk => (afterCoarse rk).ier) := by
      rw [List.map_map]
      rfl
    simp only [hs5]
    cases ndebug
    · simp only [Bool.false_eq_true, if_false, true_and]
      rw [reduceAndTest_map]
      by_cases hd : MPI_Allreduce_MIN (ranks.map (fun rk => (afterDistribute rk).ier)) ≤ 0
      · simp only [if_pos hd]
      · simp only [if_neg hd]
    · simp only [if_true, Bool.true_eq_false, false_and, if_false]

theorem finish_mem (st : BalanceRank → BalanceState) (ranks : List BalanceRank) (g : Int)
    (r : List (BalancePhase × Int) × Int) :
    r ∈ finish (ranks.map st) g ↔ ∃ rk ∈ ranks, r = ((st rk).trace, g) := by
  unfold finish
  simp only [List.map_map, List.mem_map, Function.comp_def]
  constructor
  · rintro ⟨rk, hrk, rfl⟩; exact ⟨rk, hrk, rfl⟩
  · rintro ⟨rk, hrk, rfl⟩; exact ⟨rk, hrk, rfl⟩

theorem afterCoarse_cases (rk : BalanceRank) :
    (rk.distribute_grps ≠ 0 ∧
      (afterCoarse rk).trace = [(.count_parBdy, 1),
        (.split_n2mGrps .METIS_TARGET_MESH_SIZE 1, rk.split_n2mGrps .METIS_TARGET_MESH_SIZE 1),
        (.distribute_grps, rk.distribute_grps),
        (.split_n2mGrps .REMESHER_TARGET_MESH_SIZE 0,
          rk.split_n2mGrps .REMESHER_TARGET_MESH_SIZE 0)] ∧
      (afterCoarse rk).ier = rk.split_n2mGrps .REMESHER_TARGET_MESH_SIZE 0) ∨
    (rk.distribute_grps = 0 ∧
      (afterCoarse rk).trace = [(.count_parBdy, 1),
        (.split_n2mGrps .METIS_TARGET_MESH_SIZE 1, rk.split_n2mGrps .METIS_TARGET_MESH_SIZE 1),
        (.distribute_grps, rk.distribute_grps)] ∧
      (afterCoarse rk).ier = 0) := by
  unfold afterCoarse
  by_cases h : rk.distribute_grps = 0
  · right
    have : ¬ (afterDistribute rk).ier ≠ 0 := fun hn => hn h
    rw [if_neg this]
    exact ⟨h, rfl, h⟩
  · left
    have : (afterDistribute rk).ier ≠ 0 := h
    rw [if_pos this]
    exact ⟨h, rfl, rfl⟩

theorem loadBalancing_nil (ndebug : Bool) (env : MmgEnv) :
    PMMG_loadBalancing ndebug env [] = some [] := by
  cases ndebug <;> rfl

theorem loadBalancing_props (ndebug : Bool) (env : MmgEnv) (ranks : List BalanceRank)
    (hcount : ∀ rk ∈ ranks, (PMMG_count_parBdy env rk.listgrp).map Prod.fst = some 1) :
    ∃ res, PMMG_loadBalancing ndebug env ranks = some res ∧ res.length = ranks.length ∧
      InOrder res ∧
      (ndebug = false → StopsAtFailure res) ∧
      StopsAt .count_parBdy res ∧
      StopsAt (.split_n2mGrps .METIS_TARGET_MESH_SIZE 1) res ∧
      StopsAt (.split_n2mGrps .REMESHER_TARGET_MESH_SIZE 0) res ∧
      StopsLocallyAtDistribute res := by
  by_cases hne : ranks = []
  · subst hne
    refine ⟨[], loadBalancing_nil ndebug env, rfl, ?_, ?_, ?_, ?_, ?_, ?_⟩
    · intro r hr; simp at hr
    · intro _ p _ r hr; simp at hr
    · intro r hr; simp at hr
    · intro r hr; simp at hr
    · intro r hr; simp at hr
    · intro r hr; simp at hr
  · refine ⟨_, loadBalancing_run ndebug env ranks hne hcount, ?_⟩
    by_cases hf : MPI_Allreduce_MIN (ranks.map (fun rk => (afterFine rk).ier)) ≤ 0
    · -- the run stops after the fine split
      simp only [if_pos hf]
      have key : ∀ p, StopsAt p (finish (ranks.map afterFine)
          (MPI_Allreduce_MIN (ranks.map (fun rk => (afterFine rk).ier)))) := by
        intro p r hr ps hps hp hle r2 hr2
        obtain ⟨rk, _, rfl⟩ := (finish_mem _ _ _ _).1 hr
        obtain ⟨rk2, _, rfl⟩ := (finish_mem _ _ _ _).1 hr2
        refine ⟨hf, ?_⟩
        intro qs hqs
        simp only [afterFine, afterCount, BalanceState.call, List.nil_append, List.cons_append,
          List.mem_cons, List.mem_singleton, List.not_mem_nil, or_false] at hps hqs
        rcases hps with rfl | rfl
        · exact absurd hle (by decide)
        · subst hp
          rcases hqs with rfl | rfl <;> simp [BalancePhase.rank]
      refine ⟨by simp [finish], ?_, fun _ p _ => key p, key _, key _, key _, ?_⟩
      · intro r hr
        obtain ⟨rk, _, rfl⟩ := (finish_mem _ _ _ _).1 hr
        exact ⟨[.distribute_grps, .split_n2mGrps .REMESHER_TARGET_MESH_SIZE 0], rfl⟩
      · intro r hr hmem
        obtain ⟨rk, _, rfl⟩ := (finish_mem _ _ _ _).1 hr
        simp [afterFine, afterCount, BalanceState.call] at hmem
    · simp only [if_neg hf]
      have hfine : ∀ rk ∈ ranks, 0 < rk.split_n2mGrps .METIS_TARGET_MESH_SIZE 1 := by
        intro rk hrk
        have := allreduce_min_le (ranks.map (fun rk => (afterFine rk).ier))
          (afterFine rk).ier (List.mem_map_of_mem _ hrk)
        have h2 : (afterFine rk).ier = rk.split_n2mGrps .METIS_TARGET_MESH_SIZE 1 := rfl
        omega
      by_cases hd : ndebug = false ∧
          MPI_Allreduce_MIN (ranks.map (fun rk => (afterDistribute rk).ier)) ≤ 0
      · -- the run stops after the distribution (build with assertions)
        simp only [if_pos hd]
        have key : ∀ p, StopsAt p (finish (ranks.map afterDistribute)
            (MPI_Allreduce_MIN (ranks.map (fun rk => (afterDistribute rk).ier)))) := by
          intro p r hr ps hps hp hle r2 hr2
          obtain ⟨rk, hrk, rfl⟩ := (finish_mem _ _ _ _).1 hr
          obtain ⟨rk2, _, rfl⟩ := (finish_mem _ _ _ _).1 hr2
          refine ⟨hd.2, ?_⟩
          intro qs hqs
          simp only [afterDistribute, afterFine, afterCount, BalanceState.call, List.nil_append,
            List.cons_append, List.mem_cons, List.mem_singleton, List.not_mem_nil,
            or_false] at hps hqs
          rcases hps with rfl | rfl | rfl
          · exact absurd hle (by decide)
          · have := hfine rk hrk
            exact absurd hle (by simp only; omega)
          · subst hp
            rcases hqs with rfl | rfl | rfl <;> simp [BalancePhase.rank]
        refine ⟨by simp [finish], ?_, fun _ p _ => key p, key _, key _, key _, ?_⟩
        · intro r hr
          obtain ⟨rk, _, rfl⟩ := (finish_mem _ _ _ _).1 hr
          exact ⟨[.split_n2mGrps .REMESHER_TARGET_MESH_SIZE 0], rfl⟩
        · intro r hr hmem
          obtain ⟨rk, _, rfl⟩ := (finish_mem _ _ _ _).1 hr
          refine ⟨?_, ?_⟩
          · intro qs hqs
            simp only [afterDistribute, afterFine, afterCount, BalanceState.call,
              List.nil_append, List.cons_append, List.mem_cons, List.mem_singleton,
              List.not_mem_nil, or_false] at hqs
            rcases hqs with rfl | rfl | rfl <;> simp [BalancePhase.rank]
          · intro r2 hr2
            obtain ⟨rk2, _, rfl⟩ := (finish_mem _ _ _ _).1 hr2
            exact hd.2
      · -- the run goes to its end
        simp only [if_neg hd]
        have hle : ∀ rk ∈ ranks, MPI_Allreduce_MIN (ranks.map (fun rk => (afterCoarse rk).ier))
            ≤ (afterCoarse rk).ier := fun rk hrk =>
          allreduce_min_le _ _ (List.mem_map_of_mem (fun rk => (afterCoarse rk).ier) hrk)
        have hranks : ∀ rk, ∀ qs ∈ (afterCoarse rk).trace, qs.1.rank ≤ 3 := by
          intro rk qs hqs
          rcases afterCoarse_cases rk with ⟨_, ht, _⟩ | ⟨_, ht, _⟩
          · rw [ht] at hqs
            simp only [List.mem_cons, List.mem_singleton, List.not_mem_nil, or_false] at hqs
            rcases hqs with rfl | rfl | rfl | rfl <;> simp [BalancePhase.rank]
          · rw [ht] at hqs
            simp only [List.mem_cons, List.mem_singleton, List.not_mem_nil, or_false] at hqs
            rcases hqs with rfl | rfl | rfl <;> simp [BalancePhase.rank]
        have kcount : ∀ p, p.rank ≤ 1 → StopsAt p (finish (ranks.map afterCoarse)
            (MPI_Allreduce_MIN (ranks.map (fun rk => (afterCoarse rk).ier)))) := by
          intro p hp1 r hr ps hps hp hle0 r2 hr2
          exfalso
          obtain ⟨rk, hrk, rfl⟩ := (finish_mem _ _ _ _).1 hr
          have hfr := hfine rk hrk
          rcases afterCoarse_cases rk with ⟨_, ht, _⟩ | ⟨_, ht, _⟩
          · simp only [ht, List.mem_cons, List.mem_singleton, List.not_mem_nil, or_false] at hps
            rcases hps with rfl | rfl | rfl | rfl
            · exact absurd hle0 (by decide)
            · simp only at hle0; omega
            · subst hp; exact absurd hp1 (by simp [BalancePhase.rank])
            · subst hp; exact absurd hp1 (by simp [BalancePhase.rank])
          · simp only [ht, List.mem_cons, List.mem_singleton, List.not_mem_nil, or_false] at hps
            rcases hps with rfl | rfl | rfl
            · exact absurd hle0 (by decide)
            · simp only at hle0; omega
            · subst hp; exact absurd hp1 (by simp [BalancePhase.rank])
        have kcoarse : StopsAt (.split_n2mGrps .REMESHER_TARGET_MESH_SIZE 0)
            (finish (ranks.map afterCoarse)
              (MPI_Allreduce_MIN (ranks.map (fun rk => (afterCoarse rk).ier)))) := by
          intro r hr ps hps hp hle0 r2 hr2
          obtain ⟨rk, hrk, rfl⟩ := (finish_mem _ _ _ _).1 hr
          obtain ⟨rk2, _, rfl⟩ := (finish_mem _ _ _ _).1 hr2
          refine ⟨?_, fun qs hqs => hranks rk2 qs hqs⟩
          have hmin := hle rk hrk
          rcases afterCoarse_cases rk with ⟨_, ht, hi⟩ | ⟨_, ht, hi⟩
          · simp only [ht, List.mem_cons, List.mem_singleton, List.not_mem_nil, or_false] at hps
            rcases hps with rfl | rfl | rfl | rfl
            · exact absurd hp (by simp)
            · exact absurd hp (by simp)
            · exact absurd hp (by simp)
            · simp only at hle0
              show MPI_Allreduce_MIN _ ≤ 0
              omega
          · show MPI_Allreduce_MIN _ ≤ 0
            omega
        have klocal : StopsLocallyAtDistribute (finish (ranks.map afterCoarse)
            (MPI_Allreduce_MIN (ranks.map (fun rk => (afterCoarse rk).ier)))) := by
          intro r hr hmem
          obtain ⟨rk, hrk, rfl⟩ := (finish_mem _ _ _ _).1 hr
          have hmin := hle rk hrk
          have hfr := hfine rk hrk
          have hd0 : rk.distribute_grps = 0 := by
            rcases afterCoarse_cases rk with ⟨_, ht, _⟩ | ⟨h0, _, _⟩
            · simp only [ht, List.mem_cons, List.mem_singleton, List.not_mem_nil, or_false,
                Prod.mk.injEq] at hmem
              rcases hmem with h | h | h | h
              · exact absurd h.1 (by decide)
              · exact absurd h.1 (by decide)
              · exact h.2.symm
              · exact absurd h.1 (by decide)
            · exact h0
          rcases afterCoarse_cases rk with ⟨hn, _, _⟩ | ⟨_, ht, hi⟩
          · exact absurd hd0 hn
          · refine ⟨?_, ?_⟩
            · intro qs hqs
              simp only [ht, List.mem_cons, List.mem_singleton, List.not_mem_nil,
                or_false] at hqs
              rcases hqs with rfl | rfl | rfl <;> simp [BalancePhase.rank]
            · intro r2 hr2
              obtain ⟨rk2, _, rfl⟩ := (finish_mem _ _ _ _).1 hr2
              show MPI_Allreduce_MIN _ ≤ 0
              omega
        refine ⟨by simp [finish], ?_, ?_, kcount _ (by decide), kcount _ (by decide),
          kcoarse, klocal⟩
        · intro r hr
          obtain ⟨rk, _, rfl⟩ := (finish_mem _ _ _ _).1 hr
          rcases afterCoarse_cases rk with ⟨_, ht, _⟩ | ⟨_, ht, _⟩
          · rw [ht]; exact ⟨[], rfl⟩
          · rw [ht]; exact ⟨[.split_n2mGrps .REMESHER_TARGET_MESH_SIZE 0], rfl⟩
        · intro hdbg p hp
          simp only [balancePhases, List.mem_cons, List.mem_singleton, List.not_mem_nil,
            or_false] at hp
          have hdist : ∀ rk ∈ ranks, 0 < rk.distribute_grps := by
            intro rk hrk
            have := allreduce_min_le (ranks.map (fun rk => (afterDistribute rk).ier))
              (afterDistribute rk).ier (List.mem_map_of_mem _ hrk)
            have h2 : (afterDistribute rk).ier = rk.distribute_grps := rfl
            have h3 : ¬ MPI_Allreduce_MIN (ranks.map (fun rk => (afterDistribute rk).ier)) ≤ 0 :=
              fun h => hd ⟨hdbg, h⟩
            omega
          rcases hp with rfl | rfl | rfl | rfl
          · exact kcount _ (by decide)
          · exact kcount _ (by decide)
          · intro r hr ps hps hp hle0 r2 hr2
            exfalso
            obtain ⟨rk, hrk, rfl⟩ := (finish_mem _ _ _ _).1 hr
            have hdr := hdist rk hrk
            rcases afterCoarse_cases rk with ⟨_, ht, _⟩ | ⟨h0, _, _⟩
            · simp only [ht, List.mem_cons, List.mem_singleton, List.not_mem_nil,
                or_false] at hps
              rcases hps with rfl | rfl | rfl | rfl
              · exact absurd hp (by simp)
              · exact absurd hp (by simp)
              · simp only at hle0; omega
              · exact absurd hp (by simp)
            · omega
          · exact kcoarse

/-- C19, counterexample.  Build with `NDEBUG`, two ranks: the distribution returns
0 on the rank 0 and 1 on the rank 1.  No reduction follows the distribution in
this build, and the rank 1 executes the coarse split: a later phase is executed
on some rank after a status `<= 0`. -/
theorem loadBalancing_release_goes_on :
    ∃ res, PMMG_loadBalancing true demoEnv [demoBalanceRank 1 0 1, demoBalanceRank 1 1 1]
        = some res ∧ ¬ StopsAtFailure res :=
  ⟨_, rfl, by decide⟩

/-- C19, amended.  `PMMG_loadBalancing` returns on every rank after executing its
phases in the order weight count, fine split, distribution, coarse split.  In a
build with assertions, as soon as the status of a phase is `<= 0` on some rank, no
later phase is executed on any rank and every rank returns a status `<= 0`.  In
every build this holds for the weight count, the fine split and the coarse split,
and a distribution whose status is 0 on a rank stops this rank and makes every
rank return a status `<= 0`. -/
theorem loadBalancing_stops (ndebug : Bool) (env : MmgEnv) (ranks : List BalanceRank)
    (hmark : IgnoresMark env)
    (hok : ∀ rk ∈ ranks, ∀ mesh, some mesh ∈ rk.listgrp → MeshOK env mesh) :
    ∃ res, PMMG_loadBalancing ndebug env ranks = some res ∧ res.length = ranks.length ∧
      InOrder res ∧
      (ndebug = false → StopsAtFailure res) ∧
      StopsAt .count_parBdy res ∧
      StopsAt (.split_n2mGrps .METIS_TARGET_MESH_SIZE 1) res ∧
      StopsAt (.split_n2mGrps .REMESHER_TARGET_MESH_SIZE 0) res ∧
      StopsLocallyAtDistribute res :=
  loadBalancing_props ndebug env ranks
    (fun rk hrk => count_parBdy_some env rk.listgrp hmark (hok rk hrk))

/-- Witness for the amended C19: the two ranks of the counterexample in a build
with assertions; the run stops after the distribution on both ranks. -/
theorem loadBalancing_stops_witness :
    ∃ res, PMMG_loadBalancing false demoEnv [demoBalanceRank 1 0 1, demoBalanceRank 1 1 1]
        = some res ∧
      res.length = [demoBalanceRank 1 0 1, demoBalanceRank 1 1 1].length ∧
      InOrder res ∧
      (false = false → StopsAtFailure res) ∧
      StopsAt .count_parBdy res ∧
      StopsAt (.split_n2mGrps .METIS_TARGET_MESH_SIZE 1) res ∧
      StopsAt (.split_n2mGrps .REMESHER_TARGET_MESH_SIZE 0) res ∧
      StopsLocallyAtDistribute res :=
  loadBalancing_stops false demoEnv [demoBalanceRank 1 0 1, demoBalanceRank 1 1 1]
    (fun _ _ => rfl) (by
      intro rk hrk mesh hm
      simp only [List.mem_cons, List.mem_singleton, List.not_mem_nil, or_false] at hrk
      rcases hrk with rfl | rfl
      · simp only [demoBalanceRank, List.mem_singleton, Option.some.injEq] at hm
        subst hm
        decide
      · simp only [demoBalanceRank, List.mem_singleton, Option.some.injEq] at hm
        subst hm
        decide)

/-- C20.  Failing input: build with `NDEBUG`, four ranks, the distribution returns
-1 on the rank 2 and every other phase returns 1 on every rank.  No reduction
follows the distribution, `if ( ier )` lets the rank 2 run the coarse split, whose
status 1 replaces the -1: `PMMG_loadBalancing` returns 1 on the four ranks and
`PMMG_parmmglib1` goes on with the next iteration.  In the build with assertions
the same input gives -1 on every rank and `PMMG_STRONGFAILURE`. -/
theorem loadBalancing_negative_status_lost :
    (PMMG_loadBalancing true demoEnv [demoBalanceRank 1 1 1, demoBalanceRank 1 1 1,
        demoBalanceRank 1 (-1) 1, demoBalanceRank 1 1 1]).map (fun res => res.map Prod.snd)
      = some [1, 1, 1, 1] ∧
    balanceStep true demoEnv false false [1, 1, 1, 1] [demoBalanceRank 1 1 1,
        demoBalanceRank 1 1 1, demoBalanceRank 1 (-1) 1, demoBalanceRank 1 1 1]
      = some [.next_iteration, .next_iteration, .next_iteration, .next_iteration] ∧
    (PMMG_loadBalancing false demoEnv [demoBalanceRank 1 1 1, demoBalanceRank 1 1 1,
        demoBalanceRank 1 (-1) 1, demoBalanceRank 1 1 1]).map (fun res => res.map Prod.snd)
      = some [-1, -1, -1, -1] ∧
    balanceStep false demoEnv false false [1, 1, 1, 1] [demoBalanceRank 1 1 1,
        demoBalanceRank 1 1 1, demoBalanceRank 1 (-1) 1, demoBalanceRank 1 1 1]
      = some [.return_STRONGFAILURE, .return_STRONGFAILURE, .return_STRONGFAILURE,
        .return_STRONGFAILURE] :=
  ⟨by decide, by decide, by decide, by decide⟩

/-- C15.  Failing input: two ranks sharing one face, tagged `MG_PARBDY` only on
both (`demoTriaRank0`, `demoTriaRank1`), build with `NDEBUG`.  The rank 0 owns one
true boundary triangle, so the offset of the rank 1 is 1.  On the rank 0 (offset 0)
the purely parallel triangle 1 is left at `flag = 0`, `base = PMMG_UNSET`.  On the
rank 1 the step 3 adds the offset to the entries left at 0 by the step 2, and the
step 5, which skips the entries equal to 0, gives `flag = 1` and `base = 1` to the
purely parallel triangle 1, whatever the uninitialised cell read by the step 5
holds (0, 1 or 2, the indices of the array `tria`).  The buffers exchanged and the
counts gathered are those that the two ranks produce.  The same happens in a build
with assertions on a rank of positive offset without interface
(`demoTriaAlone`). -/
theorem purely_parallel_triangle_numbered :
    -- the triangle 1 of the rank 1 is purely parallel
    (hasTag demoEnv.MG_PARBDY 8192 ∧ ¬ hasTag 16384 8192) ∧
    PMMG_Compute_trianglesGloNum true demoEnv 16384 (fun _ => 0) demoTriaRank0 [1, 0] [[2]]
      = some ⟨1, [⟨0, 2, 1⟩, ⟨4, 0, PMMG_UNSET⟩, ⟨7, 1, 0⟩], 1, [[0]]⟩ ∧
    (∀ j ∈ [(0 : Int), 1, 2],
      (PMMG_Compute_trianglesGloNum true demoEnv 16384 (fun _ => j) demoTriaRank1 [1, 0]
        [[0]]).map (fun r => (r.status, r.tria[1]?, r.nglob, r.itosend))
        = some (1, some ⟨4, 1, 1⟩, 0, [[2]])) ∧
    PMMG_Compute_trianglesGloNum false demoEnv 16384 (fun _ => 0) demoTriaAlone [1, 0] []
      = some ⟨1, [⟨0, 0, 0⟩, ⟨4, 1, 1⟩], 0, []⟩ :=
  ⟨by decide, by decide, by decide, by decide⟩

/-- C16.  Failing input: a single rank with one tetrahedron whose faces 0 and 1
are true boundary faces carrying the triangles 1 and 2 (`demoTriaSingle`), in a
build with or without assertions.  The rank owns `nglob = 2` triangles, so the ids
should be 1 and 2; the position `8*(xt-1)+ifac` of the step 2 and the stride 1 of
`ifac` in `12*(xt-1)+ifac` make the entries of the two faces overlap, and both
triangles end with the id 2 (and the triangle 1 with the owner 2). -/
theorem triangle_ids_collide :
    PMMG_Compute_trianglesGloNum false demoEnv 16384 (fun _ => 0) demoTriaSingle [2] []
      = some ⟨1, [⟨0, 0, 0⟩, ⟨4, 2, 2⟩, ⟨5, 2, 0⟩], 2, []⟩ ∧
    PMMG_Compute_trianglesGloNum true demoEnv 16384 (fun _ => 0) demoTriaSingle [2] []
      = some ⟨1, [⟨0, 0, 0⟩, ⟨4, 2, 2⟩, ⟨5, 2, 0⟩], 2, []⟩ :=
  ⟨by decide, by decide⟩

theorem triaOffset_spec (g : List Int) (r : Nat) (hr : r ≤ g.length) :
    triaOffset r g = wrapInt ((g.take r).sum) := by
  unfold triaOffset
  have hfold : (List.range r).foldl
      (fun o k => o.set (k + 1) (wrapInt (o.getD (k + 1) 0 + o.getD k 0))) (0 :: g) =
      (List.range' 1 r).foldl
        (fun o i => o.set i (wrapInt (o.getD i 0 + o.getD (i - 1) 0))) (0 :: g) := by
    rw [List.range'_eq_map_range, List.foldl_map]
    congr 1
    funext o k
    have : 1 + k - 1 = k := by omega
    rw [this, Nat.add_comm 1 k]
  rw [hfold, (computeOffsets_aux g r hr).2 r hr, if_pos (le_refl r)]

/-- When the counts are non-negative and their sum is representable, the offset of
the triangle numbering is the exact prefix sum. -/
theorem triaOffset_exact (g : List Int) (hpos : ∀ c ∈ g, 0 ≤ c) (hsum : g.sum ≤ INT_MAX)
    (r : Nat) (hr : r ≤ g.length) : triaOffset r g = (g.take r).sum := by
  have hb := take_sum_bounds g hpos r
  rw [triaOffset_spec g r hr, wrapInt_of_range _ (by omega) (by omega)]

/-- Beyond the range of `int` the offset of the triangle numbering follows the
32-bit arithmetic of the program. -/
theorem triaOffset_overflow : triaOffset 2 [1073741824, 1073741824, 1] = -2147483648 := by
  decide

/-- C17.  In `PMMG_Compute_verticesGloNum` (`computeOffsets`) and in
`PMMG_Compute_trianglesGloNum` (`triaOffset`) the offset used by the rank `r` is the
sum of the gathered counts of the ranks below `r`: it is 0 for the rank 0, it grows
by the count of the rank `r` from `r` to `r+1`, so that a rank whose count is 0
contributes 0, and it is non-decreasing in `r`, the counts being non-negative and
their sum being representable in the type `int` in which the sums are
accumulated. -/
theorem offsets_are_prefix_sums (gathered : List Int) (r : Nat) (hr : r < gathered.length)
    (hpos : ∀ c ∈ gathered, 0 ≤ c) (hsum : gathered.sum ≤ INT_MAX) :
    (computeOffsets gathered.length gathered).getD r 0 = (gathered.take r).sum ∧
    triaOffset r gathered = (gathered.take r).sum ∧
    (computeOffsets gathered.length gathered).getD 0 0 = 0 ∧
    triaOffset 0 gathered = 0 ∧
    (computeOffsets gathered.length gathered).getD (r + 1) 0 =
      (computeOffsets gathered.length gathered).getD r 0 + gathered.getD r 0 ∧
    triaOffset (r + 1) gathered = triaOffset r gathered + gathered.getD r 0 ∧
    (computeOffsets gathered.length gathered).getD r 0 ≤
      (computeOffsets gathered.length gathered).getD (r + 1) 0 ∧
    triaOffset r gathered ≤ triaOffset (r + 1) gathered ∧
    (gathered.getD r 0 = 0 →
      (computeOffsets gathered.length gathered).getD (r + 1) 0 =
        (computeOffsets gathered.length gathered).getD r 0 ∧
      triaOffset (r + 1) gathered = triaOffset r gathered) := by
  have h1 := computeOffsets_exact gathered hpos hsum r (by omega)
  have h2 := computeOffsets_exact gathered hpos hsum (r + 1) (by omega)
  have h0 := computeOffsets_exact gathered hpos hsum 0 (by omega)
  have t1 := triaOffset_exact gathered hpos hsum r (by omega)
  have t2 := triaOffset_exact gathered hpos hsum (r + 1) (by omega)
  have t0 := triaOffset_exact gathered hpos hsum 0 (by omega)
  have hsucc : (gathered.take (r + 1)).sum = (gathered.take r).sum + gathered.getD r 0 := by
    rw [List.sum_take_succ gathered r hr, List.getD_eq_getElem?_getD,
      List.getElem?_eq_getElem hr]
    rfl
  have hge : 0 ≤ gathered.getD r 0 := by
    rw [List.getD_eq_getElem?_getD, List.getElem?_eq_getElem hr]
    exact hpos _ (List.getElem_mem hr)
  rw [h1, h2, h0, t1, t2, t0, hsucc]
  simp only [List.take_zero, List.sum_nil, true_and]
  refine ⟨?_, ?_, ?_⟩
  · omega
  · omega
  · intro hz
    rw [hz]
    simp

/-- Witness for C17: four ranks with the counts 3, 0, 2, 5; the rank 1 owns
nothing, and the offsets of the ranks 1 and 2 are both 3. -/
theorem offsets_are_prefix_sums_witness :
    (computeOffsets 4 [3, 0, 2, 5]).getD 1 0 = 3 ∧ triaOffset 1 [3, 0, 2, 5] = 3 ∧
    (computeOffsets 4 [3, 0, 2, 5]).getD 2 0 = 3 ∧ triaOffset 2 [3, 0, 2, 5] = 3 :=
  ⟨(offsets_are_prefix_sums [3, 0, 2, 5] 1 (by decide) (by decide) (by decide)).1,
    (offsets_are_prefix_sums [3, 0, 2, 5] 1 (by decide) (by decide) (by decide)).2.1,
    ((offsets_are_prefix_sums [3, 0, 2, 5] 1 (by decide) (by decide) (by decide)).2.2.2.2.2.2.2.2
      rfl).1.trans (offsets_are_prefix_sums [3, 0, 2, 5] 1 (by decide) (by decide) (by decide)).1,
    ((offsets_are_prefix_sums [3, 0, 2, 5] 1 (by decide) (by decide) (by decide)).2.2.2.2.2.2.2.2
      rfl).2.trans (offsets_are_prefix_sums [3, 0, 2, 5] 1 (by decide) (by decide) (by decide)).2.1⟩

/-! ## Layout of the packed array, comparison and capacity of the linked lists -/

theorem flatPairs_getElem (L : List (Int × Int)) :
    ∀ (i : Nat) (p : Int × Int), L[i]? = some p →
      (flatPairs L)[2 * i]? = some p.1 ∧ (flatPairs L)[2 * i + 1]? = some p.2 := by
  induction L with
  | nil => intro i p h; simp at h
  | cons q L ih =>
    intro i p h
    cases i with
    | zero =>
      simp only [List.getElem?_cons_zero, Option.some.injEq] at h
      subst h
      simp [flatPairs]
    | succ i =>
      simp only [List.getElem?_cons_succ] at h
      obtain ⟨h1, h2⟩ := ih i p h
      have e1 : 2 * (i + 1) = 2 * i + 1 + 1 := by omega
      have e2 : 2 * (i + 1) + 1 = 2 * i + 1 + 1 + 1 := by omega
      rw [e1]
      simp only [flatPairs, List.getElem?_cons_succ]
      exact ⟨h1, h2⟩

/-- C25: for a well-formed list and an array that holds `2*nitem + 1` entries,
`PMMG_packInArray_lnkdList` returns `2*nitem + 1`; the array keeps its length,
`array[0] = nitem`, `array[2i+1]` and `array[2i+2]` are `val1` and `val2` of the
`i`-th cell of the traversal (list order) for every `i < nitem`, and every other
entry is left as it was. -/
theorem packInArray_layout (l : PMMG_lnkdList) (array : List Int) (hwf : WellFormed l)
    (hbuf : 2 * l.nitem + 1 ≤ (array.length : Int)) :
    ∃ L array2, l.toList = some L ∧ (L.length : Int) = l.nitem ∧
      PMMG_packInArray_lnkdList l array = some (2 * l.nitem + 1, array2) ∧
      array2.length = array.length ∧
      array2[0]? = some l.nitem ∧
      (∀ (i : Nat) (p : Int × Int), L[i]? = some p →
        array2[2 * i + 1]? = some p.1 ∧ array2[2 * i + 2]? = some p.2) ∧
      (∀ j : Nat, 2 * L.length + 1 ≤ j → array2[j]? = array[j]?) := by
  obtain ⟨cs, hrep⟩ := wf_repr hwf
  have hL := hrep.toList_eq
  have hn : 0 ≤ l.nitem := hwf.1
  have hlenL : ((pairsOf cs).length : Int) = l.nitem := by
    rw [hrep.len]; simp [pairsOf]
  obtain _ | ⟨x, rest⟩ := array
  · simp at hbuf; omega
  have hrest : 2 * l.nitem ≤ (rest.length : Int) := by
    simp only [List.length_cons] at hbuf; push_cast at hbuf; omega
  have hp := pack_spec l (pairsOf cs) x rest hL hn hrest
  have hfl : (flatPairs (pairsOf cs)).length = 2 * l.nitem.toNat := by
    rw [flatPairs_length]; omega
  refine ⟨pairsOf cs, _, hL, hlenL, hp, ?_, List.getElem?_cons_zero, ?_, ?_⟩
  · simp only [List.length_cons, List.length_append, List.length_drop, hfl]
    omega
  · intro i p hi
    obtain ⟨h1, h2⟩ := flatPairs_getElem _ i p hi
    have hlt : i < (pairsOf cs).length := by
      by_contra hc
      rw [List.getElem?_eq_none (by omega)] at hi
      exact Option.noConfusion hi
    constructor
    · show (l.nitem :: (flatPairs (pairsOf cs) ++ List.drop (2 * l.nitem.toNat) rest))[2 * i + 1]? = _
      rw [List.getElem?_cons_succ, List.getElem?_append_left (by omega)]
      exact h1
    · show (l.nitem :: (flatPairs (pairsOf cs) ++ List.drop (2 * l.nitem.toNat) rest))[2 * i + 1 + 1]? = _
      rw [List.getElem?_cons_succ, List.getElem?_append_left (by omega)]
      exact h2
  · intro j hj
    obtain _ | j := j
    · omega
    show (l.nitem :: (flatPairs (pairsOf cs) ++ List.drop (2 * l.nitem.toNat) rest))[j + 1]? = _
    rw [List.getElem?_cons_succ, List.getElem?_cons_succ,
      List.getElem?_append_right (by omega), List.getElem?_drop, hfl]
    congr 1
    omega

/-- Witness of C25: the list `(3,1),(5,2)` stored in arena order `(5,2),(3,1)`,
packed in an array of 7 entries. -/
theorem packInArray_layout_witness :
    ∃ L array2,
      (⟨2, 3, 1, [⟨5, 2, 0, -1⟩, ⟨3, 1, 1, 0⟩, ⟨0, 0, 0, 0⟩]⟩ : PMMG_lnkdList).toList = some L ∧
      (L.length : Int) = 2 ∧
      PMMG_packInArray_lnkdList ⟨2, 3, 1, [⟨5, 2, 0, -1⟩, ⟨3, 1, 1, 0⟩, ⟨0, 0, 0, 0⟩]⟩
        [9, 9, 9, 9, 9, 8, 7] = some (2 * 2 + 1, array2) ∧
      array2.length = [9, 9, 9, 9, 9, 8, (7 : Int)].length ∧
      array2[0]? = some 2 ∧
      (∀ (i : Nat) (p : Int × Int), L[i]? = some p →
        array2[2 * i + 1]? = some p.1 ∧ array2[2 * i + 2]? = some p.2) ∧
      (∀ j : Nat, 2 * L.length + 1 ≤ j → array2[j]? = [9, 9, 9, 9, 9, 8, (7 : Int)][j]?) :=
  packInArray_layout ⟨2, 3, 1, [⟨5, 2, 0, -1⟩, ⟨3, 1, 1, 0⟩, ⟨0, 0, 0, 0⟩]⟩
    [9, 9, 9, 9, 9, 8, 7] (by decide) (by decide)

theorem lexSign_range : ∀ a b : List Int, lexSign a b = -1 ∨ lexSign a b = 0 ∨ lexSign a b = 1
  | [], [] => by simp [lexSign]
  | [], _ :: _ => by simp [lexSign]
  | _ :: _, [] => by simp [lexSign]
  | x :: xs, y :: ys => by
    simp only [lexSign]
    split
    · simp
    · split
      · simp
      · exact lexSign_range xs ys

theorem lexSign_eq_zero : ∀ a b : List Int, lexSign a b = 0 ↔ a = b
  | [], [] => by simp [lexSign]
  | [], _ :: _ => by simp [lexSign]
  | _ :: _, [] => by simp [lexSign]
  | x :: xs, y :: ys => by
    simp only [lexSign]
    split
    · rename_i h
      simp only [List.cons.injEq]
      constructor
      · intro h0; omega
      · intro h0; omega
    · split
      · rename_i h1 h2
        simp only [List.cons.injEq]
        constructor
        · intro h0; omega
        · intro h0; omega
      · rename_i h1 h2
        have : x = y := by omega
        rw [lexSign_eq_zero xs ys]
        simp [this]

theorem flatPairs_injective : ∀ L1 L2 : List (Int × Int), flatPairs L1 = flatPairs L2 → L1 = L2
  | [], [] => fun _ => rfl
  | [], _ :: _ => fun h => by simp [flatPairs] at h
  | _ :: _, [] => fun h => by simp [flatPairs] at h
  | p :: L1, q :: L2 => fun h => by
    simp only [flatPairs, List.cons.injEq] at h
    obtain ⟨h1, h2, h3⟩ := h
    rw [flatPairs_injective L1 L2 h3]
    congr 1
    exact Prod.ext h1 h2

theorem compareLoop_spec (item1 item2 : List PMMG_lnkdCell) :
    ∀ (n : Nat) (s1 s2 : Int) (L1 L2 : List (Int × Int)),
      traverse item1 n s1 = some L1 → traverse item2 n s2 = some L2 →
      compareLoop item1 item2 n s1 s2 = some (lexSign (flatPairs L1) (flatPairs L2)) := by
  intro n
  induction n with
  | zero =>
    intro s1 s2 L1 L2 h1 h2
    simp only [traverse, Option.some.injEq] at h1 h2
    subst h1; subst h2
    rfl
  | succ n ih =>
    intro s1 s2 L1 L2 h1 h2
    simp only [traverse] at h1 h2
    cases hc1 : cellAt item1 s1 with
    | none => simp [hc1] at h1
    | some c1 =>
      cases hc2 : cellAt item2 s2 with
      | none => simp [hc2] at h2
      | some c2 =>
        simp only [hc1, Option.map_eq_some'] at h1
        simp only [hc2, Option.map_eq_some'] at h2
        obtain ⟨T1, hT1, rfl⟩ := h1
        obtain ⟨T2, hT2, rfl⟩ := h2
        have hrec := ih c1.nxt c2.nxt T1 T2 hT1 hT2
        simp only [compareLoop, hc1, hc2, flatPairs, lexSign, gt_iff_lt]
        by_cases a1 : c2.val1 < c1.val1
        · rw [if_pos a1, if_neg (by omega), if_pos a1]
        · rw [if_neg a1]
          by_cases a2 : c1.val1 < c2.val1
          · rw [if_pos a2, if_pos a2]
          · rw [if_neg a2, if_neg a2, if_neg a1]
            by_cases a3 : c2.val2 < c1.val2
            · rw [if_pos a3, if_neg (by omega), if_pos a3]
            · rw [if_neg a3]
              by_cases a4 : c1.val2 < c2.val2
              · rw [if_pos a4, if_pos a4]
              · rw [if_neg a4, if_neg a4, if_neg a3]
                exact hrec

/-- C26: for well-formed lists `a` and `b`, `PMMG_compare_lnkdList` returns a value
`r`: `r = -1` if `a` has fewer cells than `b`, `r = 1` if it has more; with equal
counts `r` is the sign of the lexicographic comparison of the flattened traversals
`val1_0, val2_0, val1_1, ...`; `r = 0` exactly when both lists have the same count
and the same traversal; `r` is always one of -1, 0, 1. -/
theorem compare_lnkdList_spec (a b : PMMG_lnkdList) (hwa : WellFormed a) (hwb : WellFormed b) :
    ∃ La Lb r, a.toList = some La ∧ b.toList = some Lb ∧
      PMMG_compare_lnkdList a b = some r ∧
      (a.nitem < b.nitem → r = -1) ∧ (b.nitem < a.nitem → r = 1) ∧
      (a.nitem = b.nitem → r = lexSign (flatPairs La) (flatPairs Lb)) ∧
      (r = 0 ↔ a.nitem = b.nitem ∧ La = Lb) ∧
      (r = -1 ∨ r = 0 ∨ r = 1) := by
  obtain ⟨ca, hra⟩ := wf_repr hwa
  obtain ⟨cb, hrb⟩ := wf_repr hwb
  have hLa := hra.toList_eq
  have hLb := hrb.toList_eq
  have hlena : ((pairsOf ca).length : Int) = a.nitem := by rw [hra.len]; simp [pairsOf]
  have hlenb : ((pairsOf cb).length : Int) = b.nitem := by rw [hrb.len]; simp [pairsOf]
  refine ⟨pairsOf ca, pairsOf cb, ?_⟩
  by_cases h1 : b.nitem < a.nitem
  · refine ⟨1, hLa, hLb, ?_, fun h => by omega, fun _ => rfl, fun h => by omega, ?_, by simp⟩
    · simp [PMMG_compare_lnkdList, h1]
    · constructor
      · intro h; omega
      · intro h; omega
  · by_cases h2 : a.nitem < b.nitem
    · refine ⟨-1, hLa, hLb, ?_, fun _ => rfl, fun h => by omega, fun h => by omega, ?_, by simp⟩
      · simp [PMMG_compare_lnkdList, h1, h2]
      · constructor
        · intro h; omega
        · intro h; omega
    · have heq : a.nitem = b.nitem := by omega
      have hLb2 : traverse b.item a.nitem.toNat b.frst = some (pairsOf cb) := by
        rw [heq]; exact hLb
      have hc := compareLoop_spec a.item b.item a.nitem.toNat a.frst b.frst _ _ hLa hLb2
      refine ⟨lexSign (flatPairs (pairsOf ca)) (flatPairs (pairsOf cb)), hLa, hLb, ?_,
        fun h => by omega, fun h => by omega, fun _ => rfl, ?_, lexSign_range _ _⟩
      · simp only [PMMG_compare_lnkdList, gt_iff_lt]
        rw [if_neg h1, if_neg h2]
        exact hc
      · rw [lexSign_eq_zero]
        constructor
        · intro h; exact ⟨heq, flatPairs_injective _ _ h⟩
        · intro h; rw [h.2]

/-- Witness of C26: the lists `(3,1),(5,2)` (arena order `(5,2),(3,1)`) and
`(3,1),(5,4)`. -/
theorem compare_lnkdList_spec_witness :
    ∃ La Lb r,
      (⟨2, 3, 1, [⟨5, 2, 0, -1⟩, ⟨3, 1, 1, 0⟩, ⟨0, 0, 0, 0⟩]⟩ : PMMG_lnkdList).toList = some La ∧
      (⟨2, 2, 0, [⟨3, 1, 0, 1⟩, ⟨5, 4, 1, -1⟩]⟩ : PMMG_lnkdList).toList = some Lb ∧
      PMMG_compare_lnkdList ⟨2, 3, 1, [⟨5, 2, 0, -1⟩, ⟨3, 1, 1, 0⟩, ⟨0, 0, 0, 0⟩]⟩
        ⟨2, 2, 0, [⟨3, 1, 0, 1⟩, ⟨5, 4, 1, -1⟩]⟩ = some r ∧
      ((2 : Int) < 2 → r = -1) ∧ ((2 : Int) < 2 → r = 1) ∧
      ((2 : Int) = 2 → r = lexSign (flatPairs La) (flatPairs Lb)) ∧
      (r = 0 ↔ (2 : Int) = 2 ∧ La = Lb) ∧
      (r = -1 ∨ r = 0 ∨ r = 1) :=
  compare_lnkdList_spec ⟨2, 3, 1, [⟨5, 2, 0, -1⟩, ⟨3, 1, 1, 0⟩, ⟨0, 0, 0, 0⟩]⟩
    ⟨2, 2, 0, [⟨3, 1, 0, 1⟩, ⟨5, 4, 1, -1⟩]⟩ (by decide) (by decide)

/-- C27.  Failing input: a list created by `PMMG_lnkdListNew` with the capacity
`nitem_max = 1`, then the inserts `(1,1)` and `(2,2)`.  The first insert fills the
arena.  The second one finds `nitem >= nitem_max` and requests `(int)(1.2*1) = 1`
cells: the arena does not grow and `nitem_max` stays 1, so the new cell
`item[nitem] = item[1]` lies outside the arena (`none`), whatever the reallocation
delivers; when the reallocation fails the status is 0. -/
theorem add_cell_no_growth_below_five (c : PMMG_lnkdCell) :
    grow12 1 = 1 ∧ grow12 4 = 4 ∧
    PMMG_lnkdListNew (some [c]) ⟨0, 0, 0, []⟩ 1 = (1, ⟨0, 1, PMMG_UNSET, [c]⟩) ∧
    PMMG_add_cell2lnkdList none ⟨0, 1, PMMG_UNSET, [c]⟩ 1 1 =
      some (1, ⟨1, 1, 0, [⟨1, 1, 0, -1⟩]⟩) ∧
    (∀ g, PMMG_add_cell2lnkdList (some g) ⟨1, 1, 0, [⟨1, 1, 0, -1⟩]⟩ 2 2 = none) ∧
    PMMG_add_cell2lnkdList none ⟨1, 1, 0, [⟨1, 1, 0, -1⟩]⟩ 2 2 =
      some (0, ⟨1, 1, 0, [⟨1, 1, 0, -1⟩]⟩) := by
  have e : Int.tdiv 6 5 = 1 := by decide
  refine ⟨by decide, by decide, rfl, ?_, ?_, by decide⟩
  · simp [PMMG_add_cell2lnkdList, PMMG_UNSET, setCell]
  · intro g
    simp [PMMG_add_cell2lnkdList, searchLoop, cellAt, addNewCell, PMMG_REALLOC, grow12,
      linkNewCell, e]

/-- C29.  Failing input: a list of capacity `nitem_max = 2` (arena of 2 cells) and
the array `[2, 5,1, 5,2]`.  The count 2 reaches the capacity, the arena is
reallocated to 2 cells and the capacity is multiplied by the count: the list
records `nitem_max = 4` for an arena of 2 cells.  The next insert `(6,1)` finds
`nitem = 2 < nitem_max = 4`, does not grow the arena and stores the new cell in
`item[2]`, outside the arena (`none`). -/
theorem unpack_capacity_multiplied (c d : PMMG_lnkdCell) (g : List PMMG_lnkdCell) :
    PMMG_unpackArray_inLnkdList (some g) ⟨0, 2, PMMG_UNSET, [c, d]⟩ [2, 5, 1, 5, 2] =
      some (5, ⟨2, 4, 0, [⟨5, 1, 0, 1⟩, ⟨5, 2, 1, -1⟩]⟩) ∧
    (∀ fresh, PMMG_add_cell2lnkdList fresh ⟨2, 4, 0, [⟨5, 1, 0, 1⟩, ⟨5, 2, 1, -1⟩]⟩ 6 1 = none) := by
  constructor
  · simp [PMMG_unpackArray_inLnkdList, getInt, PMMG_REALLOC, unpackLoop, setCell, cellAt]
  · intro fresh
    simp [PMMG_add_cell2lnkdList, searchLoop, cellAt, addNewCell, linkNewCell]

/-- C28.  Failing input: the rank 0 of the two-rank example (`demoTriaRank0`),
whose face communicator holds the entry `12 = 12*1 + 3*0 + 0`, the face 0 of the
tetrahedron 1.  `PMMG_store_faceVerticesInIntComm` (`decodeFace`) and
`PMMG_update_face2intPackedTetra` (`packedFace`) read it as the tetrahedron 1 and
the face 0.  `PMMG_Compute_trianglesGloNum` (`slotPos`) computes `ie = 12/4 = 3`
and `ifac = 12%4 = 0`: it takes the boundary record of the tetrahedron 3
(`flag = 2`) and the position `12*(2-1)+0 = 12`, where the face 0 of the
tetrahedron 1 (`flag = 1`) has the position 0.  For the entry `15 = 12*1 + 3*1 + 0`
(the face 1) it takes the face 3 of the tetrahedron 3. -/
theorem tria_entries_decoded_by_four :
    decodeFace 12 = some (1, 0, 0) ∧
    packedFace true demoEnv demoTriaFlags 12 = some 12 ∧
    (compactXtetra demoEnv demoTriaRank0.mesh).map
        (fun r => (r.1.map (fun pt => (pt.xt, pt.flag)), r.2))
      = some (demoTriaFlags.map (fun pt => (pt.xt, pt.flag)), 2) ∧
    slotPos false demoTriaRank0 demoTriaFlags 0 = some (12, 0) ∧
    slotPos true demoTriaRank0 demoTriaFlags 0 = some (12, 0) ∧
    decodeFace 15 = some (1, 1, 0) ∧
    slotPos true { demoTriaRank0 with face2int_face_comm_index1 := [15] } demoTriaFlags 0
      = some (15, 0) := by
  refine ⟨by decide, by decide, by decide, by decide, by decide, by decide, by decide⟩

/-! ## The main loop of the library -/

theorem callsOf_append (a b : List Lib1Event) : callsOf (a ++ b) = callsOf a ++ callsOf b := by
  simp [callsOf, List.filterMap_append]

theorem sentOf_append (a b : List Lib1Event) : sentOf (a ++ b) = sentOf a ++ sentOf b := by
  simp [sentOf, List.filterMap_append]

theorem callsUntilFailure_mem (l : List (Lib1Call × Int)) :
    ∀ e ∈ (callsUntilFailure l).1, ∃ cs ∈ l, e = Lib1Event.call cs.1 cs.2 := by
  induction l with
  | nil => intro e he; simp [callsUntilFailure] at he
  | cons cs rest ih =>
    intro e he
    simp only [callsUntilFailure] at he
    split at he
    · simp only [List.mem_singleton] at he
      exact ⟨cs, List.mem_cons_self _ _, he⟩
    · rcases List.mem_cons.1 he with h | h
      · exact ⟨cs, List.mem_cons_self _ _, h⟩
      · obtain ⟨c2, hc2, h2⟩ := ih e h
        exact ⟨c2, List.mem_cons_of_mem _ hc2, h2⟩

theorem preCalls_mem (g : GroupRun) : ∀ cs ∈ preCalls g,
    cs.1 ∈ groupCalls ∧ cs.1 ≠ .MMG5_mmg3d1 := by
  intro cs hcs
  unfold preCalls at hcs
  rcases List.mem_cons.1 hcs with h | h
  · subst h; simp [groupCalls]
  · by_cases ha : g.adja = true
    · simp [ha] at h
    · simp only [ha, Bool.false_eq_true, if_false, List.mem_singleton] at h
      subst h; simp [groupCalls]

theorem postCalls_mem (us : Bool) (g : GroupRun) : ∀ cs ∈ postCalls us g,
    cs.1 ∈ groupCalls ∧ cs.1 ≠ .MMG5_mmg3d1 := by
  intro cs hcs
  unfold postCalls at hcs
  simp only [List.mem_append, List.mem_cons, List.mem_singleton, List.not_mem_nil,
    or_false] at hcs
  rcases hcs with ((h | h | h) | h) | (h | h)
  · subst h; simp [groupCalls]
  · subst h; simp [groupCalls]
  · subst h; simp [groupCalls]
  · by_cases hc : us = true ∧ g.renum = true
    · rw [if_pos hc, List.mem_singleton] at h
      subst h; simp [groupCalls]
    · rw [if_neg hc] at h
      simp at h
  · subst h; simp [groupCalls]
  · subst h; simp [groupCalls]

/-- The four ways through the body of the loop over the groups. -/
theorem groupBody_cases (us : Bool) (g : GroupRun) (ier : Int) :
    groupBody us g ier = ([], ier, .next) ∨
    groupBody us g ier = ([.call .PMMG_store_faceVerticesInIntComm 0], 0, .brk) ∨
    (∃ t i, groupBody us g ier = (t, i, .strong_failed) ∧
      t = .call .PMMG_store_faceVerticesInIntComm g.store_faceVerticesInIntComm ::
        (callsUntilFailure (preCalls g)).1 ∨
      groupBody us g ier = (t, i, .strong_failed) ∧
      t = .call .PMMG_store_faceVerticesInIntComm g.store_faceVerticesInIntComm ::
        (callsUntilFailure (preCalls g)).1 ++ [.call .MMG5_mmg3d1 g.mmg3d1] ++
        (callsUntilFailure (postCalls us g)).1) ∨
    (groupBody us g ier =
      (.call .PMMG_store_faceVerticesInIntComm g.store_faceVerticesInIntComm ::
        (callsUntilFailure (preCalls g)).1 ++ [.call .MMG5_mmg3d1 g.mmg3d1] ++
        (callsUntilFailure (postCalls us g)).1, g.mmg3d1,
        if g.mmg3d1 = 0 then .brk else .next)) := by
  by_cases h1 : g.empty = true
  · left; simp [groupBody, h1]
  · by_cases h2 : g.store_faceVerticesInIntComm = 0
    · right; left; simp [groupBody, h1, h2]
    · by_cases h3 : (callsUntilFailure (preCalls g)).2 = true
      · right; right; left
        refine ⟨.call .PMMG_store_faceVerticesInIntComm g.store_faceVerticesInIntComm ::
          (callsUntilFailure (preCalls g)).1, g.store_faceVerticesInIntComm, Or.inl ⟨?_, rfl⟩⟩
        simp [groupBody, h1, h2, h3]
      · by_cases h4 : (callsUntilFailure (postCalls us g)).2 = true
        · right; right; left
          refine ⟨.call .PMMG_store_faceVerticesInIntComm g.store_faceVerticesInIntComm ::
            (callsUntilFailure (preCalls g)).1 ++ [.call .MMG5_mmg3d1 g.mmg3d1] ++
            (callsUntilFailure (postCalls us g)).1, g.mmg3d1, Or.inr ⟨?_, rfl⟩⟩
          simp [groupBody, h1, h2, h3, h4]
        · right; right; right
          by_cases h5 : g.mmg3d1 = 0
          · simp [groupBody, h1, h2, h3, h4, h5]
          · simp [groupBody, h1, h2, h3, h4, h5]

/-- The events of the body of the loop over the groups: the call of the remesher,
with its status, or a call of another collaborator of the loop. -/
theorem groupBody_events (us : Bool) (g : GroupRun) (ier : Int) :
    ∀ e ∈ (groupBody us g ier).1, e = Lib1Event.call .MMG5_mmg3d1 g.mmg3d1 ∨
      ∃ c s, e = Lib1Event.call c s ∧ c ∈ groupCalls ∧ c ≠ .MMG5_mmg3d1 := by
  have hpre : ∀ e ∈ (callsUntilFailure (preCalls g)).1,
      ∃ c s, e = Lib1Event.call c s ∧ c ∈ groupCalls ∧ c ≠ .MMG5_mmg3d1 := by
    intro e he
    obtain ⟨cs, hcs, rfl⟩ := callsUntilFailure_mem _ e he
    exact ⟨cs.1, cs.2, rfl, preCalls_mem g cs hcs⟩
  have hpost : ∀ e ∈ (callsUntilFailure (postCalls us g)).1,
      ∃ c s, e = Lib1Event.call c s ∧ c ∈ groupCalls ∧ c ≠ .MMG5_mmg3d1 := by
    intro e he
    obtain ⟨cs, hcs, rfl⟩ := callsUntilFailure_mem _ e he
    exact ⟨cs.1, cs.2, rfl, postCalls_mem us g cs hcs⟩
  have hstore : ∀ s, ∃ c s2, Lib1Event.call .PMMG_store_faceVerticesInIntComm s =
      Lib1Event.call c s2 ∧ c ∈ groupCalls ∧ c ≠ .MMG5_mmg3d1 :=
    fun s => ⟨_, _, rfl, by simp [groupCalls], by simp⟩
  have hlong : ∀ e ∈ Lib1Event.call .PMMG_store_faceVerticesInIntComm
        g.store_faceVerticesInIntComm ::
        (callsUntilFailure (preCalls g)).1 ++ [.call .MMG5_mmg3d1 g.mmg3d1] ++
        (callsUntilFailure (postCalls us g)).1,
      e = Lib1Event.call .MMG5_mmg3d1 g.mmg3d1 ∨
      ∃ c s, e = Lib1Event.call c s ∧ c ∈ groupCalls ∧ c ≠ .MMG5_mmg3d1 := by
    intro e he
    simp only [List.cons_append, List.mem_cons, List.mem_append, List.mem_singleton,
      List.not_mem_nil, or_false] at he
    rcases he with h | (h | h) | h
    · subst h; exact Or.inr (hstore _)
    · exact Or.inr (hpre e h)
    · exact Or.inl h
    · exact Or.inr (hpost e h)
  intro e he
  rcases groupBody_cases us g ier with h | h | ⟨t, i, h | h⟩ | h
  · rw [h] at he; simp at he
  · rw [h] at he
    simp only [List.mem_singleton] at he
    subst he; exact Or.inr (hstore _)
  · rw [h.1, h.2] at he
    rcases List.mem_cons.1 he with h2 | h2
    · subst h2; exact Or.inr (hstore _)
    · exact Or.inr (hpre e h2)
  · rw [h.1, h.2] at he
    exact hlong e he
  · rw [h] at he
    exact hlong e he

/-- How the body of the loop over the groups ends: on `break` the status `ier` is
0; when it goes to the next group, the remesher has not returned 0. -/
theorem groupBody_exit (us : Bool) (g : GroupRun) (ier : Int) :
    ((groupBody us g ier).2.2 = .brk → (groupBody us g ier).2.1 = 0) ∧
    ((groupBody us g ier).2.2 = .next →
      Lib1Event.call .MMG5_mmg3d1 0 ∉ (groupBody us g ier).1) := by
  have hev := groupBody_events us g ier
  rcases groupBody_cases us g ier with h | h | ⟨t, i, h | h⟩ | h
  · rw [h]; simp
  · rw [h]; simp
  · rw [h.1]; simp
  · rw [h.1]; simp
  · by_cases hz : g.mmg3d1 = 0
    · rw [h]; simp [hz]
    · constructor
      · rw [h]; simp [hz]
      · intro _ hmem
        rcases hev _ hmem with h1 | ⟨c, s, h1, _, h3⟩
        · simp only [Lib1Event.call.injEq, true_and] at h1
          exact hz h1.symm
        · simp only [Lib1Event.call.injEq] at h1
          exact h3 h1.1.symm

theorem groupLoop_calls (us : Bool) : ∀ (gs : List GroupRun) (ier : Int),
    ∀ c ∈ callsOf (groupLoop us gs ier).1, c ∈ groupCalls := by
  intro gs
  induction gs with
  | nil => intro ier c hc; simp [groupLoop, callsOf] at hc
  | cons g gs ih =>
    intro ier c hc
    have hb : ∀ c ∈ callsOf (groupBody us g ier).1, c ∈ groupCalls := by
      intro c hc
      simp only [callsOf, List.mem_filterMap] at hc
      obtain ⟨e, he, hce⟩ := hc
      rcases groupBody_events us g ier e he with h | ⟨c2, s, h, h2, _⟩
      · subst h; simp only [Option.some.injEq] at hce; subst hce; simp [groupCalls]
      · subst h; simp only [Option.some.injEq] at hce; subst hce; exact h2
    rcases hgb : groupBody us g ier with ⟨t, ier1, ex⟩
    rw [hgb] at hb
    cases ex with
    | next =>
      simp only [groupLoop, hgb, callsOf_append, List.mem_append] at hc
      rcases hc with h | h
      · exact hb c h
      · exact ih ier1 c h
    | brk =>
      simp only [groupLoop, hgb] at hc
      exact hb c hc
    | strong_failed =>
      simp only [groupLoop, hgb] at hc
      exact hb c hc

/-- A rank whose remesher returns 0 in the loop over the groups, and that does not
go to `strong_failed`, leaves the loop with `ier = 0`. -/
theorem groupLoop_remesh_failed (us : Bool) : ∀ (gs : List GroupRun) (ier : Int),
    Lib1Event.call .MMG5_mmg3d1 0 ∈ (groupLoop us gs ier).1 →
    (groupLoop us gs ier).2.2 = false → (groupLoop us gs ier).2.1 = 0 := by
  intro gs
  induction gs with
  | nil => intro ier h; simp [groupLoop] at h
  | cons g gs ih =>
    intro ier hmem hs
    have hex := groupBody_exit us g ier
    rcases hgb : groupBody us g ier with ⟨t, ier1, ex⟩
    rw [hgb] at hex
    cases ex with
    | next =>
      simp only [groupLoop, hgb, List.mem_append] at hmem hs ⊢
      rcases hmem with h | h
      · exact absurd h (hex.2 rfl)
      · exact ih ier1 h hs
    | brk =>
      simp only [groupLoop, hgb]
      exact hex.1 rfl
    | strong_failed =>
      simp [groupLoop, hgb] at hs

theorem failed_handling_spec (rk : Lib1Rank) (t : List Lib1Event) (via : Lib1Via) :
    (failed_handling rk t via).via = via ∧
    (failed_handling rk t via).trace = t ++ [.call .PMMG_packParMesh rk.packParMesh] ++
      (if rk.packParMesh = 0 then [] else [.call .PMMG_merge_grps rk.merge_grps]) ∧
    (failed_handling rk t via).exit = .returned
      (if rk.packParMesh ≠ 0 ∧ rk.merge_grps ≠ 0 then .PMMG_LOWFAILURE
       else .PMMG_STRONGFAILURE) := by
  unfold failed_handling
  by_cases h1 : rk.packParMesh = 0
  · simp [h1, PMMG_CLEAN_AND_RETURN]
  · by_cases h2 : rk.merge_grps = 0
    · simp [h1, h2, PMMG_CLEAN_AND_RETURN]
    · simp [h1, h2, PMMG_CLEAN_AND_RETURN]

theorem lowFailureEnd_failed_handling (rk : Lib1Rank) (t : List Lib1Event) (ier : Int)
    (via : Lib1Via) :
    LowFailureEnd rk (.done (failed_handling rk (t ++ [.reduce ier 0]) via)) := by
  obtain ⟨_, h2, h3⟩ := failed_handling_spec rk (t ++ [.reduce ier 0]) via
  refine ⟨t, ier, _, rfl, ?_, h3⟩
  rw [h2]
  simp

/-- After the loop over the groups, a delivered value 0 sends the rank to
`failed_handling`. -/
theorem iteration_remesh_zero (cfg : Lib1Config) (rk : Lib1Rank) (it : Nat) (st : Lib1State)
    (rest : List Int)
    (hs : (groupLoop cfg.use_scotch (rk.iter it).groups st.ier).2.2 = false) :
    iteration cfg rk it st (0 :: rest) =
      .done (failed_handling rk
        (st.trace ++ [.call .PMMG_update_oldGrps (rk.iter it).update_oldGrps] ++
          (groupLoop cfg.use_scotch (rk.iter it).groups st.ier).1 ++
          [.reduce (groupLoop cfg.use_scotch (rk.iter it).groups st.ier).2.1 0])
        .failed_handling_remesh) := by
  simp [iteration, hs]

/-- After the load balancing, a delivered value 0 sends the rank to
`failed_handling`. -/
theorem iteration_balance_zero (cfg : Lib1Config) (rk : Lib1Rank) (it : Nat) (st : Lib1State)
    (i1 i2 : Int) (rest : List Int)
    (hs : (groupLoop cfg.use_scotch (rk.iter it).groups st.ier).2.2 = false)
    (h1 : i1 ≠ 0) (h2 : i2 ≠ 0) :
    ∃ t, iteration cfg rk it st (i1 :: i2 :: 0 :: rest) =
      .done (failed_handling rk
        (t ++ [.reduce (balance cfg rk it (rk.iter it) st.repartitioning).2.1 0])
        .failed_handling_balance) := by
  refine ⟨st.trace ++ [.call .PMMG_update_oldGrps (rk.iter it).update_oldGrps] ++
    (groupLoop cfg.use_scotch (rk.iter it).groups st.ier).1 ++
    [.reduce (groupLoop cfg.use_scotch (rk.iter it).groups st.ier).2.1 i1] ++
    [.call .PMMG_interpMetricsAndFields (rk.iter it).interpMetricsAndFields] ++
    [.reduce (rk.iter it).interpMetricsAndFields i2] ++
    [.call .PMMG_tetraQual (rk.iter it).tetraQual] ++
    (balance cfg rk it (rk.iter it) st.repartitioning).1, ?_⟩
  simp [iteration, hs, h1, h2]

/-- C23: low failure.  In an iteration in which no rank goes to `strong_failed`
and no rank contributes a negative status (the capture and the remesher return 0
or 1), if the remesher returns 0 on a rank, then the reduction that follows the
loop over the groups delivers 0 and every rank stops iterating: it calls
`PMMG_packParMesh`, then `PMMG_merge_grps`, and returns `PMMG_LOWFAILURE` when
both succeed, `PMMG_STRONGFAILURE` when the packing or the merging fails
(`LowFailureEnd`).  A rank ends the same way when the reduction that follows the
load balancing delivers 0. -/
theorem low_failure_path (cfg : Lib1Config) (ranks : List Lib1Rank) (it : Nat)
    (st : Lib1Rank → Lib1State)
    (hstrong : ∀ rk ∈ ranks,
      (groupLoop cfg.use_scotch (rk.iter it).groups (st rk).ier).2.2 = false)
    (hpos : ∀ rk ∈ ranks,
      0 ≤ (groupLoop cfg.use_scotch (rk.iter it).groups (st rk).ier).2.1)
    (hfail : ∃ rk ∈ ranks, Lib1Event.call .MMG5_mmg3d1 0 ∈
      (groupLoop cfg.use_scotch (rk.iter it).groups (st rk).ier).1) :
    MPI_Allreduce_MIN (ranks.map (fun rk =>
      (groupLoop cfg.use_scotch (rk.iter it).groups (st rk).ier).2.1)) = 0 ∧
    (∀ rk ∈ ranks, ∀ rest, LowFailureEnd rk (iteration cfg rk it (st rk)
      (MPI_Allreduce_MIN (ranks.map (fun rk =>
        (groupLoop cfg.use_scotch (rk.iter it).groups (st rk).ier).2.1)) :: rest))) ∧
    (∀ (rk : Lib1Rank) (it : Nat) (st : Lib1State) (i1 i2 : Int) (rest : List Int),
      (groupLoop cfg.use_scotch (rk.iter it).groups st.ier).2.2 = false → i1 ≠ 0 → i2 ≠ 0 →
      LowFailureEnd rk (iteration cfg rk it st (i1 :: i2 :: 0 :: rest))) := by
  have hmin : MPI_Allreduce_MIN (ranks.map (fun rk =>
      (groupLoop cfg.use_scotch (rk.iter it).groups (st rk).ier).2.1)) = 0 := by
    obtain ⟨rk0, hrk0, hmem⟩ := hfail
    have h0 := groupLoop_remesh_failed cfg.use_scotch _ _ hmem (hstrong rk0 hrk0)
    have hle := allreduce_min_le (ranks.map (fun rk =>
      (groupLoop cfg.use_scotch (rk.iter it).groups (st rk).ier).2.1)) 0
      (List.mem_map.2 ⟨rk0, hrk0, h0⟩)
    have hne : ranks.map (fun rk =>
        (groupLoop cfg.use_scotch (rk.iter it).groups (st rk).ier).2.1) ≠ [] := by
      intro h
      rw [List.map_eq_nil_iff] at h
      rw [h] at hrk0
      simp at hrk0
    obtain ⟨rk1, hrk1, h1⟩ := List.mem_map.1 (allreduce_min_mem _ hne)
    have := hpos rk1 hrk1
    omega
  refine ⟨hmin, ?_, ?_⟩
  · intro rk hrk rest
    rw [hmin, iteration_remesh_zero cfg rk it (st rk) rest (hstrong rk hrk)]
    have := lowFailureEnd_failed_handling rk
      ((st rk).trace ++ [.call .PMMG_update_oldGrps (rk.iter it).update_oldGrps] ++
        (groupLoop cfg.use_scotch (rk.iter it).groups (st rk).ier).1)
      (groupLoop cfg.use_scotch (rk.iter it).groups (st rk).ier).2.1 .failed_handling_remesh
    exact this
  · intro rk it st i1 i2 rest hs h1 h2
    obtain ⟨t, ht⟩ := iteration_balance_zero cfg rk it st i1 i2 rest hs h1 h2
    rw [ht]
    exact lowFailureEnd_failed_handling rk t _ _

/-- Witness of C23: two ranks, one group each; the remesher returns 0 on the
first one and every other call succeeds. -/
theorem low_failure_path_witness :
    MPI_Allreduce_MIN ([demoRankGroup { demoGroupOK with mmg3d1 := 0 }, demoRankOK].map
      (fun rk => (groupLoop demoConfig.use_scotch (rk.iter 0).groups (demoState rk).ier).2.1))
      = 0 ∧
    (∀ rk ∈ [demoRankGroup { demoGroupOK with mmg3d1 := 0 }, demoRankOK], ∀ rest,
      LowFailureEnd rk (iteration demoConfig rk 0 (demoState rk)
        (MPI_Allreduce_MIN ([demoRankGroup { demoGroupOK with mmg3d1 := 0 }, demoRankOK].map
          (fun rk =>
            (groupLoop demoConfig.use_scotch (rk.iter 0).groups (demoState rk).ier).2.1))
          :: rest))) ∧
    (∀ (rk : Lib1Rank) (it : Nat) (st : Lib1State) (i1 i2 : Int) (rest : List Int),
      (groupLoop demoConfig.use_scotch (rk.iter it).groups st.ier).2.2 = false → i1 ≠ 0 →
      i2 ≠ 0 → LowFailureEnd rk (iteration demoConfig rk it st (i1 :: i2 :: 0 :: rest))) :=
  low_failure_path demoConfig [demoRankGroup { demoGroupOK with mmg3d1 := 0 }, demoRankOK] 0
    demoState (by decide) (by decide) (by decide)

theorem callsOf_call (c : Lib1Call) (s : Int) (t : List Lib1Event) :
    callsOf (.call c s :: t) = c :: callsOf t := by
  simp [callsOf]

theorem callsOf_reduce (a b : Int) (t : List Lib1Event) :
    callsOf (.reduce a b :: t) = callsOf t := by
  simp [callsOf]

theorem callsOf_nil : callsOf [] = [] := rfl

theorem noPacking_append (a b : List Lib1Event) :
    NoPacking (a ++ b) ↔ NoPacking a ∧ NoPacking b := by
  simp only [NoPacking, callsOf_append, List.mem_append]
  tauto

theorem noPacking_reduce (a b : Int) : NoPacking [.reduce a b] := by
  simp [NoPacking, callsOf]

theorem noPacking_call (c : Lib1Call) (s : Int) (h1 : c ≠ .PMMG_packParMesh)
    (h2 : c ≠ .PMMG_merge_grps) : NoPacking [.call c s] := by
  simp only [NoPacking, callsOf_call, callsOf_nil, List.mem_singleton]
  exact ⟨fun h => h1 h.symm, fun h => h2 h.symm⟩

theorem noPacking_groupLoop (us : Bool) (gs : List GroupRun) (ier : Int) :
    NoPacking (groupLoop us gs ier).1 := by
  constructor
  · intro h
    have := groupLoop_calls us gs ier _ h
    simp [groupCalls] at this
  · intro h
    have := groupLoop_calls us gs ier _ h
    simp [groupCalls] at this

theorem noPacking_balance (cfg : Lib1Config) (rk : Lib1Rank) (it : Nat) (run : IterRun)
    (mode : Int) : NoPacking (balance cfg rk it run mode).1 := by
  unfold balance
  split
  · split
    · exact noPacking_call _ _ (by simp) (by simp)
    · simp [NoPacking, callsOf]
  · exact noPacking_call _ _ (by simp) (by simp)

theorem strong_failed_spec (t : List Lib1Event) (ier : Int) (reds : List Int) (via : Lib1Via)
    (ht : NoPacking t) :
    ((strong_failed t ier reds via).via = via ∨ (strong_failed t ier reds via).via = .waiting) ∧
    ((strong_failed t ier reds via).via = via → via ≠ .waiting →
      (strong_failed t ier reds via).exit = .returned .PMMG_STRONGFAILURE) ∧
    NoPacking (strong_failed t ier reds via).trace := by
  cases reds with
  | nil =>
    refine ⟨Or.inr rfl, ?_, ht⟩
    intro h hne
    exact absurd h.symm hne
  | cons i rest =>
    refine ⟨Or.inl rfl, fun _ _ => rfl, ?_⟩
    show NoPacking (t ++ [.reduce ier i])
    exact (noPacking_append _ _).2 ⟨ht, noPacking_reduce _ _⟩

theorem strongExitOK_failed_handling (rk : Lib1Rank) (t : List Lib1Event) (via : Lib1Via)
    (hvia : via = .failed_handling_remesh ∨ via = .failed_handling_balance) :
    StrongExitOK (failed_handling rk t via) := by
  obtain ⟨h1, h2, _⟩ := failed_handling_spec rk t via
  constructor
  · intro h
    rw [h1] at h
    rcases hvia with rfl | rfl <;> simp at h
  · intro _
    rw [h2]
    simp [callsOf_append, callsOf_call]

theorem strongExitOK_strong_failed (t : List Lib1Event) (ier : Int) (reds : List Int)
    (via : Lib1Via) (ht : NoPacking t) (hvia : via = .strong_failed ∨ via = .scotchCall) :
    StrongExitOK (strong_failed t ier reds via) := by
  obtain ⟨h1, h2, h3⟩ := strong_failed_spec t ier reds via ht
  constructor
  · intro h
    rcases h1 with h1 | h1
    · refine ⟨h2 h1 ?_, h3⟩
      rcases hvia with rfl | rfl <;> simp
    · rw [h1] at h; simp at h
  · intro h
    rcases h1 with h1 | h1
    · rw [h1] at h
      rcases hvia with rfl | rfl <;> simp at h
    · rw [h1] at h; simp at h

theorem strongExitOK_waiting (t : List Lib1Event) (ier : Int) :
    StrongExitOK ⟨t, .waiting, .blocked ier⟩ := by
  constructor <;> intro h <;> simp at h

theorem iteration_strongExitOK (cfg : Lib1Config) (rk : Lib1Rank) (it : Nat) (st : Lib1State)
    (reds : List Int) (hst : NoPacking st.trace) :
    (∀ st1 reds1, iteration cfg rk it st reds = .next st1 reds1 → NoPacking st1.trace) ∧
    (∀ res, iteration cfg rk it st reds = .done res → StrongExitOK res) := by
  have ht1 : NoPacking (st.trace ++ [.call .PMMG_update_oldGrps (rk.iter it).update_oldGrps] ++
      (groupLoop cfg.use_scotch (rk.iter it).groups st.ier).1) :=
    (noPacking_append _ _).2 ⟨(noPacking_append _ _).2
      ⟨hst, noPacking_call _ _ (by simp) (by simp)⟩, noPacking_groupLoop _ _ _⟩
  by_cases hs : (groupLoop cfg.use_scotch (rk.iter it).groups st.ier).2.2 = true
  · constructor
    · intro st1 reds1 h
      simp [iteration, hs] at h
    · intro res h
      simp only [iteration, hs, Bool.false_eq_true, if_true, IterOutcome.done.injEq] at h
      rw [← h]
      exact strongExitOK_strong_failed _ _ _ _ ht1 (Or.inl rfl)
  · replace hs : (groupLoop cfg.use_scotch (rk.iter it).groups st.ier).2.2 = false := by
      simpa using hs
    rcases reds with _ | ⟨i1, reds1⟩
    · constructor
      · intro st1 reds1 h
        simp [iteration, hs] at h
      · intro res h
        simp only [iteration, hs, Bool.false_eq_true, if_false, IterOutcome.done.injEq] at h
        rw [← h]
        exact strongExitOK_waiting _ _
    · by_cases h1 : i1 = 0
      · constructor
        · intro st1 reds1 h
          simp [iteration, hs, h1] at h
        · intro res h
          simp only [iteration, hs, Bool.false_eq_true, h1, if_false, if_true, IterOutcome.done.injEq] at h
          rw [← h]
          exact strongExitOK_failed_handling _ _ _ (Or.inl rfl)
      · rcases reds1 with _ | ⟨i2, reds2⟩
        · constructor
          · intro st1 reds1 h
            simp [iteration, hs, h1] at h
          · intro res h
            simp only [iteration, hs, Bool.false_eq_true, h1, if_false, IterOutcome.done.injEq] at h
            rw [← h]
            exact strongExitOK_waiting _ _
        · have ht4 : ∀ j : Int, NoPacking (st.trace ++
              [.call .PMMG_update_oldGrps (rk.iter it).update_oldGrps] ++
              (groupLoop cfg.use_scotch (rk.iter it).groups st.ier).1 ++
              [.reduce (groupLoop cfg.use_scotch (rk.iter it).groups st.ier).2.1 i1] ++
              [.call .PMMG_interpMetricsAndFields (rk.iter it).interpMetricsAndFields] ++
              [.reduce (rk.iter it).interpMetricsAndFields j]) :=
            fun j => (noPacking_append _ _).2 ⟨(noPacking_append _ _).2 ⟨(noPacking_append _ _).2
              ⟨ht1, noPacking_reduce _ _⟩, noPacking_call _ _ (by simp) (by simp)⟩,
              noPacking_reduce _ _⟩
          by_cases h2 : i2 = 0
          · constructor
            · intro st1 reds1 h
              simp [iteration, hs, h1, h2] at h
            · intro res h
              simp only [iteration, hs, Bool.false_eq_true, h1, h2, if_false, if_true,
                IterOutcome.done.injEq] at h
              rw [← h]
              constructor
              · intro _
                exact ⟨rfl, ht4 0⟩
              · intro hv
                simp [PMMG_CLEAN_AND_RETURN] at hv
          · have ht5 : NoPacking (st.trace ++
                [.call .PMMG_update_oldGrps (rk.iter it).update_oldGrps] ++
                (groupLoop cfg.use_scotch (rk.iter it).groups st.ier).1 ++
                [.reduce (groupLoop cfg.use_scotch (rk.iter it).groups st.ier).2.1 i1] ++
                [.call .PMMG_interpMetricsAndFields (rk.iter it).interpMetricsAndFields] ++
                [.reduce (rk.iter it).interpMetricsAndFields i2] ++
                [.call .PMMG_tetraQual (rk.iter it).tetraQual] ++
                (balance cfg rk it (rk.iter it) st.repartitioning).1) :=
              (noPacking_append _ _).2 ⟨(noPacking_append _ _).2
                ⟨ht4 i2, noPacking_call _ _ (by simp) (by simp)⟩, noPacking_balance _ _ _ _ _⟩
            rcases reds2 with _ | ⟨i3, reds3⟩
            · constructor
              · intro st1 reds1 h
                simp [iteration, hs, h1, h2] at h
              · intro res h
                simp only [iteration, hs, Bool.false_eq_true, h1, h2, if_false, IterOutcome.done.injEq] at h
                rw [← h]
                exact strongExitOK_waiting _ _
            · have ht6 : ∀ j : Int, NoPacking (_ ++
                  [.reduce (balance cfg rk it (rk.iter it) st.repartitioning).2.1 j]) :=
                fun j => (noPacking_append _ _).2 ⟨ht5, noPacking_reduce _ j⟩
              by_cases h3 : i3 = 0
              · constructor
                · intro st1 reds1 h
                  simp [iteration, hs, h1, h2, h3] at h
                · intro res h
                  simp only [iteration, hs, Bool.false_eq_true, h1, h2, h3, if_false, if_true,
                    IterOutcome.done.injEq] at h
                  rw [← h]
                  exact strongExitOK_failed_handling _ _ _ (Or.inr rfl)
              · by_cases h4 : i3 < 0
                · constructor
                  · intro st1 reds1 h
                    simp [iteration, hs, h1, h2, h3, h4] at h
                  · intro res h
                    simp only [iteration, hs, Bool.false_eq_true, h1, h2, h3, h4, if_false, if_true,
                      IterOutcome.done.injEq] at h
                    rw [← h]
                    constructor
                    · intro _
                      exact ⟨rfl, ht6 i3⟩
                    · intro hv
                      simp [PMMG_CLEAN_AND_RETURN] at hv
                · constructor
                  · intro st1 reds1 h
                    simp only [iteration, hs, Bool.false_eq_true, h1, h2, h3, h4, if_false,
                      IterOutcome.next.injEq] at h
                    rw [← h.1]
                    exact ht6 i3
                  · intro res h
                    simp [iteration, hs, h1, h2, h3, h4] at h

theorem strong_failed_via (t : List Lib1Event) (ier : Int) (reds : List Int) (via : Lib1Via) :
    (strong_failed t ier reds via).via = via ∨ (strong_failed t ier reds via).via = .waiting := by
  cases reds with
  | nil => exact Or.inr rfl
  | cons i rest => exact Or.inl rfl

/-- Past the iterations a rank leaves through the failure of `PMMG_scotchCall`,
through a failed packing or merging, through the last return, or stays in a
reduction. -/
theorem finishLib1_via (cfg : Lib1Config) (rk : Lib1Rank) (st : Lib1State) (reds : List Int) :
    (finishLib1 cfg rk st reds).via = .scotchCall ∨ (finishLib1 cfg rk st reds).via = .waiting ∨
    (finishLib1 cfg rk st reds).via = .pack ∨ (finishLib1 cfg rk st reds).via = .merge ∨
    (finishLib1 cfg rk st reds).via = .last := by
  unfold finishLib1
  simp only
  generalize (if cfg.use_scotch = true then
    callsUntilFailure (List.map (fun s => (Lib1Call.PMMG_scotchCall, s)) rk.scotchCall)
    else ([], false)) = sc
  by_cases h0 : sc.2 = true
  · rw [if_pos h0]
    rcases strong_failed_via (st.trace ++ sc.1) st.ier reds .scotchCall with h | h
    · exact Or.inl h
    · exact Or.inr (Or.inl h)
  · rw [if_neg h0]
    rcases reds with _ | ⟨i1, _ | ⟨i2, _ | ⟨i3, reds3⟩⟩⟩
    · exact Or.inr (Or.inl rfl)
    · exact Or.inr (Or.inl rfl)
    · simp only
      by_cases h2 : i2 = 0
      · rw [if_pos h2]
        exact Or.inr (Or.inr (Or.inl rfl))
      · rw [if_neg h2]
        exact Or.inr (Or.inl rfl)
    · simp only
      by_cases h2 : i2 = 0
      · rw [if_pos h2]
        exact Or.inr (Or.inr (Or.inl rfl))
      · rw [if_neg h2]
        by_cases h3 : i3 = 0
        · rw [if_pos h3]
          exact Or.inr (Or.inr (Or.inr (Or.inl rfl)))
        · rw [if_neg h3]
          by_cases h4 : cfg.use_scotch = true ∧ rk.scotchCall0 = 0
          · rw [if_pos h4]
            rcases strong_failed_via (st.trace ++ sc.1 ++
              [.call .PMMG_qualhisto rk.qualhisto] ++
              [.reduce rk.qualhisto i1, .call .PMMG_packParMesh rk.packParMesh] ++
              [.reduce rk.packParMesh i2] ++ [.call .PMMG_merge_grps rk.merge_grps] ++
              [.reduce rk.merge_grps i3] ++
              (if cfg.use_scotch = true then [.call .PMMG_scotchCall rk.scotchCall0] else []))
              rk.merge_grps reds3 .scotchCall with h | h
            · exact Or.inl h
            · exact Or.inr (Or.inl h)
          · rw [if_neg h4]
            exact Or.inr (Or.inr (Or.inr (Or.inr rfl)))

theorem strongExitOK_finishLib1 (cfg : Lib1Config) (rk : Lib1Rank) (st : Lib1State)
    (reds : List Int) : StrongExitOK (finishLib1 cfg rk st reds) := by
  have h := finishLib1_via cfg rk st reds
  constructor
  · intro h2
    rcases h with h | h | h | h | h <;> rw [h] at h2 <;> simp at h2
  · intro h2
    rcases h with h | h | h | h | h <;> rw [h] at h2 <;> simp at h2

theorem strongExitOK_iterations (cfg : Lib1Config) (rk : Lib1Rank) :
    ∀ (n it : Nat) (st : Lib1State) (reds : List Int), NoPacking st.trace →
      StrongExitOK (iterations cfg rk n it st reds) := by
  intro n
  induction n with
  | zero =>
    intro it st reds _
    exact strongExitOK_finishLib1 cfg rk st reds
  | succ n ih =>
    intro it st reds hst
    obtain ⟨h1, h2⟩ := iteration_strongExitOK cfg rk it st reds hst
    cases hit : iteration cfg rk it st reds with
    | next st1 reds1 =>
      simp only [iterations, hit]
      exact ih (it + 1) st1 reds1 (h1 st1 reds1 hit)
    | done res =>
      simp only [iterations, hit]
      exact h2 res hit

theorem strongExitOK_parmmglib1 (cfg : Lib1Config) (rk : Lib1Rank) (reds : List Int) :
    StrongExitOK (PMMG_parmmglib1 cfg rk reds) := by
  unfold PMMG_parmmglib1
  rcases reds with _ | ⟨i0, reds0⟩
  · exact strongExitOK_waiting _ _
  · simp only
    split
    · constructor <;> intro h <;> simp [PMMG_CLEAN_AND_RETURN] at h
    · split
      · constructor <;> intro h <;> simp [PMMG_CLEAN_AND_RETURN] at h
      · apply strongExitOK_iterations
        show NoPacking ([.call .PMMG_splitPart_grps rk.splitPart_grps] ++
          [.reduce rk.splitPart_grps i0])
        exact (noPacking_append _ _).2 ⟨noPacking_call _ _ (by simp) (by simp),
          noPacking_reduce _ _⟩

/-- C24, as the code has it.  A rank that leaves `PMMG_parmmglib1` because of a
failure inside the iteration loop, through `strong_failed`, through the return
that follows a failed interpolation or through the return that follows a negative
load-balancing status, returns `PMMG_STRONGFAILURE` without having called
`PMMG_packParMesh` or `PMMG_merge_grps`. -/
theorem strong_exits_skip_packing (cfg : Lib1Config) (rk : Lib1Rank) (reds : List Int)
    (hvia : (PMMG_parmmglib1 cfg rk reds).via = .strong_failed ∨
      (PMMG_parmmglib1 cfg rk reds).via = .interp ∨
      (PMMG_parmmglib1 cfg rk reds).via = .balance_negative) :
    (PMMG_parmmglib1 cfg rk reds).exit = .returned .PMMG_STRONGFAILURE ∧
    Lib1Call.PMMG_packParMesh ∉ callsOf (PMMG_parmmglib1 cfg rk reds).trace ∧
    Lib1Call.PMMG_merge_grps ∉ callsOf (PMMG_parmmglib1 cfg rk reds).trace :=
  (strongExitOK_parmmglib1 cfg rk reds).1 hvia

/-- Witness of C24: a single rank whose interpolation fails. -/
theorem strong_exits_skip_packing_witness :
    (PMMG_parmmglib1 demoConfig demoRankInterpFails [1, 1, 0]).exit =
      .returned .PMMG_STRONGFAILURE ∧
    Lib1Call.PMMG_packParMesh ∉
      callsOf (PMMG_parmmglib1 demoConfig demoRankInterpFails [1, 1, 0]).trace ∧
    Lib1Call.PMMG_merge_grps ∉
      callsOf (PMMG_parmmglib1 demoConfig demoRankInterpFails [1, 1, 0]).trace :=
  strong_exits_skip_packing demoConfig demoRankInterpFails [1, 1, 0] (by decide)

/-- Counterexample to C24 as stated: three runs of a single rank that end with
`PMMG_STRONGFAILURE` because of a failure inside the iteration loop, through
`strong_failed` (`MMG5_scaleMesh` fails), through the return after a failed
interpolation, and through the return after a negative load-balancing status.
In each of them the delivered values are those of the run and the rank has called
neither `PMMG_packParMesh` nor `PMMG_merge_grps`. -/
theorem strong_exits_without_packing :
    (IsRun demoConfig [demoRankGroup { demoGroupOK with scaleMesh := 0 }] [1, 1] ∧
      PMMG_parmmglib1 demoConfig (demoRankGroup { demoGroupOK with scaleMesh := 0 }) [1, 1] =
        ⟨[.call .PMMG_splitPart_grps 1, .reduce 1 1, .call .PMMG_update_oldGrps 1,
          .call .PMMG_store_faceVerticesInIntComm 1, .call .MMG5_scaleMesh 0, .reduce 1 1],
          .strong_failed, .returned .PMMG_STRONGFAILURE⟩ ∧
      NoPacking (PMMG_parmmglib1 demoConfig
        (demoRankGroup { demoGroupOK with scaleMesh := 0 }) [1, 1]).trace) ∧
    (IsRun demoConfig [demoRankInterpFails] [1, 1, 0] ∧
      NoPacking (PMMG_parmmglib1 demoConfig demoRankInterpFails [1, 1, 0]).trace ∧
      (PMMG_parmmglib1 demoConfig demoRankInterpFails [1, 1, 0]).exit =
        .returned .PMMG_STRONGFAILURE ∧
      (PMMG_parmmglib1 demoConfig demoRankInterpFails [1, 1, 0]).via = .interp ∧
      ((PMMG_parmmglib1 demoConfig demoRankInterpFails [1, 1, 0]).trace.drop 12) =
        [.reduce 1 1, .call .PMMG_interpMetricsAndFields 0, .reduce 0 0]) ∧
    (IsRun demoConfig [demoRankBalanceNegative] [1, 1, 1, -1] ∧
      NoPacking (PMMG_parmmglib1 demoConfig demoRankBalanceNegative [1, 1, 1, -1]).trace ∧
      (PMMG_parmmglib1 demoConfig demoRankBalanceNegative [1, 1, 1, -1]).exit =
        .returned .PMMG_STRONGFAILURE ∧
      (PMMG_parmmglib1 demoConfig demoRankBalanceNegative [1, 1, 1, -1]).via =
        .balance_negative ∧
      ((PMMG_parmmglib1 demoConfig demoRankBalanceNegative [1, 1, 1, -1]).trace.drop 12) =
        [.reduce 1 1, .call .PMMG_interpMetricsAndFields 1, .reduce 1 1,
          .call .PMMG_tetraQual 1, .call (.PMMG_loadBalancing 3) (-1), .reduce (-1) (-1)]) := by
  refine ⟨⟨by decide, by decide, by decide⟩,
    ⟨by decide, by decide, by decide, by decide, by decide⟩,
    ⟨by decide, by decide, by decide, by decide, by decide⟩⟩

/-- C21.  Failing input: two ranks, one iteration, one group per rank; on the rank
0 `MMG5_scaleMesh` returns 0, every other call succeeds on both ranks
(`demoRankGroup` and `demoRankOK`).  The rank 0 goes to `strong_failed` with
`ier = 1`, the status of `PMMG_store_faceVerticesInIntComm`, and contributes 1 to
the reduction that the rank 1 enters after its groups; the rank 1 receives 1, goes
on with the interpolation and stays in the reduction that follows, which the rank 0
never enters.  The same value 1 is contributed after a failure of each of the
calls followed by `goto strong_failed` (`demoStrongGroups`). -/
theorem strong_failed_contributes_success :
    IsRun demoConfig [demoRankGroup { demoGroupOK with scaleMesh := 0 }, demoRankOK] [1, 1] ∧
    PMMG_parmmglib1 demoConfig (demoRankGroup { demoGroupOK with scaleMesh := 0 }) [1, 1] =
      ⟨[.call .PMMG_splitPart_grps 1, .reduce 1 1, .call .PMMG_update_oldGrps 1,
        .call .PMMG_store_faceVerticesInIntComm 1, .call .MMG5_scaleMesh 0, .reduce 1 1],
        .strong_failed, .returned .PMMG_STRONGFAILURE⟩ ∧
    (PMMG_parmmglib1 demoConfig demoRankOK [1, 1]).exit = .blocked 1 ∧
    callsOf ((PMMG_parmmglib1 demoConfig demoRankOK [1, 1]).trace.drop 13) =
      [.PMMG_interpMetricsAndFields] ∧
    (∀ g ∈ demoStrongGroups, (groupLoop false [g] 1).2 = (1, true)) := by
  refine ⟨by decide, by decide, by decide, by decide, by decide⟩

/-- C22.  Failing inputs: a single rank, one iteration, every call succeeds
except (a) `PMMG_tetraQual`, which returns 0: its status is overwritten by the one
of `PMMG_loadBalancing` before the reduction; (b) `PMMG_Compute_verticesGloNum`
(requested by `info.nodeGloNum`), which returns 0: its status is stored in `ier`
and the function returns `ier_end`.  Both runs return `PMMG_SUCCESS`. -/
theorem quality_and_numbering_status_dropped :
    IsRun demoConfig [demoRankIter { demoIterOK with tetraQual := 0 }] [1, 1, 1, 1, 1, 1, 1] ∧
    (PMMG_parmmglib1 demoConfig (demoRankIter { demoIterOK with tetraQual := 0 })
      [1, 1, 1, 1, 1, 1, 1]).exit = .returned .PMMG_SUCCESS ∧
    Lib1Event.call .PMMG_tetraQual 0 ∈
      (PMMG_parmmglib1 demoConfig (demoRankIter { demoIterOK with tetraQual := 0 })
        [1, 1, 1, 1, 1, 1, 1]).trace ∧
    IsRun demoConfig [{ demoRankOK with Compute_verticesGloNum := 0 }] [1, 1, 1, 1, 1, 1, 1] ∧
    (PMMG_parmmglib1 demoConfig { demoRankOK with Compute_verticesGloNum := 0 }
      [1, 1, 1, 1, 1, 1, 1]).exit = .returned .PMMG_SUCCESS ∧
    Lib1Event.call .PMMG_Compute_verticesGloNum 0 ∈
      (PMMG_parmmglib1 demoConfig { demoRankOK with Compute_verticesGloNum := 0 }
        [1, 1, 1, 1, 1, 1, 1]).trace := by
  refine ⟨by decide, by decide, by decide, by decide, by decide, by decide⟩

/-- C30, as the code has it.  In an iteration, a rank that does not go to
`strong_failed` leaves the function or goes to the next iteration according to the
values delivered by the reductions alone (`branchOf`); when it completes the
iteration it has taken part in three reductions: after the loop over the groups,
with the value of `ier` left by this loop, after the interpolation, with its
status, and after the load balancing, with the value of `ier` then. -/
theorem iteration_reductions (cfg : Lib1Config) (rk : Lib1Rank) (it : Nat) (st : Lib1State)
    (reds : List Int)
    (hs : (groupLoop cfg.use_scotch (rk.iter it).groups st.ier).2.2 = false) :
    (iteration cfg rk it st reds).via = branchOf reds ∧
    (∀ st1 reds1, iteration cfg rk it st reds = .next st1 reds1 →
      ∃ i1 i2 i3, reds = i1 :: i2 :: i3 :: reds1 ∧
        st1.trace = st.trace ++ [.call .PMMG_update_oldGrps (rk.iter it).update_oldGrps] ++
          (groupLoop cfg.use_scotch (rk.iter it).groups st.ier).1 ++
          [.reduce (groupLoop cfg.use_scotch (rk.iter it).groups st.ier).2.1 i1,
            .call .PMMG_interpMetricsAndFields (rk.iter it).interpMetricsAndFields,
            .reduce (rk.iter it).interpMetricsAndFields i2,
            .call .PMMG_tetraQual (rk.iter it).tetraQual] ++
          (balance cfg rk it (rk.iter it) st.repartitioning).1 ++
          [.reduce (balance cfg rk it (rk.iter it) st.repartitioning).2.1 i3]) := by
  rcases reds with _ | ⟨i1, reds1⟩
  · simp [iteration, hs, IterOutcome.via, branchOf]
  · by_cases h1 : i1 = 0
    · simp [iteration, hs, h1, IterOutcome.via, branchOf, (failed_handling_spec _ _ _).1]
    · rcases reds1 with _ | ⟨i2, reds2⟩
      · simp [iteration, hs, h1, IterOutcome.via, branchOf]
      · by_cases h2 : i2 = 0
        · simp [iteration, hs, h1, h2, IterOutcome.via, branchOf, PMMG_CLEAN_AND_RETURN]
        · rcases reds2 with _ | ⟨i3, reds3⟩
          · simp [iteration, hs, h1, h2, IterOutcome.via, branchOf]
          · by_cases h3 : i3 = 0
            · simp [iteration, hs, h1, h2, h3, IterOutcome.via, branchOf,
                (failed_handling_spec _ _ _).1]
            · by_cases h4 : i3 < 0
              · simp [iteration, hs, h1, h2, h3, h4, IterOutcome.via, branchOf,
                  PMMG_CLEAN_AND_RETURN]
              · constructor
                · simp [iteration, hs, h1, h2, h3, h4, IterOutcome.via, branchOf]
                · intro st1 reds1 h
                  simp only [iteration, hs, Bool.false_eq_true, h1, h2, h3, h4, if_false,
                    IterOutcome.next.injEq] at h
                  refine ⟨i1, i2, i3, by rw [h.2], ?_⟩
                  rw [← h.1]
                  simp

/-- Witness of C30: the first iteration of a rank on which every call succeeds. -/
theorem iteration_reductions_witness :
    (iteration demoConfig demoRankOK 0 (demoState demoRankOK) [1, 1, 1]).via =
      branchOf [1, 1, 1] ∧
    (∀ st1 reds1, iteration demoConfig demoRankOK 0 (demoState demoRankOK) [1, 1, 1] =
        .next st1 reds1 →
      ∃ i1 i2 i3, [1, 1, 1] = i1 :: i2 :: i3 :: reds1 ∧
        st1.trace = (demoState demoRankOK).trace ++
          [.call .PMMG_update_oldGrps (demoRankOK.iter 0).update_oldGrps] ++
          (groupLoop demoConfig.use_scotch (demoRankOK.iter 0).groups
            (demoState demoRankOK).ier).1 ++
          [.reduce (groupLoop demoConfig.use_scotch (demoRankOK.iter 0).groups
              (demoState demoRankOK).ier).2.1 i1,
            .call .PMMG_interpMetricsAndFields (demoRankOK.iter 0).interpMetricsAndFields,
            .reduce (demoRankOK.iter 0).interpMetricsAndFields i2,
            .call .PMMG_tetraQual (demoRankOK.iter 0).tetraQual] ++
          (balance demoConfig demoRankOK 0 (demoRankOK.iter 0)
            (demoState demoRankOK).repartitioning).1 ++
          [.reduce (balance demoConfig demoRankOK 0 (demoRankOK.iter 0)
            (demoState demoRankOK).repartitioning).2.1 i3]) :=
  iteration_reductions demoConfig demoRankOK 0 (demoState demoRankOK) [1, 1, 1] (by decide)

/-- Counterexample to C30 as stated.  (a) On a single rank on which every call
succeeds, the capture, the remesher and the restoration of the group follow each
other without a reduction, and the status of the quality evaluation is never
contributed to a reduction: the trace does not satisfy `phasesReduced`.  (b) Of
two ranks that have received the same reduced values, the one whose capture fails
leaves the loop over the groups without calling the remesher while the other one
calls it: the branch follows the local status. -/
theorem phases_share_one_reduction :
    IsRun demoConfig [demoRankOK] [1, 1, 1, 1, 1, 1, 1] ∧
    phasesReduced none (PMMG_parmmglib1 demoConfig demoRankOK [1, 1, 1, 1, 1, 1, 1]).trace
      = false ∧
    ((PMMG_parmmglib1 demoConfig demoRankOK [1, 1, 1, 1, 1, 1, 1]).trace.drop 2).take 16 =
      [.call .PMMG_update_oldGrps 1, .call .PMMG_store_faceVerticesInIntComm 1,
        .call .MMG5_scaleMesh 1, .call .MMG3D_hashTetra 1, .call .MMG5_mmg3d1 1,
        .call .field_realloc 1, .call .MMG5_paktet 1,
        .call .PMMG_update_face2intInterfaceTetra 1, .call .MMG5_unscaleMesh 1,
        .call .PMMG_copyMetricsAndFields_point 1, .reduce 1 1,
        .call .PMMG_interpMetricsAndFields 1, .reduce 1 1, .call .PMMG_tetraQual 1,
        .call (.PMMG_loadBalancing 3) 1, .reduce 1 1] ∧
    IsRun demoConfig
      [demoRankGroup { demoGroupOK with store_faceVerticesInIntComm := 0 }, demoRankOK]
      [1, 0] ∧
    callsOf (PMMG_parmmglib1 demoConfig
      (demoRankGroup { demoGroupOK with store_faceVerticesInIntComm := 0 }) [1, 0]).trace =
      [.PMMG_splitPart_grps, .PMMG_update_oldGrps, .PMMG_store_faceVerticesInIntComm,
        .PMMG_packParMesh, .PMMG_merge_grps] ∧
    Lib1Call.MMG5_mmg3d1 ∈ callsOf (PMMG_parmmglib1 demoConfig demoRankOK [1, 0]).trace := by
  refine ⟨by decide, by decide, by decide, by decide, by decide, by decide⟩

/-! ## Empty list, comparison as an order, balance of the last iteration -/

/-- C33.  Failing input: a list of capacity 2 and the array `[0]` (the count 0
alone).  `PMMG_unpackArray_inLnkdList` sets `nitem = 0` and `frst = 0`, runs no
iteration of its loop and then executes `cell->nxt = -1` with `cell` never
assigned: a write through an uninitialised pointer (`none`).  Were this write
harmless, the list would be left with `nitem = 0` and `frst = 0` instead of
`PMMG_UNSET`: the next insertion skips the branch of the first cell, links the new
cell to `frst = 0`, that is to itself, and the chain of one cell ends with
`nxt = 0` instead of -1.  After `PMMG_reset_lnkdList` the same insertion gives
`nxt = -1`. -/
theorem unpack_empty_list (c d : PMMG_lnkdCell) (fresh : Option (List PMMG_lnkdCell)) :
    PMMG_unpackArray_inLnkdList fresh ⟨2, 2, 1, [c, d]⟩ [0] = none ∧
    PMMG_add_cell2lnkdList fresh ⟨0, 2, 0, [c, d]⟩ 7 7 =
      some (1, ⟨1, 2, 0, [⟨7, 7, 0, 0⟩, d]⟩) ∧
    PMMG_reset_lnkdList ⟨2, 2, 1, [c, d]⟩ = ⟨0, 2, PMMG_UNSET, [c, d]⟩ ∧
    PMMG_add_cell2lnkdList fresh ⟨0, 2, PMMG_UNSET, [c, d]⟩ 7 7 =
      some (1, ⟨1, 2, 0, [⟨7, 7, 0, -1⟩, d]⟩) := by
  refine ⟨?_, ?_, rfl, ?_⟩
  · simp [PMMG_unpackArray_inLnkdList, getInt, unpackLoop]
  · simp [PMMG_add_cell2lnkdList, searchLoop, addNewCell, linkNewCell, cellAt]
  · simp [PMMG_add_cell2lnkdList, PMMG_UNSET, setCell]

/-- C40.  Failing input: the records `a = (min 1/2, iel 3, iel_grp 0, cpu 0)` and
`b = (min 1/2, iel 7, iel_grp 0, cpu 1)`, of equal `min`.  The function replaces
`out` only when `in.min < out.min`: combining `a` into `b` leaves `b`, combining
`b` into `a` leaves `a`, so the two orders give different records although the
operator is registered as commutative. -/
theorem min_iel_not_commutative :
    PMMG_min_iel_compute [⟨1 / 2, 3, 0, 0⟩] [⟨1 / 2, 7, 0, 1⟩] 1 = some [⟨1 / 2, 7, 0, 1⟩] ∧
    PMMG_min_iel_compute [⟨1 / 2, 7, 0, 1⟩] [⟨1 / 2, 3, 0, 0⟩] 1 = some [⟨1 / 2, 3, 0, 0⟩] ∧
    (⟨1 / 2, 7, 0, 1⟩ : min_iel_t) ≠ ⟨1 / 2, 3, 0, 0⟩ := by
  refine ⟨?_, ?_, ?_⟩
  · simp [PMMG_min_iel_compute, loopM, List.range, List.range.loop]
  · simp [PMMG_min_iel_compute, loopM, List.range, List.range.loop]
  · simp

theorem min_iel_single (a b : min_iel_t) :
    PMMG_min_iel_compute [a] [b] 1 = some [if a.min < b.min then a else b] := by
  by_cases h : a.min < b.min
  · simp [PMMG_min_iel_compute, loopM, List.range, List.range.loop, h]
  · simp [PMMG_min_iel_compute, loopM, List.range, List.range.loop, h]

/-- The reduction of `PMMG_min_iel_compute` is associative: both bracketings of
three records keep the last record of least `min`. -/
theorem min_iel_associative (a b c : min_iel_t) :
    PMMG_min_iel_compute [a] [if b.min < c.min then b else c] 1 =
      PMMG_min_iel_compute [if a.min < b.min then a else b] [c] 1 := by
  rw [min_iel_single, min_iel_single]
  congr 2
  by_cases h1 : a.min < b.min <;> by_cases h2 : b.min < c.min <;>
    by_cases h3 : a.min < c.min <;> simp only [h1, h2, h3, if_true, if_false] <;>
    first
      | rfl
      | (exfalso; linarith)

theorem lexSign_antisymm : ∀ a b : List Int, lexSign a b = - lexSign b a
  | [], [] => by simp [lexSign]
  | [], _ :: _ => by simp [lexSign]
  | _ :: _, [] => by simp [lexSign]
  | x :: xs, y :: ys => by
    simp only [lexSign]
    by_cases h1 : x < y
    · rw [if_pos h1, if_neg (by omega), if_pos h1]
    · by_cases h2 : y < x
      · rw [if_neg h1, if_pos h2, if_pos h2]
        rfl
      · rw [if_neg h1, if_neg h2, if_neg h2, if_neg h1]
        exact lexSign_antisymm xs ys

theorem lexSign_trans : ∀ a b c : List Int, lexSign a b ≤ 0 → lexSign b c ≤ 0 → lexSign a c ≤ 0
  | [], [], c => fun _ h => h
  | [], _ :: _, [] => fun _ h => by simp [lexSign] at h
  | [], _ :: _, _ :: _ => fun _ _ => by simp [lexSign]
  | _ :: _, [], _ => fun h _ => by simp [lexSign] at h
  | _ :: _, _ :: _, [] => fun _ h => by simp [lexSign] at h
  | x :: xs, y :: ys, z :: zs => fun h1 h2 => by
    simp only [lexSign] at h1 h2 ⊢
    by_cases a1 : x < y
    · by_cases b1 : y < z
      · rw [if_pos (by omega)]; omega
      · rw [if_neg b1] at h2
        by_cases b2 : z < y
        · rw [if_pos b2] at h2; omega
        · rw [if_pos (by omega)]; omega
    · rw [if_neg a1] at h1
      by_cases a2 : y < x
      · rw [if_pos a2] at h1; omega
      · rw [if_neg a2] at h1
        have hxy : x = y := by omega
        subst hxy
        by_cases b1 : x < z
        · rw [if_pos b1]; omega
        · rw [if_neg b1] at h2 ⊢
          by_cases b2 : z < x
          · rw [if_pos b2] at h2; omega
          · rw [if_neg b2] at h2 ⊢
            exact lexSign_trans xs ys zs h1 h2

/-- Value of `PMMG_compare_lnkdList` on two lists given with their chains. -/
theorem compare_value (a b : PMMG_lnkdList) (ca cb : List (Nat × PMMG_lnkdCell))
    (hra : ListRepr a ca) (hrb : ListRepr b cb) :
    PMMG_compare_lnkdList a b = some
      (if b.nitem < a.nitem then 1 else if a.nitem < b.nitem then -1
       else lexSign (flatPairs (pairsOf ca)) (flatPairs (pairsOf cb))) := by
  unfold PMMG_compare_lnkdList
  simp only [gt_iff_lt]
  by_cases h1 : b.nitem < a.nitem
  · rw [if_pos h1, if_pos h1]
  · rw [if_neg h1, if_neg h1]
    by_cases h2 : a.nitem < b.nitem
    · rw [if_pos h2, if_pos h2]
    · rw [if_neg h2, if_neg h2]
      have heq : a.nitem = b.nitem := by omega
      have hLb : traverse b.item a.nitem.toNat b.frst = some (pairsOf cb) := by
        rw [heq]; exact hrb.toList_eq
      exact compareLoop_spec a.item b.item a.nitem.toNat a.frst b.frst _ _ hra.toList_eq hLb

/-- C37: on well-formed lists `PMMG_compare_lnkdList` returns a value for every
pair of lists, one of -1, 0 and 1, with `compare(a,b) = -compare(b,a)`,
`compare(a,a) = 0`, and `compare(a,b) <= 0` together with `compare(b,c) <= 0` gives
`compare(a,c) <= 0`.  The value is 0 only for two lists of same count and same
traversal, and it is determined by the traversals of the two lists, whatever the
layout of their arenas: lists that hold the same pairs are compared in the same
way on every rank, so that sorting gives the same order everywhere. -/
theorem compare_lnkdList_total_preorder (a b c : PMMG_lnkdList) (hwa : WellFormed a)
    (hwb : WellFormed b) (hwc : WellFormed c) :
    ∃ rab rba rbc rac, PMMG_compare_lnkdList a b = some rab ∧
      PMMG_compare_lnkdList b a = some rba ∧ PMMG_compare_lnkdList b c = some rbc ∧
      PMMG_compare_lnkdList a c = some rac ∧ PMMG_compare_lnkdList a a = some 0 ∧
      rab = -rba ∧ (rab ≤ 0 → rbc ≤ 0 → rac ≤ 0) ∧
      (rab = -1 ∨ rab = 0 ∨ rab = 1) ∧
      (rab = 0 ↔ a.nitem = b.nitem ∧ a.toList = b.toList) ∧
      (∀ a2 b2 : PMMG_lnkdList, WellFormed a2 → WellFormed b2 →
        a2.toList = a.toList → b2.toList = b.toList →
        PMMG_compare_lnkdList a2 b2 = some rab) := by
  obtain ⟨ca, hra⟩ := wf_repr hwa
  obtain ⟨cb, hrb⟩ := wf_repr hwb
  obtain ⟨cc, hrc⟩ := wf_repr hwc
  refine ⟨_, _, _, _, compare_value a b ca cb hra hrb, compare_value b a cb ca hrb hra,
    compare_value b c cb cc hrb hrc, compare_value a c ca cc hra hrc, ?_, ?_, ?_, ?_, ?_, ?_⟩
  · rw [compare_value a a ca ca hra hra, if_neg (lt_irrefl _), if_neg (lt_irrefl _)]
    congr 1
    exact (lexSign_eq_zero _ _).2 rfl
  · by_cases h1 : b.nitem < a.nitem
    · rw [if_pos h1, if_neg (by omega), if_pos h1]
      rfl
    · by_cases h2 : a.nitem < b.nitem
      · rw [if_neg h1, if_pos h2, if_pos h2]
      · rw [if_neg h1, if_neg h2, if_neg h2, if_neg h1]
        exact lexSign_antisymm _ _
  · intro hab hbc
    by_cases h1 : b.nitem < a.nitem
    · rw [if_pos h1] at hab; omega
    · rw [if_neg h1] at hab
      by_cases h3 : c.nitem < b.nitem
      · rw [if_pos h3] at hbc; omega
      · rw [if_neg h3] at hbc
        rw [if_neg (by omega)]
        by_cases h2 : a.nitem < b.nitem
        · rw [if_pos (by omega)]; omega
        · rw [if_neg h2] at hab
          by_cases h4 : b.nitem < c.nitem
          · rw [if_pos (by omega)]; omega
          · rw [if_neg h4] at hbc
            rw [if_neg (by omega)]
            exact lexSign_trans _ _ _ hab hbc
  · by_cases h1 : b.nitem < a.nitem
    · rw [if_pos h1]; simp
    · rw [if_neg h1]
      by_cases h2 : a.nitem < b.nitem
      · rw [if_pos h2]; simp
      · rw [if_neg h2]
        exact lexSign_range _ _
  · rw [hra.toList_eq, hrb.toList_eq]
    by_cases h1 : b.nitem < a.nitem
    · rw [if_pos h1]
      constructor
      · intro h; omega
      · intro h; omega
    · rw [if_neg h1]
      by_cases h2 : a.nitem < b.nitem
      · rw [if_pos h2]
        constructor
        · intro h; omega
        · intro h; omega
      · rw [if_neg h2, lexSign_eq_zero]
        constructor
        · intro h
          exact ⟨by omega, by rw [flatPairs_injective _ _ h]⟩
        · intro h
          rw [Option.some.inj h.2]
  · intro a2 b2 hwa2 hwb2 hta htb
    obtain ⟨ca2, hra2⟩ := wf_repr hwa2
    obtain ⟨cb2, hrb2⟩ := wf_repr hwb2
    rw [hra2.toList_eq, hra.toList_eq] at hta
    rw [hrb2.toList_eq, hrb.toList_eq] at htb
    have ea := Option.some.inj hta
    have eb := Option.some.inj htb
    have hna : a2.nitem = a.nitem := by
      rw [hra2.len, hra.len, ← pairsOf_length ca2, ← pairsOf_length ca, ea]
    have hnb : b2.nitem = b.nitem := by
      rw [hrb2.len, hrb.len, ← pairsOf_length cb2, ← pairsOf_length cb, eb]
    rw [compare_value a2 b2 ca2 cb2 hra2 hrb2, ea, eb, hna, hnb]

/-- Witness of C37: the lists `(3,1),(5,2)` (arena order `(5,2),(3,1)`),
`(3,1),(5,4)` and `(4,0),(5,0)`. -/
theorem compare_lnkdList_total_preorder_witness :
    ∃ rab rba rbc rac,
      PMMG_compare_lnkdList ⟨2, 3, 1, [⟨5, 2, 0, -1⟩, ⟨3, 1, 1, 0⟩, ⟨0, 0, 0, 0⟩]⟩
        ⟨2, 2, 0, [⟨3, 1, 0, 1⟩, ⟨5, 4, 1, -1⟩]⟩ = some rab ∧
      PMMG_compare_lnkdList ⟨2, 2, 0, [⟨3, 1, 0, 1⟩, ⟨5, 4, 1, -1⟩]⟩
        ⟨2, 3, 1, [⟨5, 2, 0, -1⟩, ⟨3, 1, 1, 0⟩, ⟨0, 0, 0, 0⟩]⟩ = some rba ∧
      PMMG_compare_lnkdList ⟨2, 2, 0, [⟨3, 1, 0, 1⟩, ⟨5, 4, 1, -1⟩]⟩
        ⟨2, 2, 0, [⟨4, 0, 0, 1⟩, ⟨5, 0, 1, -1⟩]⟩ = some rbc ∧
      PMMG_compare_lnkdList ⟨2, 3, 1, [⟨5, 2, 0, -1⟩, ⟨3, 1, 1, 0⟩, ⟨0, 0, 0, 0⟩]⟩
        ⟨2, 2, 0, [⟨4, 0, 0, 1⟩, ⟨5, 0, 1, -1⟩]⟩ = some rac ∧
      PMMG_compare_lnkdList ⟨2, 3, 1, [⟨5, 2, 0, -1⟩, ⟨3, 1, 1, 0⟩, ⟨0, 0, 0, 0⟩]⟩
        ⟨2, 3, 1, [⟨5, 2, 0, -1⟩, ⟨3, 1, 1, 0⟩, ⟨0, 0, 0, 0⟩]⟩ = some 0 ∧
      rab = -rba ∧ (rab ≤ 0 → rbc ≤ 0 → rac ≤ 0) ∧
      (rab = -1 ∨ rab = 0 ∨ rab = 1) ∧
      (rab = 0 ↔ (2 : Int) = 2 ∧
        (⟨2, 3, 1, [⟨5, 2, 0, -1⟩, ⟨3, 1, 1, 0⟩, ⟨0, 0, 0, 0⟩]⟩ : PMMG_lnkdList).toList =
          (⟨2, 2, 0, [⟨3, 1, 0, 1⟩, ⟨5, 4, 1, -1⟩]⟩ : PMMG_lnkdList).toList) ∧
      (∀ a2 b2 : PMMG_lnkdList, WellFormed a2 → WellFormed b2 →
        a2.toList =
          (⟨2, 3, 1, [⟨5, 2, 0, -1⟩, ⟨3, 1, 1, 0⟩, ⟨0, 0, 0, 0⟩]⟩ : PMMG_lnkdList).toList →
        b2.toList = (⟨2, 2, 0, [⟨3, 1, 0, 1⟩, ⟨5, 4, 1, -1⟩]⟩ : PMMG_lnkdList).toList →
        PMMG_compare_lnkdList a2 b2 = some rab) :=
  compare_lnkdList_total_preorder ⟨2, 3, 1, [⟨5, 2, 0, -1⟩, ⟨3, 1, 1, 0⟩, ⟨0, 0, 0, 0⟩]⟩
    ⟨2, 2, 0, [⟨3, 1, 0, 1⟩, ⟨5, 4, 1, -1⟩]⟩ ⟨2, 2, 0, [⟨4, 0, 0, 1⟩, ⟨5, 0, 1, -1⟩]⟩
    (by decide) (by decide) (by decide)

/-- C38: in the block of the load balancing of an iteration, entered with the
user's value `mode` of `info.repartitioning`.  On the last iteration
(`iter == niter-1`) no call is made when `info.nobalancing` is set; otherwise
`PMMG_loadBalancing` is called once, with `info.repartitioning` equal to
`PMMG_REDISTRIBUTION_graph_balancing`.  On the other iterations it is called once
with `mode`.  In every case `info.repartitioning` is `mode` after the block,
whatever the status, and the iteration hands this value over to the next one. -/
theorem balance_last_iteration (cfg : Lib1Config) (rk : Lib1Rank) (it : Nat) (run : IterRun)
    (mode : Int) :
    ((it : Int) = (cfg.niter : Int) - 1 → rk.nobalancing = true →
      (balance cfg rk it run mode).1 = []) ∧
    ((it : Int) = (cfg.niter : Int) - 1 → rk.nobalancing = false →
      (balance cfg rk it run mode).1 =
        [.call (.PMMG_loadBalancing cfg.PMMG_REDISTRIBUTION_graph_balancing)
          run.loadBalancing]) ∧
    ((it : Int) ≠ (cfg.niter : Int) - 1 →
      (balance cfg rk it run mode).1 = [.call (.PMMG_loadBalancing mode) run.loadBalancing]) ∧
    (balance cfg rk it run mode).2.2 = mode ∧
    (∀ st reds st1 reds1, iteration cfg rk it st reds = .next st1 reds1 →
      st1.repartitioning = st.repartitioning) := by
  refine ⟨?_, ?_, ?_, ?_, ?_⟩
  · intro h1 h2
    simp [balance, h1, h2]
  · intro h1 h2
    simp [balance, h1, h2]
  · intro h1
    simp [balance, h1]
  · unfold balance
    split
    · split <;> rfl
    · rfl
  · intro st reds st1 reds1 h
    have hb : (balance cfg rk it (rk.iter it) st.repartitioning).2.2 = st.repartitioning := by
      unfold balance
      split
      · split <;> rfl
      · rfl
    unfold iteration at h
    simp only at h
    split at h
    · cases h
    · rcases reds with _ | ⟨i1, _ | ⟨i2, _ | ⟨i3, reds3⟩⟩⟩
      · cases h
      · simp only at h
        split at h <;> cases h
      · simp only at h
        split at h
        · cases h
        · split at h <;> cases h
      · simp only at h
        split at h
        · cases h
        · split at h
          · cases h
          · split at h
            · cases h
            · split at h
              · cases h
              · simp only [IterOutcome.next.injEq] at h
                rw [← h.1]
                exact hb

/-- Witness of C38: the last iteration of a run of three iterations, with the
user's mode 7 and the graph balancing mode 3. -/
theorem balance_last_iteration_witness :
    (((2 : Nat) : Int) = ((3 : Nat) : Int) - 1 → demoRankOK.nobalancing = true →
      (balance ⟨3, false, 3⟩ demoRankOK 2 demoIterOK 7).1 = []) ∧
    (((2 : Nat) : Int) = ((3 : Nat) : Int) - 1 → demoRankOK.nobalancing = false →
      (balance ⟨3, false, 3⟩ demoRankOK 2 demoIterOK 7).1 =
        [.call (.PMMG_loadBalancing 3) demoIterOK.loadBalancing]) ∧
    (((2 : Nat) : Int) ≠ ((3 : Nat) : Int) - 1 →
      (balance ⟨3, false, 3⟩ demoRankOK 2 demoIterOK 7).1 =
        [.call (.PMMG_loadBalancing 7) demoIterOK.loadBalancing]) ∧
    (balance ⟨3, false, 3⟩ demoRankOK 2 demoIterOK 7).2.2 = 7 ∧
    (∀ st reds st1 reds1, iteration ⟨3, false, 3⟩ demoRankOK 2 st reds = .next st1 reds1 →
      st1.repartitioning = st.repartitioning) :=
  balance_last_iteration ⟨3, false, 3⟩ demoRankOK 2 demoIterOK 7

/-! ## Packed index of the tetrahedra -/

theorem loopM_append {σ α : Type} (body : σ → α → Option σ) :
    ∀ (l1 l2 : List α) (s : σ),
      loopM body (l1 ++ l2) s = (loopM body l1 s).bind (fun s1 => loopM body l2 s1) := by
  intro l1
  induction l1 with
  | nil => intro l2 s; rfl
  | cons a l1 ih =>
    intro l2 s
    simp only [List.cons_append, loopM]
    cases h : body s a with
    | none => rfl
    | some s2 => exact ih l2 s2

theorem validUpTo_succ (env : MmgEnv) (mesh : FaceMesh) (k : Nat) :
    validUpTo env mesh (k + 1) = validUpTo env mesh k +
      (if validTetra env mesh (k + 1) = true then 1 else 0) := by
  unfold validUpTo
  rw [List.range'_concat, List.countP_append]
  have e : 1 + 1 * k = k + 1 := by omega
  rw [e]
  simp [List.countP_cons]

theorem validUpTo_mono (env : MmgEnv) (mesh : FaceMesh) (a b : Nat) (h : a ≤ b) :
    validUpTo env mesh a ≤ validUpTo env mesh b := by
  induction b with
  | zero =>
    have : a = 0 := by omega
    rw [this]
  | succ b ih =>
    by_cases hab : a = b + 1
    · rw [hab]
    · have := ih (by omega)
      rw [validUpTo_succ]
      omega

theorem validUpTo_le (env : MmgEnv) (mesh : FaceMesh) (k : Nat) : validUpTo env mesh k ≤ k := by
  induction k with
  | zero => simp [validUpTo]
  | succ k ih =>
    rw [validUpTo_succ]
    split <;> omega

theorem validUpTo_surj (env : MmgEnv) (mesh : FaceMesh) :
    ∀ n j, 1 ≤ j → j ≤ validUpTo env mesh n →
      ∃ k, 1 ≤ k ∧ k ≤ n ∧ validTetra env mesh k = true ∧ validUpTo env mesh k = j := by
  intro n
  induction n with
  | zero =>
    intro j h1 h2
    simp [validUpTo] at h2
    omega
  | succ n ih =>
    intro j h1 h2
    by_cases hj : j ≤ validUpTo env mesh n
    · obtain ⟨k, hk1, hk2, hk3, hk4⟩ := ih j h1 hj
      exact ⟨k, hk1, by omega, hk3, hk4⟩
    · rw [validUpTo_succ] at h2
      by_cases hv : validTetra env mesh (n + 1) = true
      · rw [if_pos hv] at h2
        refine ⟨n + 1, by omega, le_refl _, hv, ?_⟩
        rw [validUpTo_succ, if_pos hv]
        omega
      · rw [if_neg hv] at h2
        omega

/-- Loop of `PMMG_mark_packedTetra` over the tetrahedra `1..n`: the counter and
the array after the loop. -/
theorem mark_loop_spec (env : MmgEnv) (mesh : FaceMesh) :
    ∀ n, n < mesh.tetra.length →
      ∃ tetra, loopM (fun (s : List MMG5_Tetra × Int) k =>
          match s.1[k]? with
          | none => none
          | some pt =>
            if env.MG_EOK pt = false then some s
            else some (s.1.set k { pt with flag := s.2 + 1 }, s.2 + 1))
        (List.range' 1 n) (mesh.tetra, 0) = some (tetra, (validUpTo env mesh n : Int)) ∧
        tetra.length = mesh.tetra.length ∧
        ∀ k, tetra[k]? =
          if 1 ≤ k ∧ k ≤ n ∧ validTetra env mesh k = true then
            (mesh.tetra[k]?).map (fun pt => { pt with flag := (validUpTo env mesh k : Int) })
          else mesh.tetra[k]? := by
  intro n
  induction n with
  | zero =>
    intro _
    refine ⟨mesh.tetra, rfl, rfl, ?_⟩
    intro k
    rw [if_neg (by omega)]
  | succ n ih =>
    intro hn
    obtain ⟨tetra, hloop, hlen, hget⟩ := ih (by omega)
    rw [List.range'_concat, loopM_append, hloop]
    have e : 1 + 1 * n = n + 1 := by omega
    rw [e]
    have hcur : tetra[n + 1]? = mesh.tetra[n + 1]? := by
      rw [hget, if_neg (by omega)]
    have hpt : mesh.tetra[n + 1]? = some mesh.tetra[n + 1] := List.getElem?_eq_getElem hn
    simp only [Option.some_bind, loopM, hcur, hpt]
    by_cases hok : env.MG_EOK mesh.tetra[n + 1] = false
    · have hv : ¬ validTetra env mesh (n + 1) = true := by
        simp [validTetra, hpt, hok]
      rw [if_pos hok]
      refine ⟨tetra, ?_, hlen, ?_⟩
      · rw [validUpTo_succ, if_neg hv]
        rfl
      · intro k
        rw [hget]
        by_cases hk : k = n + 1
        · subst hk
          rw [if_neg (by omega), if_neg (fun h => hv h.2.2)]
        · by_cases hc : 1 ≤ k ∧ k ≤ n ∧ validTetra env mesh k = true
          · rw [if_pos hc, if_pos ⟨hc.1, by omega, hc.2.2⟩]
          · rw [if_neg hc, if_neg (fun h => hc ⟨h.1, by omega, h.2.2⟩)]
    · have hv : validTetra env mesh (n + 1) = true := by
        simpa [validTetra, hpt] using hok
      rw [if_neg hok]
      refine ⟨tetra.set (n + 1) { mesh.tetra[n + 1] with
          flag := (validUpTo env mesh n : Int) + 1 }, ?_, by simp [hlen], ?_⟩
      · rw [validUpTo_succ, if_pos hv]
        simp
      · intro k
        by_cases hk : k = n + 1
        · subst hk
          rw [List.getElem?_set_self (by omega), if_pos ⟨by omega, le_refl _, hv⟩, hpt,
            validUpTo_succ, if_pos hv]
          simp
        · rw [List.getElem?_set_ne (fun h => hk h.symm), hget]
          by_cases hc : 1 ≤ k ∧ k ≤ n ∧ validTetra env mesh k = true
          · rw [if_pos hc, if_pos ⟨hc.1, by omega, hc.2.2⟩]
          · rw [if_neg hc, if_neg (fun h => hc ⟨h.1, by omega, h.2.2⟩)]

/-- C36: on a mesh whose array `tetra` holds the entries `0..ne`,
`PMMG_mark_packedTetra` returns 1 and sets `*ne` to the number of tetrahedra in use
among `1..ne`.  A tetrahedron in use of index `k` receives in `flag` its rank among
the tetrahedra in use (their number among `1..k`), which is at least 1 and at most
`k` and `*ne`; these flags increase strictly with the index and take every value of
`1..*ne`.  The flags of the other tetrahedra, and every other field, are left as
they were. -/
theorem mark_packedTetra_spec (env : MmgEnv) (mesh : FaceMesh)
    (hlen : mesh.ne < mesh.tetra.length) :
    ∃ mesh2, PMMG_mark_packedTetra env mesh = some (1, (validUpTo env mesh mesh.ne : Int), mesh2) ∧
      (∀ k, 1 ≤ k → k ≤ mesh.ne → validTetra env mesh k = true →
        flagAt mesh2 k = (validUpTo env mesh k : Int) ∧ 1 ≤ flagAt mesh2 k ∧
        flagAt mesh2 k ≤ (k : Int) ∧ flagAt mesh2 k ≤ (validUpTo env mesh mesh.ne : Int)) ∧
      (∀ k1 k2, 1 ≤ k1 → k1 < k2 → k2 ≤ mesh.ne → validTetra env mesh k1 = true →
        validTetra env mesh k2 = true → flagAt mesh2 k1 < flagAt mesh2 k2) ∧
      (∀ j, 1 ≤ j → j ≤ validUpTo env mesh mesh.ne →
        ∃ k, 1 ≤ k ∧ k ≤ mesh.ne ∧ validTetra env mesh k = true ∧ flagAt mesh2 k = (j : Int)) ∧
      (∀ k, ¬ (1 ≤ k ∧ k ≤ mesh.ne ∧ validTetra env mesh k = true) →
        mesh2.tetra[k]? = mesh.tetra[k]?) ∧
      (∀ (k : Nat) (pt : MMG5_Tetra), mesh.tetra[k]? = some pt →
        ∃ pt2 : MMG5_Tetra, mesh2.tetra[k]? = some pt2 ∧ pt2.v = pt.v ∧ pt2.xt = pt.xt ∧
          pt2.mark = pt.mark) ∧
      mesh2.ne = mesh.ne ∧ mesh2.xtetra = mesh.xtetra ∧ mesh2.point = mesh.point ∧
      mesh2.tria = mesh.tria := by
  obtain ⟨tetra, hloop, _, hget⟩ := mark_loop_spec env mesh mesh.ne hlen
  have hflag : ∀ k, 1 ≤ k → k ≤ mesh.ne → validTetra env mesh k = true →
      flagAt { mesh with tetra := tetra } k = (validUpTo env mesh k : Int) := by
    intro k h1 h2 hv
    have hk : k < mesh.tetra.length := by omega
    unfold flagAt
    simp only
    rw [hget k, if_pos ⟨h1, h2, hv⟩, List.getElem?_eq_getElem hk]
    rfl
  have hpos : ∀ k, 1 ≤ k → validTetra env mesh k = true → 1 ≤ validUpTo env mesh k := by
    intro k h1 hv
    obtain ⟨m, rfl⟩ : ∃ m, k = m + 1 := ⟨k - 1, by omega⟩
    rw [validUpTo_succ, if_pos hv]
    omega
  refine ⟨{ mesh with tetra := tetra }, ?_, ?_, ?_, ?_, ?_, ?_, rfl, rfl, rfl, rfl⟩
  · unfold PMMG_mark_packedTetra
    rw [hloop]
    rfl
  · intro k h1 h2 hv
    rw [hflag k h1 h2 hv]
    have := hpos k h1 hv
    have := validUpTo_le env mesh k
    have := validUpTo_mono env mesh k mesh.ne h2
    refine ⟨rfl, ?_, ?_, ?_⟩ <;> omega
  · intro k1 k2 h1 h12 h2 hv1 hv2
    rw [hflag k1 h1 (by omega) hv1, hflag k2 (by omega) h2 hv2]
    obtain ⟨m, rfl⟩ : ∃ m, k2 = m + 1 := ⟨k2 - 1, by omega⟩
    have := validUpTo_mono env mesh k1 m (by omega)
    rw [validUpTo_succ, if_pos hv2]
    omega
  · intro j h1 h2
    obtain ⟨k, hk1, hk2, hk3, hk4⟩ := validUpTo_surj env mesh mesh.ne j h1 h2
    refine ⟨k, hk1, hk2, hk3, ?_⟩
    rw [hflag k hk1 hk2 hk3, hk4]
  · intro k hk
    show tetra[k]? = mesh.tetra[k]?
    rw [hget k, if_neg hk]
  · intro k pt hpt
    have hk := hget k
    by_cases hc : 1 ≤ k ∧ k ≤ mesh.ne ∧ validTetra env mesh k = true
    · rw [if_pos hc, hpt] at hk
      exact ⟨_, hk, rfl, rfl, rfl⟩
    · rw [if_neg hc, hpt] at hk
      exact ⟨pt, hk, rfl, rfl, rfl⟩

/-- Witness of C36: a mesh of four tetrahedra of which the second is not in
use. -/
theorem mark_packedTetra_spec_witness :
    ∃ mesh2, PMMG_mark_packedTetra demoEnv demoPackMesh =
        some (1, (validUpTo demoEnv demoPackMesh demoPackMesh.ne : Int), mesh2) ∧
      (∀ k, 1 ≤ k → k ≤ demoPackMesh.ne → validTetra demoEnv demoPackMesh k = true →
        flagAt mesh2 k = (validUpTo demoEnv demoPackMesh k : Int) ∧ 1 ≤ flagAt mesh2 k ∧
        flagAt mesh2 k ≤ (k : Int) ∧
        flagAt mesh2 k ≤ (validUpTo demoEnv demoPackMesh demoPackMesh.ne : Int)) ∧
      (∀ k1 k2, 1 ≤ k1 → k1 < k2 → k2 ≤ demoPackMesh.ne →
        validTetra demoEnv demoPackMesh k1 = true →
        validTetra demoEnv demoPackMesh k2 = true → flagAt mesh2 k1 < flagAt mesh2 k2) ∧
      (∀ j, 1 ≤ j → j ≤ validUpTo demoEnv demoPackMesh demoPackMesh.ne →
        ∃ k, 1 ≤ k ∧ k ≤ demoPackMesh.ne ∧ validTetra demoEnv demoPackMesh k = true ∧
          flagAt mesh2 k = (j : Int)) ∧
      (∀ k, ¬ (1 ≤ k ∧ k ≤ demoPackMesh.ne ∧ validTetra demoEnv demoPackMesh k = true) →
        mesh2.tetra[k]? = demoPackMesh.tetra[k]?) ∧
      (∀ (k : Nat) (pt : MMG5_Tetra), demoPackMesh.tetra[k]? = some pt →
        ∃ pt2 : MMG5_Tetra, mesh2.tetra[k]? = some pt2 ∧ pt2.v = pt.v ∧ pt2.xt = pt.xt ∧
          pt2.mark = pt.mark) ∧
      mesh2.ne = demoPackMesh.ne ∧ mesh2.xtetra = demoPackMesh.xtetra ∧
      mesh2.point = demoPackMesh.point ∧ mesh2.tria = demoPackMesh.tria :=
  mark_packedTetra_spec demoEnv demoPackMesh (by decide)

/-! ## Numbering of the owned vertices -/

/-- C34: in `PMMG_Compute_verticesGloNum`, on a rank with valid node communicators
whose count of owned points is the one gathered for it, the gathered counts being
non-negative with a sum representable in the type `int` of the offsets and of the
ids, the owned point `p` receives the id `offsets[myrank] + k`, where `k` is the
rank of `p` among the owned points in the order of the local index (their number
among `1..p`).  The ids lie in the block `(offsets[myrank], offsets[myrank+1]]`,
whose length is the number of owned points, they increase strictly with the local
index and take every value of the block. -/
theorem owned_ids_consecutive (ndebug : Bool) (pm : NodeParMesh) (gathered : List Int)
    (hok : LocalOK pm) (hlen : gathered.length = pm.nprocs) (hr : pm.myrank < pm.nprocs)
    (hg : gathered.getD pm.myrank 0 = countOwned pm)
    (hpos : ∀ c ∈ gathered, 0 ≤ c) (hsum : gathered.sum ≤ INT_MAX) :
    (computeOffsets pm.nprocs gathered).getD (pm.myrank + 1) 0 =
      (computeOffsets pm.nprocs gathered).getD pm.myrank 0 + countOwned pm ∧
    (packNumbering ndebug pm (computeOffsets pm.nprocs gathered)).1 = countOwned pm ∧
    (∀ p, 1 ≤ p → p ≤ pm.np → (ownerFlags pm).getD p 0 = (pm.myrank : Int) →
      (packNumbering ndebug pm (computeOffsets pm.nprocs gathered)).2.getD p 0 =
        (computeOffsets pm.nprocs gathered).getD pm.myrank 0 + (ownedUpTo pm p : Int) ∧
      (computeOffsets pm.nprocs gathered).getD pm.myrank 0 <
        (packNumbering ndebug pm (computeOffsets pm.nprocs gathered)).2.getD p 0 ∧
      (packNumbering ndebug pm (computeOffsets pm.nprocs gathered)).2.getD p 0 ≤
        (computeOffsets pm.nprocs gathered).getD (pm.myrank + 1) 0) ∧
    (∀ p q, 1 ≤ p → p < q → q ≤ pm.np → (ownerFlags pm).getD p 0 = (pm.myrank : Int) →
      (ownerFlags pm).getD q 0 = (pm.myrank : Int) →
      (packNumbering ndebug pm (computeOffsets pm.nprocs gathered)).2.getD p 0 <
        (packNumbering ndebug pm (computeOffsets pm.nprocs gathered)).2.getD q 0) ∧
    (∀ j : Nat, 1 ≤ j → (j : Int) ≤ countOwned pm →
      ∃ p, 1 ≤ p ∧ p ≤ pm.np ∧ (ownerFlags pm).getD p 0 = (pm.myrank : Int) ∧
        (packNumbering ndebug pm (computeOffsets pm.nprocs gathered)).2.getD p 0 =
          (computeOffsets pm.nprocs gathered).getD pm.myrank 0 + (j : Int)) := by
  obtain ⟨hcnt, _, htmp, _⟩ := packNumbering_spec ndebug pm hok (computeOffsets pm.nprocs gathered)
  have hown := countOwned_eq pm hok
  have hoff : (computeOffsets pm.nprocs gathered).getD (pm.myrank + 1) 0 =
      (computeOffsets pm.nprocs gathered).getD pm.myrank 0 + countOwned pm := by
    rw [← hlen, computeOffsets_exact gathered hpos hsum (pm.myrank + 1) (by omega),
      computeOffsets_exact gathered hpos hsum pm.myrank (by omega),
      List.sum_take_succ gathered pm.myrank (by omega), ← hg]
    congr 1
    rw [List.getD_eq_getElem?_getD, List.getElem?_eq_getElem (by omega)]
    rfl
  have hlo : 0 ≤ (computeOffsets pm.nprocs gathered).getD pm.myrank 0 := by
    rw [← hlen, computeOffsets_exact gathered hpos hsum pm.myrank (by omega)]
    exact (take_sum_bounds gathered hpos pm.myrank).1
  have hhi : (computeOffsets pm.nprocs gathered).getD (pm.myrank + 1) 0 ≤ INT_MAX := by
    rw [← hlen, computeOffsets_exact gathered hpos hsum (pm.myrank + 1) (by omega)]
    have := (take_sum_bounds gathered hpos (pm.myrank + 1)).2
    omega
  have hid : ∀ p, 1 ≤ p → p ≤ pm.np → (ownerFlags pm).getD p 0 = (pm.myrank : Int) →
      (packNumbering ndebug pm (computeOffsets pm.nprocs gathered)).2.getD p 0 =
        (computeOffsets pm.nprocs gathered).getD pm.myrank 0 + (ownedUpTo pm p : Int) := by
    intro p h1 h2 ho
    have hm := ownedUpTo_mono pm p pm.np h2
    rw [htmp p h1 h2 ho, wrapInt_of_range _ (by omega) (by omega)]
    ring
  refine ⟨hoff, by rw [hcnt, hown], ?_, ?_, ?_⟩
  · intro p h1 h2 ho
    have hp := ownedUpTo_pos pm p h1 ho
    have hm := ownedUpTo_mono pm p pm.np h2
    rw [hid p h1 h2 ho, hoff, hown]
    refine ⟨rfl, ?_, ?_⟩ <;> omega
  · intro p q h1 hpq h2 hop hoq
    have := ownedUpTo_lt pm p q h1 hpq hoq
    rw [hid p h1 (by omega) hop, hid q (by omega) h2 hoq]
    omega
  · intro j h1 h2
    rw [hown] at h2
    obtain ⟨q, hq1, hq2, hq3, hq4⟩ := ownedUpTo_surj pm pm.np j h1 (by omega)
    refine ⟨q, hq1, hq2, hq3, ?_⟩
    rw [hid q hq1 hq2 hq3, hq4]

/-- C39: on a rank with valid node communicators (every slot is referenced by
exactly one entry of `node2int_node_comm_index2`, the entries of
`node2int_node_comm_index1` are pairwise distinct points of `1..np`), the number
of points whose owner flag is `myrank` equals `np` minus the number of slots whose
owner is not `myrank`, so that `counter == nowned` holds after the numbering of
the owned points. -/
theorem counter_eq_nowned (ndebug : Bool) (pm : NodeParMesh) (offsets : List Int)
    (hok : LocalOK pm) :
    (ownedUpTo pm pm.np : Int) = (pm.np : Int) -
      (((List.range pm.int_node_comm_nitem).countP
        (fun idx => decide ((markOwners pm).getD idx 0 ≠ (pm.myrank : Int))) : Nat) : Int) ∧
    countOwned pm = (ownedUpTo pm pm.np : Int) ∧
    (packNumbering ndebug pm offsets).1 = countOwned pm := by
  have hown := countOwned_eq pm hok
  have hcnt := (packNumbering_spec ndebug pm hok offsets).1
  refine ⟨?_, hown, by rw [hcnt, hown]⟩
  rw [← hown]
  unfold countOwned
  exact foldl_dec_count (fun idx => (markOwners pm).getD idx 0 ≠ (pm.myrank : Int)) _ _

/-- Witness of C34: the rank 1 of the example of three ranks, which owns 2 of its
3 points; the gathered counts are 1, 2, 1. -/
theorem owned_ids_consecutive_witness :
    (computeOffsets demoNodeRank.nprocs [1, 2, 1]).getD (demoNodeRank.myrank + 1) 0 =
      (computeOffsets demoNodeRank.nprocs [1, 2, 1]).getD demoNodeRank.myrank 0 +
        countOwned demoNodeRank ∧
    (packNumbering false demoNodeRank (computeOffsets demoNodeRank.nprocs [1, 2, 1])).1 =
      countOwned demoNodeRank ∧
    (∀ p, 1 ≤ p → p ≤ demoNodeRank.np →
      (ownerFlags demoNodeRank).getD p 0 = (demoNodeRank.myrank : Int) →
      (packNumbering false demoNodeRank
          (computeOffsets demoNodeRank.nprocs [1, 2, 1])).2.getD p 0 =
        (computeOffsets demoNodeRank.nprocs [1, 2, 1]).getD demoNodeRank.myrank 0 +
          (ownedUpTo demoNodeRank p : Int) ∧
      (computeOffsets demoNodeRank.nprocs [1, 2, 1]).getD demoNodeRank.myrank 0 <
        (packNumbering false demoNodeRank
          (computeOffsets demoNodeRank.nprocs [1, 2, 1])).2.getD p 0 ∧
      (packNumbering false demoNodeRank
          (computeOffsets demoNodeRank.nprocs [1, 2, 1])).2.getD p 0 ≤
        (computeOffsets demoNodeRank.nprocs [1, 2, 1]).getD (demoNodeRank.myrank + 1) 0) ∧
    (∀ p q, 1 ≤ p → p < q → q ≤ demoNodeRank.np →
      (ownerFlags demoNodeRank).getD p 0 = (demoNodeRank.myrank : Int) →
      (ownerFlags demoNodeRank).getD q 0 = (demoNodeRank.myrank : Int) →
      (packNumbering false demoNodeRank
          (computeOffsets demoNodeRank.nprocs [1, 2, 1])).2.getD p 0 <
        (packNumbering false demoNodeRank
          (computeOffsets demoNodeRank.nprocs [1, 2, 1])).2.getD q 0) ∧
    (∀ j : Nat, 1 ≤ j → (j : Int) ≤ countOwned demoNodeRank →
      ∃ p, 1 ≤ p ∧ p ≤ demoNodeRank.np ∧
        (ownerFlags demoNodeRank).getD p 0 = (demoNodeRank.myrank : Int) ∧
        (packNumbering false demoNodeRank
            (computeOffsets demoNodeRank.nprocs [1, 2, 1])).2.getD p 0 =
          (computeOffsets demoNodeRank.nprocs [1, 2, 1]).getD demoNodeRank.myrank 0 +
            (j : Int)) :=
  owned_ids_consecutive false demoNodeRank [1, 2, 1] (by decide) (by decide) (by decide)
    (by decide) (by decide) (by decide)

/-- Witness of C39: the rank 1 of the example of three ranks. -/
theorem counter_eq_nowned_witness :
    (ownedUpTo demoNodeRank demoNodeRank.np : Int) = (demoNodeRank.np : Int) -
      (((List.range demoNodeRank.int_node_comm_nitem).countP
        (fun idx => decide ((markOwners demoNodeRank).getD idx 0 ≠
          (demoNodeRank.myrank : Int))) : Nat) : Int) ∧
    countOwned demoNodeRank = (ownedUpTo demoNodeRank demoNodeRank.np : Int) ∧
    (packNumbering false demoNodeRank [0, 1, 3, 4]).1 = countOwned demoNodeRank :=
  counter_eq_nowned false demoNodeRank [0, 1, 3, 4] (by decide)

/-! ## Content of the capture buffer -/

theorem decodeFace_address (e : Nat) (f : Fin 4) (o : Fin 3) :
    decodeFace ((12 * e + 3 * f.val + o.val : Nat) : Int) = some (e, f, o) := by
  unfold decodeFace
  rw [if_neg (by omega)]
  simp only [Int.toNat_ofNat, Option.some.injEq, Prod.mk.injEq]
  refine ⟨by omega, ?_, ?_⟩
  · apply Fin.ext
    show (12 * e + 3 * f.val + o.val) % 12 / 3 = f.val
    omega
  · apply Fin.ext
    show (12 * e + 3 * f.val + o.val) % 12 % 3 = o.val
    omega

theorem storeFaces_total (ndebug : Bool) (env : MmgEnv) (mesh : FaceMesh) :
    ∀ (index1 : List Int), (∀ e ∈ index1, Captures ndebug env mesh e) →
      storeFaces ndebug env mesh index1 = some (index1.flatMap (captured env mesh)) := by
  intro index1
  induction index1 with
  | nil => intro _; rfl
  | cons e rest ih =>
    intro hent
    have he := hent e (List.mem_cons_self _ _)
    unfold Captures at he
    cases hd : decodeFace e with
    | none => simp [hd] at he
    | some d =>
      obtain ⟨iel, ifac, iploc⟩ := d
      simp only [hd] at he
      cases hpt : mesh.tetra[iel]? with
      | none => simp [hpt] at he
      | some pt =>
        simp only [hpt] at he
        unfold storeFaces
        simp only [hd, hpt]
        have hass : (if ndebug = true then some true
            else if env.MG_EOK pt = false then some false
            else if pt.xt = 0 then some false
            else (mesh.xtetra[pt.xt]?).map
              (fun pxt => decide (hasTag env.MG_PARBDY (pxt.ftag ifac)))) = some true := by
          rcases he with h | ⟨h1, h2, h3⟩
          · simp [h]
          · cases hx : mesh.xtetra[pt.xt]? with
            | none => simp [hx] at h3
            | some pxt =>
              simp only [hx, Option.any_some] at h3
              cases ndebug <;> simp [h1, h2, h3]
        simp only [hass]
        rw [ih (fun x hx => hent x (List.mem_cons_of_mem _ hx))]
        simp [captured, hd, hpt]

theorem captured_length (env : MmgEnv) (mesh : FaceMesh) (ndebug : Bool) (e : Int)
    (h : Captures ndebug env mesh e) : (captured env mesh e).length = 3 := by
  unfold Captures at h
  unfold captured
  cases hd : decodeFace e with
  | none => simp [hd] at h
  | some d =>
    obtain ⟨iel, ifac, iploc⟩ := d
    simp only [hd] at h ⊢
    cases hpt : mesh.tetra[iel]? with
    | none => simp [hpt] at h
    | some pt => rfl

theorem flatMap_captured_get (env : MmgEnv) (mesh : FaceMesh) (ndebug : Bool) :
    ∀ (index1 : List Int), (∀ e ∈ index1, Captures ndebug env mesh e) →
      (index1.flatMap (captured env mesh)).length = 3 * index1.length ∧
      ∀ (k : Nat) (e : Int), index1[k]? = some e → ∀ j, j < 3 →
        (index1.flatMap (captured env mesh))[3 * k + j]? = (captured env mesh e)[j]? := by
  intro index1
  induction index1 with
  | nil => intro _; exact ⟨rfl, fun k e h => by simp at h⟩
  | cons a rest ih =>
    intro hent
    have ha := captured_length env mesh ndebug a (hent a (List.mem_cons_self _ _))
    obtain ⟨hl, hg⟩ := ih (fun x hx => hent x (List.mem_cons_of_mem _ hx))
    refine ⟨?_, ?_⟩
    · simp only [List.flatMap_cons, List.length_append, List.length_cons, ha, hl]
      omega
    · intro k e hk j hj
      simp only [List.flatMap_cons]
      cases k with
      | zero =>
        simp only [List.getElem?_cons_zero, Option.some.injEq] at hk
        subst hk
        rw [List.getElem?_append_left (by omega)]
        congr 1
        omega
      | succ k =>
        simp only [List.getElem?_cons_succ] at hk
        rw [List.getElem?_append_right (by omega), ha]
        have e3 : 3 * (k + 1) + j - 3 = 3 * k + j := by omega
        rw [e3]
        exact hg k e hk j hj

/-- C35: when every entry of `face2int_face_comm_index1` can be captured (it
decodes to a tetrahedron of the mesh and, in a build with assertions, passes the
assertions) and the allocation succeeds, `PMMG_store_faceVerticesInIntComm`
returns 1 with a buffer of `3*nitem_int_face_comm` integers; for the slot `k`, of
entry `12*e + 3*f + o`, the positions `3k`, `3k+1`, `3k+2` hold the vertices of the
tetrahedron `e` of local index `MMG5_idir[f][o]`, `MMG5_idir[f][(o+1)%3]` and
`MMG5_idir[f][(o+2)%3]`.  The function returns nothing else: the mesh and the
arrays of the communicator are only read. -/
theorem store_buffer_content (ndebug : Bool) (env : MmgEnv) (mesh : FaceMesh)
    (index1 : List Int) (hent : ∀ e ∈ index1, Captures ndebug env mesh e) :
    ∃ facesData, PMMG_store_faceVerticesInIntComm ndebug env mesh index1 true =
        some (1, facesData) ∧
      facesData.length = 3 * index1.length ∧
      ∀ (k e : Nat) (f : Fin 4) (o : Fin 3) (pt : MMG5_Tetra),
        index1[k]? = some ((12 * e + 3 * f.val + o.val : Nat) : Int) →
        mesh.tetra[e]? = some pt →
        facesData[3 * k]? = some (pt.v (env.MMG5_idir f o)) ∧
        facesData[3 * k + 1]? = some (pt.v (env.MMG5_idir f (o + 1))) ∧
        facesData[3 * k + 2]? = some (pt.v (env.MMG5_idir f (o + 2))) := by
  obtain ⟨hl, hg⟩ := flatMap_captured_get env mesh ndebug index1 hent
  refine ⟨index1.flatMap (captured env mesh), ?_, hl, ?_⟩
  · unfold PMMG_store_faceVerticesInIntComm
    rw [if_pos rfl, storeFaces_total ndebug env mesh index1 hent]
    rfl
  · intro k e f o pt hk hpt
    have hc : captured env mesh ((12 * e + 3 * f.val + o.val : Nat) : Int) =
        [pt.v (env.MMG5_idir f o), pt.v (env.MMG5_idir f (o + 1)),
          pt.v (env.MMG5_idir f (o + 2))] := by
      unfold captured
      rw [decodeFace_address]
      simp only [hpt]
    have h0 := hg k _ hk 0 (by omega)
    have h1 := hg k _ hk 1 (by omega)
    have h2 := hg k _ hk 2 (by omega)
    rw [hc] at h0 h1 h2
    exact ⟨h0, h1, h2⟩

/-- Witness of C35: the three `MG_PARBDY` faces of the example mesh, captured in
a build with assertions. -/
theorem store_buffer_content_witness :
    ∃ facesData, PMMG_store_faceVerticesInIntComm false demoEnv demoFaceMesh [13, 29, 30] true =
        some (1, facesData) ∧
      facesData.length = 3 * [(13 : Int), 29, 30].length ∧
      ∀ (k e : Nat) (f : Fin 4) (o : Fin 3) (pt : MMG5_Tetra),
        [(13 : Int), 29, 30][k]? = some ((12 * e + 3 * f.val + o.val : Nat) : Int) →
        demoFaceMesh.tetra[e]? = some pt →
        facesData[3 * k]? = some (pt.v (demoEnv.MMG5_idir f o)) ∧
        facesData[3 * k + 1]? = some (pt.v (demoEnv.MMG5_idir f (o + 1))) ∧
        facesData[3 * k + 2]? = some (pt.v (demoEnv.MMG5_idir f (o + 2))) :=
  store_buffer_content false demoEnv demoFaceMesh [13, 29, 30] (by decide)

/-- C31.  Failing input: the one of C11, in a build without assertions: the mesh
`demoFaceMesh`, one slot whose captured triple `1 2 3` is the face 3 of the
tetrahedron 1, which is not tagged `MG_PARBDY`, no permutation.  The lookup
misses, the function writes the entry `3 = 12*0 + 3*1 + 0` and returns 1.  The
entry designates the face 1 of `tetra[0]`, which is not a tetrahedron of the mesh:
the face is not tagged `MG_PARBDY`, its vertices are `0 0 0` and not `1 2 3`, and
capturing again gives the triple `0 0 0` (the assertions of the capture stop a
build with assertions). -/
theorem update_interface_entry_after_miss :
    PMMG_update_face2intInterfaceTetra true false demoEnv demoFaceMesh [13] [1, 2, 3] none
      (some 3) = some (1, [3]) ∧
    decodeFace 3 = some (0, 1, 0) ∧
    (1 : Fin 4) ∉ tetraParFaces demoEnv demoFaceMesh 0 ∧
    faceVertices demoEnv demoFaceMesh 0 1 = [0, 0, 0] ∧
    PMMG_store_faceVerticesInIntComm true demoEnv demoFaceMesh [3] true =
      some (1, [0, 0, 0]) ∧
    PMMG_store_faceVerticesInIntComm false demoEnv demoFaceMesh [3] true = none := by
  refine ⟨by decide, by decide, by decide, by decide, by decide, by decide⟩

/-! ## Structure of the lists built by the insertions -/

theorem chain_chainEnd (item : List PMMG_lnkdCell) :
    ∀ (cs : List (Nat × PMMG_lnkdCell)) (s : Int), IsChainC item s cs →
      chainEnd item cs.length s = some (endC s cs) := by
  intro cs
  induction cs with
  | nil => intro s _; rfl
  | cons ic rest ih =>
    intro s h
    obtain ⟨hs, hget, hrest⟩ := h
    simp only [List.length_cons, chainEnd, endC]
    rw [hs, cellAt_natCast, hget]
    exact ih _ hrest

theorem endC_append : ∀ (a b : List (Nat × PMMG_lnkdCell)) (s : Int),
    endC s (a ++ b) = endC (endC s a) b := by
  intro a
  induction a with
  | nil => intro b s; rfl
  | cons ic rest ih => intro b s; exact ih b ic.2.nxt

/-- The insertion of a cell in the chain keeps the index that ends the chain. -/
theorem link_end (l : PMMG_lnkdList) (v1 v2 : Int) (pre post : List (Nat × PMMG_lnkdCell))
    (hrep : ListRepr l (pre ++ post)) (hcap : l.nitem < l.nitem_max) (l2 : PMMG_lnkdList)
    (hres : linkNewCell l v1 v2 ((pre.length : Nat) : Int)
      (pre.foldl (fun _ ic => (ic.1 : Int)) 0) = some l2) :
    ∃ cs2, IsChainC l2.item l2.frst cs2 ∧ (cs2.length : Int) = l2.nitem ∧
      endC l2.frst cs2 = endC l.frst (pre ++ post) := by
  have hn := hrep.len
  have hlen : (pre ++ post).length < l.item.length := by
    have := hrep.arena
    omega
  have hne : ∀ ic ∈ pre ++ post, ic.1 ≠ (pre ++ post).length := by
    intro ic hic
    exact Nat.ne_of_lt (hrep.lt ic hic)
  rcases List.eq_nil_or_concat pre with hp | ⟨pre0, pc, hp⟩
  · subst hp
    simp only [List.nil_append] at hrep hn hlen hne ⊢
    obtain ⟨l3, hl3, hnit, _, _, hfr, hch⟩ :=
      linkNewCell_head l v1 v2 0 _ _ hn hlen hrep.chain hne
    have e : l3 = l2 := by
      have h1 : linkNewCell l v1 v2 0 0 = some l2 := by simpa using hres
      rw [hl3] at h1
      exact Option.some.inj h1
    subst e
    refine ⟨_, hch, ?_, ?_⟩
    · rw [hnit, hn]; simp
    · rw [hfr]; rfl
  · subst hp
    rw [List.concat_eq_append, List.append_assoc] at hrep hlen hne ⊢
    simp only [List.singleton_append] at hrep hlen hne ⊢
    have hk : (((pre0.concat pc).length : Nat) : Int) ≠ 0 := by simp; omega
    have hn2 := hrep.len
    obtain ⟨l3, hl3, hnit, _, _, hfr, hch⟩ :=
      linkNewCell_inside l v1 v2 _ _ pc.1 pc.2 pre0 post hk hn2 hlen hrep.chain hne hrep.nodup
    have e : l3 = l2 := by
      have h1 : linkNewCell l v1 v2 (((pre0.concat pc).length : Nat) : Int) (pc.1 : Int) =
          some l2 := by simpa using hres
      rw [hl3] at h1
      exact Option.some.inj h1
    subst e
    refine ⟨_, hch, ?_, ?_⟩
    · rw [hnit, hn2]; simp; omega
    · rw [hfr, endC_append, endC_append]
      rfl

theorem addNewCell_end (fresh : Option (List PMMG_lnkdCell)) (l : PMMG_lnkdList)
    (v1 v2 : Int) (pre post : List (Nat × PMMG_lnkdCell)) (hrep : ListRepr l (pre ++ post))
    (l2 : PMMG_lnkdList)
    (hres : addNewCell fresh l v1 v2 (pre.length : Int)
      (pre.foldl (fun _ ic => (ic.1 : Int)) 0) = some (1, l2)) :
    ∃ cs2, IsChainC l2.item l2.frst cs2 ∧ (cs2.length : Int) = l2.nitem ∧
      endC l2.frst cs2 = endC l.frst (pre ++ post) := by
  by_cases hcap : l.nitem < l.nitem_max
  · have hcap2 : ¬ l.nitem ≥ l.nitem_max := by omega
    simp only [addNewCell, if_neg hcap2] at hres
    cases hl : linkNewCell l v1 v2 (pre.length : Int) (pre.foldl (fun _ ic => (ic.1 : Int)) 0) with
    | none => simp [hl] at hres
    | some l3 =>
      rw [hl] at hres
      simp only [Option.map_some', Option.some.injEq, Prod.mk.injEq, true_and] at hres
      subst hres
      exact link_end l v1 v2 pre post hrep hcap l3 hl
  · have hcap2 : l.nitem ≥ l.nitem_max := by omega
    simp only [addNewCell, if_pos hcap2] at hres
    cases fresh with
    | none => simp [PMMG_REALLOC] at hres
    | some g =>
      cases hre : PMMG_REALLOC (some g) l.item (grow12 l.nitem_max) with
      | none => simp [PMMG_REALLOC] at hre
      | some item2 =>
        rw [hre] at hres
        simp only [] at hres
        have hlen2 := realloc_length g l.item _ item2 hre
        by_cases hgrow : l.nitem < grow12 l.nitem_max
        · have hrepg : ListRepr { l with item := item2, nitem_max := grow12 l.nitem_max }
              (pre ++ post) := by
            have hframe : ∀ ic ∈ pre ++ post, item2[ic.1]? = some ic.2 := by
              intro ic hic
              refine realloc_get g l.item _ item2 hre ic.1 ?_ ic.2
                (chain_mem_get _ _ hrep.chain ic hic)
              have h1 := hrep.lt ic hic
              have h2 := hrep.len
              omega
            exact ⟨hrep.len, by show l.nitem ≤ grow12 l.nitem_max; omega,
              by show grow12 l.nitem_max = (item2.length : Int); rw [hlen2]; have := hrep.len; omega,
              hrep.frst_iff, chain_frame _ _ hrep.chain hframe, hrep.nodup, hrep.lt, hrep.ids⟩
          cases hl : linkNewCell { l with item := item2, nitem_max := grow12 l.nitem_max } v1 v2
              (pre.length : Int) (pre.foldl (fun _ ic => (ic.1 : Int)) 0) with
          | none => simp [hl] at hres
          | some l3 =>
            rw [hl] at hres
            simp only [Option.map_some', Option.some.injEq, Prod.mk.injEq, true_and] at hres
            subst hres
            exact link_end _ v1 v2 pre post hrepg hgrow l3 hl
        · exfalso
          have hnone : cellAt item2 l.nitem = none := by
            have h2 := hrep.len
            rw [h2, cellAt_natCast]
            apply List.getElem?_eq_none
            omega
          simp [linkNewCell, hnone] at hres

/-- An insertion that returns 1 leaves a chain that ends with -1. -/
theorem add_end (fresh : Option (List PMMG_lnkdCell)) (l : PMMG_lnkdList) (v1 v2 : Int)
    (cs : List (Nat × PMMG_lnkdCell)) (hrep : ListRepr l cs) (hend : endC l.frst cs = -1)
    (l2 : PMMG_lnkdList) (hres : PMMG_add_cell2lnkdList fresh l v1 v2 = some (1, l2)) :
    ∃ cs2, IsChainC l2.item l2.frst cs2 ∧ (cs2.length : Int) = l2.nitem ∧
      endC l2.frst cs2 = -1 := by
  by_cases hnil : cs = []
  · subst hnil
    have hn : l.nitem = 0 := by simpa using hrep.len
    have hf : l.frst < 0 := hrep.frst_iff.2 hn
    simp only [PMMG_add_cell2lnkdList, if_pos hf] at hres
    by_cases hlen : 0 < l.item.length
    · have hset : setCell l.item l.nitem ⟨v1, v2, 0, -1⟩ =
          some (l.item.set 0 ⟨v1, v2, 0, -1⟩) := by
        simp [setCell, hn, hlen]
      rw [hset] at hres
      simp only [Option.some.injEq, Prod.mk.injEq, true_and] at hres
      subst hres
      refine ⟨[(0, ⟨v1, v2, 0, -1⟩)], ⟨rfl, by simp [hlen], trivial⟩, by simp [hn], rfl⟩
    · have hset : setCell l.item l.nitem ⟨v1, v2, 0, -1⟩ = none := by
        have h0 : l.item.length = 0 := by omega
        simp [setCell, hn, h0]
      rw [hset] at hres
      cases hres
  · have hpos : 0 < cs.length := List.length_pos.2 hnil
    have hn := hrep.len
    have hf : ¬ l.frst < 0 := by
      intro h
      have := hrep.frst_iff.1 h
      omega
    obtain ⟨pre, post, hsplit, _, _, hloop⟩ :=
      searchLoop_spec l v1 v2 cs l.frst 0 0 hrep.chain hrep.ids (by omega)
    have hloop2 : searchLoop l v1 v2 l.nitem.toNat 0 l.frst 0 =
        some ((pre.length : Int), endC l.frst pre, pre.foldl (fun _ ic => (ic.1 : Int)) 0) := by
      rw [hn, Int.toNat_ofNat, hloop]
      simp
    subst hsplit
    have insert_case : PMMG_add_cell2lnkdList fresh l v1 v2 =
        addNewCell fresh l v1 v2 (pre.length : Int)
          (pre.foldl (fun _ ic => (ic.1 : Int)) 0) →
        ∃ cs2, IsChainC l2.item l2.frst cs2 ∧ (cs2.length : Int) = l2.nitem ∧
          endC l2.frst cs2 = -1 := by
      intro heval
      rw [heval] at hres
      obtain ⟨cs2, h1, h2, h3⟩ := addNewCell_end fresh l v1 v2 pre post hrep l2 hres
      exact ⟨cs2, h1, h2, by rw [h3, hend]⟩
    rcases post with _ | ⟨jc, post2⟩
    · have hk : (pre.length : Int) = l.nitem := by rw [hn]; simp
      exact insert_case (add_eval_insert fresh l v1 v2 _ _ _ hf hloop2 (Or.inl hk))
    · have hk : (pre.length : Int) < l.nitem := by
        rw [hn]; simp
      obtain ⟨_, hmid⟩ := (chain_append pre (jc :: post2) l.frst).1 hrep.chain
      obtain ⟨hend2, hget, _⟩ := hmid
      have hcell : cellAt l.item (endC l.frst pre) = some jc.2 := by
        rw [hend2, cellAt_natCast, hget]
      by_cases heq : pairOf jc.2 = (v1, v2)
      · exfalso
        have h1 : jc.2.val1 = v1 := congrArg Prod.fst heq
        have h2 : jc.2.val2 = v2 := congrArg Prod.snd heq
        have := add_eval_found fresh l v1 v2 _ _ _ jc.2 hf hloop2 hk hcell h1 h2
        rw [this] at hres
        simp at hres
      · have hne : jc.2.val1 ≠ v1 ∨ jc.2.val2 ≠ v2 := by
          by_contra hc
          push_neg at hc
          exact heq (Prod.ext hc.1 hc.2)
        exact insert_case (add_eval_insert fresh l v1 v2 _ _ _ hf hloop2
          (Or.inr ⟨hk, jc.2, hcell, hne⟩))

theorem inv_new (mem : List PMMG_lnkdCell) (l0 : PMMG_lnkdList) (nitem_max : Int)
    (hmem : (mem.length : Int) = nitem_max) :
    ListInv (PMMG_lnkdListNew (some mem) l0 nitem_max).2 :=
  ⟨[], new_repr mem l0 nitem_max hmem, by simp [pairsOf], rfl⟩

theorem inv_reset (l : PMMG_lnkdList) (h : ListInv l) : ListInv (PMMG_reset_lnkdList l) := by
  obtain ⟨cs, hrep, _, _⟩ := h
  refine ⟨[], ⟨rfl, ?_, hrep.arena, ?_, trivial, by simp, by simp, by simp⟩,
    by simp [pairsOf], rfl⟩
  · show (0 : Int) ≤ l.nitem_max
    have h1 := hrep.cap
    have h2 := hrep.len
    omega
  · show PMMG_UNSET < 0 ↔ (0 : Int) = 0
    simp [PMMG_UNSET]

theorem inv_add (fresh : Option (List PMMG_lnkdCell)) (l : PMMG_lnkdList) (v1 v2 s : Int)
    (l2 : PMMG_lnkdList) (h : ListInv l)
    (hres : PMMG_add_cell2lnkdList fresh l v1 v2 = some (s, l2)) : ListInv l2 := by
  obtain ⟨cs, hrep, hsorted, hend⟩ := h
  obtain ⟨hin, hnot⟩ := add_cell_core fresh l v1 v2 cs hrep hsorted
  by_cases hmem : (v1, v2) ∈ pairsOf cs
  · rw [hin hmem] at hres
    simp only [Option.some.injEq, Prod.mk.injEq] at hres
    rw [← hres.2]
    exact ⟨cs, hrep, hsorted, hend⟩
  · rcases (hnot hmem).2 s l2 hres with ⟨_, rfl⟩ | ⟨rfl, cs2, pre, post, hrep2, hp, hp2, hpre, hpost⟩
    · exact ⟨cs, hrep, hsorted, hend⟩
    · refine ⟨cs2, hrep2, ?_, ?_⟩
      · rw [hp2]
        rw [hp] at hsorted
        exact sorted_insert hsorted hpre hpost
      · obtain ⟨cs3, hch3, hlen3, hend3⟩ := add_end fresh l v1 v2 cs hrep hend l2 hres
        have e1 := chain_chainEnd l2.item cs3 l2.frst hch3
        have e2 := chain_chainEnd l2.item cs2 l2.frst hrep2.chain
        have hl : cs3.length = cs2.length := by
          have := hrep2.len
          omega
        rw [hl, e2, hend3] at e1
        exact Option.some.inj e1

theorem inv_mergeLoop (alloc : Nat → Option (List PMMG_lnkdCell)) (item2 : List PMMG_lnkdCell) :
    ∀ (n : Nat) (cell minier : Int) (list1 : PMMG_lnkdList) (ier : Int) (l : PMMG_lnkdList),
      ListInv list1 → mergeLoop alloc item2 n cell minier list1 = some (ier, l) → ListInv l := by
  intro n
  induction n with
  | zero =>
    intro cell minier list1 ier l h hres
    simp only [mergeLoop, Option.some.injEq, Prod.mk.injEq] at hres
    rw [← hres.2]
    exact h
  | succ n ih =>
    intro cell minier list1 ier l h hres
    simp only [mergeLoop] at hres
    cases hc : cellAt item2 cell with
    | none => simp [hc] at hres
    | some c =>
      rw [hc] at hres
      simp only at hres
      cases hadd : PMMG_add_cell2lnkdList (alloc n) list1 c.val1 c.val2 with
      | none => simp [hadd] at hres
      | some r =>
        obtain ⟨s, l1b⟩ := r
        rw [hadd] at hres
        simp only at hres
        have hinv := inv_add (alloc n) list1 c.val1 c.val2 s l1b h hadd
        by_cases hs : s = 0
        · rw [if_pos hs] at hres
          simp only [Option.some.injEq, Prod.mk.injEq] at hres
          rw [← hres.2]
          exact hinv
        · rw [if_neg hs] at hres
          exact ih _ _ _ _ _ hinv hres

theorem inv_reached (l : PMMG_lnkdList) (h : Reached l) : ListInv l := by
  induction h with
  | new mem l0 nitem_max h => exact inv_new mem l0 nitem_max h
  | reset l _ ih => exact inv_reset l ih
  | add fresh l v1 v2 s l2 _ hres ih => exact inv_add fresh l v1 v2 s l2 ih hres
  | merge alloc list1 list2 ier l _ _ hres ih1 _ =>
    unfold PMMG_merge_lnkdList at hres
    by_cases hn : list2.nitem = 0
    · rw [if_pos hn] at hres
      simp only [Option.some.injEq, Prod.mk.injEq] at hres
      rw [← hres.2]
      exact ih1
    · rw [if_neg hn] at hres
      exact inv_mergeLoop alloc list2.item _ _ _ _ _ _ ih1 hres

theorem inv_struct (l : PMMG_lnkdList) (h : ListInv l) : StructOK l := by
  obtain ⟨cs, hrep, _, hend⟩ := h
  have hn := hrep.len
  have hnat : l.nitem.toNat = cs.length := by omega
  have hidx : chainIdx l.item l.nitem.toNat l.frst = some (cs.map Prod.fst) := by
    rw [hnat]
    exact chain_chainIdx _ _ _ hrep.chain
  have hperm : (cs.map Prod.fst).Perm (List.range cs.length) := by
    have hsub : cs.map Prod.fst ⊆ List.range cs.length := by
      intro i hi
      obtain ⟨ic, hic, rfl⟩ := List.mem_map.1 hi
      exact List.mem_range.2 (hrep.lt ic hic)
    exact (hrep.nodup.subperm hsub).perm_of_length_le (by simp)
  refine ⟨by omega, ?_, ?_, by rw [hidx]; rfl, ?_, ?_⟩
  · intro i hi
    rw [hnat] at hi
    have hmem : i ∈ cs.map Prod.fst := hperm.mem_iff.2 hi
    obtain ⟨ic, hic, rfl⟩ := List.mem_map.1 hmem
    rw [chain_mem_get _ _ hrep.chain ic hic]
    simp [hrep.ids ic hic]
  · constructor
    · intro hf
      exact hrep.frst_iff.1 (by rw [hf]; decide)
    · intro h0
      have hnil : cs = [] := List.length_eq_zero.1 (by omega)
      subst hnil
      exact hend
  · intro idxs hmem
    rw [hidx] at hmem
    cases hmem
    rw [hnat]
    exact hperm
  · rw [hnat, chain_chainEnd _ _ _ hrep.chain, hend]

theorem searchReads_mem (list : PMMG_lnkdList) (v1 v2 : Int) :
    ∀ (rest : List (Nat × PMMG_lnkdCell)) (cur k : Int),
      IsChainC list.item cur rest → k + rest.length = list.nitem →
      ∀ i ∈ searchReads list v1 v2 rest.length k cur, ∃ ic ∈ rest, i = (ic.1 : Int) := by
  intro rest
  induction rest with
  | nil => intro cur k _ _ i hi; simp [searchReads] at hi
  | cons ic rest ih =>
    intro cur k hch hk i hi
    obtain ⟨hs, hget, hrest⟩ := hch
    have hklt : k < list.nitem := by
      simp only [List.length_cons] at hk
      push_cast at hk
      omega
    simp only [List.length_cons, searchReads, if_pos hklt] at hi
    rw [hs, cellAt_natCast, hget] at hi
    rcases List.mem_cons.1 hi with h | h
    · exact ⟨ic, List.mem_cons_self _ _, h⟩
    · simp only at h
      split at h
      · have hk2 : (k + 1) + rest.length = list.nitem := by
          simp only [List.length_cons] at hk
          push_cast at hk
          omega
        obtain ⟨jc, hjc, hj⟩ := ih ic.2.nxt (k + 1) hrest hk2 i h
        exact ⟨jc, List.mem_cons_of_mem _ hjc, hj⟩
      · simp at h

/-- C32: every list reached from `PMMG_lnkdListNew` by calls of
`PMMG_reset_lnkdList`, `PMMG_add_cell2lnkdList` and `PMMG_merge_lnkdList` that
return has the structure `StructOK`: `item[i].id = i` for every `i < nitem`,
`frst = PMMG_UNSET` exactly when `nitem = 0`, following `nxt` from `frst` visits
each of the cells `0..nitem-1` exactly once and then reaches -1.  On such a list
the search loop of the insertion reads only cells of index in `[0, nitem)`. -/
theorem reached_list_structure (l : PMMG_lnkdList) (h : Reached l) :
    StructOK l ∧
    ∀ (val1 val2 : Int), ∀ i ∈ searchReads l val1 val2 l.nitem.toNat 0 l.frst,
      0 ≤ i ∧ i < l.nitem := by
  have hinv := inv_reached l h
  refine ⟨inv_struct l hinv, ?_⟩
  obtain ⟨cs, hrep, _, _⟩ := hinv
  intro v1 v2 i hi
  have hn := hrep.len
  have hnat : l.nitem.toNat = cs.length := by omega
  rw [hnat] at hi
  obtain ⟨ic, hic, rfl⟩ := searchReads_mem l v1 v2 cs l.frst 0 hrep.chain (by omega) i hi
  have := hrep.lt ic hic
  omega

/-- Witness of C32: the list reached by the insertions of `(5,2)` and `(3,1)` in
a new list of capacity 2. -/
theorem reached_list_structure_witness :
    StructOK ⟨2, 2, 1, [⟨5, 2, 0, -1⟩, ⟨3, 1, 1, 0⟩]⟩ ∧
    ∀ (val1 val2 : Int), ∀ i ∈ searchReads ⟨2, 2, 1, [⟨5, 2, 0, -1⟩, ⟨3, 1, 1, 0⟩]⟩ val1 val2
        (2 : Int).toNat 0 1,
      0 ≤ i ∧ i < (2 : Int) :=
  reached_list_structure ⟨2, 2, 1, [⟨5, 2, 0, -1⟩, ⟨3, 1, 1, 0⟩]⟩
    (Reached.add none ⟨1, 2, 0, [⟨5, 2, 0, -1⟩, ⟨7, 7, 7, 7⟩]⟩ 3 1 1 _
      (Reached.add none (PMMG_lnkdListNew (some [⟨0, 0, 0, 0⟩, ⟨7, 7, 7, 7⟩]) ⟨0, 0, 0, []⟩ 2).2
        5 2 1 _ (Reached.new [⟨0, 0, 0, 0⟩, ⟨7, 7, 7, 7⟩] ⟨0, 0, 0, []⟩ 2 (by decide))
        (by decide))
      (by decide))

/-! ## Entries written by the restoration in a build with assertions -/

theorem hashFace_sound (env : MmgEnv) (mesh : FaceMesh) (hash : MMG5_Hash) (a b c : Int)
    (v : Nat) (hs : ∀ e ∈ hash.item, SoundEntry env mesh e)
    (hnew : SoundEntry env mesh (faceKey a b c, v)) :
    ∀ e ∈ (MMG5_hashFace hash a b c v).2.item, SoundEntry env mesh e := by
  unfold MMG5_hashFace
  split
  · exact hs
  · split
    · intro e he
      simp only [List.mem_append, List.mem_singleton] at he
      rcases he with h | h
      · exact hs e h
      · rw [h]; exact hnew
    · exact hs

theorem hashTetraFaces_sound (env : MmgEnv) (mesh : FaceMesh) (pt : MMG5_Tetra)
    (pxt : MMG5_xTetra) (k : Nat) :
    ∀ (is : List (Fin 4)) (hash : MMG5_Hash),
      (∀ e ∈ hash.item, SoundEntry env mesh e) →
      (∀ i ∈ is, hasTag env.MG_PARBDY (pxt.ftag i) → SoundEntry env mesh (hashEntry env pt k i)) →
      ∀ e ∈ (hashTetraFaces env pt pxt k is hash).2.item, SoundEntry env mesh e := by
  intro is
  induction is with
  | nil => intro hash hs _; exact hs
  | cons i rest ih =>
    intro hash hs hnew
    unfold hashTetraFaces
    by_cases ht : hasTag env.MG_PARBDY (pxt.ftag i)
    · rw [if_neg (not_not.2 ht)]
      have hs2 := hashFace_sound env mesh hash (pt.v (env.MMG5_idir i 0))
        (pt.v (env.MMG5_idir i 1)) (pt.v (env.MMG5_idir i 2)) (12 * k + 3 * i.val) hs
        (hnew i (List.mem_cons_self _ _) ht)
      simp only
      split
      · exact hs2
      · exact ih _ hs2 (fun j hj => hnew j (List.mem_cons_of_mem _ hj))
    · rw [if_pos ht]
      exact ih hash hs (fun j hj => hnew j (List.mem_cons_of_mem _ hj))

theorem hashParFaces_sound (env : MmgEnv) (mesh : FaceMesh) :
    ∀ (ks : List Nat) (hash : MMG5_Hash) (r : Int × MMG5_Hash),
      (∀ k ∈ ks, 1 ≤ k) → (∀ e ∈ hash.item, SoundEntry env mesh e) →
      hashParFaces env mesh ks hash = some r → ∀ e ∈ r.2.item, SoundEntry env mesh e := by
  intro ks
  induction ks with
  | nil =>
    intro hash r _ hs h
    simp only [hashParFaces, Option.some.injEq] at h
    rw [← h]
    exact hs
  | cons k ks ih =>
    intro hash r hks hs h
    have hk1 : 1 ≤ k := hks k (List.mem_cons_self _ _)
    have hks2 : ∀ j ∈ ks, 1 ≤ j := fun j hj => hks j (List.mem_cons_of_mem _ hj)
    unfold hashParFaces at h
    cases hpt : mesh.tetra[k]? with
    | none => simp [hpt] at h
    | some pt =>
      simp only [hpt] at h
      by_cases hskip : env.MG_EOK pt = false ∨ pt.xt = 0
      · rw [if_pos hskip] at h
        exact ih hash r hks2 hs h
      · rw [if_neg hskip] at h
        cases hpxt : mesh.xtetra[pt.xt]? with
        | none => simp [hpxt] at h
        | some pxt =>
          simp only [hpxt] at h
          have hs2 := hashTetraFaces_sound env mesh pt pxt k (List.finRange 4) hash hs
            (by
              intro i _ ht
              refine ⟨k, i, pt, hk1, hpt, ?_, rfl⟩
              unfold tetraParFaces
              simp only [hpt, if_neg hskip, hpxt, List.mem_filter, List.mem_finRange, true_and,
                decide_eq_true_eq]
              exact ht)
          split at h
          · simp only [Option.some.injEq] at h
            rw [← h]
            exact hs2
          · exact ih _ r hks2 hs2 h

theorem findIploc_found (env : MmgEnv) (pt : MMG5_Tetra) (ifac : Fin 4) (ia : Int)
    (h : findIploc env pt ifac ia < 3) :
    pt.v (env.MMG5_idir ifac ⟨findIploc env pt ifac ia, h⟩) = ia := by
  have hv : ∀ (o : Fin 3), o.val = findIploc env pt ifac ia →
      pt.v (env.MMG5_idir ifac o) = ia := by
    intro o ho
    unfold findIploc at ho
    by_cases h0 : pt.v (env.MMG5_idir ifac 0) = ia
    · rw [if_pos h0] at ho
      have : o = 0 := Fin.ext ho
      rw [this]; exact h0
    · rw [if_neg h0] at ho
      by_cases h1 : pt.v (env.MMG5_idir ifac 1) = ia
      · rw [if_pos h1] at ho
        have : o = 1 := Fin.ext ho
        rw [this]; exact h1
      · rw [if_neg h1] at ho
        by_cases h2 : pt.v (env.MMG5_idir ifac 2) = ia
        · rw [if_pos h2] at ho
          have : o = 2 := Fin.ext ho
          rw [this]; exact h2
        · rw [if_neg h2] at ho
          have := o.isLt
          omega
  exact hv ⟨findIploc env pt ifac ia, h⟩ rfl

/-- In a build with assertions, the entries written by the second step of
`PMMG_update_face2intInterfaceTetra` are those of the captured faces. -/
theorem restoreFaces_checked (use_scotch : Bool) (env : MmgEnv) (mesh : FaceMesh)
    (hash : MMG5_Hash) (facesData : List Int) (permNodGlob : Option (List Int))
    (hs : ∀ e ∈ hash.item, SoundEntry env mesh e) :
    ∀ (n k : Nat) (res : List Int),
      restoreFaces false use_scotch env mesh hash facesData permNodGlob n k = some res →
      res.length = n ∧ ∀ j (entry : Int), res[j]? = some entry →
        RestoredSlot use_scotch env mesh facesData permNodGlob (k + j) entry := by
  intro n
  induction n with
  | zero =>
    intro k res h
    simp only [restoreFaces, Option.some.injEq] at h
    subst h
    exact ⟨rfl, fun j e hj => by simp at hj⟩
  | succ n ih =>
    intro k res h
    unfold restoreFaces at h
    cases ha : getInt facesData (3 * k) with
    | none => simp [ha] at h
    | some a =>
      cases hb : getInt facesData (3 * k + 1) with
      | none => simp [ha, hb] at h
      | some b =>
        cases hc : getInt facesData (3 * k + 2) with
        | none => simp [ha, hb, hc] at h
        | some c =>
          simp only [ha, hb, hc] at h
          cases hia : applyPerm use_scotch permNodGlob mesh.renum a with
          | none => simp [hia] at h
          | some ia =>
            cases hib : applyPerm use_scotch permNodGlob mesh.renum b with
            | none => simp [hia, hib] at h
            | some ib =>
              cases hic : applyPerm use_scotch permNodGlob mesh.renum c with
              | none => simp [hia, hib, hic] at h
              | some ic =>
                simp only [hia, hib, hic] at h
                by_cases hz : MMG5_hashGetFace hash ia ib ic = 0
                · simp [hz] at h
                · rw [if_neg (fun hh => hz hh.2)] at h
                  -- the lookup has found an entry of the table
                  have hfind : ∃ e ∈ hash.item, e.1 = faceKey ia ib ic ∧
                      MMG5_hashGetFace hash ia ib ic = e.2 := by
                    unfold MMG5_hashGetFace at hz ⊢
                    cases hf : hash.item.find? (fun e => e.1 = faceKey ia ib ic) with
                    | none => simp [hf] at hz
                    | some e =>
                      refine ⟨e, List.mem_of_find?_eq_some hf, ?_, rfl⟩
                      have := List.find?_some hf
                      simpa using this
                  obtain ⟨e, he, hkey, hval⟩ := hfind
                  obtain ⟨k0, i0, pt0, hk0, hpt0, hi0, rfl⟩ := hs e he
                  have hv : MMG5_hashGetFace hash ia ib ic = 12 * k0 + 3 * i0.val := hval
                  have hi3 := i0.isLt
                  have hdiv : MMG5_hashGetFace hash ia ib ic / 12 = k0 := by rw [hv]; omega
                  have hfac : (⟨MMG5_hashGetFace hash ia ib ic % 12 / 3, by omega⟩ : Fin 4) =
                      i0 := by
                    apply Fin.ext
                    show MMG5_hashGetFace hash ia ib ic % 12 / 3 = i0.val
                    rw [hv]; omega
                  rw [hdiv, hpt0] at h
                  simp only [hfac] at h
                  by_cases hass : env.MG_EOK pt0 = false ∨ ¬ findIploc env pt0 i0 ia < 3
                  · rw [if_pos ⟨trivial, hass⟩] at h
                    exact absurd h (by simp)
                  · rw [if_neg (fun hh => hass hh.2)] at h
                    have hlt : findIploc env pt0 i0 ia < 3 := by
                      by_contra hc2
                      exact hass (Or.inr hc2)
                    cases hrec : restoreFaces false use_scotch env mesh hash facesData permNodGlob
                        n (k + 1) with
                    | none => simp [hrec] at h
                    | some rest =>
                      rw [hrec] at h
                      simp only [Option.map_some', Option.some.injEq] at h
                      obtain ⟨hl, hr⟩ := ih (k + 1) rest hrec
                      subst h
                      refine ⟨by simp [hl], ?_⟩
                      intro j entry hj
                      cases j with
                      | zero =>
                        simp only [List.getElem?_cons_zero, Option.some.injEq] at hj
                        refine ⟨k0, i0, ⟨findIploc env pt0 i0 ia, hlt⟩, pt0, a, b, c, ia, ib, ic,
                          ?_, ha, hb, hc, hia, hib, hic, hi0, hpt0, ?_,
                          findIploc_found env pt0 i0 ia hlt⟩
                        · rw [← hj, hv]
                        · rw [← hkey]
                          simp [hashEntry, faceVertices, hpt0, faceKey]
                      | succ j =>
                        simp only [List.getElem?_cons_succ] at hj
                        have := hr j entry hj
                        have e1 : k + 1 + j = k + (j + 1) := by omega
                        rw [e1] at this
                        exact this

/-- In a build with assertions, when `PMMG_update_face2intInterfaceTetra` returns
1 every slot has been restored from its captured triple (`RestoredSlot`). -/
theorem update_interface_checked (use_scotch : Bool) (env : MmgEnv) (mesh : FaceMesh)
    (index1 facesData : List Int) (permNodGlob : Option (List Int)) (room : Option Nat)
    (res : List Int)
    (h : PMMG_update_face2intInterfaceTetra false use_scotch env mesh index1 facesData
      permNodGlob room = some (1, res)) :
    res.length = index1.length ∧ ∀ k (entry : Int), res[k]? = some entry →
      RestoredSlot use_scotch env mesh facesData permNodGlob k entry := by
  unfold PMMG_update_face2intInterfaceTetra at h
  cases room with
  | none => simp at h
  | some n =>
    simp only at h
    cases hh : hashParFaces env mesh (List.range' 1 mesh.ne) ⟨n, []⟩ with
    | none => simp [hh] at h
    | some r =>
      obtain ⟨ier, hash⟩ := r
      rw [hh] at h
      simp only at h
      by_cases hz : ier = 0
      · rw [if_pos hz] at h
        simp only [Option.some.injEq, Prod.mk.injEq] at h
        omega
      · rw [if_neg hz] at h
        have hs := hashParFaces_sound env mesh (List.range' 1 mesh.ne) ⟨n, []⟩ (ier, hash)
          (by
            intro k hk
            rw [List.mem_range'] at hk
            obtain ⟨i, _, rfl⟩ := hk
            omega)
          (by intro e he; simp at he) hh
        cases hr : restoreFaces false use_scotch env mesh hash facesData permNodGlob
            index1.length 0 with
        | none => simp [hr] at h
        | some l =>
          rw [hr] at h
          simp only [Option.map_some', Option.some.injEq, Prod.mk.injEq] at h
          obtain ⟨hl, hp⟩ := restoreFaces_checked use_scotch env mesh hash facesData
            permNodGlob hs index1.length 0 l hr
          rw [← h.2]
          refine ⟨hl, ?_⟩
          intro k entry hk
          have := hp k entry hk
          rw [Nat.zero_add] at this
          exact this

end PMMG
